import Mathlib

/-!
# A page-table B+-tree key-value store (database.c / database.h)

Shallow embedding of the engine in `src/database.c`, compiled in the test
configuration of `src/database.h` (`DB_TEST_SIZE`: every node holds four
entries).

Conventions of the embedding.

* A C string is the list of its bytes before the terminating NUL (`Str`); a
  `const char*` argument that may be `NULL` is an `Option Str`.
* A `Page*` is the index of its slot in `table->pages`: buffers are installed
  once by `get_page` and never move.  Every C statement that writes through a
  `Page*` is one `Table.write`, in source order, so aliasing between page
  pointers is kept.
* A `const char*` that points into a page (the results of
  `recursive_max_key_of` and `internal_key_of`) is a `KeyPtr`, a location that
  is read again at every use.
* The leaf and internal halves of the page union are separate fields; slot
  arrays are total functions on indices, so a write one slot past an array
  lands in the page buffer as it does in C.
* The two raw insertions are the exception: on a full node they would shift
  live data out of the arrays (`records[LEAF_RECORD_SIZE]`, or the `rightmost`
  field behind `branches`), and the model reports `Fault.undefined` instead.
* `malloc` returns unspecified contents: `Table.garbage` is the oracle of
  the bytes it hands out for each slot.
* Functions that call `exit(EXIT_FAILURE)` return `Fault.exit`; a null
  dereference or a read before the start of an array is `Fault.undefined`;
  recursion is bounded by a fuel argument and `Fault.out_of_fuel` reports that the
  bound was hit.
-/

namespace Database

/-! ## Strings -/

/-- C string: the bytes before the NUL terminator. -/
structure Str where
  bytes : List Nat
deriving DecidableEq, Repr

/-- Sign of the byte-wise comparison on two byte lists, as `strcmp` reports it. -/
def strcmp_bytes : List Nat → List Nat → Int
  | [], [] => 0
  | [], _ :: _ => -1
  | _ :: _, [] => 1
  | a :: as, b :: bs => if a = b then strcmp_bytes as bs else if a < b then -1 else 1

/-- Library function `strcmp`: negative, zero or positive. -/
def strcmp (a b : Str) : Int := strcmp_bytes a.bytes b.bytes

/-- Library function `strlen`. -/
def strlen (s : Str) : Nat := s.bytes.length

/-- Byte-wise lexicographic order of strings, the order `strcmp` decides
(`strcmp_lt_iff`, `strcmp_eq_zero_iff`). -/
instance : LinearOrder Str :=
  LinearOrder.lift' Str.bytes (fun a b h => by cases a; cases b; cases h; rfl)

/-! ## database.h -/

def KEY_LEN : Nat := 31
def VALUE_LEN : Nat := 255
def PAGE_SIZE : Nat := 4096
def INTERNAL_BRANCH_SIZE : Nat := 4
def LEAF_LEFT_SPLIT_SIZE : Nat := 2
def LEAF_RIGHT_SPLIT_SIZE : Nat := 2
def LEAF_RECORD_SIZE : Nat := 4
def INTERNAL_LEFT_SPLIT_SIZE : Nat := 2
def INTERNAL_RIGHT_SPLIT_SIZE : Nat := 2
def TABLE_MAX_PAGES : Nat := 100
def ROOT_PAGE_INDEX : Nat := 0

structure Record where
  key : Str
  value : Str
deriving DecidableEq, Repr

structure Branch where
  child : Nat
  key : Str
deriving DecidableEq, Repr

inductive NodeType where
  | NODE_INTERNAL
  | NODE_LEAF
deriving DecidableEq, Repr

open NodeType

/-- One page buffer: the header and both views of the union. -/
structure Page where
  type : NodeType
  is_root : Bool
  size : Nat
  parent : Nat
  branches : Nat → Branch
  rightmost : Nat
  records : Nat → Record

/-- The backing file: its length in bytes and its page-sized blocks. -/
structure File where
  length : Nat
  block : Nat → Page

/-- The open database (the mutex is not modelled). -/
structure Table where
  file : File
  size : Nat
  pages : Nat → Option Page
  garbage : Nat → Page

inductive Fault where
  | exit
  | undefined
  | out_of_fuel
deriving DecidableEq, Repr

/-- The buffer behind the page pointer of slot `i`; for a slot that is not
populated yet, the buffer `get_page` will install there. -/
def Table.page (t : Table) (i : Nat) : Page :=
  match t.pages i with
  | some p => p
  | none => if i < t.size then t.file.block i else t.garbage i

/-- Store through the page pointer of slot `i`. -/
def Table.write (t : Table) (i : Nat) (p : Page) : Table :=
  { t with pages := Function.update t.pages i (some p) }

/-- Location of a key inside a leaf: page index and record slot. -/
structure KeyPtr where
  page_index : Nat
  slot : Nat
deriving DecidableEq, Repr

def Table.key_at (t : Table) (p : KeyPtr) : Str :=
  ((t.page p.page_index).records p.slot).key

/-! ## helpers and utilities -/

def validate_string (string : Option Str) (max_len : Nat) : Except Fault Unit :=
  match string with
  | none => .error .exit
  | some s => if strlen s > max_len then .error .exit else .ok ()

def validate_key (key : Option Str) : Except Fault Unit :=
  validate_string key KEY_LEN

def validate_value (value : Option Str) : Except Fault Unit :=
  validate_string value VALUE_LEN

def initialize_leaf_node (page : Page) : Page :=
  { page with type := NODE_LEAF, is_root := false, size := 0 }

def initialize_internal_node (page : Page) : Page :=
  { page with type := NODE_INTERNAL, is_root := false, size := 0 }

def internal_key_of (page : Page) (index : Nat) : Str :=
  (page.branches index).key

def internal_rightmost_child_of (page : Page) : Nat :=
  page.rightmost

def internal_child_of (page : Page) (index : Nat) : Nat :=
  if index ≥ page.size then internal_rightmost_child_of page
  else (page.branches index).child

/-- Assignment through the pointer `internal_child_of(page, index)`. -/
def set_internal_child (page : Page) (index : Nat) (v : Nat) : Page :=
  if index ≥ page.size then { page with rightmost := v }
  else { page with
    branches := Function.update page.branches index { (page.branches index) with child := v } }

/-- The statement `strcpy(internal_key_of(page, index), key)`. -/
def set_internal_key (page : Page) (index : Nat) (key : Str) : Page :=
  { page with
    branches := Function.update page.branches index { (page.branches index) with key := key } }

/-! ## persistence -/

def get_page (t : Table) (page_index : Nat) : Except Fault Table :=
  if page_index ≥ TABLE_MAX_PAGES then .error .exit
  else
    match t.pages page_index with
    | some _ => .ok t
    | none =>
      let page := if page_index < t.size then t.file.block page_index
                  else t.garbage page_index
      .ok { t with
              pages := Function.update t.pages page_index (some page),
              size := if page_index ≥ t.size then page_index + 1 else t.size }

def recursive_max_key_of : Nat → Table → Nat → Except Fault (Table × KeyPtr)
  | 0, _, _ => .error .out_of_fuel
  | fuel + 1, t, page_index =>
    let page := t.page page_index
    match page.type with
    | NODE_LEAF =>
      if page.size = 0 then .error .undefined
      else .ok (t, ⟨page_index, page.size - 1⟩)
    | NODE_INTERNAL => do
      let t ← get_page t (internal_rightmost_child_of page)
      recursive_max_key_of fuel t (internal_rightmost_child_of page)

/-- The page count `length / PAGE_SIZE` is stored in the field `uint32_t size`
of the table: the assignment keeps it modulo `2 ^ 32`. -/
def db_open (file : File) (garbage : Nat → Page) : Except Fault Table :=
  let size := file.length / PAGE_SIZE % 2 ^ 32
  if file.length % PAGE_SIZE ≠ 0 then .error .exit
  else
    let t : Table := { file := file, size := size, pages := fun _ => none, garbage := garbage }
    if t.size = 0 then do
      let t ← get_page t ROOT_PAGE_INDEX
      let t := t.write ROOT_PAGE_INDEX (initialize_leaf_node (t.page ROOT_PAGE_INDEX))
      let t := t.write ROOT_PAGE_INDEX { t.page ROOT_PAGE_INDEX with is_root := true }
      .ok t
    else .ok t

/-- Write of one page-sized block at offset `page_index * PAGE_SIZE`. -/
def flush_page (f : File) (page_index : Nat) (page : Page) : File :=
  { length := max f.length ((page_index + 1) * PAGE_SIZE),
    block := Function.update f.block page_index page }

/-- The loop of `db_close` from index `i`, `n` iterations. -/
def db_close_loop (pages : Nat → Option Page) : Nat → Nat → File → File
  | 0, _, f => f
  | n + 1, i, f =>
    match pages i with
    | some p => db_close_loop pages n (i + 1) (flush_page f i p)
    | none => db_close_loop pages n (i + 1) f

/-- Result of `db_close`: the file left behind. -/
def db_close (t : Table) : File :=
  db_close_loop t.pages t.size 0 t.file

/-! ## searching -/

structure Cursor where
  page_index : Nat
  cell_index : Nat
  found : Bool
deriving DecidableEq, Repr

def page_by_cursor (t : Table) (cursor : Cursor) : Except Fault Page :=
  match t.pages cursor.page_index with
  | some p => .ok p
  | none => .error .undefined

/-- The `while (lower != upper)` loop of `leaf_node_find`; the first argument
bounds the number of iterations. -/
def leaf_node_find_loop (page : Page) (key : Str) : Nat → Nat → Nat → Except Fault (Nat × Bool)
  | 0, lower, upper => if lower = upper then .ok (lower, false) else .error .out_of_fuel
  | n + 1, lower, upper =>
    if lower = upper then .ok (lower, false)
    else
      let index := (lower + upper) / 2
      let cmp := strcmp key (page.records index).key
      if cmp = 0 then .ok (index, true)
      else if cmp < 0 then leaf_node_find_loop page key n lower index
      else leaf_node_find_loop page key n (index + 1) upper

def leaf_node_find (t : Table) (page_index : Nat) (key : Str) : Except Fault (Table × Cursor) := do
  let t ← get_page t page_index
  let page := t.page page_index
  let (cell_index, found) ← leaf_node_find_loop page key page.size 0 page.size
  .ok (t, { page_index := page_index, cell_index := cell_index, found := found })

/-- The `while (lower != upper)` loop of `internal_node_find_child`. -/
def internal_node_find_child_loop (page : Page) (key : Str) : Nat → Nat → Nat → Except Fault Nat
  | 0, lower, upper => if lower = upper then .ok lower else .error .out_of_fuel
  | n + 1, lower, upper =>
    if lower = upper then .ok lower
    else
      let index := (lower + upper) / 2
      let cmp := strcmp key (internal_key_of page index)
      if cmp ≤ 0 then internal_node_find_child_loop page key n lower index
      else internal_node_find_child_loop page key n (index + 1) upper

def internal_node_find_child (page : Page) (key : Str) : Except Fault Nat :=
  internal_node_find_child_loop page key page.size 0 page.size

def internal_node_find : Nat → Table → Nat → Str → Except Fault (Table × Cursor)
  | 0, _, _, _ => .error .out_of_fuel
  | fuel + 1, t, page_index, key => do
    let t ← get_page t page_index
    let page := t.page page_index
    let index ← internal_node_find_child page key
    let child_index := internal_child_of page index
    let t ← get_page t child_index
    let child := t.page child_index
    match child.type with
    | NODE_LEAF => leaf_node_find t child_index key
    | NODE_INTERNAL => internal_node_find fuel t child_index key

def table_find (t : Table) (key : Str) : Except Fault (Table × Cursor) := do
  let fuel := t.size
  let t ← get_page t ROOT_PAGE_INDEX
  let root := t.page ROOT_PAGE_INDEX
  match root.type with
  | NODE_LEAF => leaf_node_find t ROOT_PAGE_INDEX key
  | NODE_INTERNAL => internal_node_find fuel t ROOT_PAGE_INDEX key

/-! ## insertion -/

def create_new_root (fuel : Nat) (t : Table) (right_page_index : Nat) : Except Fault Table := do
  let left_page_index := t.size
  let t ← get_page t ROOT_PAGE_INDEX
  let t ← get_page t left_page_index
  let t ← get_page t right_page_index
  -- memcpy(left_page, root_page, PAGE_SIZE)
  let t := t.write left_page_index (t.page ROOT_PAGE_INDEX)
  let t := t.write left_page_index { t.page left_page_index with is_root := false }
  let t := t.write ROOT_PAGE_INDEX (initialize_internal_node (t.page ROOT_PAGE_INDEX))
  let t := t.write ROOT_PAGE_INDEX { t.page ROOT_PAGE_INDEX with is_root := true }
  let t := t.write ROOT_PAGE_INDEX { t.page ROOT_PAGE_INDEX with size := 1 }
  let t := t.write ROOT_PAGE_INDEX (set_internal_child (t.page ROOT_PAGE_INDEX) 0 left_page_index)
  let (t, left_max_key) ← recursive_max_key_of fuel t left_page_index
  let t := t.write ROOT_PAGE_INDEX
    (set_internal_key (t.page ROOT_PAGE_INDEX) 0 (t.key_at left_max_key))
  let t := t.write ROOT_PAGE_INDEX (set_internal_child (t.page ROOT_PAGE_INDEX) 1 right_page_index)
  let t := t.write left_page_index { t.page left_page_index with parent := ROOT_PAGE_INDEX }
  let t := t.write right_page_index { t.page right_page_index with parent := ROOT_PAGE_INDEX }
  .ok t

/-- The `memmove` of `count` records of a leaf from slot `from_index` to slot
`from_index + 1`. -/
def memmove_records (records : Nat → Record) (from_index count : Nat) : Nat → Record :=
  fun j => if from_index < j ∧ j ≤ from_index + count then records (j - 1) else records j

/-- A leaf holds `LEAF_RECORD_SIZE` record slots: on a full leaf the `memmove`
would write the slot `records[LEAF_RECORD_SIZE]`, which the page does not
have; such a call is a fault of the model. -/
def leaf_node_insert_raw (t : Table) (cursor : Cursor) (key value : Str) : Except Fault Table := do
  let page ← page_by_cursor t cursor
  if page.size ≥ LEAF_RECORD_SIZE then .error .undefined
  let i := cursor.page_index
  let t := t.write i { page with
    records := memmove_records page.records cursor.cell_index (page.size - cursor.cell_index) }
  let t := t.write i { t.page i with size := (t.page i).size + 1 }
  let t := t.write i { t.page i with
    records := Function.update (t.page i).records cursor.cell_index
      { ((t.page i).records cursor.cell_index) with key := key } }
  let t := t.write i { t.page i with
    records := Function.update (t.page i).records cursor.cell_index
      { ((t.page i).records cursor.cell_index) with value := value } }
  .ok t

def update_internal_node_key (t : Table) (page_index : Nat) (old_key new_key : KeyPtr) :
    Except Fault Table := do
  let old_child_index ← internal_node_find_child (t.page page_index) (t.key_at old_key)
  .ok (t.write page_index (set_internal_key (t.page page_index) old_child_index (t.key_at new_key)))

/-- The `memmove` of `count` branches from slot `from_index` to slot
`from_index + 1`. -/
def memmove_branches (branches : Nat → Branch) (from_index count : Nat) : Nat → Branch :=
  fun j => if from_index < j ∧ j ≤ from_index + count then branches (j - 1) else branches j

/-- An internal page holds `INTERNAL_BRANCH_SIZE` branch slots: on a full page
the insertion would write `branches[INTERNAL_BRANCH_SIZE].child`, which is the
storage of `rightmost`; such a call is a fault of the model. -/
def internal_node_insert_raw (fuel : Nat) (t : Table) (parent_page_index child_page_index : Nat) :
    Except Fault Table := do
  let t ← get_page t parent_page_index
  let t ← get_page t child_page_index
  let old_size := (t.page parent_page_index).size
  if old_size ≥ INTERNAL_BRANCH_SIZE then .error .undefined
  let t := t.write child_page_index { t.page child_page_index with parent := parent_page_index }
  let t ← get_page t (internal_rightmost_child_of (t.page parent_page_index))
  let right_child := internal_rightmost_child_of (t.page parent_page_index)
  let (t, child_max_key) ← recursive_max_key_of fuel t child_page_index
  let (t, right_max_key) ← recursive_max_key_of fuel t right_child
  if strcmp (t.key_at child_max_key) (t.key_at right_max_key) > 0 then
    let t := t.write parent_page_index
      { t.page parent_page_index with size := (t.page parent_page_index).size + 1 }
    let t := t.write parent_page_index
      (set_internal_child (t.page parent_page_index) old_size
        (internal_rightmost_child_of (t.page parent_page_index)))
    let t := t.write parent_page_index
      (set_internal_key (t.page parent_page_index) old_size (t.key_at right_max_key))
    let t := t.write parent_page_index
      { t.page parent_page_index with rightmost := child_page_index }
    .ok t
  else do
    let index ← internal_node_find_child (t.page parent_page_index) (t.key_at child_max_key)
    let t := t.write parent_page_index
      { t.page parent_page_index with size := (t.page parent_page_index).size + 1 }
    let t := t.write parent_page_index
      { t.page parent_page_index with
        branches := memmove_branches (t.page parent_page_index).branches index (old_size - index) }
    let t := t.write parent_page_index
      (set_internal_child (t.page parent_page_index) index child_page_index)
    let t := t.write parent_page_index
      (set_internal_key (t.page parent_page_index) index (t.key_at child_max_key))
    .ok t

/-- The loop `for (i = from; i <= page->size; ++i)
get_page(table, *internal_child_of(page, i))->parent = page_index`, with `n`
iterations left. -/
def reparent_children (page_index : Nat) : Nat → Nat → Table → Except Fault Table
  | 0, _, t => .ok t
  | n + 1, i, t => do
    let child := internal_child_of (t.page page_index) i
    let t ← get_page t child
    let t := t.write child { t.page child with parent := page_index }
    reparent_children page_index n (i + 1) t

/-- Body of `internal_node_insert`, with the split path passed in. -/
def internal_node_insert_with (split : Table → Nat → Nat → Except Fault Table)
    (fuel : Nat) (t : Table) (parent_page_index child_page_index : Nat) : Except Fault Table := do
  let t ← get_page t parent_page_index
  if (t.page parent_page_index).size ≥ INTERNAL_BRANCH_SIZE then
    split t parent_page_index child_page_index
  else
    internal_node_insert_raw fuel t parent_page_index child_page_index

/-- `internal_node_split_and_insert`; `depth` is the fuel of every
`recursive_max_key_of` below, the second argument bounds the chain of splits
that climbs to the root through `internal_node_insert`. -/
def internal_node_split_and_insert (depth : Nat) :
    Nat → Table → Nat → Nat → Except Fault Table
  | 0, _, _, _ => .error .out_of_fuel
  | fuel + 1, t, old_page_index, child_page_index => do
    let new_page_index := t.size
    let t ← get_page t old_page_index
    let t ← get_page t new_page_index
    let t := t.write new_page_index (initialize_internal_node (t.page new_page_index))
    let parent_page_index := (t.page old_page_index).parent
    let t := t.write new_page_index { t.page new_page_index with parent := parent_page_index }
    let t ← get_page t child_page_index
    let (t, old_max_key) ← recursive_max_key_of depth t old_page_index
    -- memcpy of the right half of the branches
    let t := t.write new_page_index { t.page new_page_index with
      branches := fun j =>
        if j < INTERNAL_RIGHT_SPLIT_SIZE
        then (t.page old_page_index).branches (INTERNAL_LEFT_SPLIT_SIZE + j)
        else (t.page new_page_index).branches j }
    let t := t.write old_page_index { t.page old_page_index with size := INTERNAL_LEFT_SPLIT_SIZE }
    let t := t.write new_page_index { t.page new_page_index with size := INTERNAL_RIGHT_SPLIT_SIZE }
    let t := t.write new_page_index { t.page new_page_index with
      rightmost := internal_rightmost_child_of (t.page old_page_index) }
    let t := t.write old_page_index { t.page old_page_index with
      rightmost := internal_child_of (t.page old_page_index) ((t.page old_page_index).size - 1) }
    let mid_key_index := (t.page old_page_index).size - 1
    let t := t.write old_page_index { t.page old_page_index with
      size := (t.page old_page_index).size - 1 }
    let t ← reparent_children new_page_index ((t.page new_page_index).size + 1) 0 t
    let (t, child_max_key) ← recursive_max_key_of depth t child_page_index
    let insert_to :=
      if strcmp (t.key_at child_max_key) (internal_key_of (t.page old_page_index) mid_key_index) ≤ 0
      then old_page_index else new_page_index
    let t ← internal_node_insert_raw depth t insert_to child_page_index
    if (t.page old_page_index).is_root then do
      let t ← create_new_root depth t new_page_index
      let old_page_index := t.size - 1
      let t ← get_page t old_page_index
      reparent_children old_page_index ((t.page old_page_index).size + 1) 0 t
    else do
      let (t, new_max_key) ← recursive_max_key_of depth t old_page_index
      let t ← get_page t parent_page_index
      let t ← update_internal_node_key t parent_page_index old_max_key new_max_key
      internal_node_insert_with (internal_node_split_and_insert depth fuel) depth t
        parent_page_index new_page_index

def internal_node_insert (depth fuel : Nat) (t : Table)
    (parent_page_index child_page_index : Nat) : Except Fault Table :=
  internal_node_insert_with (internal_node_split_and_insert depth fuel) depth t
    parent_page_index child_page_index

def leaf_node_split_and_insert (depth : Nat) (t : Table) (cursor : Cursor) (key value : Str) :
    Except Fault Table := do
  let old_page_index := cursor.page_index
  let new_page_index := t.size
  let _ ← page_by_cursor t cursor
  let t ← get_page t t.size
  let t := t.write new_page_index (initialize_leaf_node (t.page new_page_index))
  let parent_page_index := (t.page old_page_index).parent
  let t := t.write new_page_index { t.page new_page_index with parent := parent_page_index }
  let (t, old_max_key) ← recursive_max_key_of depth t old_page_index
  -- memcpy of the right half of the records
  let t := t.write new_page_index { t.page new_page_index with
    records := fun j =>
      if j < LEAF_RIGHT_SPLIT_SIZE
      then (t.page old_page_index).records (LEAF_LEFT_SPLIT_SIZE + j)
      else (t.page new_page_index).records j }
  let t := t.write old_page_index { t.page old_page_index with size := LEAF_LEFT_SPLIT_SIZE }
  let t := t.write new_page_index { t.page new_page_index with size := LEAF_RIGHT_SPLIT_SIZE }
  let in_new_page : Bool := cursor.cell_index > LEAF_LEFT_SPLIT_SIZE
  let new_cursor : Cursor :=
    { page_index := if in_new_page then new_page_index else old_page_index,
      cell_index := cursor.cell_index - (if in_new_page then LEAF_LEFT_SPLIT_SIZE else 0),
      found := cursor.found }
  let t ← leaf_node_insert_raw t new_cursor key value
  if (t.page old_page_index).is_root then
    create_new_root depth t new_page_index
  else do
    let (t, new_max_key) ← recursive_max_key_of depth t old_page_index
    let t ← get_page t parent_page_index
    let t ← update_internal_node_key t parent_page_index old_max_key new_max_key
    internal_node_insert depth depth t parent_page_index new_page_index

def leaf_node_insert (depth : Nat) (t : Table) (cursor : Cursor) (key value : Str) :
    Except Fault Table := do
  let page ← page_by_cursor t cursor
  if page.size ≥ LEAF_RECORD_SIZE then
    leaf_node_split_and_insert depth t cursor key value
  else
    leaf_node_insert_raw t cursor key value

/-! ## accessors -/

/-- The body of `db_set` between `pthread_mutex_lock` and `pthread_mutex_unlock`. -/
def db_set_locked (t : Table) (key value : Str) : Except Fault Table := do
  let depth := t.size
  let (t, cursor) ← table_find t key
  -- cursor_value(cursor)
  let page ← page_by_cursor t cursor
  if cursor.found then
    -- strcpy(record->value, value)
    .ok (t.write cursor.page_index { page with
      records := Function.update page.records cursor.cell_index
        { (page.records cursor.cell_index) with value := value } })
  else
    leaf_node_insert depth t cursor key value

def db_set (t : Table) (key value : Option Str) : Except Fault Table := do
  validate_key key
  validate_value value
  match key, value with
  | some key, some value => db_set_locked t key value
  | _, _ => .error .undefined

/-- The body of `db_get` between `pthread_mutex_lock` and `pthread_mutex_unlock`:
the value behind the returned pointer, `none` for `NULL`. -/
def db_get_locked (t : Table) (key : Str) : Except Fault (Table × Option Str) := do
  let (t, cursor) ← table_find t key
  -- cursor_value(cursor)
  let page ← page_by_cursor t cursor
  if cursor.found then
    .ok (t, some (page.records cursor.cell_index).value)
  else
    .ok (t, none)

def db_get (t : Table) (key : Option Str) : Except Fault (Table × Option Str) := do
  validate_key key
  match key with
  | some key => db_get_locked t key
  | none => .error .undefined


/-! ## test printer -/

/-- One line of the output of `print_page`, with its indentation. -/
inductive Line where
  | leaf (indent size : Nat)
  | key_value (indent : Nat) (key value : Str)
  | internal (indent size : Nat)
  | key (indent : Nat) (key : Str)
deriving DecidableEq, Repr

/-- The loop `for (i = 0; i < page->size; i++)` of `print_page` over the
branches of an internal page, from index `i` with `n` iterations left; the
recursive call of `print_page` is passed in. -/
def print_branches (print : Table → Nat → Nat → Except Fault (Table × List Line))
    (page_index indent : Nat) : Nat → Nat → Table → Except Fault (Table × List Line)
  | 0, _, t => .ok (t, [])
  | n + 1, i, t => do
    let (t1, below) ← print t (internal_child_of (t.page page_index) i) (indent + 1)
    let line := Line.key (indent + 1) (internal_key_of (t1.page page_index) i)
    let (t2, rest) ← print_branches print page_index indent n (i + 1) t1
    .ok (t2, below ++ line :: rest)

/-- The printer `print_page`, returning the lines it prints; the first argument
bounds the depth of the recursion. -/
def print_page : Nat → Table → Nat → Nat → Except Fault (Table × List Line)
  | 0, _, _, _ => .error .out_of_fuel
  | fuel + 1, t, page_index, indent => do
    let t ← get_page t page_index
    let page := t.page page_index
    match page.type with
    | NODE_LEAF =>
      .ok (t, Line.leaf indent page.size ::
        (List.range page.size).map (fun i =>
          Line.key_value (indent + 1) (page.records i).key (page.records i).value))
    | NODE_INTERNAL => do
      let (t1, branches) ← print_branches (print_page fuel) page_index indent page.size 0 t
      let (t2, last) ← print_page fuel t1 (internal_rightmost_child_of (t1.page page_index))
        (indent + 1)
      .ok (t2, Line.internal indent page.size :: (branches ++ last))

def db_test_print (t : Table) : Except Fault (Table × List Line) :=
  print_page t.size t ROOT_PAGE_INDEX 0

/-- The keys of the records that a printout shows, in the order of the lines. -/
def record_keys : List Line → List Str
  | [] => []
  | Line.key_value _ k _ :: rest => k :: record_keys rest
  | _ :: rest => record_keys rest

/-- A finite sequence of calls of `db_set`. -/
def db_set_all (t : Table) : List (Str × Str) → Except Fault Table
  | [] => .ok t
  | (k, v) :: rest => do
    let t ← db_set t (some k) (some v)
    db_set_all t rest

/-- The value of the last pair of the sequence that has the key `k`. -/
def last_set : List (Str × Str) → Str → Option Str
  | [], _ => none
  | (k', v) :: rest, k =>
    match last_set rest k with
    | some w => some w
    | none => if k' = k then some v else none

/-! ## Specification vocabulary

The tree invariant is stated page by page.  A `Ghost` assigns to every page
its height above the leaves and the open-closed key interval `(lo, hi]` it is
responsible for (`none` is an infinite bound). -/

structure Ghost where
  level : Nat → Nat
  lo : Nat → Option Str
  hi : Nat → Option Str

/-- The key lies above the lower bound. -/
def Above (lo : Option Str) (k : Str) : Prop := ∀ l, lo = some l → l < k

/-- The key lies at or below the upper bound. -/
def Below (k : Str) (hi : Option Str) : Prop := ∀ h, hi = some h → k ≤ h

/-- The interval `(lo, hi]` is not empty. -/
def Apart (lo hi : Option Str) : Prop := ∀ l h, lo = some l → hi = some h → l < h

/-- Lower bound of the keys routed to child slot `i` of an internal page. -/
def lower_bound_of (pg : Page) (lo : Option Str) (i : Nat) : Option Str :=
  if i = 0 then lo else some (internal_key_of pg (i - 1))

/-- Upper bound of the keys routed to child slot `i` of an internal page. -/
def upper_bound_of (pg : Page) (hi : Option Str) (i : Nat) : Option Str :=
  if i < pg.size then some (internal_key_of pg i) else hi

/-- A leaf holds at most `LEAF_RECORD_SIZE` records, strictly ascending, above
`lo`, and its last key is `hi` when `hi` is finite. -/
def LeafOK (pg : Page) (lo hi : Option Str) : Prop :=
  pg.size ≤ LEAF_RECORD_SIZE ∧
  (∀ i j, i < j → j < pg.size → (pg.records i).key < (pg.records j).key) ∧
  (∀ i, i < pg.size → Above lo (pg.records i).key) ∧
  (∀ h, hi = some h → 0 < pg.size ∧ (pg.records (pg.size - 1)).key = h)

/-- An internal page has between one and `INTERNAL_BRANCH_SIZE` branches;
every child (branch children, then rightmost) is an allocated non-root page
one level below that points back to it, and the children's intervals tile
the page's interval with the separators as cut points. -/
def InternalOK (t : Table) (g : Ghost) (q : Nat) : Prop :=
  1 ≤ (t.page q).size ∧ (t.page q).size ≤ INTERNAL_BRANCH_SIZE ∧
  ∀ i, i ≤ (t.page q).size →
    internal_child_of (t.page q) i < t.size ∧
    internal_child_of (t.page q) i ≠ 0 ∧
    (t.page (internal_child_of (t.page q) i)).parent = q ∧
    g.level q = g.level (internal_child_of (t.page q) i) + 1 ∧
    g.lo (internal_child_of (t.page q) i) = lower_bound_of (t.page q) (g.lo q) i ∧
    g.hi (internal_child_of (t.page q) i) = upper_bound_of (t.page q) (g.hi q) i

/-- What a page guarantees about itself and its children. -/
def Down (t : Table) (g : Ghost) (p : Nat) : Prop :=
  Apart (g.lo p) (g.hi p) ∧
  match (t.page p).type with
  | NODE_LEAF =>
    g.level p = 0 ∧ LeafOK (t.page p) (g.lo p) (g.hi p) ∧
    (p ≠ 0 → LEAF_LEFT_SPLIT_SIZE ≤ (t.page p).size)
  | NODE_INTERNAL => InternalOK t g p

/-- What a page guarantees about its place in the tree: page 0 is the root and
covers every key; any other page is not a root and is a child of the internal
page its parent field names. -/
def Up (t : Table) (g : Ghost) (p : Nat) : Prop :=
  if p = 0 then
    (t.page 0).is_root = true ∧ g.lo 0 = none ∧ g.hi 0 = none
  else
    (t.page p).is_root = false ∧ g.level p < g.level 0 ∧
    (t.page p).parent < t.size ∧
    (t.page (t.page p).parent).type = NODE_INTERNAL ∧
    ∃ i, i ≤ (t.page (t.page p).parent).size ∧
      internal_child_of (t.page (t.page p).parent) i = p

/-- Bookkeeping of the page table: no slot at or above the page count is
populated, the file holds a whole number of pages, not more than the page
count, and the pages beyond the end of the file are resident. -/
def PagerOK (t : Table) : Prop :=
  (∀ i, t.size ≤ i → t.pages i = none) ∧
  t.file.length % PAGE_SIZE = 0 ∧ t.file.length / PAGE_SIZE ≤ t.size ∧
  ∀ i, t.file.length / PAGE_SIZE ≤ i → i < t.size → t.pages i ≠ none

/-- The tree invariant under a given ghost assignment. -/
def InvWith (t : Table) (g : Ghost) : Prop :=
  1 ≤ t.size ∧ t.size ≤ TABLE_MAX_PAGES ∧ PagerOK t ∧ g.level 0 < t.size ∧
  ∀ p, p < t.size → Down t g p ∧ Up t g p

/-- The tree invariant. -/
def Inv (t : Table) : Prop := ∃ g, InvWith t g

/-- The record `(k, v)` is stored in some leaf of the table. -/
def Stored (t : Table) (k v : Str) : Prop :=
  ∃ p, p < t.size ∧ (t.page p).type = NODE_LEAF ∧
    ∃ i, i < (t.page p).size ∧ (t.page p).records i = ⟨k, v⟩

/-- States of a database opened on an empty file and driven by calls of
`db_set` and `db_get` that return. -/
inductive Reachable : Table → Prop where
  | opened (file : File) (garbage : Nat → Page) (t : Table) :
      file.length = 0 → db_open file garbage = .ok t → Reachable t
  | set (t : Table) (key value : Option Str) (t' : Table) :
      Reachable t → db_set t key value = .ok t' → Reachable t'
  | get (t : Table) (key : Option Str) (t' : Table) (r : Option Str) :
      Reachable t → db_get t key = .ok (t', r) → Reachable t'

/-- The pages that the root reaches through child pointers. -/
inductive InTree (t : Table) : Nat → Prop where
  | root : InTree t ROOT_PAGE_INDEX
  | child (q i : Nat) : InTree t q → (t.page q).type = NODE_INTERNAL → i ≤ (t.page q).size →
      InTree t (internal_child_of (t.page q) i)

/-! ## Proof vocabulary -/

/-! ## Outcomes -/

/-- The computation returns a value that satisfies `P`. -/
def Returns {α : Type} (x : Except Fault α) (P : α → Prop) : Prop :=
  ∃ a, x = .ok a ∧ P a

/-- The computation returns a value that satisfies `P`, or stops the process
with `exit(EXIT_FAILURE)`; it neither runs into undefined behaviour nor out of
fuel. -/
def Yields {α : Type} (x : Except Fault α) (P : α → Prop) : Prop :=
  match x with
  | .ok a => P a
  | .error e => e = .exit

/-- Two tables that differ only in which existing pages are resident. -/
structure Same (t t' : Table) : Prop where
  size : t'.size = t.size
  page : t'.page = t.page
  file : t'.file = t.file
  garbage : t'.garbage = t.garbage
  resident : ∀ i, t.pages i ≠ none → t'.pages i ≠ none
  fresh : PagerOK t → PagerOK t'

/-- What `table_find` promises about its cursor: a resident leaf whose interval
holds the key, and either the slot of the key or its insertion point. -/
def CursorAt (t : Table) (g : Ghost) (k : Str) (c : Cursor) : Prop :=
  c.page_index < t.size ∧ (t.page c.page_index).type = NODE_LEAF ∧
  t.pages c.page_index ≠ none ∧
  Above (g.lo c.page_index) k ∧ Below k (g.hi c.page_index) ∧
  (c.found = true → c.cell_index < (t.page c.page_index).size ∧
    ((t.page c.page_index).records c.cell_index).key = k) ∧
  (c.found = false → c.cell_index ≤ (t.page c.page_index).size ∧
    (∀ i, i < c.cell_index → ((t.page c.page_index).records i).key < k) ∧
    (∀ i, c.cell_index ≤ i → i < (t.page c.page_index).size →
      k < ((t.page c.page_index).records i).key))

/-- The interval that ends at `hi` lies entirely below the one that starts at `lo`. -/
def Before (hi lo : Option Str) : Prop := ∃ h l, hi = some h ∧ lo = some l ∧ h ≤ l

/-! ## Frame rules -/

/-- Two page buffers that agree on everything but the root flag and the parent
field. -/
def SameBody (pg pg' : Page) : Prop :=
  pg'.type = pg.type ∧ pg'.size = pg.size ∧ pg'.branches = pg.branches ∧
  pg'.rightmost = pg.rightmost ∧ pg'.records = pg.records

/-- The page after a branch is inserted at slot `j`, later branches shifted
one slot right. -/
def insert_branch (pg : Page) (j : Nat) (b : Branch) : Page :=
  { pg with
    size := pg.size + 1,
    branches := fun i =>
      if i = j then b
      else if j < i ∧ i ≤ pg.size then pg.branches (i - 1)
      else pg.branches i }

/-- The page after the rightmost child is pushed into the next branch slot
under the separator `key` and `n` becomes the rightmost child. -/
def push_rightmost (pg : Page) (key : Str) (n : Nat) : Page :=
  { pg with
    size := pg.size + 1,
    branches := Function.update pg.branches pg.size ⟨pg.rightmost, key⟩,
    rightmost := n }

/-- The state in which `internal_node_insert` finds a parent `q`: its children
tile its interval but for one gap, before child `j` (after the rightmost child
when `j = size + 1`), and the page `n` that is to be inserted covers the gap. -/
structure Pending (t : Table) (g : Ghost) (q n j : Nat) : Prop where
  type : (t.page q).type = NODE_INTERNAL
  size_pos : 1 ≤ (t.page q).size
  size_le : (t.page q).size ≤ INTERNAL_BRANCH_SIZE
  pos : j ≤ (t.page q).size + 1
  child : ∀ i, i ≤ (t.page q).size →
    internal_child_of (t.page q) i < t.size ∧
    internal_child_of (t.page q) i ≠ 0 ∧
    internal_child_of (t.page q) i ≠ n ∧
    (t.page (internal_child_of (t.page q) i)).parent = q ∧
    g.level q = g.level (internal_child_of (t.page q) i) + 1
  lo : ∀ i, i ≤ (t.page q).size →
    g.lo (internal_child_of (t.page q) i)
      = if i = j then g.hi n else lower_bound_of (t.page q) (g.lo q) i
  hi : ∀ i, i ≤ (t.page q).size →
    g.hi (internal_child_of (t.page q) i)
      = if i = (t.page q).size ∧ j = (t.page q).size + 1 then g.lo n
        else upper_bound_of (t.page q) (g.hi q) i
  n_lo : j ≤ (t.page q).size → g.lo n = lower_bound_of (t.page q) (g.lo q) j
  n_hi : j ≤ (t.page q).size → ∃ h, g.hi n = some h
  n_last : j = (t.page q).size + 1 → g.hi n = g.hi q ∧ ∃ m, g.lo n = some m
  n_level : g.level q = g.level n + 1

/-- The page `pg'` is `pg` with the child `n` inserted at the gap `j`. -/
def Inserted (pg pg' : Page) (j n : Nat) (key : Str) : Prop :=
  (j ≤ pg.size → pg' = insert_branch pg j ⟨n, key⟩) ∧
  (j = pg.size + 1 → pg' = push_rightmost pg key n)

/-- The table in which `internal_node_insert` runs: every page but the parent
`q` and the new page `n` satisfies the invariant, `n` satisfies its own half,
and `n` is pending under `q`. -/
structure InsertReady (t : Table) (g : Ghost) (q n j : Nat) : Prop where
  size_pos : 1 ≤ t.size
  size_le : t.size ≤ TABLE_MAX_PAGES
  fresh : PagerOK t
  height : g.level 0 < t.size
  others : ∀ p, p < t.size → p ≠ q → p ≠ n → Down t g p ∧ Up t g p
  q_lt : q < t.size
  q_up : Up t g q
  q_apart : Apart (g.lo q) (g.hi q)
  pending : Pending t g q n j
  n_lt : n < t.size
  n_ne_zero : n ≠ 0
  n_down : Down t g n
  n_root : (t.page n).is_root = false
  n_parent : (t.page n).parent = q

/-- The parent `G` of a page `x` that has just been split, before the separator
of `x` is updated: the children of `G` tile its interval as before the split,
when `x` still reached up to `hi_old`. -/
structure Hole (t : Table) (g : Ghost) (G x N i : Nat) (hi_old : Option Str) : Prop where
  type : (t.page G).type = NODE_INTERNAL
  size_pos : 1 ≤ (t.page G).size
  size_le : (t.page G).size ≤ INTERNAL_BRANCH_SIZE
  child : ∀ k, k ≤ (t.page G).size →
    internal_child_of (t.page G) k < t.size ∧
    internal_child_of (t.page G) k ≠ 0 ∧
    internal_child_of (t.page G) k ≠ N ∧
    (t.page (internal_child_of (t.page G) k)).parent = G ∧
    g.level G = g.level (internal_child_of (t.page G) k) + 1
  lo : ∀ k, k ≤ (t.page G).size →
    g.lo (internal_child_of (t.page G) k) = lower_bound_of (t.page G) (g.lo G) k
  hi : ∀ k, k ≤ (t.page G).size → k ≠ i →
    g.hi (internal_child_of (t.page G) k) = upper_bound_of (t.page G) (g.hi G) k
  slot_le : i ≤ (t.page G).size
  slot_child : internal_child_of (t.page G) i = x
  slot_hi : upper_bound_of (t.page G) (g.hi G) i = hi_old

/-- The table after a page `x` has been split into `x` and the new page `N` and
the pending record or child has been inserted into one of them: both halves
satisfy their invariant, `N` is not linked into the tree yet, and the parent of
`x` (if `x` is not the root) still carries the old separator. -/
structure SplitDone (t : Table) (g : Ghost) (x N : Nat) (hi_old : Option Str) : Prop where
  size_pos : 1 ≤ t.size
  size_le : t.size ≤ TABLE_MAX_PAGES
  fresh : PagerOK t
  height : g.level 0 < t.size
  x_lt : x < t.size
  N_lt : N < t.size
  N_ne_zero : N ≠ 0
  N_ne : N ≠ x
  x_down : Down t g x
  N_down : Down t g N
  N_root : (t.page N).is_root = false
  N_parent : (t.page N).parent = (t.page x).parent
  N_level : g.level N = g.level x
  N_hi : g.hi N = hi_old
  mid : ∃ m, g.hi x = some m ∧ g.lo N = some m
  orphan : ∀ p, p < t.size → (t.page p).type = NODE_INTERNAL →
    ∀ i, i ≤ (t.page p).size → internal_child_of (t.page p) i ≠ N
  others : ∀ p, p < t.size → p ≠ x → p ≠ N → (x ≠ 0 → p ≠ (t.page x).parent) →
    Down t g p ∧ Up t g p
  root : x = 0 → (t.page 0).is_root = true ∧ g.lo 0 = none ∧ hi_old = none
  inner : x ≠ 0 → Up t g x ∧ Up t g (t.page x).parent ∧
    Apart (g.lo (t.page x).parent) (g.hi (t.page x).parent) ∧
    ∃ i, Hole t g (t.page x).parent x N i hi_old

/-- The ghost that puts every page from index `S` on at level `lev`. -/
def Ghost.lift (g : Ghost) (S lev : Nat) : Ghost :=
  { g with level := fun p => if p < S then g.level p else lev }

/-! ## create_new_root -/

/-- Page 0 after `create_new_root`: an internal root with the single branch
`(left, key)` and the rightmost child `right`. -/
def new_root_page (pg : Page) (left : Nat) (key : Str) (right : Nat) : Page :=
  { pg with
    type := NODE_INTERNAL, is_root := true, size := 1,
    branches := Function.update pg.branches 0 ⟨left, key⟩,
    rightmost := right }

/-- The ghost after root creation: the copy `L` of the old root takes over the
old root's level and interval, page 0 rises one level and covers every key. -/
def Ghost.new_root (g : Ghost) (L : Nat) : Ghost :=
  { level := fun p => if p = 0 then g.level 0 + 1 else if p = L then g.level 0 else g.level p,
    lo := fun p => if p = L then g.lo 0 else g.lo p,
    hi := fun p => if p = 0 then none else if p = L then g.hi 0 else g.hi p }

/-- The first part of `internal_node_split_and_insert`, up to the point where
the two halves exist and the children of the new page point to it; returns the
table and the locals `old_max_key`, `mid_key_index`, `parent_page_index` and
`new_page_index`. -/
def internal_node_split (depth : Nat) (t : Table) (old_page_index child_page_index : Nat) :
    Except Fault (Table × KeyPtr × Nat × Nat × Nat) := do
  let new_page_index := t.size
  let t ← get_page t old_page_index
  let t ← get_page t new_page_index
  let t := t.write new_page_index (initialize_internal_node (t.page new_page_index))
  let parent_page_index := (t.page old_page_index).parent
  let t := t.write new_page_index { t.page new_page_index with parent := parent_page_index }
  let t ← get_page t child_page_index
  let (t, old_max_key) ← recursive_max_key_of depth t old_page_index
  let t := t.write new_page_index { t.page new_page_index with
    branches := fun j =>
      if j < INTERNAL_RIGHT_SPLIT_SIZE
      then (t.page old_page_index).branches (INTERNAL_LEFT_SPLIT_SIZE + j)
      else (t.page new_page_index).branches j }
  let t := t.write old_page_index { t.page old_page_index with size := INTERNAL_LEFT_SPLIT_SIZE }
  let t := t.write new_page_index { t.page new_page_index with size := INTERNAL_RIGHT_SPLIT_SIZE }
  let t := t.write new_page_index { t.page new_page_index with
    rightmost := internal_rightmost_child_of (t.page old_page_index) }
  let t := t.write old_page_index { t.page old_page_index with
    rightmost := internal_child_of (t.page old_page_index) ((t.page old_page_index).size - 1) }
  let mid_key_index := (t.page old_page_index).size - 1
  let t := t.write old_page_index { t.page old_page_index with
    size := (t.page old_page_index).size - 1 }
  let t ← reparent_children new_page_index ((t.page new_page_index).size + 1) 0 t
  .ok (t, old_max_key, mid_key_index, parent_page_index, new_page_index)

/-- The rest of `internal_node_split_and_insert`: the insertion of the child
into one half and the propagation to the parent or the creation of a new root. -/
def internal_node_split_finish (depth : Nat) (rec_split : Table → Nat → Nat → Except Fault Table)
    (t : Table) (old_page_index child_page_index : Nat) (old_max_key : KeyPtr)
    (mid_key_index parent_page_index new_page_index : Nat) : Except Fault Table := do
  let (t, child_max_key) ← recursive_max_key_of depth t child_page_index
  let insert_to :=
    if strcmp (t.key_at child_max_key) (internal_key_of (t.page old_page_index) mid_key_index) ≤ 0
    then old_page_index else new_page_index
  let t ← internal_node_insert_raw depth t insert_to child_page_index
  if (t.page old_page_index).is_root then do
    let t ← create_new_root depth t new_page_index
    let old_page_index := t.size - 1
    let t ← get_page t old_page_index
    reparent_children old_page_index ((t.page old_page_index).size + 1) 0 t
  else do
    let (t, new_max_key) ← recursive_max_key_of depth t old_page_index
    let t ← get_page t parent_page_index
    let t ← update_internal_node_key t parent_page_index old_max_key new_max_key
    internal_node_insert_with rec_split depth t parent_page_index new_page_index

/-- The new page of an internal split holds the upper branches and the
rightmost child of the split page `pq`. -/
def RightHalf (pq pn : Page) : Prop :=
  pn.type = NODE_INTERNAL ∧ pn.is_root = false ∧ pn.size = INTERNAL_RIGHT_SPLIT_SIZE ∧
  pn.parent = pq.parent ∧ pn.rightmost = pq.rightmost ∧
  ∀ i, i < INTERNAL_RIGHT_SPLIT_SIZE → pn.branches i = pq.branches (INTERNAL_LEFT_SPLIT_SIZE + i)

/-- The split page of an internal split keeps its first branch; the child of
its second branch becomes its rightmost child. -/
def left_half (pq : Page) : Page :=
  { pq with size := INTERNAL_LEFT_SPLIT_SIZE - 1,
            rightmost := (pq.branches (INTERNAL_LEFT_SPLIT_SIZE - 1)).child }

/-- The ghost after the page `x` is split at the key `m`: the new page `N`
takes the level of `x` and the upper part `(m, hi x]` of its interval, `x`
keeps the lower part. -/
def Ghost.split (g : Ghost) (x N : Nat) (m : Str) : Ghost :=
  { level := fun p => if p = N then g.level x else g.level p,
    lo := fun p => if p = N then some m else g.lo p,
    hi := fun p => if p = N then g.hi x else if p = x then some m else g.hi p }

/-- The table `ts` after the first part of the split of the full internal
page `q` of the table `t`: the new page `t.size` holds the upper half, the
children of the upper half point to the new page. -/
structure Halved (t : Table) (q : Nat) (ts : Table) : Prop where
  cap : t.size < TABLE_MAX_PAGES
  size : ts.size = t.size + 1
  fresh : PagerOK ts
  left : ts.page q = left_half (t.page q)
  right : RightHalf (t.page q) (ts.page t.size)
  moved : ∀ p, (∃ i, INTERNAL_LEFT_SPLIT_SIZE ≤ i ∧ i ≤ INTERNAL_BRANCH_SIZE ∧
      internal_child_of (t.page q) i = p) → ts.page p = { t.page p with parent := t.size }
  kept : ∀ p, p ≠ q → p ≠ t.size →
    (∀ i, INTERNAL_LEFT_SPLIT_SIZE ≤ i → i ≤ INTERNAL_BRANCH_SIZE →
      internal_child_of (t.page q) i ≠ p) → ts.page p = t.page p

/-- The leaf after a record is inserted at slot `c`, later records shifted one
slot right. -/
def leaf_insert (pg : Page) (c : Nat) (r : Record) : Page :=
  { pg with
    size := pg.size + 1,
    records := fun j =>
      if j = c then r
      else if c < j ∧ j ≤ pg.size then pg.records (j - 1)
      else pg.records j }

/-- The split leaf keeps its first records. -/
def leaf_left (pg : Page) : Page := { pg with size := LEAF_LEFT_SPLIT_SIZE }

/-- The new page of a leaf split holds the upper records of the split leaf
`px`. -/
def LeafRight (px pn : Page) : Prop :=
  pn.type = NODE_LEAF ∧ pn.is_root = false ∧ pn.size = LEAF_RIGHT_SPLIT_SIZE ∧
  pn.parent = px.parent ∧
  ∀ i, i < LEAF_RIGHT_SPLIT_SIZE → pn.records i = px.records (LEAF_LEFT_SPLIT_SIZE + i)

/-- The ghost of a tree that is a single leaf. -/
def Ghost.flat : Ghost := { level := fun _ => 0, lo := fun _ => none, hi := fun _ => none }

/-- The list `ks` holds, in ascending order, exactly the stored keys of the
interval `(lo, hi]`. -/
def Slice (t : Table) (lo hi : Option Str) (ks : List Str) : Prop :=
  ks.Pairwise (fun a b => a < b) ∧
  ∀ k, k ∈ ks ↔ (Above lo k ∧ Below k hi ∧ ∃ v, Stored t k v)

/-- What the printout of the subtree of the page `p` shows: the stored keys of
the interval of `p` in ascending order, with the upper bound among them when
it is finite; a page other than the root shows at least one key. -/
def PageKeys (t : Table) (g : Ghost) (p : Nat) (ks : List Str) : Prop :=
  Slice t (g.lo p) (g.hi p) ks ∧ (∀ h, g.hi p = some h → h ∈ ks) ∧ (p ≠ 0 → ks ≠ [])

/-! ## Paths from the root -/

/-- The page `p` is reached from the root by the child slots of the list, the
last step first. -/
inductive Path (t : Table) : List Nat → Nat → Prop where
  | root : Path t [] ROOT_PAGE_INDEX
  | child (l : List Nat) (q i : Nat) : Path t l q → (t.page q).type = NODE_INTERNAL →
      i ≤ (t.page q).size → Path t (i :: l) (internal_child_of (t.page q) i)

/-! ## The two parts of a leaf split, and pages as lists -/

/-- The first part of `leaf_node_split_and_insert`, up to the insertion of the
record into one of the two leaves; returns the table and the locals
`old_max_key`, `parent_page_index` and `new_page_index`. -/
def leaf_node_split (depth : Nat) (t : Table) (cursor : Cursor) (key value : Str) :
    Except Fault (Table × KeyPtr × Nat × Nat) := do
  let old_page_index := cursor.page_index
  let new_page_index := t.size
  let _ ← page_by_cursor t cursor
  let t ← get_page t t.size
  let t := t.write new_page_index (initialize_leaf_node (t.page new_page_index))
  let parent_page_index := (t.page old_page_index).parent
  let t := t.write new_page_index { t.page new_page_index with parent := parent_page_index }
  let (t, old_max_key) ← recursive_max_key_of depth t old_page_index
  let t := t.write new_page_index { t.page new_page_index with
    records := fun j =>
      if j < LEAF_RIGHT_SPLIT_SIZE
      then (t.page old_page_index).records (LEAF_LEFT_SPLIT_SIZE + j)
      else (t.page new_page_index).records j }
  let t := t.write old_page_index { t.page old_page_index with size := LEAF_LEFT_SPLIT_SIZE }
  let t := t.write new_page_index { t.page new_page_index with size := LEAF_RIGHT_SPLIT_SIZE }
  let in_new_page : Bool := cursor.cell_index > LEAF_LEFT_SPLIT_SIZE
  let new_cursor : Cursor :=
    { page_index := if in_new_page then new_page_index else old_page_index,
      cell_index := cursor.cell_index - (if in_new_page then LEAF_LEFT_SPLIT_SIZE else 0),
      found := cursor.found }
  let t ← leaf_node_insert_raw t new_cursor key value
  .ok (t, old_max_key, parent_page_index, new_page_index)

/-- The rest of `leaf_node_split_and_insert`: the creation of a new root, or
the update of the separator in the parent and the insertion of the new page
into the parent. -/
def leaf_node_split_finish (depth : Nat) (t : Table) (old_page_index : Nat)
    (old_max_key : KeyPtr) (parent_page_index new_page_index : Nat) : Except Fault Table :=
  if (t.page old_page_index).is_root then
    create_new_root depth t new_page_index
  else do
    let (t, new_max_key) ← recursive_max_key_of depth t old_page_index
    let t ← get_page t parent_page_index
    let t ← update_internal_node_key t parent_page_index old_max_key new_max_key
    internal_node_insert depth depth t parent_page_index new_page_index

/-- The records of a leaf, in slot order. -/
def leaf_records (pg : Page) : List Record := (List.range pg.size).map pg.records

/-- The children of an internal page: the branch children in slot order, then
the rightmost child. -/
def children (pg : Page) : List Nat := (List.range (pg.size + 1)).map (internal_child_of pg)

/-- The list with `x` inserted before position `i`. -/
def insert_at {α : Type} (l : List α) (i : Nat) (x : α) : List α := l.take i ++ x :: l.drop i

/-! ## A worked run

Five insertions in ascending order into an empty database, which split the
root leaf and create an internal root, followed by one overwrite. -/

def result_or {α : Type} (d : α) : Except Fault α → α
  | .ok a => a
  | .error _ => d

def succeeds {α : Type} : Except Fault α → Bool
  | .ok _ => true
  | .error _ => false

def sample_page : Page :=
  { type := NODE_INTERNAL, is_root := false, size := 0, parent := 0,
    branches := fun _ => ⟨0, ⟨[]⟩⟩, rightmost := 0, records := fun _ => ⟨⟨[]⟩, ⟨[]⟩⟩ }

def sample_file : File := { length := 0, block := fun _ => sample_page }

def sample_garbage : Nat → Page := fun _ => sample_page

def sample_ops : List (Str × Str) :=
  [(⟨[1]⟩, ⟨[10]⟩), (⟨[2]⟩, ⟨[20]⟩), (⟨[3]⟩, ⟨[30]⟩), (⟨[4]⟩, ⟨[40]⟩), (⟨[5]⟩, ⟨[50]⟩),
   (⟨[2]⟩, ⟨[21]⟩)]

def sample_closed : Table :=
  { file := sample_file, size := 0, pages := fun _ => none, garbage := sample_garbage }

/-- The database right after `db_open` on the empty file. -/
@[irreducible] def sample_open : Table :=
  result_or sample_closed (db_open sample_file sample_garbage)

/-- A file of `2 ^ 44` bytes: `2 ^ 32` pages. -/
def huge_file : File := { length := 2 ^ 44, block := fun _ => sample_page }

/-- The database right after `db_open` on the file of `2 ^ 44` bytes. -/
@[irreducible] def huge_open : Table :=
  result_or sample_closed (db_open huge_file sample_garbage)

/-- The database after the run. -/
@[irreducible] def sample_table : Table :=
  result_or sample_closed (db_set_all sample_open sample_ops)

/-! ## A run that splits the rightmost leaf of an internal root

Six insertions in ascending order fill the rightmost leaf under an internal
root with one branch; the insertion of a seventh key splits that leaf. -/

def split_ops : List (Str × Str) :=
  [(⟨[1]⟩, ⟨[10]⟩), (⟨[2]⟩, ⟨[20]⟩), (⟨[3]⟩, ⟨[30]⟩), (⟨[4]⟩, ⟨[40]⟩), (⟨[5]⟩, ⟨[50]⟩),
   (⟨[6]⟩, ⟨[60]⟩)]

/-- The database after the six insertions. -/
@[irreducible] def split_table : Table :=
  result_or sample_closed (db_set_all sample_open split_ops)

/-- The cursor `table_find` returns for the seventh key. -/
@[irreducible] def split_found : Table × Cursor :=
  result_or (sample_closed, ⟨0, 0, false⟩) (table_find split_table ⟨[7]⟩)

/-- The state after the first part of `leaf_node_split_and_insert`. -/
@[irreducible] def split_leaves : Table × KeyPtr × Nat × Nat :=
  result_or (sample_closed, ⟨0, 0⟩, 0, 0)
    (leaf_node_split split_table.size split_found.1 split_found.2 ⟨[7]⟩ ⟨[70]⟩)

/-- The new maximum key of the split leaf. -/
@[irreducible] def split_max : Table × KeyPtr :=
  result_or (sample_closed, ⟨0, 0⟩)
    (recursive_max_key_of split_table.size split_leaves.1 split_found.2.page_index)

/-- The state in which `update_internal_node_key` is called. -/
@[irreducible] def split_parent : Table :=
  result_or sample_closed (get_page split_max.1 split_leaves.2.2.1)

/-- The state in which the new leaf is inserted into the parent. -/
@[irreducible] def split_updated : Table :=
  result_or sample_closed
    (update_internal_node_key split_parent split_leaves.2.2.1 split_leaves.2.1 split_max.2)

/-- The state after the whole of `leaf_node_split_and_insert` for the seventh key. -/
@[irreducible] def split_done : Table :=
  result_or sample_closed
    (leaf_node_split_and_insert split_table.size split_found.1 split_found.2 ⟨[7]⟩ ⟨[70]⟩)

/-- The maximum key of the new leaf, read in the state before its insertion
into the parent. -/
@[irreducible] def split_child_max : Table × KeyPtr :=
  result_or (sample_closed, ⟨0, 0⟩)
    (recursive_max_key_of split_table.size split_updated split_leaves.2.2.2)

/-- The maximum key of the rightmost child of the parent, read in the same state. -/
@[irreducible] def split_right_max : Table × KeyPtr :=
  result_or (sample_closed, ⟨0, 0⟩)
    (recursive_max_key_of split_table.size split_updated
      (split_updated.page split_leaves.2.2.1).rightmost)

/-! ## A run that splits the internal root

Twelve insertions in ascending order fill the root, which has five leaves, and
its rightmost leaf; the insertion of a thirteenth key splits the leaf and then
the root. -/

def deep_ops : List (Str × Str) :=
  [(⟨[1]⟩, ⟨[10]⟩), (⟨[2]⟩, ⟨[20]⟩), (⟨[3]⟩, ⟨[30]⟩), (⟨[4]⟩, ⟨[40]⟩), (⟨[5]⟩, ⟨[50]⟩),
   (⟨[6]⟩, ⟨[60]⟩), (⟨[7]⟩, ⟨[70]⟩), (⟨[8]⟩, ⟨[80]⟩), (⟨[9]⟩, ⟨[90]⟩), (⟨[10]⟩, ⟨[100]⟩),
   (⟨[11]⟩, ⟨[110]⟩), (⟨[12]⟩, ⟨[120]⟩)]

/-- The database after the twelve insertions. -/
@[irreducible] def deep_table : Table :=
  result_or sample_closed (db_set_all sample_open deep_ops)

/-- The cursor `table_find` returns for the thirteenth key. -/
@[irreducible] def deep_found : Table × Cursor :=
  result_or (sample_closed, ⟨0, 0, false⟩) (table_find deep_table ⟨[13]⟩)

/-- The state after the first part of `leaf_node_split_and_insert`. -/
@[irreducible] def deep_leaves : Table × KeyPtr × Nat × Nat :=
  result_or (sample_closed, ⟨0, 0⟩, 0, 0)
    (leaf_node_split deep_table.size deep_found.1 deep_found.2 ⟨[13]⟩ ⟨[130]⟩)

/-- The new maximum key of the split leaf. -/
@[irreducible] def deep_max : Table × KeyPtr :=
  result_or (sample_closed, ⟨0, 0⟩)
    (recursive_max_key_of deep_table.size deep_leaves.1 deep_found.2.page_index)

/-- The state in which `update_internal_node_key` is called. -/
@[irreducible] def deep_parent : Table :=
  result_or sample_closed (get_page deep_max.1 deep_leaves.2.2.1)

/-- The state in which the new leaf is inserted into the full root. -/
@[irreducible] def deep_updated : Table :=
  result_or sample_closed
    (update_internal_node_key deep_parent deep_leaves.2.2.1 deep_leaves.2.1 deep_max.2)

/-- The state after the split of the root. -/
@[irreducible] def deep_split : Table :=
  result_or sample_closed
    (internal_node_split_and_insert deep_table.size deep_table.size deep_updated
      deep_leaves.2.2.1 deep_leaves.2.2.2)

/-! ## A run that splits a leaf that is not the rightmost child

Five insertions in ascending order split the root leaf; two more keys fill
the left leaf, which is the child of branch 0 of the root; the insertion of
one more key splits that leaf. -/

def left_ops : List (Str × Str) :=
  [(⟨[10]⟩, ⟨[1]⟩), (⟨[20]⟩, ⟨[2]⟩), (⟨[30]⟩, ⟨[3]⟩), (⟨[40]⟩, ⟨[4]⟩), (⟨[50]⟩, ⟨[5]⟩),
   (⟨[11]⟩, ⟨[6]⟩), (⟨[12]⟩, ⟨[7]⟩)]

/-- The database after the seven insertions. -/
@[irreducible] def left_table : Table :=
  result_or sample_closed (db_set_all sample_open left_ops)

/-- The cursor `table_find` returns for the key `[13]`. -/
@[irreducible] def left_found : Table × Cursor :=
  result_or (sample_closed, ⟨0, 0, false⟩) (table_find left_table ⟨[13]⟩)

/-! ## The calls of `recursive_max_key_of`

A second reading of the insertion path of `db_set` that, next to its result,
records every call of `recursive_max_key_of`: the fuel, the table and the page
index the call is made with.  The functions are the ones above with the
record threaded through; `Logged.lift` runs a step that makes no such call. -/

/-- One call of `recursive_max_key_of`. -/
structure MaxCall where
  fuel : Nat
  table : Table
  page_index : Nat

/-- A result together with the calls made so far. -/
structure Logged (α : Type) where
  result : Except Fault α
  calls : List MaxCall

/-- A step that makes no call. -/
def Logged.lift {α : Type} (x : Except Fault α) : Logged α := ⟨x, []⟩

/-- Sequencing: the second step runs when the first has returned, and its
calls follow the calls of the first. -/
def Logged.bind {α β : Type} (x : Logged α) (f : α → Logged β) : Logged β :=
  match x.result with
  | .ok a => ⟨(f a).result, x.calls ++ (f a).calls⟩
  | .error e => ⟨.error e, x.calls⟩

instance : Monad Logged where
  pure a := Logged.lift (.ok a)
  bind := Logged.bind

/-- The entry of a call. -/
def log_call (c : MaxCall) : Logged Unit := ⟨.ok (), [c]⟩

/-- `recursive_max_key_of`, every activation recorded. -/
def recursive_max_key_of_logged : Nat → Table → Nat → Logged (Table × KeyPtr)
  | 0, t, page_index => do
    log_call ⟨0, t, page_index⟩
    Logged.lift (.error .out_of_fuel)
  | fuel + 1, t, page_index => do
    log_call ⟨fuel + 1, t, page_index⟩
    let page := t.page page_index
    match page.type with
    | NODE_LEAF =>
      if page.size = 0 then Logged.lift (.error .undefined)
      else pure (t, ⟨page_index, page.size - 1⟩)
    | NODE_INTERNAL => do
      let t ← Logged.lift (get_page t (internal_rightmost_child_of page))
      recursive_max_key_of_logged fuel t (internal_rightmost_child_of page)

def create_new_root_logged (fuel : Nat) (t : Table) (right_page_index : Nat) : Logged Table := do
  let left_page_index := t.size
  let t ← Logged.lift (get_page t ROOT_PAGE_INDEX)
  let t ← Logged.lift (get_page t left_page_index)
  let t ← Logged.lift (get_page t right_page_index)
  let t := t.write left_page_index (t.page ROOT_PAGE_INDEX)
  let t := t.write left_page_index { t.page left_page_index with is_root := false }
  let t := t.write ROOT_PAGE_INDEX (initialize_internal_node (t.page ROOT_PAGE_INDEX))
  let t := t.write ROOT_PAGE_INDEX { t.page ROOT_PAGE_INDEX with is_root := true }
  let t := t.write ROOT_PAGE_INDEX { t.page ROOT_PAGE_INDEX with size := 1 }
  let t := t.write ROOT_PAGE_INDEX (set_internal_child (t.page ROOT_PAGE_INDEX) 0 left_page_index)
  let (t, left_max_key) ← recursive_max_key_of_logged fuel t left_page_index
  let t := t.write ROOT_PAGE_INDEX
    (set_internal_key (t.page ROOT_PAGE_INDEX) 0 (t.key_at left_max_key))
  let t := t.write ROOT_PAGE_INDEX (set_internal_child (t.page ROOT_PAGE_INDEX) 1 right_page_index)
  let t := t.write left_page_index { t.page left_page_index with parent := ROOT_PAGE_INDEX }
  let t := t.write right_page_index { t.page right_page_index with parent := ROOT_PAGE_INDEX }
  pure t

def internal_node_insert_raw_logged (fuel : Nat) (t : Table)
    (parent_page_index child_page_index : Nat) : Logged Table := do
  let t ← Logged.lift (get_page t parent_page_index)
  let t ← Logged.lift (get_page t child_page_index)
  let old_size := (t.page parent_page_index).size
  if old_size ≥ INTERNAL_BRANCH_SIZE then Logged.lift (.error .undefined)
  let t := t.write child_page_index { t.page child_page_index with parent := parent_page_index }
  let t ← Logged.lift (get_page t (internal_rightmost_child_of (t.page parent_page_index)))
  let right_child := internal_rightmost_child_of (t.page parent_page_index)
  let (t, child_max_key) ← recursive_max_key_of_logged fuel t child_page_index
  let (t, right_max_key) ← recursive_max_key_of_logged fuel t right_child
  if strcmp (t.key_at child_max_key) (t.key_at right_max_key) > 0 then
    let t := t.write parent_page_index
      { t.page parent_page_index with size := (t.page parent_page_index).size + 1 }
    let t := t.write parent_page_index
      (set_internal_child (t.page parent_page_index) old_size
        (internal_rightmost_child_of (t.page parent_page_index)))
    let t := t.write parent_page_index
      (set_internal_key (t.page parent_page_index) old_size (t.key_at right_max_key))
    let t := t.write parent_page_index
      { t.page parent_page_index with rightmost := child_page_index }
    pure t
  else do
    let index ← Logged.lift
      (internal_node_find_child (t.page parent_page_index) (t.key_at child_max_key))
    let t := t.write parent_page_index
      { t.page parent_page_index with size := (t.page parent_page_index).size + 1 }
    let t := t.write parent_page_index
      { t.page parent_page_index with
        branches := memmove_branches (t.page parent_page_index).branches index (old_size - index) }
    let t := t.write parent_page_index
      (set_internal_child (t.page parent_page_index) index child_page_index)
    let t := t.write parent_page_index
      (set_internal_key (t.page parent_page_index) index (t.key_at child_max_key))
    pure t

def internal_node_insert_with_logged (split : Table → Nat → Nat → Logged Table)
    (fuel : Nat) (t : Table) (parent_page_index child_page_index : Nat) : Logged Table := do
  let t ← Logged.lift (get_page t parent_page_index)
  if (t.page parent_page_index).size ≥ INTERNAL_BRANCH_SIZE then
    split t parent_page_index child_page_index
  else
    internal_node_insert_raw_logged fuel t parent_page_index child_page_index

def internal_node_split_and_insert_logged (depth : Nat) :
    Nat → Table → Nat → Nat → Logged Table
  | 0, _, _, _ => Logged.lift (.error .out_of_fuel)
  | fuel + 1, t, old_page_index, child_page_index => do
    let new_page_index := t.size
    let t ← Logged.lift (get_page t old_page_index)
    let t ← Logged.lift (get_page t new_page_index)
    let t := t.write new_page_index (initialize_internal_node (t.page new_page_index))
    let parent_page_index := (t.page old_page_index).parent
    let t := t.write new_page_index { t.page new_page_index with parent := parent_page_index }
    let t ← Logged.lift (get_page t child_page_index)
    let (t, old_max_key) ← recursive_max_key_of_logged depth t old_page_index
    let t := t.write new_page_index { t.page new_page_index with
      branches := fun j =>
        if j < INTERNAL_RIGHT_SPLIT_SIZE
        then (t.page old_page_index).branches (INTERNAL_LEFT_SPLIT_SIZE + j)
        else (t.page new_page_index).branches j }
    let t := t.write old_page_index { t.page old_page_index with size := INTERNAL_LEFT_SPLIT_SIZE }
    let t := t.write new_page_index { t.page new_page_index with size := INTERNAL_RIGHT_SPLIT_SIZE }
    let t := t.write new_page_index { t.page new_page_index with
      rightmost := internal_rightmost_child_of (t.page old_page_index) }
    let t := t.write old_page_index { t.page old_page_index with
      rightmost := internal_child_of (t.page old_page_index) ((t.page old_page_index).size - 1) }
    let mid_key_index := (t.page old_page_index).size - 1
    let t := t.write old_page_index { t.page old_page_index with
      size := (t.page old_page_index).size - 1 }
    let t ← Logged.lift
      (reparent_children new_page_index ((t.page new_page_index).size + 1) 0 t)
    let (t, child_max_key) ← recursive_max_key_of_logged depth t child_page_index
    let insert_to :=
      if strcmp (t.key_at child_max_key) (internal_key_of (t.page old_page_index) mid_key_index) ≤ 0
      then old_page_index else new_page_index
    let t ← internal_node_insert_raw_logged depth t insert_to child_page_index
    if (t.page old_page_index).is_root then do
      let t ← create_new_root_logged depth t new_page_index
      let old_page_index := t.size - 1
      let t ← Logged.lift (get_page t old_page_index)
      Logged.lift (reparent_children old_page_index ((t.page old_page_index).size + 1) 0 t)
    else do
      let (t, new_max_key) ← recursive_max_key_of_logged depth t old_page_index
      let t ← Logged.lift (get_page t parent_page_index)
      let t ← Logged.lift (update_internal_node_key t parent_page_index old_max_key new_max_key)
      internal_node_insert_with_logged (internal_node_split_and_insert_logged depth fuel) depth t
        parent_page_index new_page_index

def internal_node_insert_logged (depth fuel : Nat) (t : Table)
    (parent_page_index child_page_index : Nat) : Logged Table :=
  internal_node_insert_with_logged (internal_node_split_and_insert_logged depth fuel) depth t
    parent_page_index child_page_index

def leaf_node_split_and_insert_logged (depth : Nat) (t : Table) (cursor : Cursor)
    (key value : Str) : Logged Table := do
  let old_page_index := cursor.page_index
  let new_page_index := t.size
  let _ ← Logged.lift (page_by_cursor t cursor)
  let t ← Logged.lift (get_page t t.size)
  let t := t.write new_page_index (initialize_leaf_node (t.page new_page_index))
  let parent_page_index := (t.page old_page_index).parent
  let t := t.write new_page_index { t.page new_page_index with parent := parent_page_index }
  let (t, old_max_key) ← recursive_max_key_of_logged depth t old_page_index
  let t := t.write new_page_index { t.page new_page_index with
    records := fun j =>
      if j < LEAF_RIGHT_SPLIT_SIZE
      then (t.page old_page_index).records (LEAF_LEFT_SPLIT_SIZE + j)
      else (t.page new_page_index).records j }
  let t := t.write old_page_index { t.page old_page_index with size := LEAF_LEFT_SPLIT_SIZE }
  let t := t.write new_page_index { t.page new_page_index with size := LEAF_RIGHT_SPLIT_SIZE }
  let in_new_page : Bool := cursor.cell_index > LEAF_LEFT_SPLIT_SIZE
  let new_cursor : Cursor :=
    { page_index := if in_new_page then new_page_index else old_page_index,
      cell_index := cursor.cell_index - (if in_new_page then LEAF_LEFT_SPLIT_SIZE else 0),
      found := cursor.found }
  let t ← Logged.lift (leaf_node_insert_raw t new_cursor key value)
  if (t.page old_page_index).is_root then
    create_new_root_logged depth t new_page_index
  else do
    let (t, new_max_key) ← recursive_max_key_of_logged depth t old_page_index
    let t ← Logged.lift (get_page t parent_page_index)
    let t ← Logged.lift (update_internal_node_key t parent_page_index old_max_key new_max_key)
    internal_node_insert_logged depth depth t parent_page_index new_page_index

def leaf_node_insert_logged (depth : Nat) (t : Table) (cursor : Cursor) (key value : Str) :
    Logged Table := do
  let page ← Logged.lift (page_by_cursor t cursor)
  if page.size ≥ LEAF_RECORD_SIZE then
    leaf_node_split_and_insert_logged depth t cursor key value
  else
    Logged.lift (leaf_node_insert_raw t cursor key value)

def db_set_locked_logged (t : Table) (key value : Str) : Logged Table := do
  let depth := t.size
  let (t, cursor) ← Logged.lift (table_find t key)
  let page ← Logged.lift (page_by_cursor t cursor)
  if cursor.found then
    pure (t.write cursor.page_index { page with
      records := Function.update page.records cursor.cell_index
        { (page.records cursor.cell_index) with value := value } })
  else
    leaf_node_insert_logged depth t cursor key value

def db_set_logged (t : Table) (key value : Option Str) : Logged Table := do
  Logged.lift (validate_key key)
  Logged.lift (validate_value value)
  match key, value with
  | some key, some value => db_set_locked_logged t key value
  | _, _ => Logged.lift (.error .undefined)

/-- The call returns, with the location of the last record of a leaf that is
not empty. -/
def MaxCall.reaches_leaf (c : MaxCall) : Prop :=
  ∃ t' ptr, recursive_max_key_of c.fuel c.table c.page_index = .ok (t', ptr) ∧
    (t'.page ptr.page_index).type = NODE_LEAF ∧ 0 < (t'.page ptr.page_index).size ∧
    ptr.slot = (t'.page ptr.page_index).size - 1

/-- Every recorded call reaches a leaf that is not empty. -/
def Logged.AllGood {α : Type} (x : Logged α) : Prop := ∀ c, c ∈ x.calls → c.reaches_leaf

/-- The calls of a run that returns have all returned. -/
def Logged.Sound {α : Type} (x : Logged α) : Prop := (∃ a, x.result = .ok a) → x.AllGood

/-- The first part of `internal_node_split_and_insert`, calls recorded. -/
def internal_node_split_logged (depth : Nat) (t : Table) (old_page_index child_page_index : Nat) :
    Logged (Table × KeyPtr × Nat × Nat × Nat) := do
  let new_page_index := t.size
  let t ← Logged.lift (get_page t old_page_index)
  let t ← Logged.lift (get_page t new_page_index)
  let t := t.write new_page_index (initialize_internal_node (t.page new_page_index))
  let parent_page_index := (t.page old_page_index).parent
  let t := t.write new_page_index { t.page new_page_index with parent := parent_page_index }
  let t ← Logged.lift (get_page t child_page_index)
  let (t, old_max_key) ← recursive_max_key_of_logged depth t old_page_index
  let t := t.write new_page_index { t.page new_page_index with
    branches := fun j =>
      if j < INTERNAL_RIGHT_SPLIT_SIZE
      then (t.page old_page_index).branches (INTERNAL_LEFT_SPLIT_SIZE + j)
      else (t.page new_page_index).branches j }
  let t := t.write old_page_index { t.page old_page_index with size := INTERNAL_LEFT_SPLIT_SIZE }
  let t := t.write new_page_index { t.page new_page_index with size := INTERNAL_RIGHT_SPLIT_SIZE }
  let t := t.write new_page_index { t.page new_page_index with
    rightmost := internal_rightmost_child_of (t.page old_page_index) }
  let t := t.write old_page_index { t.page old_page_index with
    rightmost := internal_child_of (t.page old_page_index) ((t.page old_page_index).size - 1) }
  let mid_key_index := (t.page old_page_index).size - 1
  let t := t.write old_page_index { t.page old_page_index with
    size := (t.page old_page_index).size - 1 }
  let t ← Logged.lift (reparent_children new_page_index ((t.page new_page_index).size + 1) 0 t)
  pure (t, old_max_key, mid_key_index, parent_page_index, new_page_index)

/-- The rest of `internal_node_split_and_insert`, calls recorded. -/
def internal_node_split_finish_logged (depth : Nat)
    (rec_split : Table → Nat → Nat → Logged Table)
    (t : Table) (old_page_index child_page_index : Nat) (old_max_key : KeyPtr)
    (mid_key_index parent_page_index new_page_index : Nat) : Logged Table := do
  let (t, child_max_key) ← recursive_max_key_of_logged depth t child_page_index
  let insert_to :=
    if strcmp (t.key_at child_max_key) (internal_key_of (t.page old_page_index) mid_key_index) ≤ 0
    then old_page_index else new_page_index
  let t ← internal_node_insert_raw_logged depth t insert_to child_page_index
  if (t.page old_page_index).is_root then do
    let t ← create_new_root_logged depth t new_page_index
    let old_page_index := t.size - 1
    let t ← Logged.lift (get_page t old_page_index)
    Logged.lift (reparent_children old_page_index ((t.page old_page_index).size + 1) 0 t)
  else do
    let (t, new_max_key) ← recursive_max_key_of_logged depth t old_page_index
    let t ← Logged.lift (get_page t parent_page_index)
    let t ← Logged.lift (update_internal_node_key t parent_page_index old_max_key new_max_key)
    internal_node_insert_with_logged rec_split depth t parent_page_index new_page_index

/-- The first part of `leaf_node_split_and_insert`, calls recorded. -/
def leaf_node_split_logged (depth : Nat) (t : Table) (cursor : Cursor) (key value : Str) :
    Logged (Table × KeyPtr × Nat × Nat) := do
  let old_page_index := cursor.page_index
  let new_page_index := t.size
  let _ ← Logged.lift (page_by_cursor t cursor)
  let t ← Logged.lift (get_page t t.size)
  let t := t.write new_page_index (initialize_leaf_node (t.page new_page_index))
  let parent_page_index := (t.page old_page_index).parent
  let t := t.write new_page_index { t.page new_page_index with parent := parent_page_index }
  let (t, old_max_key) ← recursive_max_key_of_logged depth t old_page_index
  let t := t.write new_page_index { t.page new_page_index with
    records := fun j =>
      if j < LEAF_RIGHT_SPLIT_SIZE
      then (t.page old_page_index).records (LEAF_LEFT_SPLIT_SIZE + j)
      else (t.page new_page_index).records j }
  let t := t.write old_page_index { t.page old_page_index with size := LEAF_LEFT_SPLIT_SIZE }
  let t := t.write new_page_index { t.page new_page_index with size := LEAF_RIGHT_SPLIT_SIZE }
  let in_new_page : Bool := cursor.cell_index > LEAF_LEFT_SPLIT_SIZE
  let new_cursor : Cursor :=
    { page_index := if in_new_page then new_page_index else old_page_index,
      cell_index := cursor.cell_index - (if in_new_page then LEAF_LEFT_SPLIT_SIZE else 0),
      found := cursor.found }
  let t ← Logged.lift (leaf_node_insert_raw t new_cursor key value)
  pure (t, old_max_key, parent_page_index, new_page_index)

/-- The rest of `leaf_node_split_and_insert`, calls recorded. -/
def leaf_node_split_finish_logged (depth : Nat) (t : Table) (old_page_index : Nat)
    (old_max_key : KeyPtr) (parent_page_index new_page_index : Nat) : Logged Table :=
  if (t.page old_page_index).is_root then
    create_new_root_logged depth t new_page_index
  else do
    let (t, new_max_key) ← recursive_max_key_of_logged depth t old_page_index
    let t ← Logged.lift (get_page t parent_page_index)
    let t ← Logged.lift (update_internal_node_key t parent_page_index old_max_key new_max_key)
    internal_node_insert_logged depth depth t parent_page_index new_page_index

/-! # Theorems -/

/-! ## strcmp and the order of strings -/

theorem str_lt_iff (a b : Str) : a < b ↔ a.bytes < b.bytes := Iff.rfl

theorem str_le_iff (a b : Str) : a ≤ b ↔ a.bytes ≤ b.bytes := Iff.rfl

theorem strcmp_bytes_lt_iff : ∀ (a b : List Nat), strcmp_bytes a b < 0 ↔ a < b
  | [], [] => by simp [strcmp_bytes]
  | [], b :: bs => by simp [strcmp_bytes, List.nil_lt_cons]
  | a :: as, [] => by simp [strcmp_bytes]
  | a :: as, b :: bs => by
    have ih := strcmp_bytes_lt_iff as bs
    by_cases hab : a = b
    · subst hab
      simp only [strcmp_bytes, if_true, ih]
      constructor
      · intro h; exact List.Lex.cons h
      · intro h
        rcases h with _ | h | h
        · exact h
        · exact absurd h (lt_irrefl _)
    · simp only [strcmp_bytes, if_neg hab]
      by_cases hlt : a < b
      · simp only [if_pos hlt]
        constructor
        · intro _; exact List.Lex.rel hlt
        · intro _; decide
      · simp only [if_neg hlt]
        constructor
        · intro h; exact absurd h (by decide)
        · intro h
          rcases h with _ | h | h
          · exact absurd rfl hab
          · exact absurd h hlt

theorem strcmp_bytes_eq_zero_iff : ∀ (a b : List Nat), strcmp_bytes a b = 0 ↔ a = b
  | [], [] => by simp [strcmp_bytes]
  | [], b :: bs => by simp [strcmp_bytes]
  | a :: as, [] => by simp [strcmp_bytes]
  | a :: as, b :: bs => by
    have ih := strcmp_bytes_eq_zero_iff as bs
    by_cases hab : a = b
    · subst hab; simp [strcmp_bytes, ih]
    · by_cases hlt : a < b <;> simp [strcmp_bytes, hab, hlt]

theorem strcmp_lt_iff (a b : Str) : strcmp a b < 0 ↔ a < b :=
  strcmp_bytes_lt_iff a.bytes b.bytes

theorem strcmp_eq_zero_iff (a b : Str) : strcmp a b = 0 ↔ a = b := by
  unfold strcmp
  rw [strcmp_bytes_eq_zero_iff]
  constructor
  · intro h; cases a; cases b; cases h; rfl
  · intro h; rw [h]

theorem strcmp_le_iff (a b : Str) : strcmp a b ≤ 0 ↔ a ≤ b := by
  rw [le_iff_lt_or_eq, le_iff_lt_or_eq, strcmp_lt_iff, strcmp_eq_zero_iff]

theorem strcmp_gt_iff (a b : Str) : strcmp a b > 0 ↔ b < a := by
  rw [gt_iff_lt, ← not_le, strcmp_le_iff, not_le]

@[simp] theorem ok_bind {α β : Type} (a : α) (f : α → Except Fault β) :
    (Except.ok a >>= f) = f a := rfl

@[simp] theorem error_bind {α β : Type} (e : Fault) (f : α → Except Fault β) :
    ((Except.error e : Except Fault α) >>= f) = Except.error e := rfl

theorem Returns.yields {α : Type} {x : Except Fault α} {P : α → Prop} (h : Returns x P) :
    Yields x P := by
  obtain ⟨a, rfl, ha⟩ := h
  exact ha

theorem Yields.of_ok {α : Type} {x : Except Fault α} {P : α → Prop} {a : α}
    (h : Yields x P) (hx : x = .ok a) : P a := by
  subst hx; exact h

theorem Yields.seq {α β : Type} {x : Except Fault α} {f : α → Except Fault β}
    {P : α → Prop} {Q : β → Prop} (hx : Yields x P) (hf : ∀ a, P a → Yields (f a) Q) :
    Yields (x >>= f) Q := by
  cases x with
  | ok a => exact hf a hx
  | error e => exact hx

theorem Returns.bind {α β : Type} {x : Except Fault α} {f : α → Except Fault β}
    {P : α → Prop} {Q : β → Prop} (hx : Returns x P) (hf : ∀ a, P a → Returns (f a) Q) :
    Returns (x >>= f) Q := by
  obtain ⟨a, rfl, ha⟩ := hx
  exact hf a ha

theorem Returns.bind_yields {α β : Type} {x : Except Fault α} {f : α → Except Fault β}
    {P : α → Prop} {Q : β → Prop} (hx : Returns x P) (hf : ∀ a, P a → Yields (f a) Q) :
    Yields (x >>= f) Q := hx.yields.seq hf

theorem Yields.post {α : Type} {x : Except Fault α} {P Q : α → Prop} (h : Yields x P)
    (hPQ : ∀ a, P a → Q a) : Yields x Q := by
  cases x with
  | ok a => exact hPQ a h
  | error e => exact h

theorem Returns.mono {α : Type} {x : Except Fault α} {P Q : α → Prop} (h : Returns x P)
    (hPQ : ∀ a, P a → Q a) : Returns x Q := by
  obtain ⟨a, hx, ha⟩ := h
  exact ⟨a, hx, hPQ a ha⟩

/-! ## Page table primitives -/

@[simp] theorem write_size (t : Table) (i : Nat) (p : Page) : (t.write i p).size = t.size := rfl

@[simp] theorem write_file (t : Table) (i : Nat) (p : Page) : (t.write i p).file = t.file := rfl

@[simp] theorem write_garbage (t : Table) (i : Nat) (p : Page) :
    (t.write i p).garbage = t.garbage := rfl

theorem write_pages (t : Table) (i : Nat) (p : Page) (j : Nat) :
    (t.write i p).pages j = if j = i then some p else t.pages j := by
  unfold Table.write
  by_cases h : j = i
  · subst h; simp
  · simp [Function.update, h]

theorem write_page (t : Table) (i : Nat) (p : Page) (j : Nat) :
    (t.write i p).page j = if j = i then p else t.page j := by
  unfold Table.page
  rw [write_pages]
  by_cases h : j = i
  · simp [h]
  · simp [h]

@[simp] theorem write_page_same (t : Table) (i : Nat) (p : Page) : (t.write i p).page i = p := by
  rw [write_page]; simp

theorem write_page_ne (t : Table) (i : Nat) (p : Page) (j : Nat) (h : j ≠ i) :
    (t.write i p).page j = t.page j := by
  rw [write_page]; simp [h]

theorem Same.refl (t : Table) : Same t t :=
  ⟨rfl, rfl, rfl, rfl, fun _ h => h, fun h => h⟩

theorem Same.trans {a b c : Table} (h1 : Same a b) (h2 : Same b c) : Same a c :=
  ⟨h2.size.trans h1.size, h2.page.trans h1.page, h2.file.trans h1.file,
   h2.garbage.trans h1.garbage, fun i h => h2.resident i (h1.resident i h),
   fun h => h2.fresh (h1.fresh h)⟩

/-- `get_page` on an allocated page only makes it resident. -/
theorem get_page_allocated (t : Table) (i : Nat) (hi : i < t.size)
    (hN : t.size ≤ TABLE_MAX_PAGES) :
    Returns (get_page t i) (fun t' => Same t t' ∧ t'.pages i ≠ none) := by
  unfold get_page
  have h1 : ¬ i ≥ TABLE_MAX_PAGES := by omega
  rw [if_neg h1]
  cases hp : t.pages i with
  | some p => exact ⟨t, rfl, Same.refl t, by simp [hp]⟩
  | none =>
    refine ⟨_, rfl, ⟨?_, ?_, rfl, rfl, ?_, ?_⟩, ?_⟩
    · simp; omega
    · funext j
      have h2 : ¬ t.size ≤ i := by omega
      unfold Table.page
      by_cases hj : j = i
      · subst hj; simp [hp, hi, h2]
      · simp [Function.update, hj, h2]
    · intro j hj
      by_cases hji : j = i
      · subst hji; simp
      · simpa [Function.update, hji] using hj
    · rintro ⟨f1, f2, f3, f4⟩
      have h2 : ¬ t.size ≤ i := by omega
      simp only [ge_iff_le, h2, if_false]
      refine ⟨?_, f2, f3, ?_⟩
      · intro j hj
        have hj' : t.size ≤ j := hj
        have : j ≠ i := by omega
        simpa [Function.update, this] using f1 j hj'
      · intro j hj1 hj2
        by_cases hji : j = i
        · subst hji; simp
        · simpa [Function.update, hji] using f4 j hj1 hj2
    · simp

/-- `get_page` at the page count allocates one page with unspecified contents,
or exits when the table is full. -/
theorem get_page_new (t : Table) (hf : PagerOK t) :
    Yields (get_page t t.size) (fun t' =>
      t.size < TABLE_MAX_PAGES ∧ t'.size = t.size + 1 ∧
      (∀ j, j ≠ t.size → t'.page j = t.page j) ∧ (∀ j, j ≠ t.size → t'.pages j = t.pages j) ∧
      t'.pages t.size ≠ none ∧ t'.file = t.file ∧ t'.garbage = t.garbage ∧ PagerOK t') := by
  unfold get_page
  by_cases h1 : t.size ≥ TABLE_MAX_PAGES
  · rw [if_pos h1]; rfl
  · rw [if_neg h1]
    obtain ⟨f1, f2, f3, f4⟩ := hf
    rw [f1 t.size (le_refl _)]
    refine ⟨by omega, by simp, ?_, ?_, by simp, rfl, rfl, ?_⟩
    · intro j hj
      unfold Table.page
      simp only [Function.update, hj, dite_false, ge_iff_le, le_refl, if_true]
      cases hp : t.pages j with
      | some p => rfl
      | none =>
        by_cases hlt : j < t.size
        · have h2 : j < t.size + 1 := by omega
          simp [hlt, h2]
        · have h2 : ¬ j < t.size + 1 := by omega
          simp [hlt, h2]
    · intro j hj
      simp [Function.update, hj]
    · simp only [ge_iff_le, le_refl, if_true]
      refine ⟨?_, f2, ?_, ?_⟩
      · intro j hj
        have hj' : t.size + 1 ≤ j := hj
        have : j ≠ t.size := by omega
        simpa [Function.update, this] using f1 j (by omega)
      · show t.file.length / PAGE_SIZE ≤ t.size + 1
        omega
      · intro j hj1 hj2
        have hj2' : j < t.size + 1 := hj2
        by_cases hji : j = t.size
        · subst hji; simp
        · simpa [Function.update, hji] using f4 j hj1 (by omega)

theorem fresh_write (t : Table) (i : Nat) (p : Page) (hi : i < t.size) (hf : PagerOK t) :
    PagerOK (t.write i p) := by
  obtain ⟨f1, f2, f3, f4⟩ := hf
  refine ⟨?_, f2, f3, ?_⟩
  · intro j hj
    rw [write_pages]
    have : j ≠ i := by
      have : (t.write i p).size = t.size := rfl
      omega
    rw [if_neg this]
    exact f1 j hj
  · intro j hj1 hj2
    rw [write_pages]
    by_cases hji : j = i
    · rw [if_pos hji]; simp
    · rw [if_neg hji]; exact f4 j hj1 hj2

/-! ## Binary searches -/

theorem leaf_node_find_loop_spec (page : Page) (key : Str)
    (hsorted : ∀ i j, i < j → j < page.size → (page.records i).key < (page.records j).key) :
    ∀ (n lower upper : Nat), lower ≤ upper → upper - lower ≤ n → upper ≤ page.size →
      (∀ i, i < lower → (page.records i).key < key) →
      (∀ i, upper ≤ i → i < page.size → key < (page.records i).key) →
      Returns (leaf_node_find_loop page key n lower upper) (fun r =>
        (r.2 = true → r.1 < page.size ∧ (page.records r.1).key = key) ∧
        (r.2 = false → r.1 ≤ page.size ∧ (∀ i, i < r.1 → (page.records i).key < key) ∧
          (∀ i, r.1 ≤ i → i < page.size → key < (page.records i).key))) := by
  intro n
  induction n with
  | zero =>
    intro lower upper hle hn hup hlo hhi
    have : lower = upper := by omega
    subst this
    refine ⟨(lower, false), by simp [leaf_node_find_loop], by simp, ?_⟩
    intro _
    exact ⟨hup, hlo, hhi⟩
  | succ n ih =>
    intro lower upper hle hn hup hlo hhi
    by_cases heq : lower = upper
    · subst heq
      refine ⟨(lower, false), by simp [leaf_node_find_loop], by simp, ?_⟩
      intro _
      exact ⟨hup, hlo, hhi⟩
    · have hidx1 : lower ≤ (lower + upper) / 2 := by omega
      have hidx2 : (lower + upper) / 2 < upper := by omega
      unfold leaf_node_find_loop
      simp only [if_neg heq]
      by_cases h0 : strcmp key (page.records ((lower + upper) / 2)).key = 0
      · simp only [if_pos h0]
        refine ⟨_, rfl, ?_, by simp⟩
        intro _
        exact ⟨by omega, ((strcmp_eq_zero_iff _ _).1 h0).symm⟩
      · simp only [if_neg h0]
        by_cases hlt : strcmp key (page.records ((lower + upper) / 2)).key < 0
        · simp only [if_pos hlt]
          have hk := (strcmp_lt_iff _ _).1 hlt
          apply ih lower ((lower + upper) / 2) hidx1 (by omega) (by omega) hlo
          intro i hi1 hi2
          rcases Nat.eq_or_lt_of_le hi1 with h | h
          · rw [← h]; exact hk
          · exact lt_trans hk (hsorted _ _ h hi2)
        · simp only [if_neg hlt]
          have hk : (page.records ((lower + upper) / 2)).key < key := by
            rcases lt_trichotomy key (page.records ((lower + upper) / 2)).key with h | h | h
            · exact absurd ((strcmp_lt_iff _ _).2 h) hlt
            · exact absurd ((strcmp_eq_zero_iff _ _).2 h) h0
            · exact h
          apply ih ((lower + upper) / 2 + 1) upper (by omega) (by omega) hup _ hhi
          intro i hi
          rcases Nat.eq_or_lt_of_le (Nat.le_of_lt_succ hi) with h | h
          · rw [h]; exact hk
          · exact lt_trans (hsorted _ _ h (by omega)) hk

theorem internal_node_find_child_loop_spec (page : Page) (key : Str)
    (hsorted : ∀ i j, i < j → j < page.size →
      internal_key_of page i < internal_key_of page j) :
    ∀ (n lower upper : Nat), lower ≤ upper → upper - lower ≤ n → upper ≤ page.size →
      (∀ i, i < lower → internal_key_of page i < key) →
      (∀ i, upper ≤ i → i < page.size → key ≤ internal_key_of page i) →
      Returns (internal_node_find_child_loop page key n lower upper) (fun r =>
        r ≤ page.size ∧ (∀ i, i < r → internal_key_of page i < key) ∧
          (∀ i, r ≤ i → i < page.size → key ≤ internal_key_of page i)) := by
  intro n
  induction n with
  | zero =>
    intro lower upper hle hn hup hlo hhi
    have : lower = upper := by omega
    subst this
    exact ⟨lower, by simp [internal_node_find_child_loop], hup, hlo, hhi⟩
  | succ n ih =>
    intro lower upper hle hn hup hlo hhi
    by_cases heq : lower = upper
    · subst heq
      exact ⟨lower, by simp [internal_node_find_child_loop], hup, hlo, hhi⟩
    · have hidx1 : lower ≤ (lower + upper) / 2 := by omega
      have hidx2 : (lower + upper) / 2 < upper := by omega
      unfold internal_node_find_child_loop
      simp only [if_neg heq]
      by_cases hle0 : strcmp key (internal_key_of page ((lower + upper) / 2)) ≤ 0
      · simp only [if_pos hle0]
        have hk := (strcmp_le_iff _ _).1 hle0
        apply ih lower ((lower + upper) / 2) hidx1 (by omega) (by omega) hlo
        intro i hi1 hi2
        rcases Nat.eq_or_lt_of_le hi1 with h | h
        · rw [← h]; exact hk
        · exact le_trans hk (le_of_lt (hsorted _ _ h hi2))
      · simp only [if_neg hle0]
        have hk : internal_key_of page ((lower + upper) / 2) < key := by
          rw [strcmp_le_iff] at hle0
          exact not_le.1 hle0
        apply ih ((lower + upper) / 2 + 1) upper (by omega) (by omega) hup _ hhi
        intro i hi
        rcases Nat.eq_or_lt_of_le (Nat.le_of_lt_succ hi) with h | h
        · rw [h]; exact hk
        · exact lt_trans (hsorted _ _ h (by omega)) hk

/-- On ascending separators `internal_node_find_child` returns the first slot
whose separator is not below the key. -/
theorem internal_node_find_child_spec (page : Page) (key : Str)
    (hsorted : ∀ i j, i < j → j < page.size →
      internal_key_of page i < internal_key_of page j) :
    Returns (internal_node_find_child page key) (fun r =>
      r ≤ page.size ∧ (∀ i, i < r → internal_key_of page i < key) ∧
        (∀ i, r ≤ i → i < page.size → key ≤ internal_key_of page i)) := by
  unfold internal_node_find_child
  apply internal_node_find_child_loop_spec page key hsorted page.size 0 page.size
    (Nat.zero_le _) (by omega) (le_refl _)
  · intro i hi; omega
  · intro i hi1 hi2; omega

/-- The slot `internal_node_find_child` returns is determined by its two
bounds. -/
theorem internal_node_find_child_eq (page : Page) (key : Str) (r : Nat)
    (hsorted : ∀ i j, i < j → j < page.size →
      internal_key_of page i < internal_key_of page j)
    (hr : r ≤ page.size)
    (hlo : ∀ i, i < r → internal_key_of page i < key)
    (hhi : r < page.size → key ≤ internal_key_of page r) :
    internal_node_find_child page key = .ok r := by
  obtain ⟨r', h, h1, h2, h3⟩ := internal_node_find_child_spec page key hsorted
  rw [h]
  congr 1
  rcases lt_trichotomy r' r with hlt | heq | hgt
  · exact absurd (h3 r' (le_refl _) (by omega)) (not_le.2 (hlo r' hlt))
  · exact heq
  · exact absurd (hhi (by omega)) (not_le.2 (h2 r hgt))

/-! ## Consequences of the page invariants -/

theorem Down.same_down {t t' : Table} (h : Same t t') (g : Ghost) (p : Nat) (hd : Down t g p) :
    Down t' g p := by
  unfold Down InternalOK at *
  rw [h.page, h.size]
  exact hd

theorem Up.same_up {t t' : Table} (h : Same t t') (g : Ghost) (p : Nat) (hd : Up t g p) :
    Up t' g p := by
  unfold Up at *
  rw [h.page, h.size]
  exact hd

theorem InvWith.same_inv {t t' : Table} (h : Same t t') (g : Ghost) (hi : InvWith t g) :
    InvWith t' g := by
  obtain ⟨h1, h2, h3, h4, h5⟩ := hi
  refine ⟨by rw [h.size]; exact h1, by rw [h.size]; exact h2, h.fresh h3,
    by rw [h.size]; exact h4, ?_⟩
  intro p hp
  rw [h.size] at hp
  exact ⟨(h5 p hp).1.same_down h g p, (h5 p hp).2.same_up h g p⟩

theorem Stored.same_stored {t t' : Table} (h : Same t t') (k v : Str) :
    Stored t' k v ↔ Stored t k v := by
  unfold Stored
  rw [h.page, h.size]

theorem Down.internal {t : Table} {g : Ghost} {p : Nat} (h : Down t g p)
    (hp : (t.page p).type = NODE_INTERNAL) : InternalOK t g p := by
  unfold Down at h
  rw [hp] at h
  exact h.2

theorem Down.leaf {t : Table} {g : Ghost} {p : Nat} (h : Down t g p)
    (hp : (t.page p).type = NODE_LEAF) :
    g.level p = 0 ∧ LeafOK (t.page p) (g.lo p) (g.hi p) ∧
      (p ≠ 0 → LEAF_LEFT_SPLIT_SIZE ≤ (t.page p).size) := by
  unfold Down at h
  rw [hp] at h
  exact h.2

/-- Consecutive separators of a tiled page ascend. -/
theorem separators_step (pg : Page) (lo hi : Option Str) (glo ghi : Nat → Option Str)
    (htile : ∀ i, i ≤ pg.size →
      glo (internal_child_of pg i) = lower_bound_of pg lo i ∧
      ghi (internal_child_of pg i) = upper_bound_of pg hi i)
    (hapart : ∀ i, i ≤ pg.size →
      Apart (glo (internal_child_of pg i)) (ghi (internal_child_of pg i)))
    (i : Nat) (hi1 : i + 1 < pg.size) :
    internal_key_of pg i < internal_key_of pg (i + 1) := by
  have h1 := htile (i + 1) (by omega)
  have h2 := hapart (i + 1) (by omega)
  rw [h1.1, h1.2] at h2
  apply h2
  · simp [lower_bound_of]
  · simp [upper_bound_of, hi1]

theorem separators_sorted (pg : Page) (lo hi : Option Str) (glo ghi : Nat → Option Str)
    (htile : ∀ i, i ≤ pg.size →
      glo (internal_child_of pg i) = lower_bound_of pg lo i ∧
      ghi (internal_child_of pg i) = upper_bound_of pg hi i)
    (hapart : ∀ i, i ≤ pg.size →
      Apart (glo (internal_child_of pg i)) (ghi (internal_child_of pg i))) :
    ∀ i j, i < j → j < pg.size → internal_key_of pg i < internal_key_of pg j := by
  intro i j hij
  induction j with
  | zero => omega
  | succ j ih =>
    intro hj
    rcases Nat.eq_or_lt_of_le (Nat.le_of_lt_succ hij) with h | h
    · subst h
      exact separators_step pg lo hi glo ghi htile hapart i hj
    · exact lt_trans (ih h (by omega)) (separators_step pg lo hi glo ghi htile hapart j hj)

/-- Tiling and non-emptiness of the children's intervals, read off an
internal page whose children satisfy their own invariant. -/
theorem InternalOK.tile {t : Table} {g : Ghost} {q : Nat} (h : InternalOK t g q) :
    ∀ i, i ≤ (t.page q).size →
      g.lo (internal_child_of (t.page q) i) = lower_bound_of (t.page q) (g.lo q) i ∧
      g.hi (internal_child_of (t.page q) i) = upper_bound_of (t.page q) (g.hi q) i :=
  fun i hi => ⟨(h.2.2 i hi).2.2.2.2.1, (h.2.2 i hi).2.2.2.2.2⟩

theorem InternalOK.apart {t : Table} {g : Ghost} {q : Nat} (h : InternalOK t g q)
    (hd : ∀ p, p < t.size → g.level p < g.level q → Down t g p) :
    ∀ i, i ≤ (t.page q).size →
      Apart (g.lo (internal_child_of (t.page q) i)) (g.hi (internal_child_of (t.page q) i)) := by
  intro i hi
  have := h.2.2 i hi
  exact (hd _ this.1 (by omega)).1

theorem InternalOK.sorted {t : Table} {g : Ghost} {q : Nat} (h : InternalOK t g q)
    (hd : ∀ p, p < t.size → g.level p < g.level q → Down t g p) :
    ∀ i j, i < j → j < (t.page q).size →
      internal_key_of (t.page q) i < internal_key_of (t.page q) j :=
  separators_sorted (t.page q) (g.lo q) (g.hi q) g.lo g.hi h.tile (h.apart hd)

/-- A key of the page's interval is routed to the child whose interval holds it. -/
theorem InternalOK.route {t : Table} {g : Ghost} {q : Nat} (h : InternalOK t g q)
    (hd : ∀ p, p < t.size → g.level p < g.level q → Down t g p)
    (k : Str) (hlo : Above (g.lo q) k) (hhi : Below k (g.hi q)) :
    Returns (internal_node_find_child (t.page q) k) (fun i =>
      i ≤ (t.page q).size ∧
      Above (g.lo (internal_child_of (t.page q) i)) k ∧
      Below k (g.hi (internal_child_of (t.page q) i))) := by
  obtain ⟨i, hi, h1, h2, h3⟩ := internal_node_find_child_spec (t.page q) k (h.sorted hd)
  refine ⟨i, hi, h1, ?_, ?_⟩
  · rw [(h.tile i h1).1]
    intro l hl
    unfold lower_bound_of at hl
    by_cases h0 : i = 0
    · rw [if_pos h0] at hl; exact hlo l hl
    · rw [if_neg h0] at hl
      cases hl
      exact h2 (i - 1) (by omega)
  · rw [(h.tile i h1).2]
    intro u hu
    unfold upper_bound_of at hu
    by_cases h0 : i < (t.page q).size
    · rw [if_pos h0] at hu
      cases hu
      exact h3 i (le_refl _) h0
    · rw [if_neg h0] at hu; exact hhi u hu

/-! ## recursive_max_key_of -/

/-- Below a page whose subtree satisfies the invariant, `recursive_max_key_of`
returns the location of the last key of the leaf at the end of the rightmost
chain; that key lies above the page's lower bound and equals its upper bound
when that is finite. -/
theorem recursive_max_key_of_spec (g : Ghost) :
    ∀ (d : Nat) (t : Table) (p : Nat), t.size ≤ TABLE_MAX_PAGES → p < t.size → g.level p < d →
      (∀ p', p' < t.size → g.level p' ≤ g.level p → Down t g p') →
      ((t.page p).type = NODE_LEAF → 0 < (t.page p).size) →
      Returns (recursive_max_key_of d t p) (fun r =>
        Same t r.1 ∧ r.2.page_index < t.size ∧
        (t.page r.2.page_index).type = NODE_LEAF ∧
        0 < (t.page r.2.page_index).size ∧
        r.2.slot = (t.page r.2.page_index).size - 1 ∧
        Above (g.lo p) (t.key_at r.2) ∧ (∀ h, g.hi p = some h → t.key_at r.2 = h)) := by
  intro d
  induction d with
  | zero => intro t p _ _ h; omega
  | succ d ih =>
    intro t p hN hp hlev hdown hne
    unfold recursive_max_key_of
    have hdp := hdown p hp (le_refl _)
    cases hty : (t.page p).type with
    | NODE_LEAF =>
      have hsz := hne hty
      have hl := (hdp.leaf hty).2.1
      simp only [hty, Nat.ne_of_gt hsz, if_false]
      refine ⟨_, rfl, Same.refl t, hp, hty, hsz, rfl, ?_, ?_⟩
      · exact hl.2.2.1 ((t.page p).size - 1) (by omega)
      · intro h hh
        exact (hl.2.2.2 h hh).2
    | NODE_INTERNAL =>
      have hint := hdp.internal hty
      have hsub : ∀ p', p' < t.size → g.level p' < g.level p → Down t g p' :=
        fun p' h1 h2 => hdown p' h1 (le_of_lt h2)
      have hc := hint.2.2 (t.page p).size (le_refl _)
      have hcr : internal_child_of (t.page p) (t.page p).size = (t.page p).rightmost := by
        simp [internal_child_of, internal_rightmost_child_of]
      rw [hcr] at hc
      obtain ⟨hc1, hc2, hc3, hc4, hc5, hc6⟩ := hc
      simp only [hty, internal_rightmost_child_of]
      obtain ⟨t1, ht1, hs1, _⟩ := get_page_allocated t (t.page p).rightmost hc1 hN
      rw [ht1]
      simp only [ok_bind]
      have hleafc : (t1.page (t.page p).rightmost).type = NODE_LEAF →
          0 < (t1.page (t.page p).rightmost).size := by
        intro hty'
        rw [hs1.page] at hty' ⊢
        have := ((hdown _ hc1 (by omega)).leaf hty').2.2 hc2
        unfold LEAF_LEFT_SPLIT_SIZE at this
        omega
      obtain ⟨r, hr, hr1, hr2, hr3, hr4, hr5, hr6, hr7⟩ :=
        ih t1 (t.page p).rightmost (by rw [hs1.size]; exact hN) (by rw [hs1.size]; exact hc1)
          (by omega)
          (by
            intro p' h1 h2
            rw [hs1.size] at h1
            exact (hdown p' h1 (by omega)).same_down hs1 g p')
          hleafc
      refine ⟨r, hr, hs1.trans hr1, ?_, ?_, ?_, ?_, ?_, ?_⟩
      · rw [hs1.size] at hr2; exact hr2
      · rw [hs1.page] at hr3; exact hr3
      · rw [hs1.page] at hr4; exact hr4
      · rw [hs1.page] at hr5; exact hr5
      · have hk : t1.key_at r.2 = t.key_at r.2 := by
          unfold Table.key_at; rw [hs1.page]
        rw [hk] at hr6
        intro l hl
        have hlast : lower_bound_of (t.page p) (g.lo p) (t.page p).size
            = some (internal_key_of (t.page p) ((t.page p).size - 1)) := by
          unfold lower_bound_of
          rw [if_neg (by have := hint.1; omega)]
        rw [hc5, hlast] at hr6
        have h1 := hr6 _ rfl
        by_cases hone : (t.page p).size - 1 = 0
        · have h0 := hint.tile 0 (Nat.zero_le _)
          have ha := hint.apart hsub 0 (Nat.zero_le _)
          rw [h0.1, h0.2] at ha
          have h2 := ha l (internal_key_of (t.page p) 0)
            (by simp [lower_bound_of, hl])
            (by
              have := hint.1
              simp [upper_bound_of]; omega)
          rw [hone] at h1
          exact lt_trans h2 h1
        · have h0 := hint.tile 0 (Nat.zero_le _)
          have ha := hint.apart hsub 0 (Nat.zero_le _)
          rw [h0.1, h0.2] at ha
          have h2 := ha l (internal_key_of (t.page p) 0)
            (by simp [lower_bound_of, hl])
            (by
              have := hint.1
              simp [upper_bound_of]; omega)
          have h3 := hint.sorted hsub 0 ((t.page p).size - 1) (by omega) (by omega)
          exact lt_trans h2 (lt_trans h3 h1)
      · have hk : t1.key_at r.2 = t.key_at r.2 := by
          unfold Table.key_at; rw [hs1.page]
        rw [hk] at hr7
        intro h hh
        apply hr7
        rw [hc6]
        simp [upper_bound_of, hh]

/-! ## Searching -/

theorem leaf_node_find_spec (g : Ghost) (t : Table) (p : Nat) (k : Str)
    (hN : t.size ≤ TABLE_MAX_PAGES) (hp : p < t.size) (hty : (t.page p).type = NODE_LEAF)
    (hd : Down t g p) (hlo : Above (g.lo p) k) (hhi : Below k (g.hi p)) :
    Returns (leaf_node_find t p k) (fun r => Same t r.1 ∧ CursorAt r.1 g k r.2) := by
  unfold leaf_node_find
  obtain ⟨t1, ht1, hs1, hres⟩ := get_page_allocated t p hp hN
  rw [ht1]
  simp only [ok_bind]
  have hl := (hd.leaf hty).2.1
  rw [hs1.page]
  obtain ⟨r, hr, hr1, hr2⟩ := leaf_node_find_loop_spec (t.page p) k hl.2.1 (t.page p).size 0
    (t.page p).size (Nat.zero_le _) (by omega) (le_refl _) (by intro i hi; omega)
    (by intro i h1 h2; omega)
  rw [hr]
  obtain ⟨ci, fd⟩ := r
  simp only [ok_bind]
  refine ⟨_, rfl, hs1, ?_⟩
  unfold CursorAt
  simp only [hs1.page, hs1.size]
  exact ⟨hp, hty, hres, hlo, hhi, hr1, hr2⟩

theorem internal_node_find_spec (g : Ghost) (k : Str) :
    ∀ (fuel : Nat) (t : Table) (q : Nat), InvWith t g → q < t.size →
      (t.page q).type = NODE_INTERNAL → g.level q ≤ fuel →
      Above (g.lo q) k → Below k (g.hi q) →
      Returns (internal_node_find fuel t q k) (fun r => Same t r.1 ∧ CursorAt r.1 g k r.2) := by
  intro fuel
  induction fuel with
  | zero =>
    intro t q hinv hq hty hlev _ _
    have hint := ((hinv.2.2.2.2 q hq).1).internal hty
    have := (hint.2.2 0 (Nat.zero_le _)).2.2.2.1
    omega
  | succ fuel ih =>
    intro t q hinv hq hty hlev hlo hhi
    have hN := hinv.2.1
    unfold internal_node_find
    obtain ⟨t1, ht1, hs1, _⟩ := get_page_allocated t q hq hN
    rw [ht1]
    simp only [ok_bind]
    rw [hs1.page]
    have hint := ((hinv.2.2.2.2 q hq).1).internal hty
    have hsub : ∀ p, p < t.size → g.level p < g.level q → Down t g p :=
      fun p h1 _ => (hinv.2.2.2.2 p h1).1
    obtain ⟨i, hi, hi1, hi2, hi3⟩ := hint.route hsub k hlo hhi
    rw [hi]
    simp only [ok_bind]
    obtain ⟨hc1, hc2, hc3, hc4, hc5, hc6⟩ := hint.2.2 i hi1
    obtain ⟨t2, ht2, hs2, _⟩ := get_page_allocated t1 (internal_child_of (t.page q) i)
      (by rw [hs1.size]; exact hc1) (by rw [hs1.size]; exact hN)
    rw [ht2]
    simp only [ok_bind]
    have hs12 := hs1.trans hs2
    have hinv2 := hinv.same_inv hs12 g
    rw [hs12.page]
    cases htc : (t.page (internal_child_of (t.page q) i)).type with
    | NODE_LEAF =>
      simp only []
      obtain ⟨r, hr, hr1, hr2⟩ := leaf_node_find_spec g t2 (internal_child_of (t.page q) i) k
        hinv2.2.1 (by rw [hs12.size]; exact hc1) (by rw [hs12.page]; exact htc)
        ((hinv.2.2.2.2 _ hc1).1.same_down hs12 g _) hi2 hi3
      exact ⟨r, hr, hs12.trans hr1, hr2⟩
    | NODE_INTERNAL =>
      simp only []
      obtain ⟨r, hr, hr1, hr2⟩ := ih t2 (internal_child_of (t.page q) i) hinv2
        (by rw [hs12.size]; exact hc1) (by rw [hs12.page]; exact htc) (by omega) hi2 hi3
      exact ⟨r, hr, hs12.trans hr1, hr2⟩

theorem table_find_spec (g : Ghost) (t : Table) (k : Str) (hinv : InvWith t g) :
    Returns (table_find t k) (fun r => Same t r.1 ∧ CursorAt r.1 g k r.2) := by
  unfold table_find
  have hN := hinv.2.1
  have h0 : 0 < t.size := hinv.1
  obtain ⟨t1, ht1, hs1, _⟩ := get_page_allocated t ROOT_PAGE_INDEX h0 hN
  rw [ht1]
  simp only [ok_bind]
  have hinv1 := hinv.same_inv hs1 g
  have hup := (hinv.2.2.2.2 0 h0).2
  unfold Up at hup
  simp only [if_true] at hup
  have hlo : Above (g.lo 0) k := by rw [hup.2.1]; intro l hl; cases hl
  have hhi : Below k (g.hi 0) := by rw [hup.2.2]; intro l hl; cases hl
  rw [hs1.page]
  cases hty : (t.page ROOT_PAGE_INDEX).type with
  | NODE_LEAF =>
    simp only []
    obtain ⟨r, hr, hr1, hr2⟩ := leaf_node_find_spec g t1 ROOT_PAGE_INDEX k hinv1.2.1
      (by rw [hs1.size]; exact h0) (by rw [hs1.page]; exact hty)
      ((hinv.2.2.2.2 0 h0).1.same_down hs1 g _) hlo hhi
    exact ⟨r, hr, hs1.trans hr1, hr2⟩
  | NODE_INTERNAL =>
    simp only []
    obtain ⟨r, hr, hr1, hr2⟩ := internal_node_find_spec g k t.size t1 ROOT_PAGE_INDEX hinv1
      (by rw [hs1.size]; exact h0) (by rw [hs1.page]; exact hty)
      (by have := hinv.2.2.2.1; unfold ROOT_PAGE_INDEX; omega) hlo hhi
    exact ⟨r, hr, hs1.trans hr1, hr2⟩

/-! ## Intervals of distinct pages of one level do not meet -/

theorem InternalOK.lo_first {t : Table} {g : Ghost} {q : Nat} (h : InternalOK t g q)
    (hd : ∀ p, p < t.size → g.level p < g.level q → Down t g p) :
    Above (g.lo q) (internal_key_of (t.page q) 0) := by
  intro l hl
  have h0 := h.tile 0 (Nat.zero_le _)
  have ha := h.apart hd 0 (Nat.zero_le _)
  rw [h0.1, h0.2] at ha
  exact ha l _ (by simp [lower_bound_of, hl]) (by have := h.1; simp [upper_bound_of]; omega)

theorem InternalOK.hi_last {t : Table} {g : Ghost} {q : Nat} (h : InternalOK t g q)
    (hd : ∀ p, p < t.size → g.level p < g.level q → Down t g p) :
    ∀ u, g.hi q = some u → internal_key_of (t.page q) ((t.page q).size - 1) < u := by
  intro u hu
  have h0 := h.tile (t.page q).size (le_refl _)
  have ha := h.apart hd (t.page q).size (le_refl _)
  rw [h0.1, h0.2] at ha
  exact ha _ u (by have := h.1; simp [lower_bound_of]; omega) (by simp [upper_bound_of, hu])

theorem InternalOK.sorted_le {t : Table} {g : Ghost} {q : Nat} (h : InternalOK t g q)
    (hd : ∀ p, p < t.size → g.level p < g.level q → Down t g p) (i j : Nat) (hij : i ≤ j)
    (hj : j < (t.page q).size) :
    internal_key_of (t.page q) i ≤ internal_key_of (t.page q) j := by
  rcases Nat.eq_or_lt_of_le hij with h1 | h1
  · rw [h1]
  · exact le_of_lt (h.sorted hd i j h1 hj)

theorem InternalOK.child_lo_ge {t : Table} {g : Ghost} {q : Nat} (h : InternalOK t g q)
    (hd : ∀ p, p < t.size → g.level p < g.level q → Down t g p) (i : Nat)
    (hi : i ≤ (t.page q).size) (l : Str) (hl : g.lo q = some l) :
    ∃ l', g.lo (internal_child_of (t.page q) i) = some l' ∧ l ≤ l' := by
  rw [(h.tile i hi).1]
  unfold lower_bound_of
  by_cases h0 : i = 0
  · rw [if_pos h0]; exact ⟨l, hl, le_refl _⟩
  · rw [if_neg h0]
    refine ⟨_, rfl, ?_⟩
    have h1 := h.lo_first hd l hl
    have h2 := h.sorted_le hd 0 (i - 1) (Nat.zero_le _) (by omega)
    exact le_of_lt (lt_of_lt_of_le h1 h2)

theorem InternalOK.child_hi_le {t : Table} {g : Ghost} {q : Nat} (h : InternalOK t g q)
    (hd : ∀ p, p < t.size → g.level p < g.level q → Down t g p) (i : Nat)
    (hi : i ≤ (t.page q).size) (u : Str) (hu : g.hi q = some u) :
    ∃ u', g.hi (internal_child_of (t.page q) i) = some u' ∧ u' ≤ u := by
  rw [(h.tile i hi).2]
  unfold upper_bound_of
  by_cases h0 : i < (t.page q).size
  · rw [if_pos h0]
    refine ⟨_, rfl, ?_⟩
    have h1 := h.hi_last hd u hu
    have h2 := h.sorted_le hd i ((t.page q).size - 1) (by omega) (by omega)
    exact le_of_lt (lt_of_le_of_lt h2 h1)
  · rw [if_neg h0]; exact ⟨u, hu, le_refl _⟩

/-- Earlier children lie before later children. -/
theorem InternalOK.siblings {t : Table} {g : Ghost} {q : Nat} (h : InternalOK t g q)
    (hd : ∀ p, p < t.size → g.level p < g.level q → Down t g p) (i j : Nat) (hij : i < j)
    (hj : j ≤ (t.page q).size) :
    Before (g.hi (internal_child_of (t.page q) i)) (g.lo (internal_child_of (t.page q) j)) := by
  rw [(h.tile i (by omega)).2, (h.tile j hj).1]
  unfold upper_bound_of lower_bound_of
  rw [if_pos (by omega), if_neg (by omega)]
  exact ⟨_, _, rfl, rfl, h.sorted_le hd i (j - 1) (by omega) (by omega)⟩

theorem disjoint_same_level (t : Table) (g : Ghost) (hinv : InvWith t g) :
    ∀ (d p p' : Nat), p < t.size → p' < t.size → p ≠ p' → g.level p = g.level p' →
      g.level p + d = g.level 0 →
      Before (g.hi p) (g.lo p') ∨ Before (g.hi p') (g.lo p) := by
  have hall := hinv.2.2.2.2
  have hdown : ∀ (q : Nat) (p : Nat), p < t.size → g.level p < g.level q → Down t g p :=
    fun _ p h _ => (hall p h).1
  have hup : ∀ p, p < t.size → p ≠ 0 →
      (t.page p).is_root = false ∧ g.level p < g.level 0 ∧
      (t.page p).parent < t.size ∧
      (t.page (t.page p).parent).type = NODE_INTERNAL ∧
      ∃ i, i ≤ (t.page (t.page p).parent).size ∧
        internal_child_of (t.page (t.page p).parent) i = p := by
    intro p hp hp0
    have := (hall p hp).2
    unfold Up at this
    rw [if_neg hp0] at this
    exact this
  intro d
  induction d with
  | zero =>
    intro p p' hp hp' hne hlev hd
    exfalso
    have h1 : p = 0 := by
      by_contra h0
      have := (hup p hp h0).2.1
      omega
    have h2 : p' = 0 := by
      by_contra h0
      have := (hup p' hp' h0).2.1
      omega
    exact hne (h1.trans h2.symm)
  | succ d ih =>
    intro p p' hp hp' hne hlev hd
    have hp0 : p ≠ 0 := by intro h; subst h; omega
    have hp0' : p' ≠ 0 := by intro h; subst h; omega
    obtain ⟨_, _, hq, hqt, i, hi, hci⟩ := hup p hp hp0
    obtain ⟨_, _, hq', hqt', i', hi', hci'⟩ := hup p' hp' hp0'
    have hint := (hall _ hq).1.internal hqt
    have hint' := (hall _ hq').1.internal hqt'
    have hl1 := (hint.2.2 i hi).2.2.2.1
    have hl2 := (hint'.2.2 i' hi').2.2.2.1
    rw [hci] at hl1
    rw [hci'] at hl2
    by_cases hqq : (t.page p).parent = (t.page p').parent
    · rw [← hqq] at hi' hci' hint'
      rcases lt_trichotomy i i' with h | h | h
      · left
        have := hint.siblings (hdown _) i i' h hi'
        rw [hci, hci'] at this
        exact this
      · exfalso; apply hne; rw [← hci, ← hci', h]
      · right
        have := hint.siblings (hdown _) i' i h hi
        rw [hci, hci'] at this
        exact this
    · rcases ih _ _ hq hq' hqq (by omega) (by omega) with h | h
      · left
        obtain ⟨u, l, hu, hl, hul⟩ := h
        obtain ⟨u', hu', hu2⟩ := hint.child_hi_le (hdown _) i hi u hu
        obtain ⟨l', hl', hl2⟩ := hint'.child_lo_ge (hdown _) i' hi' l hl
        rw [hci] at hu'
        rw [hci'] at hl'
        exact ⟨u', l', hu', hl', le_trans hu2 (le_trans hul hl2)⟩
      · right
        obtain ⟨u, l, hu, hl, hul⟩ := h
        obtain ⟨u', hu', hu2⟩ := hint'.child_hi_le (hdown _) i' hi' u hu
        obtain ⟨l', hl', hl2⟩ := hint.child_lo_ge (hdown _) i hi l hl
        rw [hci'] at hu'
        rw [hci] at hl'
        exact ⟨u', l', hu', hl', le_trans hu2 (le_trans hul hl2)⟩

/-- Every key of a leaf lies in the leaf's interval. -/
theorem LeafOK.key_range {pg : Page} {lo hi : Option Str} (h : LeafOK pg lo hi) (i : Nat)
    (hi1 : i < pg.size) : Above lo (pg.records i).key ∧ Below (pg.records i).key hi := by
  refine ⟨h.2.2.1 i hi1, ?_⟩
  intro u hu
  obtain ⟨h1, h2⟩ := h.2.2.2 u hu
  rw [← h2]
  rcases Nat.eq_or_lt_of_le (Nat.le_sub_one_of_lt hi1) with h3 | h3
  · rw [h3]
  · exact le_of_lt (h.2.1 i (pg.size - 1) h3 (by omega))

theorem LeafOK.key_inj {pg : Page} {lo hi : Option Str} (h : LeafOK pg lo hi) (i j : Nat)
    (hi1 : i < pg.size) (hj : j < pg.size) (heq : (pg.records i).key = (pg.records j).key) :
    i = j := by
  rcases lt_trichotomy i j with h1 | h1 | h1
  · exact absurd heq (ne_of_lt (h.2.1 i j h1 hj))
  · exact h1
  · exact absurd heq.symm (ne_of_lt (h.2.1 j i h1 hi1))

/-- A key lies in the interval of at most one leaf. -/
theorem leaf_unique (t : Table) (g : Ghost) (hinv : InvWith t g) (p p' : Nat) (k : Str)
    (hp : p < t.size) (hp' : p' < t.size)
    (hty : (t.page p).type = NODE_LEAF) (hty' : (t.page p').type = NODE_LEAF)
    (h1 : Above (g.lo p) k) (h2 : Below k (g.hi p))
    (h3 : Above (g.lo p') k) (h4 : Below k (g.hi p')) : p = p' := by
  by_contra hne
  have hl := ((hinv.2.2.2.2 p hp).1.leaf hty).1
  have hl' := ((hinv.2.2.2.2 p' hp').1.leaf hty').1
  rcases disjoint_same_level t g hinv (g.level 0) p p' hp hp' hne (by omega) (by omega) with h | h
  · obtain ⟨u, l, hu, hl, hul⟩ := h
    exact absurd (lt_of_le_of_lt (le_trans (h2 u hu) hul) (h3 l hl)) (lt_irrefl _)
  · obtain ⟨u, l, hu, hl, hul⟩ := h
    exact absurd (lt_of_le_of_lt (le_trans (h4 u hu) hul) (h1 l hl)) (lt_irrefl _)

/-- A stored key sits in the leaf and slot the cursor of `table_find` names. -/
theorem stored_at_cursor (t : Table) (g : Ghost) (hinv : InvWith t g) (k v : Str) (c : Cursor)
    (hc : CursorAt t g k c) (hs : Stored t k v) :
    c.found = true ∧ (t.page c.page_index).records c.cell_index = ⟨k, v⟩ := by
  obtain ⟨p, hp, hty, i, hi, hrec⟩ := hs
  obtain ⟨c1, c2, c3, c4, c5, c6, c7⟩ := hc
  have hl := ((hinv.2.2.2.2 p hp).1.leaf hty).2.1
  have hk : ((t.page p).records i).key = k := by rw [hrec]
  have hr := hl.key_range i hi
  rw [hk] at hr
  have hpp : p = c.page_index := leaf_unique t g hinv p c.page_index k hp c1 hty c2 hr.1 hr.2 c4 c5
  subst hpp
  cases hf : c.found with
  | true =>
    refine ⟨rfl, ?_⟩
    have h6 := c6 hf
    have := hl.key_inj i c.cell_index hi h6.1 (by rw [hk, h6.2])
    rw [← this, hrec]
  | false =>
    exfalso
    have h7 := c7 hf
    by_cases hlt : i < c.cell_index
    · have := h7.2.1 i hlt
      rw [hk] at this
      exact lt_irrefl _ this
    · have := h7.2.2 i (by omega) hi
      rw [hk] at this
      exact lt_irrefl _ this

theorem page_by_cursor_resident (t : Table) (c : Cursor) (h : t.pages c.page_index ≠ none) :
    page_by_cursor t c = .ok (t.page c.page_index) := by
  unfold page_by_cursor Table.page
  cases hp : t.pages c.page_index with
  | none => exact absurd hp h
  | some p => rfl

/-- `db_get` returns the stored value of a stored key and `NULL` for any other key. -/
theorem db_get_locked_spec (t : Table) (g : Ghost) (hinv : InvWith t g) (k : Str) :
    Returns (db_get_locked t k) (fun r => Same t r.1 ∧ ∀ v, r.2 = some v ↔ Stored t k v) := by
  unfold db_get_locked
  obtain ⟨⟨t1, c⟩, hr, hs1, hc⟩ := table_find_spec g t k hinv
  rw [hr]
  simp only [ok_bind]
  have hinv1 := hinv.same_inv hs1 g
  rw [page_by_cursor_resident t1 c hc.2.2.1]
  simp only [ok_bind]
  cases hf : c.found with
  | true =>
    simp only [if_true]
    refine ⟨_, rfl, hs1, ?_⟩
    intro v
    rw [← Stored.same_stored hs1]
    constructor
    · intro hv
      have h6 := hc.2.2.2.2.2.1 hf
      refine ⟨c.page_index, hc.1, hc.2.1, c.cell_index, h6.1, ?_⟩
      simp only [Option.some.injEq] at hv
      rw [← hv, ← h6.2]
    · intro hv
      have := (stored_at_cursor t1 g hinv1 k v c hc hv).2
      simp [this]
  | false =>
    simp only [Bool.false_eq_true, if_false]
    refine ⟨_, rfl, hs1, ?_⟩
    intro v
    rw [← Stored.same_stored hs1]
    constructor
    · intro hv; cases hv
    · intro hv
      have := (stored_at_cursor t1 g hinv1 k v c hc hv).1
      rw [hf] at this
      cases this

/-! ## Updates of one leaf -/

/-- The invariant survives a change of the records of one leaf that keeps the
leaf invariant. -/
theorem InvWith.update_leaf {t : Table} {g : Ghost} (hinv : InvWith t g) (t' : Table) (p : Nat)
    (hp : p < t.size) (hty : (t.page p).type = NODE_LEAF)
    (hsize : t'.size = t.size) (hfresh : PagerOK t')
    (hother : ∀ j, j ≠ p → t'.page j = t.page j)
    (hty' : (t'.page p).type = NODE_LEAF)
    (hroot : (t'.page p).is_root = (t.page p).is_root)
    (hpar : (t'.page p).parent = (t.page p).parent)
    (hleaf : LeafOK (t'.page p) (g.lo p) (g.hi p))
    (hmin : p ≠ 0 → LEAF_LEFT_SPLIT_SIZE ≤ (t'.page p).size) :
    InvWith t' g := by
  obtain ⟨h1, h2, h3, h4, h5⟩ := hinv
  refine ⟨by omega, by omega, hfresh, by omega, ?_⟩
  intro j hj
  rw [hsize] at hj
  have hparent : ∀ c, (t'.page c).parent = (t.page c).parent := by
    intro c
    by_cases hc : c = p
    · rw [hc, hpar]
    · rw [hother c hc]
  constructor
  · by_cases hjp : j = p
    · subst hjp
      have hd := (h5 j hj).1
      unfold Down
      rw [hty']
      exact ⟨hd.1, (hd.leaf hty).1, hleaf, hmin⟩
    · have hd := (h5 j hj).1
      unfold Down InternalOK at *
      rw [hother j hjp, hsize]
      cases htj : (t.page j).type with
      | NODE_LEAF => rw [htj] at hd; exact hd
      | NODE_INTERNAL =>
        rw [htj] at hd
        refine ⟨hd.1, hd.2.1, hd.2.2.1, ?_⟩
        intro i hi
        have := hd.2.2.2 i hi
        rw [hparent]
        exact this
  · have hu := (h5 j hj).2
    unfold Up at *
    by_cases hj0 : j = 0
    · rw [if_pos hj0] at hu ⊢
      refine ⟨?_, hu.2⟩
      by_cases h0 : (0 : Nat) = p
      · rw [h0, hroot, ← h0]; exact hu.1
      · rw [hother 0 h0]; exact hu.1
    · rw [if_neg hj0] at hu ⊢
      obtain ⟨u1, u2, u3, u4, u5⟩ := hu
      have hq : (t.page j).parent ≠ p := by
        intro h; rw [h, hty] at u4; cases u4
      have hrj : (t'.page j).is_root = (t.page j).is_root := by
        by_cases hjp : j = p
        · rw [hjp, hroot]
        · rw [hother j hjp]
      rw [hparent, hrj, hother _ hq, hsize]
      exact ⟨u1, u2, u3, u4, u5⟩

/-- Changing values only, or records of leaves in general, is seen by `Stored`
exactly through the changed leaf. -/
theorem stored_update_leaf (t t' : Table) (p : Nat) (hsize : t'.size = t.size)
    (hother : ∀ j, j ≠ p → t'.page j = t.page j) (k v : Str) :
    Stored t' k v ↔
      (∃ j, j ≠ p ∧ j < t.size ∧ (t.page j).type = NODE_LEAF ∧
        ∃ i, i < (t.page j).size ∧ (t.page j).records i = ⟨k, v⟩) ∨
      (p < t.size ∧ (t'.page p).type = NODE_LEAF ∧
        ∃ i, i < (t'.page p).size ∧ (t'.page p).records i = ⟨k, v⟩) := by
  unfold Stored
  rw [hsize]
  constructor
  · rintro ⟨j, hj, hty, i, hi, hrec⟩
    by_cases hjp : j = p
    · subst hjp; right; exact ⟨hj, hty, i, hi, hrec⟩
    · left
      rw [hother j hjp] at hty hi hrec
      exact ⟨j, hjp, hj, hty, i, hi, hrec⟩
  · rintro (⟨j, hjp, hj, hty, i, hi, hrec⟩ | ⟨hj, hty, i, hi, hrec⟩)
    · refine ⟨j, hj, ?_, i, ?_, ?_⟩ <;> rw [hother j hjp] <;> assumption
    · exact ⟨p, hj, hty, i, hi, hrec⟩

/-! ### The effect of `leaf_node_insert_raw` -/

theorem write_write (t : Table) (i : Nat) (p p' : Page) :
    (t.write i p).write i p' = t.write i p' := by
  unfold Table.write
  simp

theorem leaf_node_insert_raw_eq (t : Table) (c : Cursor) (key value : Str)
    (hres : t.pages c.page_index ≠ none)
    (hroom : (t.page c.page_index).size < LEAF_RECORD_SIZE) :
    leaf_node_insert_raw t c key value = .ok (t.write c.page_index
      { t.page c.page_index with
        size := (t.page c.page_index).size + 1,
        records := fun j =>
          if j = c.cell_index then ⟨key, value⟩
          else if c.cell_index < j ∧ j ≤ (t.page c.page_index).size
          then (t.page c.page_index).records (j - 1)
          else (t.page c.page_index).records j }) := by
  unfold leaf_node_insert_raw
  rw [page_by_cursor_resident t c hres]
  have hroom' : ¬ (t.page c.page_index).size ≥ LEAF_RECORD_SIZE := by omega
  simp only [ok_bind, write_page_same, write_write, hroom', if_false]
  have hrec : (Function.update (Function.update
        (memmove_records (t.page c.page_index).records c.cell_index
          ((t.page c.page_index).size - c.cell_index)) c.cell_index
        { key := key,
          value := (memmove_records (t.page c.page_index).records c.cell_index
            ((t.page c.page_index).size - c.cell_index) c.cell_index).value })
        c.cell_index
        { key := (Function.update (memmove_records (t.page c.page_index).records c.cell_index
            ((t.page c.page_index).size - c.cell_index)) c.cell_index
            { key := key,
              value := (memmove_records (t.page c.page_index).records c.cell_index
                ((t.page c.page_index).size - c.cell_index) c.cell_index).value }
            c.cell_index).key,
          value := value }) =
      (fun j =>
          if j = c.cell_index then ⟨key, value⟩
          else if c.cell_index < j ∧ j ≤ (t.page c.page_index).size
          then (t.page c.page_index).records (j - 1)
          else (t.page c.page_index).records j) := by
    funext j
    by_cases hj : j = c.cell_index
    · subst hj
      simp [Function.update]
    · simp only [Function.update, hj, dite_false, if_false, memmove_records]
      by_cases h1 : c.cell_index < j ∧ j ≤ (t.page c.page_index).size
      · have h2 : c.cell_index < j ∧
            j ≤ c.cell_index + ((t.page c.page_index).size - c.cell_index) := by omega
        rw [if_pos h1, if_pos h2]
      · have h2 : ¬ (c.cell_index < j ∧
            j ≤ c.cell_index + ((t.page c.page_index).size - c.cell_index)) := by omega
        rw [if_neg h1, if_neg h2]
  rw [hrec]
  rfl

/-- A key is stored at most once. -/
theorem stored_unique (t : Table) (g : Ghost) (hinv : InvWith t g) (k v v' : Str)
    (h1 : Stored t k v) (h2 : Stored t k v') : v = v' := by
  obtain ⟨p, hp, hty, i, hi, hrec⟩ := h1
  obtain ⟨p', hp', hty', i', hi', hrec'⟩ := h2
  have hl := ((hinv.2.2.2.2 p hp).1.leaf hty).2.1
  have hl' := ((hinv.2.2.2.2 p' hp').1.leaf hty').2.1
  have hk : ((t.page p).records i).key = k := by rw [hrec]
  have hk' : ((t.page p').records i').key = k := by rw [hrec']
  have hr := hl.key_range i hi
  have hr' := hl'.key_range i' hi'
  rw [hk] at hr
  rw [hk'] at hr'
  have hpp := leaf_unique t g hinv p p' k hp hp' hty hty' hr.1 hr.2 hr'.1 hr'.2
  subst hpp
  have hii := hl.key_inj i i' hi hi' (by rw [hk, hk'])
  subst hii
  rw [hrec] at hrec'
  cases hrec'
  rfl

/-- Insertion of a record at its lower-bound slot keeps a leaf ordered. -/
theorem LeafOK.insert {pg : Page} {lo hi : Option Str} (h : LeafOK pg lo hi) (c : Nat)
    (k v : Str) (hsz : pg.size < LEAF_RECORD_SIZE) (hc : c ≤ pg.size)
    (hbelow : ∀ i, i < c → (pg.records i).key < k)
    (habove : ∀ i, c ≤ i → i < pg.size → k < (pg.records i).key)
    (hlo : Above lo k) (hhi : Below k hi) :
    LeafOK { pg with
      size := pg.size + 1,
      records := fun j =>
        if j = c then ⟨k, v⟩
        else if c < j ∧ j ≤ pg.size then pg.records (j - 1)
        else pg.records j } lo hi := by
  obtain ⟨h1, h2, h3, h4⟩ := h
  refine ⟨by simp only; omega, ?_, ?_, ?_⟩
  · intro i j hij hj
    simp only at hj ⊢
    by_cases hic : i = c
    · have hjc : ¬ j = c := by omega
      have hj2 : c < j ∧ j ≤ pg.size := by omega
      rw [if_pos hic, if_neg hjc, if_pos hj2]
      exact habove (j - 1) (by omega) (by omega)
    · rw [if_neg hic]
      by_cases hi2 : c < i ∧ i ≤ pg.size
      · have hjc : ¬ j = c := by omega
        have hj2 : c < j ∧ j ≤ pg.size := by omega
        rw [if_pos hi2, if_neg hjc, if_pos hj2]
        exact h2 (i - 1) (j - 1) (by omega) (by omega)
      · rw [if_neg hi2]
        have hilt : i < c := by omega
        by_cases hjc : j = c
        · rw [if_pos hjc]; exact hbelow i hilt
        · rw [if_neg hjc]
          by_cases hj2 : c < j ∧ j ≤ pg.size
          · rw [if_pos hj2]
            rcases Nat.eq_or_lt_of_le (Nat.le_sub_one_of_lt hj2.1) with h5 | h5
            · exact lt_trans (hbelow i hilt) (habove (j - 1) (by omega) (by omega))
            · exact h2 i (j - 1) (by omega) (by omega)
          · rw [if_neg hj2]
            exact h2 i j hij (by omega)
  · intro i hi1
    simp only at hi1 ⊢
    by_cases hic : i = c
    · rw [if_pos hic]; exact hlo
    · rw [if_neg hic]
      by_cases hi2 : c < i ∧ i ≤ pg.size
      · rw [if_pos hi2]; exact h3 (i - 1) (by omega)
      · rw [if_neg hi2]; exact h3 i (by omega)
  · intro u hu
    obtain ⟨h5, h6⟩ := h4 u hu
    simp only [Nat.add_sub_cancel]
    refine ⟨by omega, ?_⟩
    have hcu : c < pg.size := by
      by_contra hge
      have hlast := hbelow (pg.size - 1) (by omega)
      rw [h6] at hlast
      exact absurd (hhi u hu) (not_le.2 hlast)
    rw [if_neg (by omega), if_pos (by omega), h6]

/-- The overwrite path of `db_set`. -/
theorem db_set_overwrite (t : Table) (g : Ghost) (hinv : InvWith t g) (k v : Str) (c : Cursor)
    (hc : CursorAt t g k c) (hf : c.found = true) :
    let t' := t.write c.page_index { t.page c.page_index with
      records := Function.update (t.page c.page_index).records c.cell_index
        { ((t.page c.page_index).records c.cell_index) with value := v } }
    InvWith t' g ∧ Stored t' k v ∧
      ∀ k' v', k' ≠ k → (Stored t' k' v' ↔ Stored t k' v') := by
  intro t'
  obtain ⟨c1, c2, c3, c4, c5, c6, c7⟩ := hc
  have h6 := c6 hf
  have hl := ((hinv.2.2.2.2 _ c1).1.leaf c2).2
  have hother : ∀ j, j ≠ c.page_index → t'.page j = t.page j :=
    fun j hj => write_page_ne _ _ _ _ hj
  have hsame : t'.page c.page_index = { t.page c.page_index with
      records := Function.update (t.page c.page_index).records c.cell_index
        { ((t.page c.page_index).records c.cell_index) with value := v } } :=
    write_page_same _ _ _
  have hkeys : ∀ i, ((t'.page c.page_index).records i).key
      = ((t.page c.page_index).records i).key := by
    intro i
    rw [hsame]
    by_cases hi : i = c.cell_index
    · subst hi; simp
    · simp [Function.update, hi]
  have hfresh : PagerOK t' := fresh_write t c.page_index _ c1 hinv.2.2.1
  refine ⟨?_, ?_, ?_⟩
  · apply hinv.update_leaf t' c.page_index c1 c2 rfl hfresh hother
    · rw [hsame]; exact c2
    · rw [hsame]
    · rw [hsame]
    · obtain ⟨l1, l2, l3, l4⟩ := hl.1
      refine ⟨by rw [hsame]; exact l1, ?_, ?_, ?_⟩
      · intro i j hij hj
        rw [hkeys, hkeys]
        rw [hsame] at hj
        exact l2 i j hij hj
      · intro i hi
        rw [hkeys]
        rw [hsame] at hi
        exact l3 i hi
      · intro u hu
        rw [hkeys]
        rw [hsame]
        exact l4 u hu
    · rw [hsame]; exact hl.2
  · refine ⟨c.page_index, c1, by rw [hsame]; exact c2, c.cell_index, by rw [hsame]; exact h6.1, ?_⟩
    rw [hsame]
    simp [h6.2]
  · intro k' v' hk
    have hrec : ∀ i, ((t.page c.page_index).records i).key = k' ∨
        ((t'.page c.page_index).records i).key = k' →
        (t'.page c.page_index).records i = (t.page c.page_index).records i := by
      intro i hi
      rw [hkeys, or_self] at hi
      rw [hsame]
      by_cases hic : i = c.cell_index
      · subst hic
        rw [h6.2] at hi
        exact absurd hi.symm hk
      · simp [Function.update, hic]
    unfold Stored
    constructor
    · rintro ⟨j, hj, hty, i, hi, hr⟩
      by_cases hjp : j = c.page_index
      · subst hjp
        have := hrec i (Or.inr (by rw [hr]))
        rw [this] at hr
        rw [hsame] at hty hi
        exact ⟨c.page_index, hj, hty, i, hi, hr⟩
      · rw [hother j hjp] at hty hi hr
        exact ⟨j, hj, hty, i, hi, hr⟩
    · rintro ⟨j, hj, hty, i, hi, hr⟩
      by_cases hjp : j = c.page_index
      · subst hjp
        have := hrec i (Or.inl (by rw [hr]))
        rw [← this] at hr
        refine ⟨c.page_index, hj, ?_, i, ?_, hr⟩
        · rw [hsame]; exact hty
        · rw [hsame]; exact hi
      · refine ⟨j, hj, ?_, i, ?_, ?_⟩ <;> rw [hother j hjp] <;> assumption

/-- The path of `db_set` that inserts into a leaf with room. -/
theorem db_set_insert_raw (t : Table) (g : Ghost) (hinv : InvWith t g) (k v : Str) (c : Cursor)
    (hc : CursorAt t g k c) (hf : c.found = false)
    (hsz : (t.page c.page_index).size < LEAF_RECORD_SIZE) :
    Returns (leaf_node_insert_raw t c k v) (fun t' =>
      InvWith t' g ∧ Stored t' k v ∧
        ∀ k' v', k' ≠ k → (Stored t' k' v' ↔ Stored t k' v')) := by
  obtain ⟨c1, c2, c3, c4, c5, c6, c7⟩ := hc
  have h7 := c7 hf
  refine ⟨_, leaf_node_insert_raw_eq t c k v c3 hsz, ?_⟩
  generalize hpg' : ({ t.page c.page_index with
        size := (t.page c.page_index).size + 1,
        records := fun j =>
          if j = c.cell_index then ⟨k, v⟩
          else if c.cell_index < j ∧ j ≤ (t.page c.page_index).size
          then (t.page c.page_index).records (j - 1)
          else (t.page c.page_index).records j } : Page) = pg'
  have hl := ((hinv.2.2.2.2 _ c1).1.leaf c2).2
  have hother : ∀ j, j ≠ c.page_index → (t.write c.page_index pg').page j = t.page j :=
    fun j hj => write_page_ne _ _ _ _ hj
  have hsame : (t.write c.page_index pg').page c.page_index = pg' := write_page_same _ _ _
  have hfresh : PagerOK (t.write c.page_index pg') := fresh_write t c.page_index pg' c1 hinv.2.2.1
  have hleaf := hl.1.insert c.cell_index k v hsz h7.1 h7.2.1 h7.2.2 c4 c5
  rw [hpg'] at hleaf
  have hty' : pg'.type = NODE_LEAF := by rw [← hpg']; exact c2
  have hsize' : pg'.size = (t.page c.page_index).size + 1 := by rw [← hpg']
  have hrecs : ∀ j, pg'.records j =
      if j = c.cell_index then ⟨k, v⟩
      else if c.cell_index < j ∧ j ≤ (t.page c.page_index).size
      then (t.page c.page_index).records (j - 1)
      else (t.page c.page_index).records j := by
    intro j; rw [← hpg']
  refine ⟨?_, ?_, ?_⟩
  · apply hinv.update_leaf (t.write c.page_index pg') c.page_index c1 c2 rfl hfresh hother
    · rw [hsame]; exact hty'
    · rw [hsame, ← hpg']
    · rw [hsame, ← hpg']
    · rw [hsame]; exact hleaf
    · rw [hsame, hsize']
      intro h0
      have := hl.2 h0
      omega
  · refine ⟨c.page_index, c1, by rw [hsame]; exact hty', c.cell_index, ?_, ?_⟩
    · rw [hsame, hsize']; omega
    · rw [hsame, hrecs, if_pos rfl]
  · intro k' v' hk
    rw [stored_update_leaf t (t.write c.page_index pg') c.page_index rfl hother]
    unfold Stored
    rw [hsame, hsize']
    constructor
    · rintro (⟨j, hjp, hj, hty, i, hi, hr⟩ | ⟨hj, hty, i, hi, hr⟩)
      · exact ⟨j, hj, hty, i, hi, hr⟩
      · rw [hrecs] at hr
        by_cases hic : i = c.cell_index
        · rw [if_pos hic] at hr
          cases hr
          exact absurd rfl hk
        · rw [if_neg hic] at hr
          by_cases hi2 : c.cell_index < i ∧ i ≤ (t.page c.page_index).size
          · rw [if_pos hi2] at hr
            exact ⟨c.page_index, c1, c2, i - 1, by omega, hr⟩
          · rw [if_neg hi2] at hr
            exact ⟨c.page_index, c1, c2, i, by omega, hr⟩
    · rintro ⟨j, hj, hty, i, hi, hr⟩
      by_cases hjp : j = c.page_index
      · subst hjp
        right
        refine ⟨hj, hty', ?_⟩
        by_cases hic : i < c.cell_index
        · refine ⟨i, by omega, ?_⟩
          rw [hrecs, if_neg (by omega), if_neg (by omega)]
          exact hr
        · refine ⟨i + 1, by omega, ?_⟩
          rw [hrecs, if_neg (by omega), if_pos (by omega)]
          exact hr
      · left
        exact ⟨j, hjp, hj, hty, i, hi, hr⟩

theorem SameBody.self (pg : Page) : SameBody pg pg := ⟨rfl, rfl, rfl, rfl, rfl⟩

theorem SameBody.of_eq {pg pg' : Page} (h : pg' = pg) : SameBody pg pg' := by
  rw [h]; exact SameBody.self pg

theorem SameBody.child {pg pg' : Page} (h : SameBody pg pg') (i : Nat) :
    internal_child_of pg' i = internal_child_of pg i := by
  unfold internal_child_of internal_rightmost_child_of
  rw [h.2.1, h.2.2.1, h.2.2.2.1]

theorem SameBody.key {pg pg' : Page} (h : SameBody pg pg') (i : Nat) :
    internal_key_of pg' i = internal_key_of pg i := by
  unfold internal_key_of
  rw [h.2.2.1]

theorem SameBody.lower {pg pg' : Page} (h : SameBody pg pg') (lo : Option Str) (i : Nat) :
    lower_bound_of pg' lo i = lower_bound_of pg lo i := by
  unfold lower_bound_of
  rw [h.key]

theorem SameBody.upper {pg pg' : Page} (h : SameBody pg pg') (hi : Option Str) (i : Nat) :
    upper_bound_of pg' hi i = upper_bound_of pg hi i := by
  unfold upper_bound_of
  rw [h.key, h.2.1]

theorem LeafOK.same_body {pg pg' : Page} {lo hi : Option Str} (h : LeafOK pg lo hi)
    (hb : SameBody pg pg') : LeafOK pg' lo hi := by
  unfold LeafOK at *
  rw [hb.2.1, hb.2.2.2.2]
  exact h

theorem Down.frame_body {t t' : Table} {g g' : Ghost} {p : Nat} (hd : Down t g p)
    (hbody : SameBody (t.page p) (t'.page p)) (hsize : t.size ≤ t'.size)
    (hlev : g'.level p = g.level p) (hlo : g'.lo p = g.lo p) (hhi : g'.hi p = g.hi p)
    (hch : (t.page p).type = NODE_INTERNAL → ∀ i, i ≤ (t.page p).size →
      (t'.page (internal_child_of (t.page p) i)).parent
        = (t.page (internal_child_of (t.page p) i)).parent ∧
      g'.level (internal_child_of (t.page p) i) = g.level (internal_child_of (t.page p) i) ∧
      g'.lo (internal_child_of (t.page p) i) = g.lo (internal_child_of (t.page p) i) ∧
      g'.hi (internal_child_of (t.page p) i) = g.hi (internal_child_of (t.page p) i)) :
    Down t' g' p := by
  unfold Down InternalOK at *
  rw [hlev, hlo, hhi, hbody.1]
  refine ⟨hd.1, ?_⟩
  cases hty : (t.page p).type with
  | NODE_LEAF =>
    rw [hty] at hd
    simp only
    rw [hbody.2.1]
    exact ⟨hd.2.1, hd.2.2.1.same_body hbody, hd.2.2.2⟩
  | NODE_INTERNAL =>
    rw [hty] at hd
    simp only
    rw [hbody.2.1]
    refine ⟨hd.2.1, hd.2.2.1, ?_⟩
    intro i hi
    obtain ⟨h1, h2, h3, h4, h5, h6⟩ := hd.2.2.2 i hi
    obtain ⟨k1, k2, k3, k4⟩ := hch hty i hi
    rw [hbody.child, hbody.lower, hbody.upper, k1, k2, k3, k4]
    exact ⟨by omega, h2, h3, h4, h5, h6⟩

theorem Down.frame {t t' : Table} {g g' : Ghost} {p : Nat} (hd : Down t g p)
    (hpage : t'.page p = t.page p) (hsize : t.size ≤ t'.size)
    (hlev : g'.level p = g.level p) (hlo : g'.lo p = g.lo p) (hhi : g'.hi p = g.hi p)
    (hch : (t.page p).type = NODE_INTERNAL → ∀ i, i ≤ (t.page p).size →
      (t'.page (internal_child_of (t.page p) i)).parent
        = (t.page (internal_child_of (t.page p) i)).parent ∧
      g'.level (internal_child_of (t.page p) i) = g.level (internal_child_of (t.page p) i) ∧
      g'.lo (internal_child_of (t.page p) i) = g.lo (internal_child_of (t.page p) i) ∧
      g'.hi (internal_child_of (t.page p) i) = g.hi (internal_child_of (t.page p) i)) :
    Down t' g' p := by
  unfold Down InternalOK at *
  rw [hpage, hlev, hlo, hhi]
  refine ⟨hd.1, ?_⟩
  cases hty : (t.page p).type with
  | NODE_LEAF =>
    rw [hty] at hd
    exact hd.2
  | NODE_INTERNAL =>
    rw [hty] at hd
    refine ⟨hd.2.1, hd.2.2.1, ?_⟩
    intro i hi
    obtain ⟨h1, h2, h3, h4, h5, h6⟩ := hd.2.2.2 i hi
    obtain ⟨k1, k2, k3, k4⟩ := hch hty i hi
    rw [k1, k2, k3, k4]
    exact ⟨by omega, h2, h3, h4, h5, h6⟩

theorem Up.frame_up {t t' : Table} {g g' : Ghost} {p : Nat} (hu : Up t g p) (hp0 : p ≠ 0)
    (hroot : (t'.page p).is_root = (t.page p).is_root)
    (hpar : (t'.page p).parent = (t.page p).parent) (hsize : t.size ≤ t'.size)
    (hlev : g'.level p < g'.level 0)
    (hty : (t'.page (t.page p).parent).type = NODE_INTERNAL)
    (hchild : ∀ i, i ≤ (t.page (t.page p).parent).size →
      internal_child_of (t.page (t.page p).parent) i = p →
      ∃ i', i' ≤ (t'.page (t.page p).parent).size ∧
        internal_child_of (t'.page (t.page p).parent) i' = p) :
    Up t' g' p := by
  unfold Up at *
  rw [if_neg hp0] at hu ⊢
  obtain ⟨u1, u2, u3, u4, i, u5, u6⟩ := hu
  rw [hroot, hpar]
  exact ⟨u1, hlev, by omega, hty, hchild i u5 u6⟩

theorem Up.of_ne_zero {t : Table} {g : Ghost} {p : Nat} (hu : Up t g p) (hp0 : p ≠ 0) :
    (t.page p).is_root = false ∧ g.level p < g.level 0 ∧
    (t.page p).parent < t.size ∧
    (t.page (t.page p).parent).type = NODE_INTERNAL ∧
    ∃ i, i ≤ (t.page (t.page p).parent).size ∧
      internal_child_of (t.page (t.page p).parent) i = p := by
  unfold Up at hu
  rw [if_neg hp0] at hu
  exact hu

theorem Up.of_zero {t : Table} {g : Ghost} (hu : Up t g 0) :
    (t.page 0).is_root = true ∧ g.lo 0 = none ∧ g.hi 0 = none := by
  unfold Up at hu
  rw [if_pos rfl] at hu
  exact hu

/-- A write that stores back what the page holds changes nothing but residency. -/
theorem same_write (t : Table) (i : Nat) (p : Page) (hi : i < t.size) (hp : p = t.page i) :
    Same t (t.write i p) := by
  refine ⟨rfl, ?_, rfl, rfl, ?_, ?_⟩
  · funext j
    rw [write_page]
    by_cases hj : j = i
    · rw [if_pos hj, hp, hj]
    · rw [if_neg hj]
  · intro j hj
    rw [write_pages]
    by_cases hji : j = i
    · simp [hji]
    · simpa [hji] using hj
  · exact fresh_write t i p hi

/-! ## Re-parenting loops -/

theorem internal_child_of_parent (pg : Page) (x : Nat) (i : Nat) :
    internal_child_of { pg with parent := x } i = internal_child_of pg i := rfl

theorem reparent_children_spec (P : Nat) :
    ∀ (n i : Nat) (t : Table), t.size ≤ TABLE_MAX_PAGES →
      (∀ k, i ≤ k → k < i + n → internal_child_of (t.page P) k < t.size) →
      Returns (reparent_children P n i t) (fun t' =>
        t'.size = t.size ∧ (PagerOK t → PagerOK t') ∧
        (∀ p, (∃ k, i ≤ k ∧ k < i + n ∧ internal_child_of (t.page P) k = p) →
          t'.page p = { t.page p with parent := P }) ∧
        (∀ p, (∀ k, i ≤ k → k < i + n → internal_child_of (t.page P) k ≠ p) →
          t'.page p = t.page p)) := by
  intro n
  induction n with
  | zero =>
    intro i t _ _
    refine ⟨t, rfl, rfl, fun h => h, ?_, fun _ _ => rfl⟩
    rintro p ⟨k, h1, h2, _⟩
    omega
  | succ n ih =>
    intro i t hN hch
    unfold reparent_children
    have hc := hch i (le_refl _) (by omega)
    obtain ⟨t1, ht1, hs1, _⟩ := get_page_allocated t _ hc hN
    simp only [ht1, ok_bind]
    rw [hs1.page]
    generalize hcdef : internal_child_of (t.page P) i = c at *
    generalize ht2 : t1.write c { t.page c with parent := P } = t2
    have hsz2 : t2.size = t.size := by rw [← ht2, write_size, hs1.size]
    have hpg2 : ∀ p, t2.page p = if p = c then { t.page c with parent := P } else t.page p := by
      intro p; rw [← ht2, write_page, hs1.page]
    have hchild2 : ∀ k, internal_child_of (t2.page P) k = internal_child_of (t.page P) k := by
      intro k
      rw [hpg2]
      by_cases hPc : P = c
      · rw [if_pos hPc, ← hPc]; rfl
      · rw [if_neg hPc]
    obtain ⟨t3, ht3, h31, h32, h33, h34⟩ := ih (i + 1) t2 (by rw [hsz2]; exact hN)
      (by
        intro k h1 h2
        rw [hchild2, hsz2]
        exact hch k (by omega) (by omega))
    refine ⟨t3, ht3, by rw [h31, hsz2], ?_, ?_, ?_⟩
    · intro hf
      apply h32
      rw [← ht2]
      exact fresh_write t1 c _ (by rw [hs1.size]; exact hc) (hs1.fresh hf)
    · rintro p ⟨k, h1, h2, h3⟩
      by_cases hlater : ∃ k', i + 1 ≤ k' ∧ k' < i + 1 + n ∧ internal_child_of (t2.page P) k' = p
      · rw [h33 p hlater, hpg2]
        by_cases hpc : p = c
        · rw [if_pos hpc, hpc]
        · rw [if_neg hpc]
      · have hki : k = i := by
          by_contra hne
          exact hlater ⟨k, by omega, by omega, by rw [hchild2]; exact h3⟩
        rw [hki, hcdef] at h3
        rw [h34 p (by
          intro k' h1' h2' h3'
          exact hlater ⟨k', h1', h2', h3'⟩), hpg2, if_pos h3.symm, h3]
    · intro p hp
      have hpc : p ≠ c := by
        intro h
        exact hp i (le_refl _) (by omega) (by rw [hcdef, h])
      rw [h34 p (by
        intro k h1 h2
        rw [hchild2]
        exact hp k (by omega) (by omega)), hpg2, if_neg hpc]

/-! ## internal_node_insert_raw -/

theorem Pending.child_ne {t : Table} {g : Ghost} {q n j : Nat} (h : Pending t g q n j)
    (i : Nat) (hi : i ≤ (t.page q).size) : internal_child_of (t.page q) i ≠ q := by
  intro heq
  have := (h.child i hi).2.2.2.2
  rw [heq] at this
  omega

theorem Pending.ne {t : Table} {g : Ghost} {q n j : Nat} (h : Pending t g q n j) : n ≠ q := by
  intro heq
  have := h.n_level
  rw [heq] at this
  omega

theorem Pending.sorted_step {t : Table} {g : Ghost} {q n j : Nat} (h : Pending t g q n j)
    (hd : ∀ p, p < t.size → g.level p < g.level q → Down t g p) (hn : n < t.size)
    (i : Nat) (hi : i + 1 < (t.page q).size) :
    internal_key_of (t.page q) i < internal_key_of (t.page q) (i + 1) := by
  have hc := h.child (i + 1) (by omega)
  have ha := (hd _ hc.1 (by omega)).1
  have hlo := h.lo (i + 1) (by omega)
  have hhi := h.hi (i + 1) (by omega)
  rw [if_neg (by omega)] at hhi
  rw [hlo, hhi] at ha
  have hup : upper_bound_of (t.page q) (g.hi q) (i + 1)
      = some (internal_key_of (t.page q) (i + 1)) := by
    simp [upper_bound_of, hi]
  by_cases hj : i + 1 = j
  · rw [if_pos hj] at ha
    obtain ⟨u, hu⟩ := h.n_hi (by omega)
    have h1 := ha u _ hu hup
    have hna := (hd n hn (by have := h.n_level; omega)).1
    have h2 := hna (internal_key_of (t.page q) i) u
      (by rw [h.n_lo (by omega), ← hj]; simp [lower_bound_of]) hu
    exact lt_trans h2 h1
  · rw [if_neg hj] at ha
    exact ha _ _ (by simp [lower_bound_of]) hup

theorem Pending.sorted_pending {t : Table} {g : Ghost} {q n j : Nat} (h : Pending t g q n j)
    (hd : ∀ p, p < t.size → g.level p < g.level q → Down t g p) (hn : n < t.size) :
    ∀ i k, i < k → k < (t.page q).size →
      internal_key_of (t.page q) i < internal_key_of (t.page q) k := by
  intro i k hik
  induction k with
  | zero => omega
  | succ k ih =>
    intro hk
    rcases Nat.eq_or_lt_of_le (Nat.le_of_lt_succ hik) with h1 | h1
    · subst h1
      exact h.sorted_step hd hn i hk
    · exact lt_trans (ih h1 (by omega)) (h.sorted_step hd hn k hk)

theorem Pending.sorted_le_pending {t : Table} {g : Ghost} {q n j : Nat} (h : Pending t g q n j)
    (hd : ∀ p, p < t.size → g.level p < g.level q → Down t g p) (hn : n < t.size)
    (i k : Nat) (hik : i ≤ k) (hk : k < (t.page q).size) :
    internal_key_of (t.page q) i ≤ internal_key_of (t.page q) k := by
  rcases Nat.eq_or_lt_of_le hik with h1 | h1
  · rw [h1]
  · exact le_of_lt (h.sorted_pending hd hn i k h1 hk)

theorem page_eta_parent (pg : Page) : ({ pg with parent := pg.parent } : Page) = pg := by
  cases pg; rfl

theorem key_at_same {t t' : Table} (h : Same t t') (p : KeyPtr) : t'.key_at p = t.key_at p := by
  unfold Table.key_at; rw [h.page]

theorem Down.leaf_nonempty {t : Table} {g : Ghost} {p : Nat} (h : Down t g p) (hp0 : p ≠ 0) :
    (t.page p).type = NODE_LEAF → 0 < (t.page p).size := by
  intro hty
  have := (h.leaf hty).2.2 hp0
  unfold LEAF_LEFT_SPLIT_SIZE at this
  omega

theorem key_at_write_ne (t : Table) (i : Nat) (pg : Page) (p : KeyPtr)
    (h : p.page_index ≠ i) : (t.write i pg).key_at p = t.key_at p := by
  unfold Table.key_at
  rw [write_page_ne _ _ _ _ h]

theorem set_key_child_insert (pg : Page) (j n : Nat) (u : Str) (hj : j ≤ pg.size) :
    set_internal_key (set_internal_child
      { pg with size := pg.size + 1,
                branches := memmove_branches pg.branches j (pg.size - j) } j n) j u
      = insert_branch pg j ⟨n, u⟩ := by
  unfold set_internal_key set_internal_child insert_branch
  have h1 : ¬ j ≥ pg.size + 1 := by omega
  simp only [h1, if_false]
  congr 1
  funext i
  by_cases hi : i = j
  · subst hi; simp
  · simp only [Function.update, hi, dite_false, if_false, memmove_branches]
    by_cases h2 : j < i ∧ i ≤ pg.size
    · rw [if_pos h2, if_pos (by omega)]
    · rw [if_neg h2, if_neg (by omega)]

theorem set_key_child_push (pg : Page) (n : Nat) (key : Str) :
    ({ (set_internal_key (set_internal_child { pg with size := pg.size + 1 } pg.size
          pg.rightmost) pg.size key) with rightmost := n } : Page)
      = push_rightmost pg key n := by
  unfold set_internal_key set_internal_child push_rightmost
  have h1 : ¬ pg.size ≥ pg.size + 1 := by omega
  simp only [h1, if_false]
  congr 1
  funext i
  by_cases hi : i = pg.size
  · subst hi; simp
  · simp [Function.update, hi]

/-- What `internal_node_insert_raw` does to a parent with a pending child: the
child is inserted at the gap, as a branch under its own maximum key or, past
the old rightmost child, as the new rightmost child, and its parent field is
set. -/
theorem internal_node_insert_raw_spec (g : Ghost) (d : Nat) (t : Table) (q n j : Nat)
    (hN : t.size ≤ TABLE_MAX_PAGES) (hq : q < t.size) (hn : n < t.size) (hn0 : n ≠ 0)
    (hpend : Pending t g q n j)
    (hd : ∀ p, p < t.size → g.level p < g.level q → Down t g p)
    (hdepth : g.level n < d) (hroom : (t.page q).size < INTERNAL_BRANCH_SIZE) :
    Returns (internal_node_insert_raw d t q n) (fun t' =>
      t'.size = t.size ∧ (PagerOK t → PagerOK t') ∧
      (∀ p, p ≠ q → p ≠ n → t'.page p = t.page p) ∧
      t'.page n = { t.page n with parent := q } ∧
      ∃ key,
        (j ≤ (t.page q).size → g.hi n = some key) ∧
        (j = (t.page q).size + 1 → g.lo n = some key) ∧
        Inserted (t.page q) (t'.page q) j n key) := by
  have hnq := hpend.ne
  unfold internal_node_insert_raw
  obtain ⟨t1, e1, hs1, _⟩ := get_page_allocated t q hq hN
  simp only [e1, ok_bind]
  obtain ⟨t2, e2, hs2, _⟩ := get_page_allocated t1 n (by rw [hs1.size]; exact hn)
    (by rw [hs1.size]; exact hN)
  simp only [e2, ok_bind]
  have hs12 := hs1.trans hs2
  rw [hs12.page, if_neg (show ¬ (t.page q).size ≥ INTERNAL_BRANCH_SIZE by omega)]
  simp only [pure_bind]
  generalize ht3 : t2.write n { t.page n with parent := q } = t3
  have h3size : t3.size = t.size := by rw [← ht3, write_size, hs12.size]
  have h3page : ∀ p, t3.page p = if p = n then { t.page n with parent := q } else t.page p := by
    intro p; rw [← ht3, write_page, hs12.page]
  have h3fresh : PagerOK t → PagerOK t3 := by
    intro hf
    rw [← ht3]
    exact fresh_write t2 n _ (by rw [hs12.size]; exact hn) (hs12.fresh hf)
  have h3q : t3.page q = t.page q := by rw [h3page, if_neg hnq.symm]
  have h3body : ∀ p, SameBody (t.page p) (t3.page p) := by
    intro p
    rw [h3page]
    by_cases hp : p = n
    · rw [if_pos hp, hp]; exact ⟨rfl, rfl, rfl, rfl, rfl⟩
    · rw [if_neg hp]; exact SameBody.self _
  have h3key : ∀ ptr, t3.key_at ptr = t.key_at ptr := by
    intro ptr
    unfold Table.key_at
    rw [(h3body _).2.2.2.2]
  have hnlev := hpend.n_level
  have h3down : ∀ p', p' < t3.size → g.level p' ≤ g.level n → Down t3 g p' := by
    intro p' h1 h2
    rw [h3size] at h1
    have hdp := hd p' h1 (by omega)
    apply hdp.frame_body (h3body p') (le_of_eq h3size.symm) rfl rfl rfl
    intro hty i hi
    have hlc := ((hdp.internal hty).2.2 i hi).2.2.2.1
    have hcn : internal_child_of (t.page p') i ≠ n := by
      intro heq; rw [heq] at hlc; omega
    rw [h3page, if_neg hcn]
    exact ⟨rfl, rfl, rfl, rfl⟩
  simp only [internal_rightmost_child_of]
  rw [h3q]
  have hr := hpend.child (t.page q).size (le_refl _)
  have hcr : internal_child_of (t.page q) (t.page q).size = (t.page q).rightmost := by
    simp [internal_child_of, internal_rightmost_child_of]
  rw [hcr] at hr
  obtain ⟨t4, e4, hs4, _⟩ := get_page_allocated t3 (t.page q).rightmost
    (by rw [h3size]; exact hr.1) (by rw [h3size]; exact hN)
  simp only [e4, ok_bind]
  have hdn : Down t g n := hd n hn (by omega)
  -- maximum key of the child
  obtain ⟨⟨t5, kc⟩, e5, hs5, kc1, kc2, kc3, kc4, kc5, kc6⟩ :=
    recursive_max_key_of_spec g d t4 n (by rw [hs4.size, h3size]; exact hN)
      (by rw [hs4.size, h3size]; exact hn) hdepth
      (by
        intro p' h1 h2
        rw [hs4.size] at h1
        exact (h3down p' h1 h2).same_down hs4 g p')
      (by
        rw [hs4.page, (h3body n).1, (h3body n).2.1]
        exact hdn.leaf_nonempty hn0)
  dsimp only at hs5 kc1 kc2 kc3 kc4 kc5 kc6
  simp only [e5, ok_bind]
  have hs45 := hs4.trans hs5
  -- maximum key of the rightmost child
  obtain ⟨⟨t6, kr⟩, e6, hs6, kr1, kr2, kr3, kr4, kr5, kr6⟩ :=
    recursive_max_key_of_spec g d t5 (t.page q).rightmost
      (by rw [hs45.size, h3size]; exact hN)
      (by rw [hs45.size, h3size]; exact hr.1) (by omega)
      (by
        intro p' h1 h2
        rw [hs45.size] at h1
        exact (h3down p' h1 (by omega)).same_down hs45 g p')
      (by
        rw [hs45.page, (h3body _).1, (h3body _).2.1]
        exact (hd _ hr.1 (by omega)).leaf_nonempty hr.2.1)
  dsimp only at hs6 kr1 kr2 kr3 kr4 kr5 kr6
  rw [hs4.page, h3q]
  simp only [e6, ok_bind]
  have hs46 := hs45.trans hs6
  rw [key_at_same hs4, h3key] at kc5 kc6
  rw [key_at_same hs45, h3key] at kr5 kr6
  rw [key_at_same hs46, key_at_same hs46, h3key, h3key, hs46.page, h3q]
  have h6size : t6.size = t.size := by rw [hs46.size, h3size]
  have h6fresh : PagerOK t → PagerOK t6 := fun hf => hs46.fresh (h3fresh hf)
  have hkcq : kc.page_index ≠ q := by
    intro h
    rw [h, hs4.page, h3q, hpend.type] at kc2
    cases kc2
  have hkrq : kr.page_index ≠ q := by
    intro h
    rw [h, hs45.page, h3q, hpend.type] at kr2
    cases kr2
  have h6key : ∀ ptr, t6.key_at ptr = t.key_at ptr := by
    intro ptr; rw [key_at_same hs46, h3key]
  have hrlo := hpend.lo (t.page q).size (le_refl _)
  have hrhi := hpend.hi (t.page q).size (le_refl _)
  rw [hcr] at hrlo hrhi
  by_cases hj : j ≤ (t.page q).size
  · -- the gap lies before child `j`
    obtain ⟨u, hu⟩ := hpend.n_hi hj
    have hkcu : t.key_at kc = u := kc6 u hu
    have hlt : u < t.key_at kr := by
      by_cases hjs : (t.page q).size = j
      · rw [if_pos hjs] at hrlo
        exact kr5 u (by rw [hrlo, hu])
      · rw [if_neg hjs] at hrlo
        have hjlt : j < (t.page q).size := by omega
        have hcj := hpend.child j hj
        have ha := (hd _ hcj.1 (by omega)).1
        rw [hpend.lo j hj, hpend.hi j hj, if_pos rfl,
          if_neg (show ¬ (j = (t.page q).size ∧ j = (t.page q).size + 1) by omega)] at ha
        have h1 := ha u (internal_key_of (t.page q) j) hu (by simp [upper_bound_of, hjlt])
        have h2 := kr5 (internal_key_of (t.page q) ((t.page q).size - 1))
          (by
            rw [hrlo]; unfold lower_bound_of
            rw [if_neg (show ¬ (t.page q).size = 0 by omega)])
        exact lt_trans (lt_of_lt_of_le h1 (hpend.sorted_le_pending hd hn j _ (by omega) (by omega))) h2
    have hcond : ¬ strcmp (t.key_at kc) (t.key_at kr) > 0 := by
      rw [strcmp_gt_iff, hkcu]
      exact not_lt.2 (le_of_lt hlt)
    rw [if_neg hcond]
    have hfind : internal_node_find_child (t.page q) (t.key_at kc) = .ok j := by
      apply internal_node_find_child_eq _ _ _ (hpend.sorted_pending hd hn) hj
      · intro i hi
        have hna := hdn.1
        rw [hpend.n_lo hj] at hna
        have h1 := hna (internal_key_of (t.page q) (j - 1)) u
          (by unfold lower_bound_of; rw [if_neg (show ¬ j = 0 by omega)]) hu
        rw [hkcu]
        exact lt_of_le_of_lt (hpend.sorted_le_pending hd hn i (j - 1) (by omega) (by omega)) h1
      · intro hjlt
        have hcj := hpend.child j hj
        have ha := (hd _ hcj.1 (by omega)).1
        rw [hpend.lo j hj, hpend.hi j hj, if_pos rfl,
          if_neg (show ¬ (j = (t.page q).size ∧ j = (t.page q).size + 1) by omega)] at ha
        rw [hkcu]
        exact le_of_lt (ha u (internal_key_of (t.page q) j) hu (by simp [upper_bound_of, hjlt]))
    simp only [hfind, ok_bind, write_write, write_page_same]
    refine ⟨_, rfl, ?_, ?_, ?_, ?_, u, fun _ => hu, fun h => by omega, ?_, fun h => by omega⟩
    · rw [write_size, h6size]
    · intro hf
      exact fresh_write t6 q _ (by rw [h6size]; exact hq) (h6fresh hf)
    · intro p hp hpn
      rw [write_page_ne _ _ _ _ hp, hs46.page, h3page, if_neg hpn]
    · rw [write_page_ne _ _ _ _ hnq, hs46.page, h3page, if_pos rfl]
    · intro _
      rw [write_page_same, key_at_write_ne _ _ _ _ hkcq, h6key, hkcu]
      exact set_key_child_insert (t.page q) j n u hj
  · -- the gap lies after the rightmost child
    have hjs : j = (t.page q).size + 1 := by have := hpend.pos; omega
    obtain ⟨hnhi, m, hm⟩ := hpend.n_last hjs
    rw [if_pos ⟨rfl, hjs⟩] at hrhi
    have hkrm : t.key_at kr = m := kr6 m (by rw [hrhi, hm])
    have hcond : strcmp (t.key_at kc) (t.key_at kr) > 0 := by
      rw [strcmp_gt_iff, hkrm]
      exact kc5 m hm
    rw [if_pos hcond]
    simp only [write_write, write_page_same]
    refine ⟨_, rfl, ?_, ?_, ?_, ?_, m, fun h => by omega, fun _ => hm, fun h => by omega, ?_⟩
    · rw [write_size, h6size]
    · intro hf
      exact fresh_write t6 q _ (by rw [h6size]; exact hq) (h6fresh hf)
    · intro p hp hpn
      rw [write_page_ne _ _ _ _ hp, hs46.page, h3page, if_neg hpn]
    · rw [write_page_ne _ _ _ _ hnq, hs46.page, h3page, if_pos rfl]
    · intro _
      rw [write_page_same, key_at_write_ne _ _ _ _ hkrq, h6key, hkrm]
      exact set_key_child_push (t.page q) n m

/-! ## The parent after the insertion -/

theorem insert_branch_child (pg : Page) (j : Nat) (b : Branch) (i : Nat) (hj : j ≤ pg.size)
    (hi : i ≤ pg.size + 1) :
    internal_child_of (insert_branch pg j b) i =
      if i = j then b.child
      else if i < j then internal_child_of pg i else internal_child_of pg (i - 1) := by
  unfold internal_child_of insert_branch internal_rightmost_child_of
  simp only
  split_ifs <;> first | rfl | (exfalso; omega)

theorem insert_branch_key (pg : Page) (j : Nat) (b : Branch) (i : Nat) (hi : i ≤ pg.size) :
    internal_key_of (insert_branch pg j b) i =
      if i = j then b.key
      else if i < j then internal_key_of pg i else internal_key_of pg (i - 1) := by
  unfold internal_key_of insert_branch
  simp only
  split_ifs <;> first | rfl | (exfalso; omega)

theorem insert_branch_lower (pg : Page) (j : Nat) (b : Branch) (lo : Option Str) (i : Nat)
    (hj : j ≤ pg.size) (hi : i ≤ pg.size + 1) :
    lower_bound_of (insert_branch pg j b) lo i =
      if i = j + 1 then some b.key
      else if i ≤ j then lower_bound_of pg lo i else lower_bound_of pg lo (i - 1) := by
  unfold lower_bound_of
  by_cases h0 : i = 0
  · subst h0; simp
  · rw [if_neg h0, insert_branch_key pg j b (i - 1) (by omega)]
    split_ifs <;> first | rfl | (exfalso; omega)

theorem insert_branch_upper (pg : Page) (j : Nat) (b : Branch) (hi' : Option Str) (i : Nat)
    (hj : j ≤ pg.size) (hi : i ≤ pg.size + 1) :
    upper_bound_of (insert_branch pg j b) hi' i =
      if i = j then some b.key
      else if i < j then upper_bound_of pg hi' i else upper_bound_of pg hi' (i - 1) := by
  unfold upper_bound_of
  have hsz : (insert_branch pg j b).size = pg.size + 1 := rfl
  rw [hsz]
  by_cases h0 : i < pg.size + 1
  · rw [if_pos h0, insert_branch_key pg j b i (by omega)]
    split_ifs <;> first | rfl | (exfalso; omega)
  · rw [if_neg h0]
    split_ifs <;> first | rfl | (exfalso; omega)

theorem push_rightmost_child (pg : Page) (key : Str) (n : Nat) (i : Nat) :
    internal_child_of (push_rightmost pg key n) i =
      if i ≥ pg.size + 1 then n else internal_child_of pg i := by
  unfold internal_child_of push_rightmost internal_rightmost_child_of
  simp only
  by_cases h1 : i ≥ pg.size + 1
  · rw [if_pos h1, if_pos h1]
  · rw [if_neg h1, if_neg h1]
    by_cases h2 : i = pg.size
    · subst h2; simp
    · rw [if_neg (by omega)]; simp [Function.update, h2]

theorem push_rightmost_key (pg : Page) (key : Str) (n : Nat) (i : Nat) :
    internal_key_of (push_rightmost pg key n) i =
      if i = pg.size then key else internal_key_of pg i := by
  unfold internal_key_of push_rightmost
  simp only
  by_cases h1 : i = pg.size
  · rw [if_pos h1, h1]; simp
  · rw [if_neg h1]; simp [Function.update, h1]

theorem push_rightmost_lower (pg : Page) (key : Str) (n : Nat) (lo : Option Str) (i : Nat) :
    lower_bound_of (push_rightmost pg key n) lo i =
      if i = pg.size + 1 then some key else lower_bound_of pg lo i := by
  unfold lower_bound_of
  rw [push_rightmost_key]
  split_ifs <;> first | rfl | (exfalso; omega)

theorem push_rightmost_upper (pg : Page) (key : Str) (n : Nat) (hi' : Option Str) (i : Nat)
    (hi : i ≤ pg.size + 1) :
    upper_bound_of (push_rightmost pg key n) hi' i =
      if i = pg.size then some key else upper_bound_of pg hi' i := by
  unfold upper_bound_of
  have hsz : (push_rightmost pg key n).size = pg.size + 1 := rfl
  rw [hsz, push_rightmost_key]
  split_ifs <;> first | rfl | (exfalso; omega)

/-- After the insertion the parent satisfies the internal-page invariant. -/
theorem Pending.internal_ok {t : Table} {g : Ghost} {q n j : Nat} (h : Pending t g q n j)
    (hsz : (t.page q).size < INTERNAL_BRANCH_SIZE) (hn : n < t.size) (hn0 : n ≠ 0)
    (t' : Table) (hsize : t'.size = t.size)
    (hpar : (t'.page n).parent = q)
    (hcpar : ∀ i, i ≤ (t.page q).size → (t'.page (internal_child_of (t.page q) i)).parent = q)
    (key : Str)
    (h1 : j ≤ (t.page q).size → g.hi n = some key ∧
      t'.page q = insert_branch (t.page q) j ⟨n, key⟩)
    (h2 : j = (t.page q).size + 1 → g.lo n = some key ∧
      t'.page q = push_rightmost (t.page q) key n) :
    InternalOK t' g q := by
  have hnq := h.ne
  by_cases hj : j ≤ (t.page q).size
  · obtain ⟨hu, hpg⟩ := h1 hj
    unfold InternalOK
    rw [hpg]
    refine ⟨Nat.le_add_left _ _, Nat.succ_le_of_lt hsz, ?_⟩
    intro i hi
    have hi' : i ≤ (t.page q).size + 1 := hi
    rw [insert_branch_child _ _ _ _ hj hi', insert_branch_lower _ _ _ _ _ hj hi',
      insert_branch_upper _ _ _ _ _ hj hi', hsize]
    by_cases hij : i = j
    · rw [if_pos hij, if_pos hij, if_neg (by omega), if_pos (by omega)]
      simp only
      rw [hpar, hu, h.n_lo hj, hij]
      exact ⟨hn, hn0, rfl, h.n_level, rfl, rfl⟩
    · rw [if_neg hij, if_neg hij]
      by_cases hlt : i < j
      · rw [if_pos hlt, if_pos hlt, if_neg (by omega), if_pos (by omega)]
        obtain ⟨c1, c2, c3, c4, c5⟩ := h.child i (by omega)
        rw [hcpar i (by omega), h.lo i (by omega), h.hi i (by omega),
          if_neg hij, if_neg (by omega)]
        exact ⟨c1, c2, rfl, c5, rfl, rfl⟩
      · rw [if_neg hlt, if_neg hlt]
        obtain ⟨c1, c2, c3, c4, c5⟩ := h.child (i - 1) (by omega)
        have hlo_c := h.lo (i - 1) (by omega)
        have hhi_c := h.hi (i - 1) (by omega)
        rw [if_neg (show ¬ (i - 1 = (t.page q).size ∧ j = (t.page q).size + 1) by omega)]
          at hhi_c
        rw [hcpar (i - 1) (by omega), hlo_c, hhi_c]
        refine ⟨c1, c2, rfl, c5, ?_, rfl⟩
        by_cases h3 : i = j + 1
        · rw [if_pos h3, if_pos (show i - 1 = j by omega), hu]
        · rw [if_neg h3, if_neg (show ¬ i - 1 = j by omega), if_neg (show ¬ i ≤ j by omega)]
  · have hjs : j = (t.page q).size + 1 := by have := h.pos; omega
    obtain ⟨hm, hpg⟩ := h2 hjs
    obtain ⟨hnhi, _⟩ := h.n_last hjs
    unfold InternalOK
    rw [hpg]
    refine ⟨Nat.le_add_left _ _, Nat.succ_le_of_lt hsz, ?_⟩
    intro i hi
    have hi' : i ≤ (t.page q).size + 1 := hi
    rw [push_rightmost_child, push_rightmost_lower, push_rightmost_upper _ _ _ _ _ hi', hsize]
    by_cases hin : i = (t.page q).size + 1
    · rw [if_pos (by omega), if_pos hin, if_neg (by omega)]
      rw [hpar, hm, hnhi]
      refine ⟨hn, hn0, rfl, h.n_level, rfl, ?_⟩
      unfold upper_bound_of
      rw [if_neg (by omega)]
    · rw [if_neg (by omega), if_neg hin]
      obtain ⟨c1, c2, c3, c4, c5⟩ := h.child i (by omega)
      rw [hcpar i (by omega), h.lo i (by omega), h.hi i (by omega),
        if_neg (by omega)]
      refine ⟨c1, c2, rfl, c5, rfl, ?_⟩
      by_cases h3 : i = (t.page q).size
      · rw [if_pos ⟨h3, hjs⟩, if_pos h3, hm]
      · rw [if_neg (by omega), if_neg h3]

theorem Inserted.header {pg pg' : Page} {j n : Nat} {key : Str} (h : Inserted pg pg' j n key)
    (hj : j ≤ pg.size + 1) :
    pg'.type = pg.type ∧ pg'.is_root = pg.is_root ∧ pg'.parent = pg.parent ∧
      pg'.size = pg.size + 1 := by
  by_cases h1 : j ≤ pg.size
  · rw [h.1 h1]; exact ⟨rfl, rfl, rfl, rfl⟩
  · rw [h.2 (by omega)]; exact ⟨rfl, rfl, rfl, rfl⟩

theorem Inserted.old_child {pg pg' : Page} {j n : Nat} {key : Str} (h : Inserted pg pg' j n key)
    (hj : j ≤ pg.size + 1) (i : Nat) (hi : i ≤ pg.size) :
    ∃ i', i' ≤ pg'.size ∧ internal_child_of pg' i' = internal_child_of pg i := by
  by_cases h1 : j ≤ pg.size
  · rw [h.1 h1]
    by_cases h2 : i < j
    · refine ⟨i, ?_, ?_⟩
      · show i ≤ pg.size + 1
        omega
      · rw [insert_branch_child _ _ _ _ h1 (by omega), if_neg (by omega), if_pos h2]
    · refine ⟨i + 1, ?_, ?_⟩
      · show i + 1 ≤ pg.size + 1
        omega
      · rw [insert_branch_child _ _ _ _ h1 (by omega), if_neg (by omega), if_neg (by omega)]
        rfl
  · rw [h.2 (by omega)]
    refine ⟨i, ?_, ?_⟩
    · show i ≤ pg.size + 1
      omega
    · rw [push_rightmost_child, if_neg (by omega)]

theorem Inserted.new_child {pg pg' : Page} {j n : Nat} {key : Str} (h : Inserted pg pg' j n key)
    (hj : j ≤ pg.size + 1) :
    ∃ i', i' ≤ pg'.size ∧ internal_child_of pg' i' = n := by
  by_cases h1 : j ≤ pg.size
  · rw [h.1 h1]
    refine ⟨j, ?_, ?_⟩
    · show j ≤ pg.size + 1
      omega
    · rw [insert_branch_child _ _ _ _ h1 (by omega), if_pos rfl]
  · rw [h.2 (by omega)]
    refine ⟨pg.size + 1, le_refl _, ?_⟩
    rw [push_rightmost_child, if_pos (le_refl _)]

theorem InsertReady.q_level {t : Table} {g : Ghost} {q n j : Nat} (h : InsertReady t g q n j) :
    g.level q ≤ g.level 0 := by
  by_cases hq : q = 0
  · rw [hq]
  · exact le_of_lt (h.q_up.of_ne_zero hq).2.1

theorem InsertReady.lower_pages {t : Table} {g : Ghost} {q n j : Nat} (h : InsertReady t g q n j) :
    ∀ p, p < t.size → g.level p < g.level q → Down t g p := by
  intro p hp hlev
  by_cases hpn : p = n
  · rw [hpn]; exact h.n_down
  · exact (h.others p hp (by intro hpq; rw [hpq] at hlev; omega) hpn).1

/-- The parent of `q` is neither `q` nor `n`. -/
theorem InsertReady.parent_ne {t : Table} {g : Ghost} {q n j : Nat} (h : InsertReady t g q n j)
    (hq0 : q ≠ 0) : (t.page q).parent ≠ q ∧ (t.page q).parent ≠ n := by
  obtain ⟨_, _, _, hty, i, hi, hc⟩ := h.q_up.of_ne_zero hq0
  constructor
  · intro heq
    rw [heq] at hi hc
    exact h.pending.child_ne i hi hc
  · intro heq
    rw [heq] at hty hi hc
    have := ((h.n_down.internal hty).2.2 i hi).2.2.2.1
    rw [hc] at this
    have := h.pending.n_level
    omega

/-- The insertion without a split restores the invariant. -/
theorem InsertReady.finish {t : Table} {g : Ghost} {q n j : Nat} (h : InsertReady t g q n j)
    (hsz : (t.page q).size < INTERNAL_BRANCH_SIZE) (t' : Table) (hsize : t'.size = t.size)
    (hfresh : PagerOK t') (hother : ∀ p, p ≠ q → t'.page p = t.page p) (key : Str)
    (hhi : j ≤ (t.page q).size → g.hi n = some key)
    (hlo : j = (t.page q).size + 1 → g.lo n = some key)
    (hins : Inserted (t.page q) (t'.page q) j n key) :
    InvWith t' g := by
  have hpend := h.pending
  have hhead := hins.header hpend.pos
  have hparent : ∀ c, (t'.page c).parent = (t.page c).parent := by
    intro c
    by_cases hc : c = q
    · rw [hc, hhead.2.2.1]
    · rw [hother c hc]
  have hroot : ∀ c, (t'.page c).is_root = (t.page c).is_root := by
    intro c
    by_cases hc : c = q
    · rw [hc, hhead.2.1]
    · rw [hother c hc]
  have htype : ∀ c, (t'.page c).type = (t.page c).type := by
    intro c
    by_cases hc : c = q
    · rw [hc, hhead.1]
    · rw [hother c hc]
  have hkeep : ∀ x p, (∃ i, i ≤ (t.page x).size ∧ internal_child_of (t.page x) i = p) →
      ∃ i', i' ≤ (t'.page x).size ∧ internal_child_of (t'.page x) i' = p := by
    rintro x p ⟨i, hi, hc⟩
    by_cases hx : x = q
    · subst hx
      obtain ⟨i', h1, h2⟩ := hins.old_child hpend.pos i hi
      exact ⟨i', h1, by rw [h2, hc]⟩
    · rw [hother x hx]; exact ⟨i, hi, hc⟩
  have hqint : InternalOK t' g q :=
    hpend.internal_ok hsz h.n_lt h.n_ne_zero t' hsize
      (by rw [hparent]; exact h.n_parent)
      (by intro i hi; rw [hparent]; exact (hpend.child i hi).2.2.2.1) key
      (fun hj => ⟨hhi hj, hins.1 hj⟩) (fun hj => ⟨hlo hj, hins.2 hj⟩)
  refine ⟨by rw [hsize]; exact h.size_pos, by rw [hsize]; exact h.size_le, hfresh,
    by rw [hsize]; exact h.height, ?_⟩
  intro p hp
  rw [hsize] at hp
  by_cases hpq : p = q
  · subst hpq
    constructor
    · unfold Down
      rw [hhead.1, hpend.type]
      exact ⟨h.q_apart, hqint⟩
    · by_cases hp0 : p = 0
      · subst hp0
        have := h.q_up.of_zero
        unfold Up
        rw [if_pos rfl, hroot]
        exact this
      · have hpne := h.parent_ne hp0
        apply h.q_up.frame_up hp0 (hroot p) (hparent p) (le_of_eq hsize.symm)
          (h.q_up.of_ne_zero hp0).2.1
        · rw [htype]; exact (h.q_up.of_ne_zero hp0).2.2.2.1
        · intro i hi hc
          exact hkeep _ _ ⟨i, hi, hc⟩
  · by_cases hpn : p = n
    · subst hpn
      constructor
      · apply h.n_down.frame (hother p hpq) (le_of_eq hsize.symm) rfl rfl rfl
        intro _ i _
        exact ⟨hparent _, rfl, rfl, rfl⟩
      · unfold Up
        rw [if_neg h.n_ne_zero, hroot, hparent, h.n_parent, hsize, htype]
        have := hpend.n_level
        have := h.q_level
        exact ⟨h.n_root, by omega, h.q_lt, hpend.type, hins.new_child hpend.pos⟩
    · obtain ⟨hd, hu⟩ := h.others p hp hpq hpn
      constructor
      · apply hd.frame (hother p hpq) (le_of_eq hsize.symm) rfl rfl rfl
        intro _ i _
        exact ⟨hparent _, rfl, rfl, rfl⟩
      · by_cases hp0 : p = 0
        · subst hp0
          have := hu.of_zero
          unfold Up
          rw [if_pos rfl, hroot]
          exact this
        · apply hu.frame_up hp0 (hroot p) (hparent p) (le_of_eq hsize.symm)
            (hu.of_ne_zero hp0).2.1
          · rw [htype]; exact (hu.of_ne_zero hp0).2.2.2.1
          · intro i hi hc
            exact hkeep _ _ ⟨i, hi, hc⟩

theorem set_internal_key_body (pg : Page) (i : Nat) (k : Str) :
    (set_internal_key pg i k).type = pg.type ∧ (set_internal_key pg i k).is_root = pg.is_root ∧
    (set_internal_key pg i k).size = pg.size ∧ (set_internal_key pg i k).parent = pg.parent ∧
    (set_internal_key pg i k).rightmost = pg.rightmost :=
  ⟨rfl, rfl, rfl, rfl, rfl⟩

theorem set_internal_key_child (pg : Page) (i : Nat) (k : Str) (j : Nat) :
    internal_child_of (set_internal_key pg i k) j = internal_child_of pg j := by
  unfold internal_child_of set_internal_key internal_rightmost_child_of
  simp only
  by_cases h : j ≥ pg.size
  · rw [if_pos h, if_pos h]
  · rw [if_neg h, if_neg h]
    by_cases hji : j = i
    · subst hji; simp
    · simp [Function.update, hji]

theorem set_internal_key_key (pg : Page) (i : Nat) (k : Str) (j : Nat) :
    internal_key_of (set_internal_key pg i k) j = if j = i then k else internal_key_of pg j := by
  unfold internal_key_of set_internal_key
  simp only
  by_cases hji : j = i
  · subst hji; simp
  · simp [Function.update, hji]

theorem set_internal_key_lower (pg : Page) (i : Nat) (k : Str) (lo : Option Str) (j : Nat) :
    lower_bound_of (set_internal_key pg i k) lo j =
      if j = i + 1 then some k else lower_bound_of pg lo j := by
  unfold lower_bound_of
  rw [set_internal_key_key]
  split_ifs <;> first | rfl | (exfalso; omega)

theorem set_internal_key_upper (pg : Page) (i : Nat) (k : Str) (hi : Option Str) (j : Nat) :
    upper_bound_of (set_internal_key pg i k) hi j =
      if j = i ∧ i < pg.size then some k else upper_bound_of pg hi j := by
  unfold upper_bound_of
  rw [set_internal_key_key]
  have hsz : (set_internal_key pg i k).size = pg.size := rfl
  rw [hsz]
  by_cases h1 : j < pg.size
  · rw [if_pos h1, if_pos h1]
    by_cases h2 : j = i
    · rw [if_pos h2, if_pos ⟨h2, by omega⟩]
    · rw [if_neg h2, if_neg (fun h => h2 h.1)]
  · rw [if_neg h1, if_neg h1, if_neg (fun h => h1 (by omega))]

theorem Hole.child_ne_hole {t : Table} {g : Ghost} {G x N i : Nat} {hi_old : Option Str}
    (h : Hole t g G x N i hi_old) (k : Nat) (hk : k ≤ (t.page G).size) :
    internal_child_of (t.page G) k ≠ G := by
  intro heq
  have := (h.child k hk).2.2.2.2
  rw [heq] at this
  omega

theorem SplitDone.lower_done {t : Table} {g : Ghost} {x N : Nat} {hi_old : Option Str}
    (h : SplitDone t g x N hi_old) (_ : x ≠ 0) :
    ∀ p, p < t.size → p ≠ (t.page x).parent → Down t g p := by
  intro p hp hpG
  by_cases hpx : p = x
  · rw [hpx]; exact h.x_down
  · by_cases hpN : p = N
    · rw [hpN]; exact h.N_down
    · exact (h.others p hp hpx hpN (fun _ => hpG)).1

theorem Hole.sorted_step_hole {t : Table} {g : Ghost} {x N i : Nat} {hi_old : Option Str}
    (h : SplitDone t g x N hi_old) (hx0 : x ≠ 0)
    (hole : Hole t g (t.page x).parent x N i hi_old)
    (k : Nat) (hk : k + 1 < (t.page (t.page x).parent).size) :
    internal_key_of (t.page (t.page x).parent) k
      < internal_key_of (t.page (t.page x).parent) (k + 1) := by
  have hc := hole.child (k + 1) (by omega)
  have hlo := hole.lo (k + 1) (by omega)
  have hlow : lower_bound_of (t.page (t.page x).parent) (g.lo (t.page x).parent) (k + 1)
      = some (internal_key_of (t.page (t.page x).parent) k) := by
    simp [lower_bound_of]
  have hupp : upper_bound_of (t.page (t.page x).parent) (g.hi (t.page x).parent) (k + 1)
      = some (internal_key_of (t.page (t.page x).parent) (k + 1)) := by
    simp [upper_bound_of, hk]
  rw [hlow] at hlo
  by_cases hki : k + 1 = i
  · obtain ⟨m, hm1, hm2⟩ := h.mid
    have hxc := hole.slot_child
    rw [← hki] at hxc
    rw [hxc] at hlo
    have h1 := h.x_down.1 _ m hlo hm1
    have h2 := h.N_down.1 m (internal_key_of (t.page (t.page x).parent) (k + 1)) hm2
      (by rw [h.N_hi, ← hole.slot_hi, ← hki, hupp])
    exact lt_trans h1 h2
  · have hhi := hole.hi (k + 1) (by omega) hki
    rw [hupp] at hhi
    have hd := h.lower_done hx0 _ hc.1 (hole.child_ne_hole (k + 1) (by omega))
    exact hd.1 _ _ hlo hhi

theorem Hole.sorted_hole {t : Table} {g : Ghost} {x N i : Nat} {hi_old : Option Str}
    (h : SplitDone t g x N hi_old) (hx0 : x ≠ 0)
    (hole : Hole t g (t.page x).parent x N i hi_old) :
    ∀ a b, a < b → b < (t.page (t.page x).parent).size →
      internal_key_of (t.page (t.page x).parent) a
        < internal_key_of (t.page (t.page x).parent) b := by
  intro a b hab
  induction b with
  | zero => omega
  | succ b ih =>
    intro hb
    rcases Nat.eq_or_lt_of_le (Nat.le_of_lt_succ hab) with h1 | h1
    · subst h1
      exact hole.sorted_step_hole h hx0 a hb
    · exact lt_trans (ih h1 (by omega)) (hole.sorted_step_hole h hx0 b hb)

theorem Hole.sorted_le_hole {t : Table} {g : Ghost} {x N i : Nat} {hi_old : Option Str}
    (h : SplitDone t g x N hi_old) (hx0 : x ≠ 0)
    (hole : Hole t g (t.page x).parent x N i hi_old)
    (a b : Nat) (hab : a ≤ b) (hb : b < (t.page (t.page x).parent).size) :
    internal_key_of (t.page (t.page x).parent) a
      ≤ internal_key_of (t.page (t.page x).parent) b := by
  rcases Nat.eq_or_lt_of_le hab with h1 | h1
  · rw [h1]
  · exact le_of_lt (hole.sorted_hole h hx0 a b h1 hb)

/-- The old maximum key of the split page is routed to the slot of the page. -/
theorem Hole.find_old {t : Table} {g : Ghost} {x N i : Nat} {hi_old : Option Str}
    (h : SplitDone t g x N hi_old) (hx0 : x ≠ 0)
    (hole : Hole t g (t.page x).parent x N i hi_old) (k : Str)
    (h1 : Above (g.lo x) k) (h2 : Below k hi_old) :
    internal_node_find_child (t.page (t.page x).parent) k = .ok i := by
  apply internal_node_find_child_eq _ _ _ (hole.sorted_hole h hx0) hole.slot_le
  · intro a ha
    have hlo := hole.lo i hole.slot_le
    rw [hole.slot_child] at hlo
    have h3 := h1 (internal_key_of (t.page (t.page x).parent) (i - 1))
      (by rw [hlo]; unfold lower_bound_of; rw [if_neg (show ¬ i = 0 by omega)])
    exact lt_of_le_of_lt (hole.sorted_le_hole h hx0 a (i - 1) (by omega)
      (by have := hole.slot_le; omega)) h3
  · intro hlt
    apply h2
    rw [← hole.slot_hi]
    unfold upper_bound_of
    rw [if_pos hlt]

/-- After the separator of the split page is rewritten, the parent is ready for
the insertion of the new page right behind the split page. -/
theorem SplitDone.ready {t : Table} {g : Ghost} {x N : Nat} {hi_old : Option Str}
    (h : SplitDone t g x N hi_old) (hx0 : x ≠ 0) (i : Nat)
    (hole : Hole t g (t.page x).parent x N i hi_old) (m : Str) (hm : g.hi x = some m)
    (t' : Table) (hsize : t'.size = t.size) (hfresh : PagerOK t')
    (hother : ∀ p, p ≠ (t.page x).parent → t'.page p = t.page p)
    (hG : t'.page (t.page x).parent = set_internal_key (t.page (t.page x).parent) i m) :
    InsertReady t' g (t.page x).parent N (i + 1) := by
  generalize hGdef : (t.page x).parent = G at *
  obtain ⟨hxup, hGup, hGapart, _⟩ := h.inner hx0
  rw [hGdef] at hGup hGapart
  have hGlt : G < t.size := by
    have := (hxup.of_ne_zero hx0).2.2.1
    rw [hGdef] at this
    exact this
  obtain ⟨m', hm1, hm2⟩ := h.mid
  have hmm : m' = m := by rw [hm] at hm1; cases hm1; rfl
  subst hmm
  have hxG : x ≠ G := by
    intro heq
    have := hole.child_ne_hole i hole.slot_le
    rw [hole.slot_child] at this
    exact this heq
  have hNG : N ≠ G := by
    intro heq
    have h1 := (hole.child i hole.slot_le).2.2.2.2
    rw [hole.slot_child, ← heq, h.N_level] at h1
    omega
  have hbody : ∀ p, SameBody (t.page p) (t'.page p) ∨ p = G := by
    intro p
    by_cases hp : p = G
    · right; exact hp
    · left; exact SameBody.of_eq (hother p hp)
  have hparent : ∀ c, (t'.page c).parent = (t.page c).parent := by
    intro c
    by_cases hc : c = G
    · rw [hc, hG]; rfl
    · rw [hother c hc]
  have hroot : ∀ c, (t'.page c).is_root = (t.page c).is_root := by
    intro c
    by_cases hc : c = G
    · rw [hc, hG]; rfl
    · rw [hother c hc]
  have htype : ∀ c, (t'.page c).type = (t.page c).type := by
    intro c
    by_cases hc : c = G
    · rw [hc, hG]; rfl
    · rw [hother c hc]
  have hchild : ∀ c k, internal_child_of (t'.page c) k = internal_child_of (t.page c) k := by
    intro c k
    by_cases hc : c = G
    · rw [hc, hG, set_internal_key_child]
    · rw [hother c hc]
  have hsz : ∀ c, (t'.page c).size = (t.page c).size := by
    intro c
    by_cases hc : c = G
    · rw [hc, hG]; rfl
    · rw [hother c hc]
  have hdown : ∀ p, p < t.size → p ≠ G → Down t g p → Down t' g p := by
    intro p hp hpG hd
    apply hd.frame (hother p hpG) (le_of_eq hsize.symm) rfl rfl rfl
    intro _ k _
    exact ⟨hparent _, rfl, rfl, rfl⟩
  have hup : ∀ p, p < t.size → Up t g p → Up t' g p := by
    intro p hp hu
    by_cases hp0 : p = 0
    · subst hp0
      have := hu.of_zero
      unfold Up
      rw [if_pos rfl, hroot]
      exact this
    · apply hu.frame_up hp0 (hroot p) (hparent p) (le_of_eq hsize.symm) (hu.of_ne_zero hp0).2.1
      · rw [htype]; exact (hu.of_ne_zero hp0).2.2.2.1
      · rintro k hk hc
        exact ⟨k, by rw [hsz]; exact hk, by rw [hchild]; exact hc⟩
  have hilev := (hole.child i hole.slot_le).2.2.2.2
  rw [hole.slot_child] at hilev
  refine ⟨by rw [hsize]; exact h.size_pos, by rw [hsize]; exact h.size_le, hfresh,
    by rw [hsize]; exact h.height, ?_, by rw [hsize]; exact hGlt, hup G hGlt hGup, hGapart, ?_,
    by rw [hsize]; exact h.N_lt, h.N_ne_zero, hdown N h.N_lt hNG h.N_down,
    by rw [hroot]; exact h.N_root, by rw [hparent, h.N_parent]; exact hGdef⟩
  · intro p hp hpG hpN
    rw [hsize] at hp
    by_cases hpx : p = x
    · rw [hpx]
      exact ⟨hdown x h.x_lt hxG h.x_down, hup x h.x_lt hxup⟩
    · obtain ⟨hd, hu⟩ := h.others p hp hpx hpN (fun _ => by rw [hGdef]; exact hpG)
      exact ⟨hdown p hp hpG hd, hup p hp hu⟩
  · have hslot := hole.slot_le
    refine ⟨by rw [htype]; exact hole.type, by rw [hsz]; exact hole.size_pos,
      by rw [hsz]; exact hole.size_le, by rw [hsz]; omega, ?_, ?_, ?_, ?_, ?_, ?_, ?_⟩
    · intro k hk
      rw [hsz] at hk
      rw [hchild, hsize, hparent]
      exact hole.child k hk
    · intro k hk
      rw [hsz] at hk
      rw [hchild, hG, set_internal_key_lower, hole.lo k hk]
      by_cases hki : k = i + 1
      · rw [if_pos hki, h.N_hi, ← hole.slot_hi, hki]
        unfold lower_bound_of upper_bound_of
        rw [if_neg (show ¬ i + 1 = 0 by omega), if_pos (show i < (t.page G).size by omega)]
        rfl
      · rw [if_neg hki, if_neg hki]
    · intro k hk
      rw [hsz] at hk
      rw [hchild, hsz, hG, set_internal_key_upper]
      by_cases hki : k = i
      · rw [hki, hole.slot_child, hm]
        by_cases his : i = (t.page G).size
        · rw [if_pos ⟨his, by omega⟩, hm2]
        · rw [if_neg (fun hh => his hh.1), if_pos ⟨rfl, by omega⟩]
      · rw [hole.hi k hk hki, if_neg (show ¬ (k = (t.page G).size ∧ i + 1 = (t.page G).size + 1)
          by omega), if_neg (fun hh => hki hh.1)]
    · intro hj
      rw [hsz] at hj
      rw [hG, set_internal_key_lower, if_pos rfl, hm2]
    · intro hj
      rw [hsz] at hj
      refine ⟨internal_key_of (t.page G) i, ?_⟩
      rw [h.N_hi, ← hole.slot_hi]
      unfold upper_bound_of
      rw [if_pos (show i < (t.page G).size by omega)]
    · intro hj
      rw [hsz] at hj
      refine ⟨?_, _, hm2⟩
      rw [h.N_hi, ← hole.slot_hi]
      unfold upper_bound_of
      rw [if_neg (show ¬ i < (t.page G).size by omega)]
    · rw [h.N_level]; exact hilev

/-! ## Maximum keys in a table that is being rebuilt -/

theorem recursive_max_key_of_leaf (d : Nat) (t : Table) (p : Nat)
    (hty : (t.page p).type = NODE_LEAF) (hsz : 0 < (t.page p).size) :
    recursive_max_key_of (d + 1) t p = .ok (t, ⟨p, (t.page p).size - 1⟩) := by
  unfold recursive_max_key_of
  simp only [hty, Nat.ne_of_gt hsz, if_false]

theorem recursive_max_key_of_internal (d : Nat) (t : Table) (p : Nat)
    (hty : (t.page p).type = NODE_INTERNAL) :
    recursive_max_key_of (d + 1) t p =
      (get_page t (t.page p).rightmost >>= fun t1 =>
        recursive_max_key_of d t1 (t.page p).rightmost) := by
  conv => lhs; unfold recursive_max_key_of
  simp only [hty, internal_rightmost_child_of]

theorem Ghost.lift_level_lt (g : Ghost) (S lev p : Nat) (hp : p < S) :
    (g.lift S lev).level p = g.level p := by
  unfold Ghost.lift
  simp [hp]

theorem Ghost.lift_level_ge (g : Ghost) (S lev p : Nat) (hp : S ≤ p) :
    (g.lift S lev).level p = lev := by
  unfold Ghost.lift
  have : ¬ p < S := by omega
  simp [this]

/-- The maximum key below a page `r`, computed in a table `t2` that extends a
table `t` and agrees with it below the level `lev`: on the bodies of the pages
and on the parent fields of the pages that have a parent below `lev`. -/
theorem recursive_max_key_of_low (g : Ghost) (d : Nat) (t t2 : Table) (r lev : Nat)
    (hN : t2.size ≤ TABLE_MAX_PAGES) (hsize : t.size ≤ t2.size)
    (hr : r < t.size) (hrlev : g.level r < lev) (hr0 : r ≠ 0)
    (hlow : ∀ p, p < t.size → g.level p < lev → Down t g p)
    (hsame : ∀ p, p < t.size → g.level p < lev → SameBody (t.page p) (t2.page p))
    (hpar : ∀ p, p < t.size → g.level p + 1 < lev → (t2.page p).parent = (t.page p).parent)
    (hdepth : g.level r < d) :
    Returns (recursive_max_key_of d t2 r) (fun res =>
      Same t2 res.1 ∧ res.2.page_index < t2.size ∧
      (t2.page res.2.page_index).type = NODE_LEAF ∧
      Above (g.lo r) (t2.key_at res.2) ∧ (∀ h, g.hi r = some h → t2.key_at res.2 = h)) := by
  have hdown2 : ∀ p', p' < t2.size →
      (g.lift t.size lev).level p' ≤ (g.lift t.size lev).level r →
      Down t2 (g.lift t.size lev) p' := by
    intro p' h1 h2
    rw [g.lift_level_lt _ _ r hr] at h2
    have hp't : p' < t.size := by
      by_contra hge
      rw [g.lift_level_ge _ _ p' (by omega)] at h2
      omega
    rw [g.lift_level_lt _ _ p' hp't] at h2
    have hdp := hlow p' hp't (by omega)
    apply hdp.frame_body (hsame p' hp't (by omega)) hsize (g.lift_level_lt _ _ p' hp't) rfl rfl
    intro hty' i hi
    have hci := (hdp.internal hty').2.2 i hi
    exact ⟨hpar _ hci.1 (by omega), g.lift_level_lt _ _ _ hci.1, rfl, rfl⟩
  obtain ⟨res, e, h1, h2, h3, _, _, h6, h7⟩ :=
    recursive_max_key_of_spec (g.lift t.size lev) d t2 r hN (by omega)
      (by rw [g.lift_level_lt _ _ r hr]; exact hdepth) hdown2
      (by
        have hb := hsame r hr hrlev
        rw [hb.1, hb.2.1]
        exact (hlow r hr hrlev).leaf_nonempty hr0)
  exact ⟨res, e, h1, h2, h3, h6, h7⟩

/-- The maximum key below a page `L` of `t2` that has the body of a page `x` of
`t`, under the assumptions of `recursive_max_key_of_low` with `lev` the level
of `x`. -/
theorem recursive_max_key_of_top (g : Ghost) (d : Nat) (t t2 : Table) (x L : Nat)
    (lo hi : Option Str)
    (hN : t2.size ≤ TABLE_MAX_PAGES) (hsize : t.size ≤ t2.size) (hL : L < t2.size)
    (hbody : SameBody (t.page x) (t2.page L))
    (hleaf : (t.page x).type = NODE_LEAF →
      0 < (t.page x).size ∧ LeafOK (t.page x) lo hi)
    (hint : (t.page x).type = NODE_INTERNAL →
      (t.page x).rightmost < t.size ∧ (t.page x).rightmost ≠ 0 ∧
      g.level x = g.level (t.page x).rightmost + 1 ∧
      (∀ l, lo = some l → ∃ l', g.lo (t.page x).rightmost = some l' ∧ l ≤ l') ∧
      g.hi (t.page x).rightmost = hi)
    (hlow : ∀ p, p < t.size → g.level p < g.level x → Down t g p)
    (hsame : ∀ p, p < t.size → g.level p < g.level x → SameBody (t.page p) (t2.page p))
    (hpar : ∀ p, p < t.size → g.level p + 1 < g.level x →
      (t2.page p).parent = (t.page p).parent)
    (hdepth : g.level x < d) :
    Returns (recursive_max_key_of d t2 L) (fun res =>
      Same t2 res.1 ∧ res.2.page_index < t2.size ∧
      (t2.page res.2.page_index).type = NODE_LEAF ∧
      Above lo (t2.key_at res.2) ∧ (∀ h, hi = some h → t2.key_at res.2 = h)) := by
  cases d with
  | zero => omega
  | succ d =>
    cases hty : (t.page x).type with
    | NODE_LEAF =>
      obtain ⟨hsz, hl⟩ := hleaf hty
      have hty2 : (t2.page L).type = NODE_LEAF := by rw [hbody.1, hty]
      rw [recursive_max_key_of_leaf d t2 L hty2 (by rw [hbody.2.1]; exact hsz)]
      refine ⟨_, rfl, Same.refl _, hL, hty2, ?_, ?_⟩
      · show Above lo ((t2.page L).records ((t2.page L).size - 1)).key
        rw [hbody.2.2.2.2, hbody.2.1]
        exact hl.2.2.1 _ (by omega)
      · intro h hh
        show ((t2.page L).records ((t2.page L).size - 1)).key = h
        rw [hbody.2.2.2.2, hbody.2.1]
        exact (hl.2.2.2 h hh).2
    | NODE_INTERNAL =>
      obtain ⟨hr1, hr2, hr3, hr4, hr5⟩ := hint hty
      have hty2 : (t2.page L).type = NODE_INTERNAL := by rw [hbody.1, hty]
      rw [recursive_max_key_of_internal d t2 L hty2, hbody.2.2.2.1]
      obtain ⟨t3, e3, hs3, _⟩ := get_page_allocated t2 (t.page x).rightmost (by omega) hN
      simp only [e3, ok_bind]
      obtain ⟨res, e, h1, h0, h2, h3, h4⟩ := recursive_max_key_of_low g d t t3 (t.page x).rightmost
        (g.level x) (by rw [hs3.size]; exact hN) (by rw [hs3.size]; exact hsize) hr1 (by omega)
        hr2 hlow (by rw [hs3.page]; exact hsame) (by rw [hs3.page]; exact hpar) (by omega)
      refine ⟨res, e, hs3.trans h1, by rw [hs3.size] at h0; exact h0, ?_, ?_, ?_⟩
      · rw [hs3.page] at h2; exact h2
      · rw [key_at_same hs3] at h3
        intro l hl
        obtain ⟨l', hl', hll⟩ := hr4 l hl
        exact lt_of_le_of_lt hll (h3 l' hl')
      · rw [key_at_same hs3] at h4
        intro h hh
        exact h4 h (by rw [hr5, hh])

theorem create_new_root_effect (d : Nat) (t : Table) (N : Nat) (m : Str)
    (hN1 : t.size ≤ TABLE_MAX_PAGES) (hfresh : PagerOK t) (hNlt : N < t.size) (hN0 : N ≠ 0)
    (hmax : ∀ t2 : Table, t2.size = t.size + 1 → t2.size ≤ TABLE_MAX_PAGES →
      SameBody (t.page 0) (t2.page t.size) →
      (∀ p, p < t.size → p ≠ 0 → t2.page p = t.page p) →
      Returns (recursive_max_key_of d t2 t.size) (fun res =>
        Same t2 res.1 ∧ t2.key_at res.2 = m)) :
    Yields (create_new_root d t N) (fun t' =>
      t.size < TABLE_MAX_PAGES ∧ t'.size = t.size + 1 ∧ PagerOK t' ∧
      t'.page 0 = new_root_page (t.page 0) t.size m N ∧
      t'.page t.size = { t.page 0 with is_root := false, parent := 0 } ∧
      t'.page N = { t.page N with parent := 0 } ∧
      ∀ p, p ≠ 0 → p ≠ t.size → p ≠ N → t'.page p = t.page p) := by
  unfold create_new_root
  simp only [ROOT_PAGE_INDEX]
  obtain ⟨t1, e1, hs1, _⟩ := get_page_allocated t 0 (by omega) hN1
  simp only [e1, ok_bind]
  have hnew := get_page_new t1 (hs1.fresh hfresh)
  rw [hs1.size] at hnew
  apply hnew.seq
  rintro t2 ⟨hlt, h2size, h2page, _, _, _, _, h2fresh⟩
  rw [hs1.page] at h2page
  obtain ⟨t3, e3, hs3, _⟩ := get_page_allocated t2 N (by omega) (by omega)
  simp only [e3, ok_bind]
  have h3page : ∀ p, p ≠ t.size → t3.page p = t.page p := by
    intro p hp; rw [hs3.page, h2page p hp]
  have h3size : t3.size = t.size + 1 := by rw [hs3.size, h2size]
  have hL0 : t.size ≠ 0 := by omega
  have hNL : N ≠ t.size := by omega
  simp only [write_page_same, write_write, write_page_ne _ _ _ _ hL0,
    write_page_ne _ _ _ _ hL0.symm, h3page 0 hL0.symm]
  -- the table on which the maximum key of the left page is computed
  generalize htm : ((t3.write t.size
      { type := (t.page 0).type, is_root := false, size := (t.page 0).size,
        parent := (t.page 0).parent, branches := (t.page 0).branches,
        rightmost := (t.page 0).rightmost, records := (t.page 0).records }).write 0
      (set_internal_child
        { type := (initialize_internal_node (t.page 0)).type, is_root := true, size := 1,
          parent := (initialize_internal_node (t.page 0)).parent,
          branches := (initialize_internal_node (t.page 0)).branches,
          rightmost := (initialize_internal_node (t.page 0)).rightmost,
          records := (initialize_internal_node (t.page 0)).records } 0 t.size)) = tm
  have hmsize : tm.size = t.size + 1 := by rw [← htm]; simp [h3size]
  have hmL : tm.page t.size = { t.page 0 with is_root := false } := by
    rw [← htm, write_page_ne _ _ _ _ hL0, write_page_same]
  have hm0 : tm.page 0 = set_internal_child
      { initialize_internal_node (t.page 0) with is_root := true, size := 1 } 0 t.size := by
    rw [← htm, write_page_same]
  have hmp : ∀ p, p ≠ 0 → p ≠ t.size → tm.page p = t.page p := by
    intro p h0 hL
    rw [← htm, write_page_ne _ _ _ _ h0, write_page_ne _ _ _ _ hL, h3page p hL]
  have hmfresh : PagerOK tm := by
    rw [← htm]
    apply fresh_write _ _ _ (by simp [h3size])
    apply fresh_write _ _ _ (by simp [h3size])
    exact hs3.fresh h2fresh
  obtain ⟨⟨t4, kp⟩, e4, hs4, hk2⟩ := hmax tm hmsize (by omega)
    (by rw [hmL]; exact ⟨rfl, rfl, rfl, rfl, rfl⟩)
    (fun p hp hp0 => hmp p hp0 (by omega))
  dsimp only at hs4 hk2
  simp only [e4, ok_bind]
  show _ ∧ _
  rw [key_at_same hs4, hk2, hs4.page, hm0, hmL]
  refine ⟨hlt, ?_, ?_, ?_, ?_, ?_, ?_⟩
  · simp [hs4.size, hmsize]
  · apply fresh_write _ _ _ (by simp [hs4.size, hmsize]; omega)
    apply fresh_write _ _ _ (by simp [hs4.size, hmsize])
    apply fresh_write _ _ _ (by simp [hs4.size, hmsize])
    exact hs4.fresh hmfresh
  · rw [write_page_ne _ _ _ _ hN0.symm, write_page_ne _ _ _ _ hL0.symm, write_page_same]
    unfold new_root_page set_internal_child set_internal_key initialize_internal_node
    simp
  · rw [write_page_ne _ _ _ _ hNL.symm, write_page_same]
  · rw [write_page_same, write_page_ne _ _ _ _ hNL, write_page_ne _ _ _ _ hN0, hs4.page,
      hmp N hN0 hNL]
  · intro p h0 hL hpN
    rw [write_page_ne _ _ _ _ hpN, write_page_ne _ _ _ _ hL, write_page_ne _ _ _ _ h0,
      hs4.page, hmp p h0 hL]

theorem Ghost.new_root_other (g : Ghost) (L p : Nat) (h0 : p ≠ 0) (hL : p ≠ L) :
    (g.new_root L).level p = g.level p ∧ (g.new_root L).lo p = g.lo p ∧
      (g.new_root L).hi p = g.hi p := by
  unfold Ghost.new_root
  simp [h0, hL]

theorem new_root_page_child (pg : Page) (L : Nat) (m : Str) (N : Nat) (i : Nat) :
    internal_child_of (new_root_page pg L m N) i = if i = 0 then L else N := by
  unfold internal_child_of new_root_page internal_rightmost_child_of
  simp only
  by_cases h : i = 0
  · subst h; simp
  · rw [if_pos (by omega), if_neg h]

/-- Root creation after a split of the root restores the invariant. -/
theorem SplitDone.new_root {t : Table} {g : Ghost} {N : Nat} {hi_old : Option Str}
    (h : SplitDone t g 0 N hi_old) (m : Str) (hm : g.hi 0 = some m) (t' : Table)
    (hmin : (t.page 0).type = NODE_LEAF → LEAF_LEFT_SPLIT_SIZE ≤ (t.page 0).size)
    (hsize : t'.size = t.size + 1) (hfresh : PagerOK t') (hcap : t'.size ≤ TABLE_MAX_PAGES)
    (h0 : t'.page 0 = new_root_page (t.page 0) t.size m N)
    (hL : SameBody (t.page 0) (t'.page t.size) ∧ (t'.page t.size).is_root = false ∧
      (t'.page t.size).parent = 0)
    (hpg : ∀ p, p ≠ 0 → p ≠ t.size →
      SameBody (t.page p) (t'.page p) ∧ (t'.page p).is_root = (t.page p).is_root)
    (hparN : (t'.page N).parent = 0)
    (hparC : (t.page 0).type = NODE_INTERNAL → ∀ i, i ≤ (t.page 0).size →
      (t'.page (internal_child_of (t.page 0) i)).parent = t.size)
    (hparO : ∀ p, p < t.size → p ≠ 0 → p ≠ N → (t.page p).parent ≠ 0 →
      (t'.page p).parent = (t.page p).parent) :
    InvWith t' (g.new_root t.size) := by
  obtain ⟨hroot, hlo0, hhiold⟩ := h.root rfl
  obtain ⟨m', hm1, hm2⟩ := h.mid
  have hmm : m' = m := by rw [hm] at hm1; cases hm1; rfl
  subst hmm
  have hL0 : t.size ≠ 0 := by have := h.size_pos; omega
  have hNL : N ≠ t.size := by have := h.N_lt; omega
  have hg0 : (g.new_root t.size).level 0 = g.level 0 + 1 ∧ (g.new_root t.size).lo 0 = g.lo 0 ∧
      (g.new_root t.size).hi 0 = none := by
    unfold Ghost.new_root; simp [hL0.symm]
  have hgL : (g.new_root t.size).level t.size = g.level 0 ∧
      (g.new_root t.size).lo t.size = g.lo 0 ∧ (g.new_root t.size).hi t.size = g.hi 0 := by
    unfold Ghost.new_root; simp [hL0]
  have hgo := g.new_root_other t.size
  have hlower : ∀ p, p < t.size → p ≠ 0 → Down t g p := by
    intro p hp hp0
    by_cases hpN : p = N
    · rw [hpN]; exact h.N_down
    · exact (h.others p hp hp0 hpN (fun hx => absurd rfl hx)).1
  have hupper : ∀ p, p < t.size → p ≠ 0 → p ≠ N → Up t g p := by
    intro p hp hp0 hpN
    exact (h.others p hp hp0 hpN (fun hx => absurd rfl hx)).2
  refine ⟨by omega, hcap, hfresh, by rw [hg0.1, hsize]; have := h.height; omega, ?_⟩
  intro p hp
  rw [hsize] at hp
  by_cases hp0 : p = 0
  · -- the new root
    subst hp0
    constructor
    · unfold Down
      rw [hg0.2.1, hg0.2.2, h0]
      refine ⟨(fun l u _ hu => Option.noConfusion hu), ?_⟩
      show InternalOK t' (g.new_root t.size) 0
      unfold InternalOK
      rw [h0]
      refine ⟨le_refl _, (by show (1 : Nat) ≤ INTERNAL_BRANCH_SIZE; unfold INTERNAL_BRANCH_SIZE; omega), ?_⟩
      intro i hi
      have hi1 : i ≤ 1 := hi
      rw [new_root_page_child, hsize]
      by_cases hi0 : i = 0
      · subst hi0
        rw [if_pos rfl, hL.2.2, hg0.1, hgL.1, hgL.2.1, hgL.2.2, hg0.2.1, hm]
        refine ⟨by omega, hL0, rfl, rfl, rfl, ?_⟩
        unfold upper_bound_of internal_key_of new_root_page
        simp
      · have hi1' : i = 1 := by omega
        subst hi1'
        rw [if_neg (by decide), hparN, hg0.1, (hgo N h.N_ne_zero hNL).1,
          (hgo N h.N_ne_zero hNL).2.1, (hgo N h.N_ne_zero hNL).2.2, h.N_level, hm2, h.N_hi, hhiold]
        refine ⟨by have := h.N_lt; omega, h.N_ne_zero, rfl, rfl, ?_, ?_⟩
        · unfold lower_bound_of internal_key_of new_root_page
          simp
        · unfold upper_bound_of new_root_page
          simp [hg0.2.2]
    · unfold Up
      rw [if_pos rfl, h0, hg0.2.1, hg0.2.2]
      exact ⟨rfl, hlo0, rfl⟩
  · by_cases hpL : p = t.size
    · -- the copy of the old root
      subst hpL
      constructor
      · unfold Down
        rw [hgL.2.1, hgL.2.2, hL.1.1]
        refine ⟨h.x_down.1, ?_⟩
        cases hty : (t.page 0).type with
        | NODE_LEAF =>
          have hl := h.x_down.leaf hty
          simp only
          rw [hgL.1, hL.1.2.1]
          exact ⟨hl.1, hl.2.1.same_body hL.1, fun _ => hmin hty⟩
        | NODE_INTERNAL =>
          have hint := h.x_down.internal hty
          simp only
          unfold InternalOK
          rw [hL.1.2.1, hsize]
          refine ⟨hint.1, hint.2.1, ?_⟩
          intro i hi
          obtain ⟨c1, c2, c3, c4, c5, c6⟩ := hint.2.2 i hi
          have hcL : internal_child_of (t.page 0) i ≠ t.size := by omega
          rw [hL.1.child, hL.1.lower, hL.1.upper, hparC hty i hi, hgL.1, hgL.2.1, hgL.2.2,
            (hgo _ c2 hcL).1, (hgo _ c2 hcL).2.1, (hgo _ c2 hcL).2.2]
          exact ⟨by omega, c2, rfl, c4, c5, c6⟩
      · unfold Up
        rw [if_neg hp0, hL.2.1, hL.2.2, hgL.1, hg0.1, h0, hsize]
        refine ⟨rfl, by omega, by omega, rfl, 0, Nat.zero_le _, ?_⟩
        rw [new_root_page_child, if_pos rfl]
    · have hpt : p < t.size := by omega
      obtain ⟨hb, hr⟩ := hpg p hp0 hpL
      have hdp := hlower p hpt hp0
      have hdown' : Down t' (g.new_root t.size) p := by
        apply hdp.frame_body hb (by omega) (hgo p hp0 hpL).1 (hgo p hp0 hpL).2.1
          (hgo p hp0 hpL).2.2
        intro hty i hi
        obtain ⟨c1, c2, c3, c4, c5, c6⟩ := (hdp.internal hty).2.2 i hi
        have hcL : internal_child_of (t.page p) i ≠ t.size := by omega
        have hcN : internal_child_of (t.page p) i ≠ N := h.orphan p hpt hty i hi
        refine ⟨?_, (hgo _ c2 hcL).1, (hgo _ c2 hcL).2.1, (hgo _ c2 hcL).2.2⟩
        rw [hparO _ c1 c2 hcN (by rw [c3]; exact hp0)]
      refine ⟨hdown', ?_⟩
      by_cases hpN : p = N
      · -- the new right sibling
        subst hpN
        unfold Up
        rw [if_neg hp0, hr, hparN, (hgo p hp0 hpL).1, hg0.1, h.N_level, h0, hsize]
        refine ⟨h.N_root, by omega, by omega, rfl, 1, le_refl _, ?_⟩
        rw [new_root_page_child, if_neg (by decide)]
      · have hu := (hupper p hpt hp0 hpN).of_ne_zero hp0
        obtain ⟨u1, u2, u3, u4, i, u5, u6⟩ := hu
        unfold Up
        rw [if_neg hp0, hr, (hgo p hp0 hpL).1, hg0.1, hsize]
        by_cases hP0 : (t.page p).parent = 0
        · rw [hP0] at u4 u5 u6
          have hpc := hparC u4 i u5
          rw [u6] at hpc
          rw [hpc, hL.1.1]
          refine ⟨u1, by omega, by omega, u4, i, by rw [hL.1.2.1]; exact u5, ?_⟩
          rw [hL.1.child, u6]
        · rw [hparO p hpt hp0 hpN hP0]
          have hPL : (t.page p).parent ≠ t.size := by omega
          obtain ⟨hbP, _⟩ := hpg _ hP0 hPL
          rw [hbP.1]
          refine ⟨u1, by omega, by omega, u4, i, by rw [hbP.2.1]; exact u5, ?_⟩
          rw [hbP.child, u6]

theorem internal_node_split_and_insert_eq (depth fuel : Nat) (t : Table)
    (old_page_index child_page_index : Nat) :
    internal_node_split_and_insert depth (fuel + 1) t old_page_index child_page_index =
      (internal_node_split depth t old_page_index child_page_index >>= fun r =>
        internal_node_split_finish depth (internal_node_split_and_insert depth fuel) r.1
          old_page_index child_page_index r.2.1 r.2.2.1 r.2.2.2.1 r.2.2.2.2) := by
  conv => lhs; unfold internal_node_split_and_insert
  unfold internal_node_split internal_node_split_finish
  simp only [bind_assoc, pure_bind]
  rfl

theorem RightHalf.child_moved {pq pn : Page} (h : RightHalf pq pn)
    (hsz : pq.size = INTERNAL_BRANCH_SIZE) (i : Nat) (hi : i ≤ INTERNAL_RIGHT_SPLIT_SIZE) :
    internal_child_of pn i = internal_child_of pq (INTERNAL_LEFT_SPLIT_SIZE + i) := by
  obtain ⟨_, _, h3, _, h5, h6⟩ := h
  unfold internal_child_of internal_rightmost_child_of
  unfold INTERNAL_BRANCH_SIZE at hsz
  unfold INTERNAL_RIGHT_SPLIT_SIZE at h3 hi h6
  unfold INTERNAL_LEFT_SPLIT_SIZE at h6 ⊢
  rw [h3, hsz, h5]
  by_cases h2 : i ≥ 2
  · rw [if_pos h2, if_pos (by omega)]
  · rw [if_neg h2, if_neg (by omega), h6 i (by omega)]

theorem RightHalf.key_right {pq pn : Page} (h : RightHalf pq pn) (i : Nat)
    (hi : i < INTERNAL_RIGHT_SPLIT_SIZE) :
    internal_key_of pn i = internal_key_of pq (INTERNAL_LEFT_SPLIT_SIZE + i) := by
  unfold internal_key_of
  rw [h.2.2.2.2.2 i hi]

theorem left_half_child (pq : Page) (hsz : pq.size = INTERNAL_BRANCH_SIZE) (i : Nat)
    (hi : i ≤ 1) : internal_child_of (left_half pq) i = internal_child_of pq i := by
  unfold internal_child_of internal_rightmost_child_of left_half
  unfold INTERNAL_BRANCH_SIZE at hsz
  unfold INTERNAL_LEFT_SPLIT_SIZE
  simp only
  rw [hsz]
  by_cases h2 : i ≥ 1
  · have : i = 1 := by omega
    subst this
    simp
  · rw [if_neg (by omega), if_neg (by omega)]

theorem left_half_key (pq : Page) (i : Nat) :
    internal_key_of (left_half pq) i = internal_key_of pq i := rfl

theorem Pending.first {t : Table} {g : Ghost} {q n j : Nat} (h : Pending t g q n j)
    (hd : ∀ p, p < t.size → g.level p < g.level q → Down t g p) (hn : n < t.size) :
    Above (g.lo q) (internal_key_of (t.page q) 0) := by
  intro l hl
  have hc := h.child 0 (Nat.zero_le _)
  have ha := (hd _ hc.1 (by omega)).1
  have hpos := h.size_pos
  rw [h.lo 0 (Nat.zero_le _), h.hi 0 (Nat.zero_le _),
    if_neg (show ¬ (0 = (t.page q).size ∧ j = (t.page q).size + 1) by omega)] at ha
  have hup : upper_bound_of (t.page q) (g.hi q) 0 = some (internal_key_of (t.page q) 0) := by
    unfold upper_bound_of; rw [if_pos (by omega)]
  by_cases hj : 0 = j
  · rw [if_pos hj] at ha
    obtain ⟨u, hu⟩ := h.n_hi (by omega)
    have h1 := ha u _ hu hup
    have hna := (hd n hn (by have := h.n_level; omega)).1
    have h2 := hna l u (by rw [h.n_lo (by omega), ← hj]; unfold lower_bound_of; simp [hl]) hu
    exact lt_trans h2 h1
  · rw [if_neg hj] at ha
    exact ha l _ (by unfold lower_bound_of; simp [hl]) hup

theorem InsertReady.rightmost {t : Table} {g : Ghost} {q n j : Nat} (h : InsertReady t g q n j) :
    (t.page q).rightmost < t.size ∧ (t.page q).rightmost ≠ 0 ∧
    g.level q = g.level (t.page q).rightmost + 1 := by
  have hr := h.pending.child (t.page q).size (le_refl _)
  have hcr : internal_child_of (t.page q) (t.page q).size = (t.page q).rightmost := by
    simp [internal_child_of, internal_rightmost_child_of]
  rw [hcr] at hr
  exact ⟨hr.1, hr.2.1, hr.2.2.2.2⟩

/-- The key that `old_max_key` points to lies in the interval of the page that
is about to be split. -/
theorem InsertReady.old_max (g : Ghost) (d : Nat) (t t2 : Table) (q n j : Nat)
    (h : InsertReady t g q n j)
    (hN : t2.size ≤ TABLE_MAX_PAGES) (hsize : t.size ≤ t2.size)
    (hsame : ∀ p, p < t.size → t2.page p = t.page p)
    (hnew : ∀ p, t.size ≤ p → p < t2.size → (t2.page p).type = NODE_INTERNAL)
    (hdepth : g.level q < d) :
    Returns (recursive_max_key_of d t2 q) (fun res =>
      Same t2 res.1 ∧ (t.page res.2.page_index).type = NODE_LEAF ∧
      res.2.page_index < t.size ∧
      Above (g.lo q) (t.key_at res.2) ∧ Below (t.key_at res.2) (g.hi q)) := by
  have hpend := h.pending
  have hlow := h.lower_pages
  obtain ⟨hr1, hr2, hr3⟩ := h.rightmost
  have hcr : internal_child_of (t.page q) (t.page q).size = (t.page q).rightmost := by
    simp [internal_child_of, internal_rightmost_child_of]
  have hrlo := hpend.lo (t.page q).size (le_refl _)
  have hrhi := hpend.hi (t.page q).size (le_refl _)
  rw [hcr] at hrlo hrhi
  have hpos := hpend.size_pos
  have hfirst := hpend.first hlow h.n_lt
  have hlast : ∀ l, g.lo q = some l → l < internal_key_of (t.page q) ((t.page q).size - 1) := by
    intro l hl
    exact lt_of_lt_of_le (hfirst l hl)
      (hpend.sorted_le_pending hlow h.n_lt 0 _ (Nat.zero_le _) (by omega))
  obtain ⟨res, e, h1, h2, h3, h4, h5⟩ := recursive_max_key_of_top g d t t2 q q (g.lo q)
    (g.hi (t.page q).rightmost) hN hsize (by have := h.q_lt; omega)
    (SameBody.of_eq (hsame q h.q_lt))
    (by intro hty; rw [hpend.type] at hty; cases hty)
    (by
      intro _
      refine ⟨hr1, hr2, hr3, ?_, rfl⟩
      intro l hl
      rw [hrlo]
      by_cases hjs : (t.page q).size = j
      · rw [if_pos hjs]
        obtain ⟨u, hu⟩ := hpend.n_hi (by omega)
        refine ⟨u, hu, ?_⟩
        have hna := h.n_down.1
        rw [hpend.n_lo (by omega)] at hna
        have h6 := hna (internal_key_of (t.page q) ((t.page q).size - 1)) u
          (by unfold lower_bound_of; rw [if_neg (show ¬ j = 0 by omega), hjs]) hu
        exact le_of_lt (lt_trans (hlast l hl) h6)
      · rw [if_neg hjs]
        refine ⟨_, ?_, le_of_lt (hlast l hl)⟩
        unfold lower_bound_of
        rw [if_neg (show ¬ (t.page q).size = 0 by omega)])
    hlow (fun p hp _ => SameBody.of_eq (hsame p hp))
    (fun p hp _ => by rw [hsame p hp]) hdepth
  have hlt : res.2.page_index < t.size := by
    by_contra hge
    rw [hnew _ (by omega) h2] at h3
    cases h3
  have hkey : t2.key_at res.2 = t.key_at res.2 := by
    unfold Table.key_at
    rw [hsame _ hlt]
  rw [hkey] at h4 h5
  refine ⟨res, e, h1, by rw [← hsame _ hlt]; exact h3, hlt, h4, ?_⟩
  intro u hu
  by_cases hjs : j = (t.page q).size + 1
  · obtain ⟨hnhi, m, hm⟩ := hpend.n_last hjs
    rw [if_pos ⟨rfl, hjs⟩] at hrhi
    have := h5 m (by rw [hrhi, hm])
    rw [this]
    exact le_of_lt (h.n_down.1 m u hm (by rw [hnhi, hu]))
  · rw [if_neg (fun hh => hjs hh.2)] at hrhi
    have := h5 u (by rw [hrhi]; unfold upper_bound_of; rw [if_neg (lt_irrefl _), hu])
    rw [this]

/-- The effect of the first part of `internal_node_split_and_insert`. -/
theorem internal_node_split_spec (g : Ghost) (d : Nat) (t : Table) (q n j : Nat)
    (h : InsertReady t g q n j) (hfull : (t.page q).size = INTERNAL_BRANCH_SIZE)
    (hdepth : g.level q < d) :
    Yields (internal_node_split d t q n) (fun r =>
      t.size < TABLE_MAX_PAGES ∧ r.1.size = t.size + 1 ∧ PagerOK r.1 ∧
      r.2.2.1 = INTERNAL_LEFT_SPLIT_SIZE - 1 ∧ r.2.2.2.1 = (t.page q).parent ∧
      r.2.2.2.2 = t.size ∧
      r.1.page q = left_half (t.page q) ∧
      RightHalf (t.page q) (r.1.page t.size) ∧
      (∀ p, (∃ i, INTERNAL_LEFT_SPLIT_SIZE ≤ i ∧ i ≤ INTERNAL_BRANCH_SIZE ∧
          internal_child_of (t.page q) i = p) →
        r.1.page p = { t.page p with parent := t.size }) ∧
      (∀ p, p ≠ q → p ≠ t.size →
        (∀ i, INTERNAL_LEFT_SPLIT_SIZE ≤ i → i ≤ INTERNAL_BRANCH_SIZE →
          internal_child_of (t.page q) i ≠ p) → r.1.page p = t.page p) ∧
      (t.page r.2.1.page_index).type = NODE_LEAF ∧ r.2.1.page_index < t.size ∧
      Above (g.lo q) (t.key_at r.2.1) ∧ Below (t.key_at r.2.1) (g.hi q)) := by
  have hqN : q ≠ t.size := by have := h.q_lt; omega
  have hnN : n ≠ t.size := by have := h.n_lt; omega
  unfold internal_node_split
  obtain ⟨t1, e1, hs1, _⟩ := get_page_allocated t q h.q_lt h.size_le
  simp only [e1, ok_bind]
  have hnew := get_page_new t1 (hs1.fresh h.fresh)
  rw [hs1.size] at hnew
  apply hnew.seq
  rintro t2 ⟨hlt, h2size, h2page, _, _, _, _, h2fresh⟩
  rw [hs1.page] at h2page
  simp only [write_page_same, write_write, write_page_ne _ _ _ _ hqN, h2page q hqN]
  generalize hta : Table.write t2 t.size _ = ta
  have hasize : ta.size = t.size + 1 := by rw [← hta, write_size, h2size]
  have hafresh : PagerOK ta := by
    rw [← hta]; exact fresh_write _ _ _ (by omega) h2fresh
  have hap : ∀ p, p ≠ t.size → ta.page p = t.page p := by
    intro p hp; rw [← hta, write_page_ne _ _ _ _ hp, h2page p hp]
  have haN : (ta.page t.size).type = NODE_INTERNAL ∧ (ta.page t.size).is_root = false ∧
      (ta.page t.size).parent = (t.page q).parent := by
    rw [← hta, write_page_same]
    exact ⟨rfl, rfl, rfl⟩
  obtain ⟨t3, e3, hs3, _⟩ := get_page_allocated ta n (by have := h.n_lt; omega) (by omega)
  simp only [e3, ok_bind]
  obtain ⟨⟨t4, omk⟩, e4, hs4, hk1, hk2, hk3, hk4⟩ := InsertReady.old_max g d t t3 q n j h
    (by rw [hs3.size]; omega) (by rw [hs3.size]; omega)
    (by intro p hp; rw [hs3.page, hap p (by omega)])
    (by
      intro p h1 h2
      rw [hs3.size, hasize] at h2
      have : p = t.size := by omega
      rw [this, hs3.page]; exact haN.1)
    hdepth
  dsimp only at hs4 hk1 hk2 hk3 hk4
  simp only [e4, ok_bind]
  have hs34 := hs3.trans hs4
  have h4p : ∀ p, p ≠ t.size → t4.page p = t.page p := by
    intro p hp; rw [hs34.page, hap p hp]
  have h4N : t4.page t.size = ta.page t.size := by rw [hs34.page]
  simp only [write_page_same, write_write, write_page_ne _ _ _ _ hqN,
    write_page_ne _ _ _ _ hqN.symm, h4p q hqN, h4N, internal_rightmost_child_of]
  generalize htb : Table.write (Table.write (Table.write (Table.write t4 _ _) _ _) _ _) _ _ = tb
  have hbsize : tb.size = t.size + 1 := by
    rw [← htb]; simp only [write_size]; rw [hs34.size, hasize]
  have hbfresh : PagerOK tb := by
    have hqlt := h.q_lt
    rw [← htb]
    apply fresh_write _ _ _ (by simp only [write_size]; rw [hs34.size, hasize]; omega)
    apply fresh_write _ _ _ (by simp only [write_size]; rw [hs34.size, hasize]; omega)
    apply fresh_write _ _ _ (by simp only [write_size]; rw [hs34.size, hasize]; omega)
    apply fresh_write _ _ _ (by rw [hs34.size, hasize]; omega)
    exact hs34.fresh hafresh
  have hbq : tb.page q = left_half (t.page q) := by
    rw [← htb, write_page_same]
    unfold left_half internal_child_of INTERNAL_LEFT_SPLIT_SIZE
    simp
  have hbN : RightHalf (t.page q) (tb.page t.size) := by
    rw [← htb, write_page_ne _ _ _ _ hqN.symm, write_page_same]
    refine ⟨haN.1, haN.2.1, rfl, haN.2.2, rfl, ?_⟩
    intro i hi
    simp only [hi, if_true]
  have hbp : ∀ p, p ≠ q → p ≠ t.size → tb.page p = t.page p := by
    intro p h1 h2
    rw [← htb, write_page_ne _ _ _ _ h1, write_page_ne _ _ _ _ h2, write_page_ne _ _ _ _ h1,
      write_page_ne _ _ _ _ h2, h4p p h2]
  have hchild : ∀ k, k ≤ INTERNAL_RIGHT_SPLIT_SIZE →
      internal_child_of (tb.page t.size) k
        = internal_child_of (t.page q) (INTERNAL_LEFT_SPLIT_SIZE + k) :=
    fun k hk => hbN.child_moved hfull k hk
  have hpend := h.pending
  have hcq : ∀ i, i ≤ (t.page q).size →
      internal_child_of (t.page q) i ≠ q ∧ internal_child_of (t.page q) i ≠ t.size ∧
      internal_child_of (t.page q) i < t.size := by
    intro i hi
    have := (hpend.child i hi).1
    exact ⟨hpend.child_ne i hi, by omega, this⟩
  have hconst : INTERNAL_RIGHT_SPLIT_SIZE = 2 ∧ INTERNAL_LEFT_SPLIT_SIZE = 2 ∧
      INTERNAL_BRANCH_SIZE = 4 := ⟨rfl, rfl, rfl⟩
  obtain ⟨t7, e7, h7size, h7fresh, h7in, h7out⟩ := reparent_children_spec t.size
    (INTERNAL_RIGHT_SPLIT_SIZE + 1) 0 tb (by omega)
    (by
      intro k _ hk
      rw [hchild k (by omega), hbsize]
      have := (hcq (INTERNAL_LEFT_SPLIT_SIZE + k) (by omega)).2.2
      omega)
  simp only [e7, ok_bind]
  refine ⟨hlt, by rw [h7size, hbsize], h7fresh hbfresh, rfl, rfl, rfl, ?_, ?_, ?_, ?_,
    hk1, hk2, hk3, hk4⟩
  · rw [h7out q, hbq]
    intro k _ hk
    rw [hchild k (by omega)]
    exact (hcq _ (by omega)).1
  · rw [h7out t.size]
    · exact hbN
    · intro k _ hk
      rw [hchild k (by omega)]
      exact (hcq _ (by omega)).2.1
  · rintro p ⟨i, hi1, hi2, hi3⟩
    have hp := hcq i (by omega)
    rw [hi3] at hp
    rw [h7in p ⟨i - INTERNAL_LEFT_SPLIT_SIZE, Nat.zero_le _, by omega, by
      rw [hchild _ (by omega), ← hi3]
      congr 1
      omega⟩, hbp p hp.1 hp.2.1]
  · intro p h1 h2 h3
    rw [h7out p, hbp p h1 h2]
    intro k _ hk
    rw [hchild k (by omega)]
    exact h3 _ (by omega) (by omega)

theorem Ghost.split_new (g : Ghost) (x N : Nat) (m : Str) :
    (g.split x N m).level N = g.level x ∧ (g.split x N m).lo N = some m ∧
    (g.split x N m).hi N = g.hi x := by
  unfold Ghost.split
  simp

theorem Ghost.split_old (g : Ghost) (x N : Nat) (m : Str) (hx : x ≠ N) :
    (g.split x N m).level x = g.level x ∧ (g.split x N m).lo x = g.lo x ∧
    (g.split x N m).hi x = some m := by
  unfold Ghost.split
  simp [hx]

theorem Ghost.split_other (g : Ghost) (x N : Nat) (m : Str) (p : Nat) (hN : p ≠ N) :
    (g.split x N m).level p = g.level p ∧ (g.split x N m).lo p = g.lo p ∧
    (p ≠ x → (g.split x N m).hi p = g.hi p) := by
  unfold Ghost.split
  simp only [hN, if_false]
  refine ⟨trivial, trivial, ?_⟩
  intro hx
  simp [hx]

/-- The children of a tiled page with non-empty intervals are distinct. -/
theorem children_distinct (pg : Page) (lo hi : Option Str) (glo ghi : Nat → Option Str)
    (htile : ∀ i, i ≤ pg.size →
      glo (internal_child_of pg i) = lower_bound_of pg lo i ∧
      ghi (internal_child_of pg i) = upper_bound_of pg hi i)
    (hapart : ∀ i, i ≤ pg.size →
      Apart (glo (internal_child_of pg i)) (ghi (internal_child_of pg i)))
    (i k : Nat) (hik : i < k) (hk : k ≤ pg.size) :
    internal_child_of pg i ≠ internal_child_of pg k := by
  intro heq
  have h1 := (htile i (by omega)).2
  have h2 := (htile k hk).1
  have ha := hapart i (by omega)
  rw [heq] at ha h1
  rw [h1, h2] at ha
  have h3 := ha (internal_key_of pg (k - 1)) (internal_key_of pg i)
    (by unfold lower_bound_of; rw [if_neg (by omega)])
    (by unfold upper_bound_of; rw [if_pos (by omega)])
  rcases Nat.eq_or_lt_of_le (show i ≤ k - 1 by omega) with h4 | h4
  · rw [← h4] at h3
    exact lt_irrefl _ h3
  · have h5 := separators_sorted pg lo hi glo ghi htile hapart i (k - 1) h4 (by omega)
    exact lt_irrefl _ (lt_trans h3 h5)

theorem children_injective (pg : Page) (lo hi : Option Str) (glo ghi : Nat → Option Str)
    (htile : ∀ i, i ≤ pg.size →
      glo (internal_child_of pg i) = lower_bound_of pg lo i ∧
      ghi (internal_child_of pg i) = upper_bound_of pg hi i)
    (hapart : ∀ i, i ≤ pg.size →
      Apart (glo (internal_child_of pg i)) (ghi (internal_child_of pg i)))
    (i k : Nat) (hi' : i ≤ pg.size) (hk : k ≤ pg.size)
    (heq : internal_child_of pg i = internal_child_of pg k) : i = k := by
  by_contra hne
  rcases Nat.lt_or_gt_of_ne hne with h | h
  · exact children_distinct pg lo hi glo ghi htile hapart i k h hk heq
  · exact children_distinct pg lo hi glo ghi htile hapart k i h hi' heq.symm

/-- The state after a split, assembled from the state before it: `C` holds the
children of the split page (with the page that is being inserted), which are
the only pages besides the two halves that the split touches. -/
theorem SplitDone.make {t : Table} {g : Ghost} {x : Nat} (m : Str) (C : Nat → Prop) (t' : Table)
    (hpos : 1 ≤ t.size) (hcap : t.size < TABLE_MAX_PAGES) (hheight : g.level 0 < t.size)
    (hsize : t'.size = t.size + 1) (hfresh : PagerOK t')
    (hx : x < t.size) (hxup : Up t g x) (hxapart : Apart (g.lo x) (g.hi x))
    (hxC : ¬ C x)
    (hkids : (t.page x).type = NODE_INTERNAL → ∀ i, i ≤ (t.page x).size →
      C (internal_child_of (t.page x) i))
    (hC : ∀ p, C p → p < t.size ∧ p ≠ 0 ∧ (t.page p).parent = x ∧ g.level x = g.level p + 1 ∧
        Down t g p ∧ SameBody (t.page p) (t'.page p) ∧ (t'.page p).is_root = false ∧
        ((t'.page p).parent = x ∨ (t'.page p).parent = t.size) ∧
        (t'.page (t'.page p).parent).type = NODE_INTERNAL ∧
        ∃ i, i ≤ (t'.page (t'.page p).parent).size ∧
          internal_child_of (t'.page (t'.page p).parent) i = p)
    (hothers : ∀ p, p < t.size → p ≠ x → ¬ C p → Down t g p ∧ Up t g p)
    (hpage : ∀ p, p ≠ x → p ≠ t.size → ¬ C p → t'.page p = t.page p)
    (hxroot : (t'.page x).is_root = (t.page x).is_root)
    (hxpar : (t'.page x).parent = (t.page x).parent)
    (hxdown : Down t' (g.split x t.size m) x) (hNdown : Down t' (g.split x t.size m) t.size)
    (hNroot : (t'.page t.size).is_root = false)
    (hNpar : (t'.page t.size).parent = (t.page x).parent) :
    SplitDone t' (g.split x t.size m) x t.size (g.hi x) := by
  have hxN : x ≠ t.size := by omega
  have hgN := g.split_new x t.size m
  have hgx := g.split_old x t.size m hxN
  have hgo := g.split_other x t.size m
  have hxlev : g.level x ≤ g.level 0 := by
    by_cases hx0 : x = 0
    · rw [hx0]
    · exact le_of_lt (hxup.of_ne_zero hx0).2.1
  have hparx : ∀ p, p < t.size → p ≠ x → ¬ C p → p ≠ 0 → (t.page p).parent ≠ x := by
    intro p hp hpx hpC hp0 heq
    obtain ⟨_, _, _, hty, i, hi, hc⟩ := ((hothers p hp hpx hpC).2).of_ne_zero hp0
    rw [heq] at hty hi hc
    exact hpC (hc ▸ hkids hty i hi)
  have hbody : ∀ p, p ≠ x → p ≠ t.size → SameBody (t.page p) (t'.page p) := by
    intro p h1 h2
    by_cases hc : C p
    · exact (hC p hc).2.2.2.2.2.1
    · exact SameBody.of_eq (hpage p h1 h2 hc)
  have hdown : ∀ p, p < t.size → p ≠ x → Down t g p →
      (∀ i, i ≤ (t.page p).size → (t.page p).type = NODE_INTERNAL →
        internal_child_of (t.page p) i ≠ x) →
      Down t' (g.split x t.size m) p := by
    intro p hp hpx hd hnx
    have hpN : p ≠ t.size := by omega
    apply hd.frame_body (hbody p hpx hpN) (by omega) (hgo p hpN).1 (hgo p hpN).2.1
      ((hgo p hpN).2.2 hpx)
    intro hty i hi
    obtain ⟨c1, c2, c3, c4, _⟩ := (hd.internal hty).2.2 i hi
    have hcx := hnx i hi hty
    have hcN : internal_child_of (t.page p) i ≠ t.size := by omega
    have hcC : ¬ C (internal_child_of (t.page p) i) := by
      intro hc
      have := (hC _ hc).2.2.1
      rw [c3] at this
      exact hpx this
    rw [hpage _ hcx hcN hcC]
    exact ⟨rfl, (hgo _ hcN).1, (hgo _ hcN).2.1, (hgo _ hcN).2.2 hcx⟩
  have hdownC : ∀ p, C p → Down t' (g.split x t.size m) p := by
    intro p hc
    obtain ⟨c1, c2, c3, c4, c5, _⟩ := hC p hc
    apply hdown p c1 (fun h => hxC (h ▸ hc)) c5
    intro i hi hty heq
    have := (c5.internal hty).2.2 i hi
    rw [heq] at this
    omega
  have hup : ∀ p, p < t.size → p ≠ x → ¬ C p → Up t' (g.split x t.size m) p := by
    intro p hp hpx hpC
    have hpN : p ≠ t.size := by omega
    have hu := (hothers p hp hpx hpC).2
    by_cases hp0 : p = 0
    · subst hp0
      have := hu.of_zero
      unfold Up
      rw [if_pos rfl, hpage 0 hpx hpN hpC, (hgo 0 hpN).2.1, (hgo 0 hpN).2.2 hpx]
      exact this
    · obtain ⟨u1, u2, u3, u4, _⟩ := hu.of_ne_zero hp0
      have hPx := hparx p hp hpx hpC hp0
      have hPN : (t.page p).parent ≠ t.size := by omega
      have hb := hbody _ hPx hPN
      apply hu.frame_up hp0 (by rw [hpage p hpx hpN hpC]) (by rw [hpage p hpx hpN hpC]) (by omega)
      · rw [(hgo p hpN).1, (hgo 0 (by omega)).1]; exact u2
      · rw [hb.1]; exact u4
      · intro i hi hc
        exact ⟨i, by rw [hb.2.1]; exact hi, by rw [hb.child]; exact hc⟩
  have hupC : ∀ p, C p → Up t' (g.split x t.size m) p := by
    intro p hc
    obtain ⟨c1, c2, c3, c4, c5, c6, c7, c8, c9, c10⟩ := hC p hc
    have hpN : p ≠ t.size := by omega
    unfold Up
    rw [if_neg c2]
    refine ⟨c7, ?_, ?_, c9, c10⟩
    · rw [(hgo p hpN).1, (hgo 0 (by omega)).1]; omega
    · rcases c8 with h | h <;> rw [h, hsize] <;> omega
  refine ⟨by omega, by omega, hfresh, by rw [(hgo 0 (by omega)).1]; omega, by omega, by omega,
    by omega, fun h => hxN h.symm, hxdown, hNdown, hNroot, by rw [hNpar, hxpar], by rw [hgN.1, hgx.1],
    hgN.2.2, ⟨m, hgx.2.2, hgN.2.1⟩, ?_, ?_, ?_, ?_⟩
  · -- orphan
    intro p hp hty i hi heq
    by_cases hpx : p = x
    · subst hpx
      have := (hxdown.internal hty).2.2 i hi
      rw [heq, hgN.1, hgx.1] at this
      omega
    · by_cases hpN : p = t.size
      · subst hpN
        have := (hNdown.internal hty).2.2 i hi
        rw [heq] at this
        omega
      · have hb := hbody p hpx hpN
        rw [hb.1] at hty
        rw [hb.2.1] at hi
        rw [hb.child] at heq
        have hd : Down t g p := by
          by_cases hc : C p
          · exact (hC p hc).2.2.2.2.1
          · exact (hothers p (by omega) hpx hc).1
        have := ((hd.internal hty).2.2 i hi).1
        omega
  · -- others
    intro p hp hpx hpN hpG
    rw [hsize] at hp
    by_cases hc : C p
    · exact ⟨hdownC p hc, hupC p hc⟩
    · refine ⟨?_, hup p (by omega) hpx hc⟩
      have hd := (hothers p (by omega) hpx hc).1
      apply hdown p (by omega) hpx hd
      intro i hi hty heq
      obtain ⟨c1, c2, c3, _⟩ := (hd.internal hty).2.2 i hi
      rw [heq] at c2 c3
      exact hpG c2 (by rw [hxpar, c3])
  · -- root
    intro hx0
    subst hx0
    have := hxup.of_zero
    exact ⟨by rw [hxroot]; exact this.1, by rw [hgx.2.1]; exact this.2.1, this.2.2⟩
  · -- inner
    intro hx0
    obtain ⟨u1, u2, u3, u4, i, u5, u6⟩ := hxup.of_ne_zero hx0
    rw [hxpar]
    obtain ⟨G, hGdef⟩ : ∃ G, (t.page x).parent = G := ⟨_, rfl⟩
    rw [hGdef] at u3 u4 u5 u6 ⊢
    have hGx : G ≠ x := by
      intro h
      rw [h] at u4 u5 u6
      exact hxC (u6 ▸ hkids u4 i u5)
    have hGC : ¬ C G := by
      intro hc
      obtain ⟨c1, c2, c3, c4, c5, _⟩ := hC G hc
      have := ((c5.internal u4).2.2 i u5).2.2.2.1
      rw [u6] at this
      omega
    have hGN : G ≠ t.size := by omega
    have hGd := (hothers G u3 hGx hGC).1
    have hGpage := hpage G hGx hGN hGC
    have hok := hGd.internal u4
    have hGlev : g.level G = g.level x + 1 := by
      have := (hok.2.2 i u5).2.2.2.1
      rw [u6] at this
      exact this
    have hapart : ∀ k, k ≤ (t.page G).size →
        Apart (g.lo (internal_child_of (t.page G) k)) (g.hi (internal_child_of (t.page G) k)) := by
      intro k hk
      have hc := (hok.2.2 k hk).1
      by_cases h1 : internal_child_of (t.page G) k = x
      · rw [h1]; exact hxapart
      · by_cases h2 : C (internal_child_of (t.page G) k)
        · exact (hC _ h2).2.2.2.2.1.1
        · exact (hothers _ hc h1 h2).1.1
    refine ⟨?_, hup G u3 hGx hGC, ?_, i, ?_⟩
    · apply hxup.frame_up hx0 hxroot hxpar (by omega)
      · rw [hgx.1, (hgo 0 (by omega)).1]; exact u2
      · rw [hGdef, hGpage]; exact u4
      · intro k hk hc
        rw [hGdef] at hk hc ⊢
        exact ⟨k, by rw [hGpage]; exact hk, by rw [hGpage]; exact hc⟩
    · rw [(hgo G hGN).2.1, (hgo G hGN).2.2 hGx]
      exact hGd.1
    · refine ⟨by rw [hGpage]; exact u4, by rw [hGpage]; exact hok.1,
        by rw [hGpage]; exact hok.2.1, ?_, ?_, ?_, by rw [hGpage]; exact u5,
        by rw [hGpage]; exact u6, ?_⟩
      · intro k hk
        rw [hGpage] at hk ⊢
        obtain ⟨c1, c2, c3, c4, c5, c6⟩ := hok.2.2 k hk
        have hcN : internal_child_of (t.page G) k ≠ t.size := by omega
        refine ⟨by omega, c2, hcN, ?_, ?_⟩
        · by_cases h1 : internal_child_of (t.page G) k = x
          · rw [h1, hxpar, hGdef]
          · have h2 : ¬ C (internal_child_of (t.page G) k) := by
              intro hc
              have := (hC _ hc).2.2.1
              rw [c3] at this
              exact hGx this
            rw [hpage _ h1 hcN h2]
            exact c3
        · rw [(hgo G hGN).1, (hgo _ hcN).1]
          exact c4
      · intro k hk
        rw [hGpage] at hk ⊢
        obtain ⟨c1, c2, c3, c4, c5, c6⟩ := hok.2.2 k hk
        have hcN : internal_child_of (t.page G) k ≠ t.size := by omega
        rw [(hgo G hGN).2.1, (hgo _ hcN).2.1]
        exact c5
      · intro k hk hki
        rw [hGpage] at hk ⊢
        obtain ⟨c1, c2, c3, c4, c5, c6⟩ := hok.2.2 k hk
        have hcN : internal_child_of (t.page G) k ≠ t.size := by omega
        have hcx : internal_child_of (t.page G) k ≠ x := by
          intro heq
          exact hki (children_injective (t.page G) (g.lo G) (g.hi G) g.lo g.hi hok.tile hapart
            k i hk u5 (by rw [heq, u6]))
        rw [(hgo G hGN).2.2 hGx, (hgo _ hcN).2.2 hcx]
        exact c6
      · rw [hGpage, (hgo G hGN).2.2 hGx]
        have := (hok.2.2 i u5).2.2.2.2.2
        rw [u6] at this
        exact this.symm

theorem Pending.distinct {t : Table} {g : Ghost} {q n j : Nat} (h : Pending t g q n j)
    (hd : ∀ p, p < t.size → g.level p < g.level q → Down t g p) (hn : n < t.size)
    (i k : Nat) (hik : i < k) (hk : k ≤ (t.page q).size) :
    internal_child_of (t.page q) i ≠ internal_child_of (t.page q) k := by
  intro heq
  have hc := h.child i (by omega)
  have ha := (hd _ hc.1 (by omega)).1
  have hhi := h.hi i (by omega)
  rw [if_neg (by omega)] at hhi
  have hlo := h.lo k hk
  rw [heq] at ha hhi
  rw [hhi, hlo] at ha
  have hup : upper_bound_of (t.page q) (g.hi q) i = some (internal_key_of (t.page q) i) := by
    unfold upper_bound_of; rw [if_pos (by omega)]
  have hlow : lower_bound_of (t.page q) (g.lo q) k
      = some (internal_key_of (t.page q) (k - 1)) := by
    unfold lower_bound_of; rw [if_neg (by omega)]
  have hle := h.sorted_le_pending hd hn i (k - 1) (by omega) (by omega)
  by_cases hkj : k = j
  · rw [if_pos hkj] at ha
    obtain ⟨u, hu⟩ := h.n_hi (by omega)
    have h1 := ha u _ hu hup
    have hna := (hd n hn (by have := h.n_level; omega)).1
    have h2 := hna _ u (by rw [h.n_lo (by omega), ← hkj]; exact hlow) hu
    exact lt_irrefl _ (lt_of_lt_of_le (lt_trans h2 h1) hle)
  · rw [if_neg hkj] at ha
    have h1 := ha _ _ hlow hup
    exact lt_irrefl _ (lt_of_lt_of_le h1 hle)

theorem left_half_lower (pq : Page) (lo : Option Str) (i : Nat) :
    lower_bound_of (left_half pq) lo i = lower_bound_of pq lo i := rfl

theorem left_half_upper (pq : Page) (hsz : pq.size = INTERNAL_BRANCH_SIZE) (hi : Option Str)
    (i : Nat) (hi1 : i ≤ 1) :
    upper_bound_of (left_half pq) (some (internal_key_of pq (INTERNAL_LEFT_SPLIT_SIZE - 1))) i
      = upper_bound_of pq hi i := by
  unfold upper_bound_of
  rw [left_half_key]
  have h1 : (left_half pq).size = 1 := rfl
  rw [h1, hsz]
  unfold INTERNAL_BRANCH_SIZE INTERNAL_LEFT_SPLIT_SIZE
  by_cases h0 : i = 0
  · subst h0; simp
  · have : i = 1 := by omega
    subst this; simp

theorem RightHalf.lower_right {pq pn : Page} (h : RightHalf pq pn) (lo : Option Str) (i : Nat)
    (hi : i ≤ INTERNAL_RIGHT_SPLIT_SIZE) :
    lower_bound_of pn (some (internal_key_of pq (INTERNAL_LEFT_SPLIT_SIZE - 1))) i
      = lower_bound_of pq lo (INTERNAL_LEFT_SPLIT_SIZE + i) := by
  unfold lower_bound_of
  unfold INTERNAL_RIGHT_SPLIT_SIZE at hi
  by_cases h0 : i = 0
  · subst h0
    unfold INTERNAL_LEFT_SPLIT_SIZE
    simp
  · rw [if_neg h0, if_neg (by unfold INTERNAL_LEFT_SPLIT_SIZE; omega),
      h.key_right (i - 1) (by unfold INTERNAL_RIGHT_SPLIT_SIZE; omega)]
    congr 2
    unfold INTERNAL_LEFT_SPLIT_SIZE
    omega

theorem RightHalf.upper_right {pq pn : Page} (h : RightHalf pq pn)
    (hsz : pq.size = INTERNAL_BRANCH_SIZE) (hi : Option Str) (i : Nat) :
    upper_bound_of pn hi i = upper_bound_of pq hi (INTERNAL_LEFT_SPLIT_SIZE + i) := by
  unfold upper_bound_of
  rw [h.2.2.1, hsz]
  unfold INTERNAL_BRANCH_SIZE INTERNAL_RIGHT_SPLIT_SIZE
  by_cases h0 : i < 2
  · rw [if_pos h0, if_pos (by unfold INTERNAL_LEFT_SPLIT_SIZE; omega),
      h.key_right i (by unfold INTERNAL_RIGHT_SPLIT_SIZE; omega)]
  · rw [if_neg h0, if_neg (by unfold INTERNAL_LEFT_SPLIT_SIZE; omega)]

theorem Halved.body {t ts : Table} {q : Nat} (h : Halved t q ts) (p : Nat) (hq : p ≠ q)
    (hN : p ≠ t.size) :
    SameBody (t.page p) (ts.page p) ∧ (ts.page p).is_root = (t.page p).is_root := by
  by_cases hm : ∃ i, INTERNAL_LEFT_SPLIT_SIZE ≤ i ∧ i ≤ INTERNAL_BRANCH_SIZE ∧
      internal_child_of (t.page q) i = p
  · rw [h.moved p hm]; exact ⟨⟨rfl, rfl, rfl, rfl, rfl⟩, rfl⟩
  · rw [h.kept p hq hN (by intro i h1 h2 h3; exact hm ⟨i, h1, h2, h3⟩)]
    exact ⟨SameBody.self _, rfl⟩

theorem Halved.keep {t ts : Table} {q : Nat} (h : Halved t q ts)
    (hfull : (t.page q).size = INTERNAL_BRANCH_SIZE) (p : Nat) (hq : p ≠ q) (hN : p ≠ t.size)
    (hnc : ∀ i, i ≤ (t.page q).size → internal_child_of (t.page q) i ≠ p) :
    ts.page p = t.page p :=
  h.kept p hq hN (fun i _ h2 => hnc i (by rw [hfull]; exact h2))

theorem Pending.last {t : Table} {g : Ghost} {q n j : Nat} (h : Pending t g q n j)
    (hd : ∀ p, p < t.size → g.level p < g.level q → Down t g p) (hn : n < t.size) :
    ∀ u, g.hi q = some u → internal_key_of (t.page q) ((t.page q).size - 1) < u := by
  intro u hu
  have hpos := h.size_pos
  have hc := h.child (t.page q).size (le_refl _)
  have ha := (hd _ hc.1 (by omega)).1
  have hna := (hd n hn (by have := h.n_level; omega)).1
  rw [h.lo _ (le_refl _), h.hi _ (le_refl _)] at ha
  have hlow : lower_bound_of (t.page q) (g.lo q) (t.page q).size
      = some (internal_key_of (t.page q) ((t.page q).size - 1)) := by
    unfold lower_bound_of; rw [if_neg (by omega)]
  have hup : upper_bound_of (t.page q) (g.hi q) (t.page q).size = some u := by
    unfold upper_bound_of; rw [if_neg (by omega), hu]
  by_cases h1 : (t.page q).size = j
  · rw [if_pos h1, if_neg (by omega)] at ha
    obtain ⟨v, hv⟩ := h.n_hi (by omega)
    have h2 := ha v u hv hup
    have h3 := hna _ v (by rw [h.n_lo (by omega), ← h1]; exact hlow) hv
    exact lt_trans h3 h2
  · rw [if_neg h1] at ha
    by_cases h2 : j = (t.page q).size + 1
    · rw [if_pos ⟨rfl, h2⟩] at ha
      obtain ⟨h3, m, hm⟩ := h.n_last h2
      have h4 := ha _ m hlow hm
      have h5 := hna m u hm (by rw [h3, hu])
      exact lt_trans h4 h5
    · rw [if_neg (fun hh => h2 hh.2)] at ha
      exact ha _ u hlow hup

/-- The maximum key of the pending page is below the separator of the slot it
is inserted at. -/
theorem Pending.gap_lt {t : Table} {g : Ghost} {q n j : Nat} (h : Pending t g q n j)
    (hd : ∀ p, p < t.size → g.level p < g.level q → Down t g p)
    (hj : j < (t.page q).size) (u : Str) (hu : g.hi n = some u) :
    u < internal_key_of (t.page q) j := by
  have hc := h.child j (by omega)
  have ha := (hd _ hc.1 (by omega)).1
  rw [h.lo j (by omega), h.hi j (by omega), if_pos rfl, if_neg (by omega)] at ha
  exact ha u _ hu (by unfold upper_bound_of; rw [if_pos hj])

/-- The keys of the pending page lie above the separators before its slot. -/
theorem Pending.gap_gt {t : Table} {g : Ghost} {q n j : Nat} (h : Pending t g q n j)
    (hd : ∀ p, p < t.size → g.level p < g.level q → Down t g p) (hn : n < t.size)
    (i : Nat) (hij : i < j) (hi : i < (t.page q).size) (k : Str) (hk : Above (g.lo n) k) :
    internal_key_of (t.page q) i < k := by
  by_cases hj : j ≤ (t.page q).size
  · have h1 := hk (internal_key_of (t.page q) (j - 1))
      (by rw [h.n_lo hj]; unfold lower_bound_of; rw [if_neg (by omega)])
    exact lt_of_le_of_lt (h.sorted_le_pending hd hn i (j - 1) (by omega) (by omega)) h1
  · have hj' : j = (t.page q).size + 1 := by have := h.pos; omega
    obtain ⟨h3, m, hm⟩ := h.n_last hj'
    have hc := h.child (t.page q).size (le_refl _)
    have ha := (hd _ hc.1 (by omega)).1
    rw [h.lo _ (le_refl _), h.hi _ (le_refl _), if_neg (by omega), if_pos ⟨rfl, hj'⟩] at ha
    have h4 := ha (internal_key_of (t.page q) ((t.page q).size - 1)) m
      (by unfold lower_bound_of; rw [if_neg (by omega)]) hm
    exact lt_of_le_of_lt (h.sorted_le_pending hd hn i ((t.page q).size - 1) (by omega) (by omega))
      (lt_trans h4 (hk m hm))

theorem Halved.low {t ts : Table} {g : Ghost} {q n j : Nat} (h : Halved t q ts)
    (hr : InsertReady t g q n j) (hfull : (t.page q).size = INTERNAL_BRANCH_SIZE) (m : Str) :
    ∀ p, p < t.size → g.level p < g.level q →
      Down ts (g.split q t.size m) p ∧ (g.level p + 1 < g.level q → ts.page p = t.page p) := by
  intro p hp hlev
  have hpq : p ≠ q := by intro heq; rw [heq] at hlev; omega
  have hpN : p ≠ t.size := by omega
  have hgo := g.split_other q t.size m
  have hkeep : ∀ c, c < t.size → g.level c + 1 < g.level q → ts.page c = t.page c := by
    intro c hc hcl
    apply h.keep hfull c (by intro heq; rw [heq] at hcl; omega) (by omega)
    intro i hi heq
    have := (hr.pending.child i hi).2.2.2.2
    rw [heq] at this
    omega
  refine ⟨?_, hkeep p hp⟩
  apply (hr.lower_pages p hp hlev).frame_body (h.body p hpq hpN).1 (by rw [h.size]; omega)
    (hgo p hpN).1 (hgo p hpN).2.1 ((hgo p hpN).2.2 hpq)
  intro hty i hi
  obtain ⟨c1, c2, c3, c4, _⟩ := ((hr.lower_pages p hp hlev).internal hty).2.2 i hi
  have hcN : internal_child_of (t.page p) i ≠ t.size := by omega
  have hcq : internal_child_of (t.page p) i ≠ q := by
    intro heq; rw [heq] at c4; omega
  rw [hkeep _ c1 (by omega)]
  exact ⟨rfl, (hgo _ hcN).1, (hgo _ hcN).2.1, (hgo _ hcN).2.2 hcq⟩

theorem Halved.child_left {t ts : Table} {g : Ghost} {q n j : Nat} (h : Halved t q ts)
    (hr : InsertReady t g q n j) (hfull : (t.page q).size = INTERNAL_BRANCH_SIZE) (i : Nat)
    (hi : i ≤ 1) :
    internal_child_of (ts.page q) i < ts.size ∧
    internal_child_of (ts.page q) i ≠ 0 ∧
    internal_child_of (ts.page q) i ≠ n ∧
    (ts.page (internal_child_of (ts.page q) i)).parent = q ∧
    (g.split q t.size (internal_key_of (t.page q) (INTERNAL_LEFT_SPLIT_SIZE - 1))).level q
      = (g.split q t.size (internal_key_of (t.page q) (INTERNAL_LEFT_SPLIT_SIZE - 1))).level
          (internal_child_of (ts.page q) i) + 1 ∧
    (g.split q t.size (internal_key_of (t.page q) (INTERNAL_LEFT_SPLIT_SIZE - 1))).lo
        (internal_child_of (ts.page q) i)
      = (if i = j
         then (g.split q t.size (internal_key_of (t.page q) (INTERNAL_LEFT_SPLIT_SIZE - 1))).hi n
         else lower_bound_of (ts.page q)
          ((g.split q t.size (internal_key_of (t.page q) (INTERNAL_LEFT_SPLIT_SIZE - 1))).lo q) i) ∧
    (g.split q t.size (internal_key_of (t.page q) (INTERNAL_LEFT_SPLIT_SIZE - 1))).hi
        (internal_child_of (ts.page q) i)
      = upper_bound_of (ts.page q)
          ((g.split q t.size (internal_key_of (t.page q) (INTERNAL_LEFT_SPLIT_SIZE - 1))).hi q) i ∧
    internal_child_of (ts.page q) i = internal_child_of (t.page q) i := by
  have hqN : q ≠ t.size := by have := hr.q_lt; omega
  have hnN : n ≠ t.size := by have := hr.n_lt; omega
  have hgx := g.split_old q t.size (internal_key_of (t.page q) (INTERNAL_LEFT_SPLIT_SIZE - 1)) hqN
  have hgo := g.split_other q t.size (internal_key_of (t.page q) (INTERNAL_LEFT_SPLIT_SIZE - 1))
  have hpend := hr.pending
  have hi4 : i ≤ (t.page q).size := by rw [hfull]; unfold INTERNAL_BRANCH_SIZE; omega
  obtain ⟨c1, c2, c3, c4, c5⟩ := hpend.child i hi4
  have hcq := hpend.child_ne i hi4
  have hcN : internal_child_of (t.page q) i ≠ t.size := by omega
  have hkeep : ts.page (internal_child_of (t.page q) i) = t.page (internal_child_of (t.page q) i) := by
    apply h.kept _ hcq hcN
    intro k hk1 hk2 heq
    unfold INTERNAL_LEFT_SPLIT_SIZE at hk1
    exact hpend.distinct hr.lower_pages hr.n_lt i k (by omega) (by rw [hfull]; exact hk2) heq.symm
  rw [h.left, left_half_child _ hfull i hi, left_half_lower,
    (hgo _ hcN).1, (hgo _ hcN).2.1, (hgo _ hcN).2.2 hcq, hgx.1, hgx.2.1, hgx.2.2,
    (hgo n hnN).2.2 hpend.ne, left_half_upper _ hfull (g.hi q) i hi, hkeep, h.size]
  refine ⟨by omega, c2, c3, c4, c5, hpend.lo i hi4, ?_, rfl⟩
  rw [hpend.hi i hi4, if_neg]
  rw [hfull]; unfold INTERNAL_BRANCH_SIZE; omega

theorem Halved.child_right {t ts : Table} {g : Ghost} {q n j : Nat} (h : Halved t q ts)
    (hr : InsertReady t g q n j) (hfull : (t.page q).size = INTERNAL_BRANCH_SIZE) (i : Nat)
    (hi : i ≤ 2) :
    internal_child_of (ts.page t.size) i < ts.size ∧
    internal_child_of (ts.page t.size) i ≠ 0 ∧
    internal_child_of (ts.page t.size) i ≠ n ∧
    (ts.page (internal_child_of (ts.page t.size) i)).parent = t.size ∧
    (g.split q t.size (internal_key_of (t.page q) (INTERNAL_LEFT_SPLIT_SIZE - 1))).level t.size
      = (g.split q t.size (internal_key_of (t.page q) (INTERNAL_LEFT_SPLIT_SIZE - 1))).level
          (internal_child_of (ts.page t.size) i) + 1 ∧
    (g.split q t.size (internal_key_of (t.page q) (INTERNAL_LEFT_SPLIT_SIZE - 1))).lo
        (internal_child_of (ts.page t.size) i)
      = (if i + 2 = j
         then (g.split q t.size (internal_key_of (t.page q) (INTERNAL_LEFT_SPLIT_SIZE - 1))).hi n
         else lower_bound_of (ts.page t.size)
          ((g.split q t.size (internal_key_of (t.page q) (INTERNAL_LEFT_SPLIT_SIZE - 1))).lo
            t.size) i) ∧
    (g.split q t.size (internal_key_of (t.page q) (INTERNAL_LEFT_SPLIT_SIZE - 1))).hi
        (internal_child_of (ts.page t.size) i)
      = (if i = 2 ∧ j = 5
         then (g.split q t.size (internal_key_of (t.page q) (INTERNAL_LEFT_SPLIT_SIZE - 1))).lo n
         else upper_bound_of (ts.page t.size)
          ((g.split q t.size (internal_key_of (t.page q) (INTERNAL_LEFT_SPLIT_SIZE - 1))).hi
            t.size) i) ∧
    internal_child_of (ts.page t.size) i = internal_child_of (t.page q) (2 + i) := by
  have hqN : q ≠ t.size := by have := hr.q_lt; omega
  have hnN : n ≠ t.size := by have := hr.n_lt; omega
  have hgN := g.split_new q t.size (internal_key_of (t.page q) (INTERNAL_LEFT_SPLIT_SIZE - 1))
  have hgo := g.split_other q t.size (internal_key_of (t.page q) (INTERNAL_LEFT_SPLIT_SIZE - 1))
  have hpend := hr.pending
  have hi4 : 2 + i ≤ (t.page q).size := by rw [hfull]; unfold INTERNAL_BRANCH_SIZE; omega
  obtain ⟨c1, c2, c3, c4, c5⟩ := hpend.child (2 + i) hi4
  have hcq := hpend.child_ne (2 + i) hi4
  have hcN : internal_child_of (t.page q) (2 + i) ≠ t.size := by omega
  have hmoved := h.moved (internal_child_of (t.page q) (2 + i))
    ⟨2 + i, by unfold INTERNAL_LEFT_SPLIT_SIZE; omega, by rw [← hfull]; exact hi4, rfl⟩
  have hch : internal_child_of (ts.page t.size) i = internal_child_of (t.page q) (2 + i) :=
    h.right.child_moved hfull i (by unfold INTERNAL_RIGHT_SPLIT_SIZE; omega)
  rw [hch, (hgo _ hcN).1, (hgo _ hcN).2.1, (hgo _ hcN).2.2 hcq, hgN.1, hgN.2.1, hgN.2.2,
    (hgo n hnN).2.2 hpend.ne, (hgo n hnN).2.1, hmoved, h.size,
    h.right.lower_right (g.lo q) i (by unfold INTERNAL_RIGHT_SPLIT_SIZE; omega),
    h.right.upper_right hfull (g.hi q) i]
  refine ⟨by omega, c2, c3, rfl, c5, ?_, ?_, rfl⟩
  · rw [hpend.lo (2 + i) hi4]
    unfold INTERNAL_LEFT_SPLIT_SIZE
    by_cases hij : i + 2 = j
    · rw [if_pos hij, if_pos (by omega)]
    · rw [if_neg hij, if_neg (by omega)]
  · rw [hpend.hi (2 + i) hi4, hfull]
    unfold INTERNAL_LEFT_SPLIT_SIZE INTERNAL_BRANCH_SIZE
    by_cases hij : i = 2 ∧ j = 5
    · rw [if_pos hij, if_pos (by omega)]
    · rw [if_neg hij, if_neg (by omega)]

theorem Halved.sizes {t ts : Table} {q : Nat} (h : Halved t q ts) :
    (ts.page q).size = 1 ∧ (ts.page t.size).size = 2 ∧
    (ts.page q).type = (t.page q).type ∧ (ts.page t.size).type = NODE_INTERNAL ∧
    (ts.page q).is_root = (t.page q).is_root ∧ (ts.page q).parent = (t.page q).parent := by
  rw [h.left]
  exact ⟨rfl, h.right.2.2.1, rfl, h.right.1, rfl, rfl⟩

theorem Halved.pending_left {t ts : Table} {g : Ghost} {q n j : Nat} (h : Halved t q ts)
    (hr : InsertReady t g q n j) (hfull : (t.page q).size = INTERNAL_BRANCH_SIZE)
    (hj : j ≤ 1) :
    Pending ts (g.split q t.size (internal_key_of (t.page q) (INTERNAL_LEFT_SPLIT_SIZE - 1)))
      q n j := by
  have hqN : q ≠ t.size := by have := hr.q_lt; omega
  have hnN : n ≠ t.size := by have := hr.n_lt; omega
  have hgx := g.split_old q t.size (internal_key_of (t.page q) (INTERNAL_LEFT_SPLIT_SIZE - 1)) hqN
  have hgo := g.split_other q t.size (internal_key_of (t.page q) (INTERNAL_LEFT_SPLIT_SIZE - 1))
  have hpend := hr.pending
  obtain ⟨s1, s2, s3, s4, _⟩ := h.sizes
  have hj4 : j ≤ (t.page q).size := by rw [hfull]; unfold INTERNAL_BRANCH_SIZE; omega
  refine ⟨by rw [s3]; exact hpend.type, by omega, by rw [s1]; unfold INTERNAL_BRANCH_SIZE; omega,
    by omega, ?_, ?_, ?_, ?_, ?_, ?_, ?_⟩
  · intro i hi
    obtain ⟨c1, c2, c3, c4, c5, _⟩ := h.child_left hr hfull i (by omega)
    exact ⟨c1, c2, c3, c4, c5⟩
  · intro i hi
    exact (h.child_left hr hfull i (by omega)).2.2.2.2.2.1
  · intro i hi
    rw [(h.child_left hr hfull i (by omega)).2.2.2.2.2.2.1, if_neg (by omega)]
  · intro _
    rw [(hgo n hnN).2.1, hgx.2.1, h.left, left_half_lower]
    exact hpend.n_lo hj4
  · intro _
    rw [(hgo n hnN).2.2 hpend.ne]
    exact hpend.n_hi hj4
  · intro hh
    omega
  · rw [hgx.1, (hgo n hnN).1]
    exact hpend.n_level

theorem Halved.pending_right {t ts : Table} {g : Ghost} {q n j : Nat} (h : Halved t q ts)
    (hr : InsertReady t g q n j) (hfull : (t.page q).size = INTERNAL_BRANCH_SIZE)
    (hj : 2 ≤ j) :
    Pending ts (g.split q t.size (internal_key_of (t.page q) (INTERNAL_LEFT_SPLIT_SIZE - 1)))
      t.size n (j - 2) := by
  have hqN : q ≠ t.size := by have := hr.q_lt; omega
  have hnN : n ≠ t.size := by have := hr.n_lt; omega
  have hgN := g.split_new q t.size (internal_key_of (t.page q) (INTERNAL_LEFT_SPLIT_SIZE - 1))
  have hgo := g.split_other q t.size (internal_key_of (t.page q) (INTERNAL_LEFT_SPLIT_SIZE - 1))
  have hpend := hr.pending
  have hpos := hpend.pos
  rw [hfull] at hpos
  unfold INTERNAL_BRANCH_SIZE at hpos
  obtain ⟨s1, s2, s3, s4, _⟩ := h.sizes
  refine ⟨s4, by omega, by rw [s2]; unfold INTERNAL_BRANCH_SIZE; omega,
    by omega, ?_, ?_, ?_, ?_, ?_, ?_, ?_⟩
  · intro i hi
    obtain ⟨c1, c2, c3, c4, c5, _⟩ := h.child_right hr hfull i (by omega)
    exact ⟨c1, c2, c3, c4, c5⟩
  · intro i hi
    rw [(h.child_right hr hfull i (by omega)).2.2.2.2.2.1]
    by_cases hij : i + 2 = j
    · rw [if_pos hij, if_pos (by omega)]
    · rw [if_neg hij, if_neg (by omega)]
  · intro i hi
    rw [(h.child_right hr hfull i (by omega)).2.2.2.2.2.2.1, s2]
    by_cases hij : i = 2 ∧ j = 5
    · rw [if_pos hij, if_pos (by omega)]
    · rw [if_neg hij, if_neg (by omega)]
  · intro hh
    rw [s2] at hh
    have hj4 : j ≤ (t.page q).size := by rw [hfull]; unfold INTERNAL_BRANCH_SIZE; omega
    rw [(hgo n hnN).2.1, hgN.2.1,
      h.right.lower_right (g.lo q) (j - 2) (by unfold INTERNAL_RIGHT_SPLIT_SIZE; omega), hpend.n_lo hj4]
    congr 1
    unfold INTERNAL_LEFT_SPLIT_SIZE
    omega
  · intro hh
    rw [s2] at hh
    rw [(hgo n hnN).2.2 hpend.ne]
    exact hpend.n_hi (by rw [hfull]; unfold INTERNAL_BRANCH_SIZE; omega)
  · intro hh
    rw [s2] at hh
    rw [(hgo n hnN).2.2 hpend.ne, (hgo n hnN).2.1, hgN.2.2]
    exact hpend.n_last (by rw [hfull]; unfold INTERNAL_BRANCH_SIZE; omega)
  · rw [hgN.1, (hgo n hnN).1]
    exact hpend.n_level

theorem Halved.ok_left {t ts : Table} {g : Ghost} {q n j : Nat} (h : Halved t q ts)
    (hr : InsertReady t g q n j) (hfull : (t.page q).size = INTERNAL_BRANCH_SIZE)
    (hj : 2 ≤ j) :
    InternalOK ts (g.split q t.size (internal_key_of (t.page q) (INTERNAL_LEFT_SPLIT_SIZE - 1)))
      q := by
  obtain ⟨s1, s2, s3, s4, _⟩ := h.sizes
  refine ⟨by omega, by rw [s1]; unfold INTERNAL_BRANCH_SIZE; omega, ?_⟩
  intro i hi
  obtain ⟨c1, c2, c3, c4, c5, c6, c7, _⟩ := h.child_left hr hfull i (by omega)
  rw [if_neg (by omega)] at c6
  exact ⟨c1, c2, c4, c5, c6, c7⟩

theorem Halved.ok_right {t ts : Table} {g : Ghost} {q n j : Nat} (h : Halved t q ts)
    (hr : InsertReady t g q n j) (hfull : (t.page q).size = INTERNAL_BRANCH_SIZE)
    (hj : j ≤ 1) :
    InternalOK ts (g.split q t.size (internal_key_of (t.page q) (INTERNAL_LEFT_SPLIT_SIZE - 1)))
      t.size := by
  obtain ⟨s1, s2, s3, s4, _⟩ := h.sizes
  refine ⟨by omega, by rw [s2]; unfold INTERNAL_BRANCH_SIZE; omega, ?_⟩
  intro i hi
  obtain ⟨c1, c2, c3, c4, c5, c6, c7, _⟩ := h.child_right hr hfull i (by omega)
  rw [if_neg (by omega)] at c6 c7
  exact ⟨c1, c2, c4, c5, c6, c7⟩

theorem Halved.halves_apart {t : Table} {g : Ghost} {q n j : Nat}
    (hr : InsertReady t g q n j) (hfull : (t.page q).size = INTERNAL_BRANCH_SIZE) :
    Apart ((g.split q t.size (internal_key_of (t.page q) (INTERNAL_LEFT_SPLIT_SIZE - 1))).lo q)
      ((g.split q t.size (internal_key_of (t.page q) (INTERNAL_LEFT_SPLIT_SIZE - 1))).hi q) ∧
    Apart ((g.split q t.size (internal_key_of (t.page q) (INTERNAL_LEFT_SPLIT_SIZE - 1))).lo t.size)
      ((g.split q t.size (internal_key_of (t.page q) (INTERNAL_LEFT_SPLIT_SIZE - 1))).hi t.size) := by
  have hqN : q ≠ t.size := by have := hr.q_lt; omega
  have hgx := g.split_old q t.size (internal_key_of (t.page q) (INTERNAL_LEFT_SPLIT_SIZE - 1)) hqN
  have hgN := g.split_new q t.size (internal_key_of (t.page q) (INTERNAL_LEFT_SPLIT_SIZE - 1))
  have hpend := hr.pending
  rw [hgx.2.1, hgx.2.2, hgN.2.1, hgN.2.2]
  have h4 : (t.page q).size = 4 := hfull
  constructor
  · intro l u hl hu
    cases hu
    have h1 := hpend.first hr.lower_pages hr.n_lt l hl
    exact lt_of_lt_of_le h1 (hpend.sorted_le_pending hr.lower_pages hr.n_lt 0 _ (Nat.zero_le _)
      (by unfold INTERNAL_LEFT_SPLIT_SIZE; omega))
  · intro l u hl hu
    cases hl
    have h1 := hpend.last hr.lower_pages hr.n_lt u hu
    exact lt_of_le_of_lt (hpend.sorted_le_pending hr.lower_pages hr.n_lt _ _
      (by unfold INTERNAL_LEFT_SPLIT_SIZE; omega) (by omega)) h1

theorem Pending.same_pending {t t' : Table} {g : Ghost} {q n j : Nat} (hs : Same t t')
    (h : Pending t g q n j) : Pending t' g q n j := by
  obtain ⟨h1, h2, h3, h4, h5, h6, h7, h8, h9, h10, h11⟩ := h
  constructor <;> (try rw [hs.page]) <;> (try rw [hs.size]) <;> assumption

theorem Down.of_internal {t : Table} {g : Ghost} {p : Nat} (ha : Apart (g.lo p) (g.hi p))
    (hty : (t.page p).type = NODE_INTERNAL) (hok : InternalOK t g p) : Down t g p := by
  unfold Down
  rw [hty]
  exact ⟨ha, hok⟩

/-- The insertion of the pending child into one half of a split internal page
completes the split. -/
theorem Halved.insert_into {t ts t5 : Table} {g : Ghost} {q n j : Nat} (h : Halved t q ts)
    (hr : InsertReady t g q n j) (hfull : (t.page q).size = INTERNAL_BRANCH_SIZE)
    (d : Nat) (hdepth : g.level n < d) (hs5 : Same ts t5) (X Y jX : Nat)
    (hXY : (X = q ∧ Y = t.size) ∨ (X = t.size ∧ Y = q))
    (hpend : Pending ts
      (g.split q t.size (internal_key_of (t.page q) (INTERNAL_LEFT_SPLIT_SIZE - 1))) X n jX)
    (hok : InternalOK ts
      (g.split q t.size (internal_key_of (t.page q) (INTERNAL_LEFT_SPLIT_SIZE - 1))) Y)
    (hYn : ∀ i, i ≤ (ts.page Y).size → internal_child_of (ts.page Y) i ≠ n)
    (hcX : ∀ k, k ≤ (t.page q).size →
      (ts.page (internal_child_of (t.page q) k)).parent = X →
      ∃ i, i ≤ (ts.page X).size ∧ internal_child_of (ts.page X) i = internal_child_of (t.page q) k)
    (hcY : ∀ k, k ≤ (t.page q).size →
      (ts.page (internal_child_of (t.page q) k)).parent = Y →
      ∃ i, i ≤ (ts.page Y).size ∧ internal_child_of (ts.page Y) i = internal_child_of (t.page q) k)
    (hcXY : ∀ k, k ≤ (t.page q).size →
      (ts.page (internal_child_of (t.page q) k)).parent = X ∨
      (ts.page (internal_child_of (t.page q) k)).parent = Y) :
    Returns (internal_node_insert_raw d t5 X n) (fun t6 =>
      SplitDone t6 (g.split q t.size (internal_key_of (t.page q) (INTERNAL_LEFT_SPLIT_SIZE - 1)))
        q t.size (g.hi q) ∧
      t6.size = t.size + 1 ∧
      (∀ p, p ≠ q → p ≠ t.size → SameBody (t.page p) (t6.page p)) ∧
      (t6.page q).type = NODE_INTERNAL ∧ (t6.page t.size).type = NODE_INTERNAL ∧
      (t6.page q).parent = (t.page q).parent) := by
  generalize hg2 : g.split q t.size (internal_key_of (t.page q) (INTERNAL_LEFT_SPLIT_SIZE - 1))
    = g2 at *
  have hqN : q ≠ t.size := by have := hr.q_lt; omega
  have hnN : n ≠ t.size := by have := hr.n_lt; omega
  have hnq : n ≠ q := hr.pending.ne
  have hgo : ∀ p, p ≠ t.size → g2.level p = g.level p ∧ g2.lo p = g.lo p ∧
      (p ≠ q → g2.hi p = g.hi p) := by
    intro p hp; rw [← hg2]; exact g.split_other q t.size _ p hp
  have hgN : g2.level t.size = g.level q := by rw [← hg2]; exact (g.split_new q t.size _).1
  have hgq : g2.level q = g.level q := (hgo q hqN).1
  have hgX : g2.level X = g.level q := by
    rcases hXY with ⟨h1, _⟩ | ⟨h1, _⟩ <;> rw [h1] <;> assumption
  have hXlt : X < ts.size := by
    have := hr.q_lt
    rcases hXY with ⟨h1, _⟩ | ⟨h1, _⟩ <;> rw [h1, h.size] <;> omega
  have hnX : n ≠ X := hpend.ne
  have hnY : n ≠ Y := by
    rcases hXY with ⟨_, h1⟩ | ⟨_, h1⟩ <;> rw [h1] <;> assumption
  have hXY' : X ≠ Y := by
    rcases hXY with ⟨h1, h2⟩ | ⟨h1, h2⟩ <;> rw [h1, h2]
    · exact hqN
    · exact hqN.symm
  have hcases : ∀ p, p ≠ q → p ≠ t.size → p ≠ X ∧ p ≠ Y := by
    intro p h1 h2
    rcases hXY with ⟨h3, h4⟩ | ⟨h3, h4⟩ <;> rw [h3, h4] <;> exact ⟨by assumption, by assumption⟩
  have hlow : ∀ p, p < t5.size → g2.level p < g2.level X → Down t5 g2 p := by
    intro p hp hlev
    rw [hs5.size, h.size] at hp
    rw [hgX] at hlev
    have hpN : p ≠ t.size := by intro heq; rw [heq, hgN] at hlev; omega
    rw [(hgo p hpN).1] at hlev
    have := (h.low hr hfull (internal_key_of (t.page q) (INTERNAL_LEFT_SPLIT_SIZE - 1))
      p (by omega) hlev).1
    rw [hg2] at this
    exact Down.same_down hs5 g2 p this
  have hX4 : (ts.page X).size < INTERNAL_BRANCH_SIZE := by
    unfold INTERNAL_BRANCH_SIZE
    rcases hXY with ⟨h1, _⟩ | ⟨h1, _⟩ <;> rw [h1]
    · rw [h.sizes.1]; omega
    · rw [h.sizes.2.1]; omega
  have hn5 : t5.page n = t.page n := by
    rw [hs5.page]
    exact h.keep hfull n hnq hnN (fun i hi => (hr.pending.child i hi).2.2.1)
  obtain ⟨t6, e6, h6size, h6fresh, h6page, h6n, key, hk1, hk2, hins⟩ :=
    internal_node_insert_raw_spec g2 d t5 X n jX
      (by rw [hs5.size, h.size]; have := h.cap; omega) (by rw [hs5.size]; exact hXlt)
      (by rw [hs5.size, h.size]; have := hr.n_lt; omega) hr.n_ne_zero (hpend.same_pending hs5) hlow
      (by rw [(hgo n hnN).1]; exact hdepth) (by rw [hs5.page]; exact hX4)
  refine ⟨t6, e6, ?_⟩
  rw [hs5.page] at hk1 hk2 hins h6page
  rw [hn5] at h6n
  have h6size' : t6.size = t.size + 1 := by rw [h6size, hs5.size, h.size]
  have hhead := hins.header hpend.pos
  have hXok : InternalOK t6 g2 X := by
    apply hpend.internal_ok hX4 (by rw [h.size]; have := hr.n_lt; omega) hr.n_ne_zero t6
      (by rw [h6size, hs5.size]) (by rw [h6n]) _ key
      (fun hj => ⟨hk1 hj, hins.1 hj⟩) (fun hj => ⟨hk2 hj, hins.2 hj⟩)
    intro i hi
    obtain ⟨c1, c2, c3, c4, c5⟩ := hpend.child i hi
    rw [h6page _ (hpend.child_ne i hi) c3]
    exact c4
  have hY6 : t6.page Y = ts.page Y := h6page Y hXY'.symm hnY.symm
  have hYok : InternalOK t6 g2 Y := by
    unfold InternalOK
    rw [hY6, h6size, hs5.size]
    refine ⟨hok.1, hok.2.1, ?_⟩
    intro i hi
    obtain ⟨c1, c2, c3, c4, c5, c6⟩ := hok.2.2 i hi
    have hcX : internal_child_of (ts.page Y) i ≠ X := by
      intro heq
      rw [heq, hgX] at c4
      have hgY : g2.level Y = g.level q := by
        rcases hXY with ⟨_, h1⟩ | ⟨_, h1⟩ <;> rw [h1] <;> assumption
      omega
    rw [h6page _ hcX (hYn i hi)]
    exact ⟨c1, c2, c3, c4, c5, c6⟩
  have hXty : (t6.page X).type = NODE_INTERNAL := by rw [hhead.1]; exact hpend.type
  have hYty : (t6.page Y).type = NODE_INTERNAL := by
    rw [hY6]
    rcases hXY with ⟨_, h1⟩ | ⟨_, h1⟩ <;> rw [h1]
    · exact h.sizes.2.2.2.1
    · rw [h.sizes.2.2.1]; exact hr.pending.type
  have hapart := Halved.halves_apart hr hfull
  rw [hg2] at hapart
  have hqok : (t6.page q).type = NODE_INTERNAL ∧ InternalOK t6 g2 q ∧
      (t6.page t.size).type = NODE_INTERNAL ∧ InternalOK t6 g2 t.size ∧
      (t6.page q).is_root = (ts.page q).is_root ∧ (t6.page q).parent = (ts.page q).parent ∧
      (t6.page t.size).is_root = (ts.page t.size).is_root ∧
      (t6.page t.size).parent = (ts.page t.size).parent := by
    rcases hXY with ⟨h1, h2⟩ | ⟨h1, h2⟩
    · subst h1; subst h2
      exact ⟨hXty, hXok, hYty, hYok, hhead.2.1, hhead.2.2.1, by rw [hY6], by rw [hY6]⟩
    · subst h1; subst h2
      exact ⟨hYty, hYok, hXty, hXok, by rw [hY6], by rw [hY6], hhead.2.1, hhead.2.2.1⟩
  obtain ⟨q1, q2, q3, q4, q5, q6, q7, q8⟩ := hqok
  have hbody : ∀ p, p ≠ q → p ≠ t.size → p ≠ n → t6.page p = ts.page p := by
    intro p h1 h2 h3
    exact h6page p (hcases p h1 h2).1 h3
  have hsb : ∀ p, p ≠ q → p ≠ t.size → SameBody (t.page p) (t6.page p) := by
    intro p h1 h2
    by_cases h3 : p = n
    · rw [h3, h6n]; exact ⟨rfl, rfl, rfl, rfl, rfl⟩
    · rw [hbody p h1 h2 h3]; exact (h.body p h1 h2).1
  refine ⟨?_, h6size', hsb, q1, q3, by rw [q6, h.sizes.2.2.2.2.2]⟩
  rw [← hg2]
  apply SplitDone.make (internal_key_of (t.page q) (INTERNAL_LEFT_SPLIT_SIZE - 1))
    (fun p => p = n ∨ ∃ i, i ≤ (t.page q).size ∧ internal_child_of (t.page q) i = p) t6
    hr.size_pos h.cap hr.height h6size' (h6fresh (hs5.fresh h.fresh)) hr.q_lt hr.q_up hr.q_apart
  · rintro (h1 | ⟨i, hi, h1⟩)
    · exact hnq h1.symm
    · exact hr.pending.child_ne i hi h1
  · intro _ i hi
    exact Or.inr ⟨i, hi, rfl⟩
  · have hXq : X = q ∨ X = t.size := by
      rcases hXY with ⟨h1, _⟩ | ⟨h1, _⟩
      · exact Or.inl h1
      · exact Or.inr h1
    have hYq : Y = q ∨ Y = t.size := by
      rcases hXY with ⟨_, h1⟩ | ⟨_, h1⟩
      · exact Or.inr h1
      · exact Or.inl h1
    rintro p (h1 | ⟨k, hk, h1⟩)
    · subst h1
      have hpar : (t6.page p).parent = X := by rw [h6n]
      refine ⟨hr.n_lt, hr.n_ne_zero, hr.n_parent, hr.pending.n_level, hr.n_down,
        hsb p hnq hnN, by rw [h6n]; exact hr.n_root, by rw [hpar]; exact hXq,
        by rw [hpar]; exact hXty, ?_⟩
      rw [hpar]
      exact hins.new_child hpend.pos
    · obtain ⟨c1, c2, c3, c4, c5⟩ := hr.pending.child k hk
      have hcq := hr.pending.child_ne k hk
      rw [h1] at c1 c2 c3 c4 c5 hcq
      have hcN : p ≠ t.size := by omega
      have h6c := hbody p hcq hcN c3
      have hroot : (t6.page p).is_root = false := by
        rw [h6c, (h.body p hcq hcN).2]
        exact ((hr.others p c1 hcq c3).2.of_ne_zero c2).1
      refine ⟨c1, c2, c4, c5, hr.lower_pages p c1 (by omega), hsb p hcq hcN, hroot, ?_⟩
      have hk' := hcXY k hk
      rw [h1] at hk'
      rcases hk' with hp | hp
      · have hpar : (t6.page p).parent = X := by rw [h6c]; exact hp
        rw [hpar]
        refine ⟨hXq, hXty, ?_⟩
        obtain ⟨i, hi, hc⟩ := hcX k hk (by rw [h1]; exact hp)
        obtain ⟨i', hi', hc'⟩ := hins.old_child hpend.pos i hi
        exact ⟨i', hi', by rw [hc', hc, h1]⟩
      · have hpar : (t6.page p).parent = Y := by rw [h6c]; exact hp
        rw [hpar]
        refine ⟨hYq, hYty, ?_⟩
        obtain ⟨i, hi, hc⟩ := hcY k hk (by rw [h1]; exact hp)
        exact ⟨i, by rw [hY6]; exact hi, by rw [hY6, hc, h1]⟩
  · intro p hp hpq hpC
    exact hr.others p hp hpq (fun h1 => hpC (Or.inl h1))
  · intro p hpq hpN hpC
    rw [hbody p hpq hpN (fun h1 => hpC (Or.inl h1))]
    exact h.keep hfull p hpq hpN (fun i hi h1 => hpC (Or.inr ⟨i, hi, h1⟩))
  · rw [q5, h.sizes.2.2.2.2.1]
  · rw [q6, h.sizes.2.2.2.2.2]
  · rw [hg2]; exact Down.of_internal hapart.1 q1 q2
  · rw [hg2]; exact Down.of_internal hapart.2 q3 q4
  · rw [q7]; exact h.right.2.1
  · rw [q8]; exact h.right.2.2.2.1

theorem Halved.parents {t ts : Table} {g : Ghost} {q n j : Nat} (h : Halved t q ts)
    (hr : InsertReady t g q n j) (hfull : (t.page q).size = INTERNAL_BRANCH_SIZE) (k : Nat)
    (hk : k ≤ (t.page q).size) :
    (k ≤ 1 → (ts.page (internal_child_of (t.page q) k)).parent = q ∧
      k ≤ (ts.page q).size ∧ internal_child_of (ts.page q) k = internal_child_of (t.page q) k) ∧
    (2 ≤ k → (ts.page (internal_child_of (t.page q) k)).parent = t.size ∧
      k - 2 ≤ (ts.page t.size).size ∧
      internal_child_of (ts.page t.size) (k - 2) = internal_child_of (t.page q) k) := by
  have h4 : (t.page q).size = 4 := hfull
  obtain ⟨s1, s2, _⟩ := h.sizes
  constructor
  · intro hk1
    obtain ⟨_, _, _, c4, _, _, _, c8⟩ := h.child_left hr hfull k hk1
    rw [c8] at c4
    exact ⟨c4, by omega, c8⟩
  · intro hk2
    obtain ⟨_, _, _, c4, _, _, _, c8⟩ := h.child_right hr hfull (k - 2) (by omega)
    have : 2 + (k - 2) = k := by omega
    rw [this] at c8
    rw [c8] at c4
    exact ⟨c4, by omega, c8⟩

/-- The second part of `internal_node_split_and_insert`, up to the insertion of
the child into one of the halves. -/
theorem Halved.insert_child {t ts : Table} {g : Ghost} {q n j : Nat} (h : Halved t q ts)
    (hr : InsertReady t g q n j) (hfull : (t.page q).size = INTERNAL_BRANCH_SIZE)
    (d : Nat) (hdepth : g.level n < d) :
    ∃ t5 cmk, recursive_max_key_of d ts n = .ok (t5, cmk) ∧
      Returns (internal_node_insert_raw d t5
          (if strcmp (t5.key_at cmk)
              (internal_key_of (t5.page q) (INTERNAL_LEFT_SPLIT_SIZE - 1)) ≤ 0
           then q else t.size) n) (fun t6 =>
        SplitDone t6
          (g.split q t.size (internal_key_of (t.page q) (INTERNAL_LEFT_SPLIT_SIZE - 1)))
          q t.size (g.hi q) ∧
        t6.size = t.size + 1 ∧
        (∀ p, p ≠ q → p ≠ t.size → SameBody (t.page p) (t6.page p)) ∧
        (t6.page q).type = NODE_INTERNAL ∧ (t6.page t.size).type = NODE_INTERNAL ∧
        (t6.page q).parent = (t.page q).parent) := by
  have hqN : q ≠ t.size := by have := hr.q_lt; omega
  have hpend := hr.pending
  have h4 : (t.page q).size = 4 := hfull
  obtain ⟨⟨t5, cmk⟩, e5, hs5, _, _, hk1, hk2⟩ := recursive_max_key_of_low g d t ts n (g.level q)
    (by rw [h.size]; have := h.cap; omega) (by rw [h.size]; omega) hr.n_lt
    (by have := hpend.n_level; omega) hr.n_ne_zero hr.lower_pages
    (fun p hp hlev => (h.body p (by intro heq; rw [heq] at hlev; omega) (by omega)).1)
    (fun p hp hlev => by
      rw [(h.low hr hfull (internal_key_of (t.page q) 0) p hp (by omega)).2 hlev])
    hdepth
  dsimp only at hs5 hk1 hk2
  refine ⟨t5, cmk, e5, ?_⟩
  rw [key_at_same hs5, hs5.page, h.left, left_half_key]
  by_cases hj : j ≤ 1
  · obtain ⟨u, hu⟩ := hpend.n_hi (by omega)
    have hlt := hpend.gap_lt hr.lower_pages (by omega) u hu
    have hle := hpend.sorted_le_pending hr.lower_pages hr.n_lt j (INTERNAL_LEFT_SPLIT_SIZE - 1)
      (by unfold INTERNAL_LEFT_SPLIT_SIZE; omega) (by unfold INTERNAL_LEFT_SPLIT_SIZE; omega)
    rw [hk2 u hu, if_pos ((strcmp_le_iff _ _).2 (le_of_lt (lt_of_lt_of_le hlt hle)))]
    apply h.insert_into hr hfull d hdepth hs5 q t.size j (Or.inl ⟨rfl, rfl⟩)
      (h.pending_left hr hfull hj) (h.ok_right hr hfull hj)
    · intro i hi
      rw [h.sizes.2.1] at hi
      exact (h.child_right hr hfull i hi).2.2.1
    · intro k hk hp
      obtain ⟨p1, p2⟩ := h.parents hr hfull k hk
      by_cases hk1 : k ≤ 1
      · exact ⟨k, (p1 hk1).2.1, (p1 hk1).2.2⟩
      · rw [(p2 (by omega)).1] at hp
        exact absurd hp.symm hqN
    · intro k hk hp
      obtain ⟨p1, p2⟩ := h.parents hr hfull k hk
      by_cases hk1 : k ≤ 1
      · rw [(p1 hk1).1] at hp
        exact absurd hp hqN
      · exact ⟨k - 2, (p2 (by omega)).2.1, (p2 (by omega)).2.2⟩
    · intro k hk
      obtain ⟨p1, p2⟩ := h.parents hr hfull k hk
      by_cases hk1 : k ≤ 1
      · exact Or.inl (p1 hk1).1
      · exact Or.inr (p2 (by omega)).1
  · have hgt := hpend.gap_gt hr.lower_pages hr.n_lt (INTERNAL_LEFT_SPLIT_SIZE - 1) (by
      unfold INTERNAL_LEFT_SPLIT_SIZE; omega) (by unfold INTERNAL_LEFT_SPLIT_SIZE; omega) _ hk1
    rw [if_neg (fun hle => not_le_of_lt hgt ((strcmp_le_iff _ _).1 hle))]
    apply h.insert_into hr hfull d hdepth hs5 t.size q (j - 2) (Or.inr ⟨rfl, rfl⟩)
      (h.pending_right hr hfull (by omega)) (h.ok_left hr hfull (by omega))
    · intro i hi
      rw [h.sizes.1] at hi
      exact (h.child_left hr hfull i hi).2.2.1
    · intro k hk hp
      obtain ⟨p1, p2⟩ := h.parents hr hfull k hk
      by_cases hk1 : k ≤ 1
      · rw [(p1 hk1).1] at hp
        exact absurd hp hqN
      · exact ⟨k - 2, (p2 (by omega)).2.1, (p2 (by omega)).2.2⟩
    · intro k hk hp
      obtain ⟨p1, p2⟩ := h.parents hr hfull k hk
      by_cases hk1 : k ≤ 1
      · exact ⟨k, (p1 hk1).2.1, (p1 hk1).2.2⟩
      · rw [(p2 (by omega)).1] at hp
        exact absurd hp.symm hqN
    · intro k hk
      obtain ⟨p1, p2⟩ := h.parents hr hfull k hk
      by_cases hk1 : k ≤ 1
      · exact Or.inr (p1 hk1).1
      · exact Or.inl (p2 (by omega)).1

/-- The tail of a split of a page that is not the root: the maximum key of the
page is read again, the separator of the page in its parent is rewritten, and
the parent is ready for the insertion of the new page. -/
theorem SplitDone.tail {t : Table} {g : Ghost} {x N : Nat} {hi_old : Option Str}
    (h : SplitDone t g x N hi_old) (hx0 : x ≠ 0) (d : Nat) (hdepth : g.level x < d)
    (omk : KeyPtr) (h1 : Above (g.lo x) (t.key_at omk)) (h2 : Below (t.key_at omk) hi_old) :
    ∃ t1 nmk t2 t3 i, recursive_max_key_of d t x = .ok (t1, nmk) ∧
      get_page t1 (t.page x).parent = .ok t2 ∧
      update_internal_node_key t2 (t.page x).parent omk nmk = .ok t3 ∧
      InsertReady t3 g (t.page x).parent N (i + 1) ∧ t3.size = t.size ∧
      (∀ p, p ≠ (t.page x).parent → t3.page p = t.page p) := by
  obtain ⟨hxup, hGup, hGapart, i, hole⟩ := h.inner hx0
  obtain ⟨m, hm, _⟩ := h.mid
  have hGlt : (t.page x).parent < t.size := (hxup.of_ne_zero hx0).2.2.1
  have hGlev : g.level (t.page x).parent = g.level x + 1 := by
    have := (hole.child i hole.slot_le).2.2.2.2
    rw [hole.slot_child] at this
    exact this
  obtain ⟨⟨t1, nmk⟩, e1, hs1, _, _, _, _, _, hmax⟩ := recursive_max_key_of_spec g d t x h.size_le
    h.x_lt hdepth
    (fun p hp hlev => h.lower_done hx0 p hp (by intro heq; rw [heq] at hlev; omega))
    (h.x_down.leaf_nonempty hx0)
  dsimp only at hs1 hmax
  obtain ⟨t2, e2, hs2, _⟩ := get_page_allocated t1 (t.page x).parent
    (by rw [hs1.size]; exact hGlt) (by rw [hs1.size]; exact h.size_le)
  have hs12 := hs1.trans hs2
  have hfind := hole.find_old h hx0 _ h1 h2
  refine ⟨t1, nmk, t2, t2.write (t.page x).parent (set_internal_key (t.page (t.page x).parent) i m),
    i, e1, e2, ?_, ?_, ?_, ?_⟩
  · unfold update_internal_node_key
    rw [key_at_same hs12, key_at_same hs12, hs12.page, hfind, hmax m hm]
    rfl
  · apply h.ready hx0 i hole m hm _ (by rw [write_size, hs12.size])
      (fresh_write _ _ _ (by rw [hs12.size]; exact hGlt) (hs12.fresh h.fresh))
    · intro p hp
      rw [write_page_ne _ _ _ _ hp, hs12.page]
    · rw [write_page_same]
  · rw [write_size, hs12.size]
  · intro p hp
    rw [write_page_ne _ _ _ _ hp, hs12.page]

/-- The effect of `create_new_root` after a split of the root. -/
theorem SplitDone.create_root {t : Table} {g : Ghost} {N : Nat} {hi_old : Option Str}
    (h : SplitDone t g 0 N hi_old) (d : Nat) (hdepth : g.level 0 < d) (m : Str)
    (hm : g.hi 0 = some m) :
    Yields (create_new_root d t N) (fun t' =>
      t.size < TABLE_MAX_PAGES ∧ t'.size = t.size + 1 ∧ PagerOK t' ∧
      t'.page 0 = new_root_page (t.page 0) t.size m N ∧
      t'.page t.size = { t.page 0 with is_root := false, parent := 0 } ∧
      t'.page N = { t.page N with parent := 0 } ∧
      ∀ p, p ≠ 0 → p ≠ t.size → p ≠ N → t'.page p = t.page p) := by
  have hlower : ∀ p, p < t.size → g.level p < g.level 0 → Down t g p := by
    intro p hp hlev
    have hp0 : p ≠ 0 := by intro heq; rw [heq] at hlev; omega
    by_cases hpN : p = N
    · rw [hpN]; exact h.N_down
    · exact (h.others p hp hp0 hpN (fun hx => absurd rfl hx)).1
  apply create_new_root_effect d t N m h.size_le h.fresh h.N_lt h.N_ne_zero
  intro t2 h2size h2cap h2body h2page
  have hlo0 := (h.root rfl).2.1
  obtain ⟨res, e, r1, _, _, _, r5⟩ := recursive_max_key_of_top g d t t2 0 t.size (g.lo 0) (g.hi 0)
    h2cap (by omega) (by omega) h2body
    (fun hty => ⟨by
      have := (h.x_down.leaf hty).2.1.2.2.2 m hm
      exact this.1, (h.x_down.leaf hty).2.1⟩)
    (fun hty => by
      have hok := h.x_down.internal hty
      obtain ⟨c1, c2, c3, c4, c5, c6⟩ := hok.2.2 (t.page 0).size (le_refl _)
      have hcr : internal_child_of (t.page 0) (t.page 0).size = (t.page 0).rightmost := by
        simp [internal_child_of, internal_rightmost_child_of]
      rw [hcr] at c1 c2 c4 c6
      refine ⟨c1, c2, c4, ?_, ?_⟩
      · intro l hl
        rw [hlo0] at hl
        cases hl
      · rw [c6]
        unfold upper_bound_of
        rw [if_neg (by omega)])
    hlower
    (fun p hp hlev => SameBody.of_eq (h2page p hp (by intro heq; rw [heq] at hlev; omega)))
    (fun p hp hlev => by rw [h2page p hp (by intro heq; rw [heq] at hlev; omega)])
    hdepth
  exact ⟨res, e, r1, r5 m hm⟩

/-- Root creation after the split of a root that is a leaf restores the
invariant. -/
theorem SplitDone.root_leaf {t : Table} {g : Ghost} {N : Nat} {hi_old : Option Str}
    (h : SplitDone t g 0 N hi_old) (hty : (t.page 0).type = NODE_LEAF)
    (hmin : LEAF_LEFT_SPLIT_SIZE ≤ (t.page 0).size) (d : Nat) (hdepth : g.level 0 < d) :
    Yields (create_new_root d t N) (fun t' =>
      InvWith t' (g.new_root t.size) ∧ t'.size = t.size + 1 ∧
      (t'.page 0).type = NODE_INTERNAL ∧
      SameBody (t.page 0) (t'.page t.size) ∧
      ∀ p, p ≠ 0 → p ≠ t.size → SameBody (t.page p) (t'.page p)) := by
  obtain ⟨m, hm, _⟩ := h.mid
  apply (h.create_root d hdepth m hm).post
  rintro t' ⟨hcap, hsize, hfresh, h0, hL, hN, hp⟩
  have hL0 : t.size ≠ 0 := by have := h.size_pos; omega
  have hNL : N ≠ t.size := by have := h.N_lt; omega
  have hbody : ∀ p, p ≠ 0 → p ≠ t.size →
      SameBody (t.page p) (t'.page p) ∧ (t'.page p).is_root = (t.page p).is_root := by
    intro p h1 h2
    by_cases h3 : p = N
    · rw [h3, hN]; exact ⟨⟨rfl, rfl, rfl, rfl, rfl⟩, rfl⟩
    · rw [hp p h1 h2 h3]; exact ⟨SameBody.self _, rfl⟩
  refine ⟨?_, hsize, by rw [h0]; rfl, by rw [hL]; exact ⟨rfl, rfl, rfl, rfl, rfl⟩,
    fun p h1 h2 => (hbody p h1 h2).1⟩
  apply h.new_root m hm t' (fun _ => hmin) hsize hfresh (by omega) h0
    (by rw [hL]; exact ⟨⟨rfl, rfl, rfl, rfl, rfl⟩, rfl, rfl⟩) hbody (by rw [hN])
  · intro hty'
    rw [hty] at hty'
    cases hty'
  · intro p hp1 hp0 hpN _
    rw [hp p hp0 (by omega) hpN]

/-- Root creation after the split of an internal root, with the loop that
points the children of the moved root at its new index, restores the invariant. -/
theorem SplitDone.root_internal {t : Table} {g : Ghost} {N : Nat} {hi_old : Option Str}
    (h : SplitDone t g 0 N hi_old) (hty : (t.page 0).type = NODE_INTERNAL)
    (d : Nat) (hdepth : g.level 0 < d) :
    Yields (create_new_root d t N >>= fun t7 =>
        get_page t7 (t7.size - 1) >>= fun t8 =>
          reparent_children (t7.size - 1) ((t8.page (t7.size - 1)).size + 1) 0 t8) (fun t' =>
      InvWith t' (g.new_root t.size) ∧ t'.size = t.size + 1 ∧
      (t'.page 0).type = NODE_INTERNAL ∧ (t'.page t.size).type = NODE_INTERNAL ∧
      ∀ p, p ≠ 0 → p ≠ t.size → SameBody (t.page p) (t'.page p)) := by
  obtain ⟨m, hm, _⟩ := h.mid
  apply (h.create_root d hdepth m hm).seq
  rintro t7 ⟨hcap, hsize, hfresh, h0, hL, hN, hp⟩
  have hL0 : t.size ≠ 0 := by have := h.size_pos; omega
  have hNL : N ≠ t.size := by have := h.N_lt; omega
  have hsub : t7.size - 1 = t.size := by omega
  rw [hsub]
  obtain ⟨t8, e8, hs8, _⟩ := get_page_allocated t7 t.size (by omega) (by omega)
  simp only [e8, ok_bind]
  have hok := h.x_down.internal hty
  have hL8 : t8.page t.size = { t.page 0 with is_root := false, parent := 0 } := by
    rw [hs8.page, hL]
  have hch8 : ∀ k, internal_child_of (t8.page t.size) k = internal_child_of (t.page 0) k := by
    intro k; rw [hL8]; rfl
  have hsz8 : (t8.page t.size).size = (t.page 0).size := by rw [hL8]
  obtain ⟨t9, e9, h9size, h9fresh, h9in, h9out⟩ := reparent_children_spec t.size
    ((t8.page t.size).size + 1) 0 t8 (by rw [hs8.size]; omega)
    (by
      intro k _ hk
      rw [hch8, hs8.size, hsize]
      have := (hok.2.2 k (by omega)).1
      omega)
  apply Returns.yields
  refine ⟨t9, e9, ?_⟩
  have hsize9 : t9.size = t.size + 1 := by rw [h9size, hs8.size, hsize]
  have hchild : ∀ p, (∃ k, k ≤ (t.page 0).size ∧ internal_child_of (t.page 0) k = p) →
      t9.page p = { t7.page p with parent := t.size } := by
    rintro p ⟨k, hk, hc⟩
    rw [h9in p ⟨k, Nat.zero_le _, by omega, by rw [hch8]; exact hc⟩, hs8.page]
  have hnot : ∀ p, (∀ k, k ≤ (t.page 0).size → internal_child_of (t.page 0) k ≠ p) →
      t9.page p = t7.page p := by
    intro p hne
    rw [h9out p (by intro k _ hk; rw [hch8]; exact hne k (by omega)), hs8.page]
  have h90 : t9.page 0 = t7.page 0 := hnot 0 (fun k hk => (hok.2.2 k hk).2.1)
  have h9L : t9.page t.size = t7.page t.size :=
    hnot t.size (fun k hk => by have := (hok.2.2 k hk).1; omega)
  have h9N : t9.page N = t7.page N :=
    hnot N (fun k hk => h.orphan 0 (by have := h.size_pos; omega) hty k hk)
  have hbody7 : ∀ p, p ≠ 0 → p ≠ t.size →
      SameBody (t.page p) (t7.page p) ∧ (t7.page p).is_root = (t.page p).is_root := by
    intro p h1 h2
    by_cases h3 : p = N
    · rw [h3, hN]; exact ⟨⟨rfl, rfl, rfl, rfl, rfl⟩, rfl⟩
    · rw [hp p h1 h2 h3]; exact ⟨SameBody.self _, rfl⟩
  have hbody : ∀ p, p ≠ 0 → p ≠ t.size →
      SameBody (t.page p) (t9.page p) ∧ (t9.page p).is_root = (t.page p).is_root := by
    intro p h1 h2
    by_cases h3 : ∃ k, k ≤ (t.page 0).size ∧ internal_child_of (t.page 0) k = p
    · rw [hchild p h3]
      obtain ⟨b, r⟩ := hbody7 p h1 h2
      exact ⟨⟨b.1, b.2.1, b.2.2.1, b.2.2.2.1, b.2.2.2.2⟩, r⟩
    · rw [hnot p (fun k hk hc => h3 ⟨k, hk, hc⟩)]
      exact hbody7 p h1 h2
  refine ⟨?_, hsize9, by rw [h90, h0]; rfl, by rw [h9L, hL]; exact hty,
    fun p h1 h2 => (hbody p h1 h2).1⟩
  apply h.new_root m hm t9 _ hsize9 (h9fresh (hs8.fresh hfresh)) (by omega) (by rw [h90, h0])
    (by rw [h9L, hL]; exact ⟨⟨rfl, rfl, rfl, rfl, rfl⟩, rfl, rfl⟩) hbody (by rw [h9N, hN])
  · intro _ i hi
    rw [hchild _ ⟨i, hi, rfl⟩]
  · intro p hp1 hp0 hpN hpar
    rw [hnot p (fun k hk hc => hpar (by rw [← hc]; exact (hok.2.2 k hk).2.2.1)),
      hp p hp0 (by omega) hpN]
  · intro hty'
    rw [hty] at hty'
    cases hty'

/-- The stored records are those of the leaves: a table that keeps the bodies
of the leaves and adds no leaf stores the same records. -/
theorem stored_of_bodies (t t' : Table) (hsz : t.size ≤ t'.size)
    (hsame : ∀ p, p < t.size → (t.page p).type = NODE_LEAF → SameBody (t.page p) (t'.page p))
    (hnew : ∀ p, p < t'.size → (t'.page p).type = NODE_LEAF →
      p < t.size ∧ (t.page p).type = NODE_LEAF) :
    ∀ k v, Stored t' k v ↔ Stored t k v := by
  intro k v
  unfold Stored
  constructor
  · rintro ⟨p, hp, hty, i, hi, hrec⟩
    obtain ⟨h1, h2⟩ := hnew p hp hty
    have hb := hsame p h1 h2
    rw [hb.2.1] at hi
    rw [hb.2.2.2.2] at hrec
    exact ⟨p, h1, h2, i, hi, hrec⟩
  · rintro ⟨p, hp, hty, i, hi, hrec⟩
    have hb := hsame p hp hty
    exact ⟨p, by omega, by rw [hb.1]; exact hty, i, by rw [hb.2.1]; exact hi,
      by rw [hb.2.2.2.2]; exact hrec⟩

theorem InsertReady.same_ready {t t' : Table} {g : Ghost} {q n j : Nat} (hs : Same t t')
    (h : InsertReady t g q n j) : InsertReady t' g q n j := by
  obtain ⟨h1, h2, h3, h4, h5, h6, h7, h8, h9, h10, h11, h12, h13, h14⟩ := h
  refine ⟨by rw [hs.size]; exact h1, by rw [hs.size]; exact h2, hs.fresh h3,
    by rw [hs.size]; exact h4, ?_, by rw [hs.size]; exact h6, Up.same_up hs g q h7, h8,
    h9.same_pending hs, by rw [hs.size]; exact h10, h11, Down.same_down hs g n h12,
    by rw [hs.page]; exact h13, by rw [hs.page]; exact h14⟩
  intro p hp hpq hpn
  rw [hs.size] at hp
  obtain ⟨a, b⟩ := h5 p hp hpq hpn
  exact ⟨Down.same_down hs g p a, Up.same_up hs g p b⟩

/-- The second part of `internal_node_split_and_insert` restores the invariant,
given that the insertion into the parent does. -/
theorem internal_node_split_finish_spec (g : Ghost) (d : Nat) (t ts : Table) (q n j : Nat)
    (hr : InsertReady t g q n j) (hfull : (t.page q).size = INTERNAL_BRANCH_SIZE)
    (h : Halved t q ts) (hdepth : g.level 0 < d) (omk : KeyPtr)
    (hk1 : (t.page omk.page_index).type = NODE_LEAF) (hk2 : omk.page_index < t.size)
    (hk3 : Above (g.lo q) (t.key_at omk)) (hk4 : Below (t.key_at omk) (g.hi q))
    (rec_split : Table → Nat → Nat → Except Fault Table)
    (hrec : ∀ (g' : Ghost) (t' : Table) (n' j' : Nat),
      InsertReady t' g' (t.page q).parent n' j' → g'.level 0 = g.level 0 →
      g'.level (t.page q).parent = g.level q + 1 →
      Yields (internal_node_insert_with rec_split d t' (t.page q).parent n') (fun t'' =>
        (∃ g'', InvWith t'' g'') ∧ ∀ k v, Stored t'' k v ↔ Stored t' k v)) :
    Yields (internal_node_split_finish d rec_split ts q n omk (INTERNAL_LEFT_SPLIT_SIZE - 1)
        (t.page q).parent t.size) (fun t' =>
      (∃ g', InvWith t' g') ∧ ∀ k v, Stored t' k v ↔ Stored t k v) := by
  have hqN : q ≠ t.size := by have := hr.q_lt; omega
  have hqlev := hr.q_level
  have hnlev := hr.pending.n_level
  unfold internal_node_split_finish
  obtain ⟨t5, cmk, e5, t6, e6, hdone, h6size, h6body, h6q, h6N, h6par⟩ :=
    h.insert_child hr hfull d (by omega)
  simp only [e5, ok_bind, e6]
  have hgq := g.split_old q t.size (internal_key_of (t.page q) (INTERNAL_LEFT_SPLIT_SIZE - 1)) hqN
  have hgo := g.split_other q t.size (internal_key_of (t.page q) (INTERNAL_LEFT_SPLIT_SIZE - 1))
  have hst6 : ∀ k v, Stored t6 k v ↔ Stored t k v := by
    apply stored_of_bodies t t6 (by omega)
    · intro p hp hty
      exact h6body p (by intro heq; rw [heq, hr.pending.type] at hty; cases hty) (by omega)
    · intro p hp hty
      have hpq : p ≠ q := by intro heq; rw [heq, h6q] at hty; cases hty
      have hpN : p ≠ t.size := by intro heq; rw [heq, h6N] at hty; cases hty
      rw [(h6body p hpq hpN).1] at hty
      exact ⟨by omega, hty⟩
  by_cases hq0 : q = 0
  · subst hq0
    rw [if_pos (hdone.root rfl).1]
    apply (hdone.root_internal h6q d (by rw [hgq.1]; exact hdepth)).post
    rintro t' ⟨hinv, hsize, h0, hL, hbody⟩
    refine ⟨⟨_, hinv⟩, ?_⟩
    intro k v
    rw [← hst6]
    apply stored_of_bodies t6 t' (by omega)
    · intro p hp hty
      exact hbody p (by intro heq; rw [heq, h6q] at hty; cases hty) (by omega)
    · intro p hp hty
      have hp0 : p ≠ 0 := by intro heq; rw [heq, h0] at hty; cases hty
      have hpL : p ≠ t6.size := by intro heq; rw [heq, hL] at hty; cases hty
      rw [(hbody p hp0 hpL).1] at hty
      exact ⟨by omega, hty⟩
  · obtain ⟨hxup, _⟩ := hdone.inner hq0
    rw [if_neg (by rw [(hxup.of_ne_zero hq0).1]; simp)]
    have hkey : t6.key_at omk = t.key_at omk := by
      unfold Table.key_at
      rw [(h6body omk.page_index
        (by intro heq; rw [heq, hr.pending.type] at hk1; cases hk1) (by omega)).2.2.2.2]
    obtain ⟨t7, nmk, t8, t9, i, e7, e8, e9, hready, h9size, h9page⟩ := hdone.tail hq0 d
      (by rw [hgq.1]; omega) omk (by rw [hkey, hgq.2.1]; exact hk3) (by rw [hkey]; exact hk4)
    rw [h6par] at e8 e9 hready h9page
    simp only [e7, ok_bind, e8, e9]
    have hGty : (t6.page (t.page q).parent).type = NODE_INTERNAL := by
      have := (hxup.of_ne_zero hq0).2.2.2.1
      rw [h6par] at this
      exact this
    apply (hrec _ t9 t.size (i + 1) hready (hgo 0 (by have := hr.size_pos; omega)).1
      (by
        have := hready.pending.n_level
        rw [(g.split_new q t.size _).1] at this
        exact this)).post
    rintro t' ⟨hinv, hst⟩
    refine ⟨hinv, ?_⟩
    intro k v
    rw [hst, ← hst6]
    apply stored_of_bodies t6 t9 (by omega)
    · intro p hp hty
      exact SameBody.of_eq (h9page p (by intro heq; rw [heq, hGty] at hty; cases hty))
    · intro p hp hty
      have hpG : p ≠ (t.page q).parent := by
        intro heq; rw [heq, hready.pending.type] at hty; cases hty
      rw [h9page p hpG] at hty
      exact ⟨by omega, hty⟩

/-- Insertion of a pending page into a parent that has room restores the
invariant and keeps the stored records. -/
theorem internal_node_insert_raw_ok (g : Ghost) (d : Nat) (t : Table) (q n j : Nat)
    (hr : InsertReady t g q n j) (hroom : (t.page q).size < INTERNAL_BRANCH_SIZE)
    (hdepth : g.level 0 < d) :
    Returns (internal_node_insert_raw d t q n) (fun t' =>
      InvWith t' g ∧ ∀ k v, Stored t' k v ↔ Stored t k v) := by
  have hqlev := hr.q_level
  have hnlev := hr.pending.n_level
  obtain ⟨t', e, hsize, hfresh, hpage, hn, key, h1, h2, hins⟩ :=
    internal_node_insert_raw_spec g d t q n j hr.size_le hr.q_lt hr.n_lt hr.n_ne_zero
      hr.pending hr.lower_pages (by omega) hroom
  have hother : ∀ p, p ≠ q → t'.page p = t.page p := by
    intro p hpq
    by_cases hpn : p = n
    · rw [hpn, hn, ← hr.n_parent]
    · exact hpage p hpq hpn
  have hhead := hins.header hr.pending.pos
  refine ⟨t', e, hr.finish hroom t' hsize (hfresh hr.fresh) hother key h1 h2 hins, ?_⟩
  apply stored_of_bodies t t' (by omega)
  · intro p hp hty
    exact SameBody.of_eq (hother p (by intro heq; rw [heq, hr.pending.type] at hty; cases hty))
  · intro p hp hty
    have hpq : p ≠ q := by
      intro heq; rw [heq, hhead.1, hr.pending.type] at hty; cases hty
    rw [hother p hpq] at hty
    exact ⟨by omega, hty⟩

/-- Insertion of a pending page into its parent restores the invariant and
keeps the stored records, whether or not the parent has to be split. -/
theorem internal_node_insert_spec (d : Nat) :
    ∀ (fuel : Nat) (g : Ghost) (t : Table) (q n j : Nat),
      InsertReady t g q n j → g.level 0 < d → g.level 0 < g.level q + fuel →
      Yields (internal_node_insert_with (internal_node_split_and_insert d fuel) d t q n)
        (fun t' => (∃ g', InvWith t' g') ∧ ∀ k v, Stored t' k v ↔ Stored t k v) := by
  intro fuel
  induction fuel with
  | zero =>
    intro g t q n j hr hdepth hfuel
    have hqlev := hr.q_level
    omega
  | succ f ih =>
    intro g t q n j hr hdepth hfuel
    have hqlev := hr.q_level
    unfold internal_node_insert_with
    obtain ⟨t1, e1, hs1, _⟩ := get_page_allocated t q hr.q_lt hr.size_le
    simp only [e1, ok_bind]
    rw [hs1.page]
    have hr1 := hr.same_ready hs1
    have hst1 : ∀ k v, Stored t1 k v ↔ Stored t k v := fun k v => (Stored.same_stored hs1 k v)
    by_cases hfull : (t.page q).size ≥ INTERNAL_BRANCH_SIZE
    · rw [if_pos hfull, internal_node_split_and_insert_eq]
      have hfull' : (t1.page q).size = INTERNAL_BRANCH_SIZE := by
        rw [hs1.page]
        have := hr.pending.size_le
        omega
      apply (internal_node_split_spec g d t1 q n j hr1 hfull' (by omega)).seq
      rintro ⟨ts, omk, mid, par, N⟩ ⟨r1, r2, r3, r4, r5, r6, r7, r8, r9, r10, r11, r12, r13, r14⟩
      dsimp only at r2 r3 r4 r5 r6 r7 r8 r9 r10 r11 r12 r13 r14 ⊢
      subst r4; subst r5; subst r6
      apply (internal_node_split_finish_spec g d t1 ts q n j hr1 hfull'
        ⟨r1, r2, r3, r7, r8, r9, r10⟩ hdepth omk r11 r12 r13 r14 _ ?_).post
      · rintro t' ⟨hinv, hst⟩
        exact ⟨hinv, fun k v => by rw [hst, hst1]⟩
      · intro g' t' n' j' hr' hl0 hlG
        exact ih g' t' _ n' j' hr' (by omega) (by omega)
    · rw [if_neg hfull]
      apply ((internal_node_insert_raw_ok g d t1 q n j hr1
        (by rw [hs1.page]; omega) hdepth).mono ?_).yields
      rintro t' ⟨hinv, hst⟩
      exact ⟨⟨g, hinv⟩, fun k v => by rw [hst, hst1]⟩

theorem LeafOK.weaken {pg : Page} {lo hi : Option Str} (h : LeafOK pg lo hi) :
    LeafOK pg lo none :=
  ⟨h.1, h.2.1, h.2.2.1, fun _ hh => Option.noConfusion hh⟩

theorem LeafOK.seal {pg : Page} {lo : Option Str} (h : LeafOK pg lo none) (hpos : 0 < pg.size) :
    LeafOK pg lo (some (pg.records (pg.size - 1)).key) := by
  refine ⟨h.1, h.2.1, h.2.2.1, ?_⟩
  intro u hu
  cases hu
  exact ⟨hpos, rfl⟩

theorem LeafOK.left {pg : Page} {lo hi : Option Str} (h : LeafOK pg lo hi)
    (hsz : pg.size = LEAF_RECORD_SIZE) : LeafOK (leaf_left pg) lo none := by
  have h4 : pg.size = 4 := hsz
  refine ⟨?_, ?_, ?_, fun _ hh => Option.noConfusion hh⟩
  · show LEAF_LEFT_SPLIT_SIZE ≤ LEAF_RECORD_SIZE
    unfold LEAF_LEFT_SPLIT_SIZE LEAF_RECORD_SIZE; omega
  · intro i j hij hj
    have hj2 : j < 2 := hj
    exact h.2.1 i j hij (by omega)
  · intro i hi1
    have hi2 : i < 2 := hi1
    exact h.2.2.1 i (by omega)

theorem LeafOK.right {px pn : Page} {lo hi : Option Str} (h : LeafOK px lo hi)
    (hsz : px.size = LEAF_RECORD_SIZE) (hr : LeafRight px pn) (m : Str)
    (hm : m < (px.records LEAF_LEFT_SPLIT_SIZE).key) : LeafOK pn (some m) hi := by
  have h4 : px.size = 4 := hsz
  obtain ⟨_, _, r3, _, r5⟩ := hr
  have r3' : pn.size = 2 := r3
  unfold LEAF_RIGHT_SPLIT_SIZE LEAF_LEFT_SPLIT_SIZE at r5
  unfold LEAF_LEFT_SPLIT_SIZE at hm
  refine ⟨by rw [r3']; unfold LEAF_RECORD_SIZE; omega, ?_, ?_, ?_⟩
  · intro i j hij hj
    rw [r5 i (by omega), r5 j (by omega)]
    exact h.2.1 _ _ (by omega) (by omega)
  · intro i hi1 l hl
    cases hl
    rw [r5 i (by omega)]
    rcases Nat.eq_zero_or_pos i with h0 | h0
    · rw [h0]; exact hm
    · exact lt_trans hm (h.2.1 2 (2 + i) (by omega) (by omega))
  · intro u hu
    obtain ⟨_, h6⟩ := h.2.2.2 u hu
    refine ⟨by omega, ?_⟩
    rw [r3', r5 1 (by omega), ← h6, h4]

theorem leaf_insert_mem (pg : Page) (c : Nat) (r : Record) (hc : c ≤ pg.size) (e : Record) :
    (∃ i, i < (leaf_insert pg c r).size ∧ (leaf_insert pg c r).records i = e) ↔
      e = r ∨ ∃ i, i < pg.size ∧ pg.records i = e := by
  constructor
  · rintro ⟨i, hi, he⟩
    have hi' : i < pg.size + 1 := hi
    have he' : (if i = c then r else if c < i ∧ i ≤ pg.size then pg.records (i - 1)
        else pg.records i) = e := he
    by_cases h1 : i = c
    · rw [if_pos h1] at he'
      exact Or.inl he'.symm
    · rw [if_neg h1] at he'
      by_cases h2 : c < i ∧ i ≤ pg.size
      · rw [if_pos h2] at he'
        exact Or.inr ⟨i - 1, by omega, he'⟩
      · rw [if_neg h2] at he'
        exact Or.inr ⟨i, by omega, he'⟩
  · rintro (he | ⟨i, hi, he⟩)
    · refine ⟨c, ?_, ?_⟩
      · show c < pg.size + 1
        omega
      · show (if c = c then r else _) = e
        rw [if_pos rfl, he]
    · by_cases h1 : i < c
      · refine ⟨i, ?_, ?_⟩
        · show i < pg.size + 1
          omega
        · show (if i = c then r else if c < i ∧ i ≤ pg.size then pg.records (i - 1)
            else pg.records i) = e
          rw [if_neg (by omega), if_neg (by omega), he]
      · refine ⟨i + 1, ?_, ?_⟩
        · show i + 1 < pg.size + 1
          omega
        · show (if i + 1 = c then r else if c < i + 1 ∧ i + 1 ≤ pg.size
            then pg.records (i + 1 - 1) else pg.records (i + 1)) = e
          rw [if_neg (by omega), if_pos (by omega), Nat.add_sub_cancel, he]

theorem leaf_halves_mem (px pn : Page) (hsz : px.size = LEAF_RECORD_SIZE)
    (hr : LeafRight px pn) (e : Record) :
    ((∃ i, i < (leaf_left px).size ∧ (leaf_left px).records i = e) ∨
      ∃ i, i < pn.size ∧ pn.records i = e) ↔ ∃ i, i < px.size ∧ px.records i = e := by
  have h4 : px.size = 4 := hsz
  obtain ⟨_, _, r3, _, r5⟩ := hr
  have r3' : pn.size = 2 := r3
  unfold LEAF_RIGHT_SPLIT_SIZE LEAF_LEFT_SPLIT_SIZE at r5
  constructor
  · rintro (⟨i, hi, he⟩ | ⟨i, hi, he⟩)
    · have hi2 : i < 2 := hi
      exact ⟨i, by omega, he⟩
    · rw [r5 i (by omega)] at he
      exact ⟨2 + i, by omega, he⟩
  · rintro ⟨i, hi, he⟩
    by_cases h1 : i < 2
    · exact Or.inl ⟨i, h1, he⟩
    · refine Or.inr ⟨i - 2, by omega, ?_⟩
      rw [r5 (i - 2) (by omega)]
      have : 2 + (i - 2) = i := by omega
      rw [this, he]

theorem LeafOK.insert_at {pg : Page} {lo hi : Option Str} (h : LeafOK pg lo hi) (c : Nat)
    (k v : Str) (hsz : pg.size < LEAF_RECORD_SIZE) (hc : c ≤ pg.size)
    (hbelow : ∀ i, i < c → (pg.records i).key < k)
    (habove : ∀ i, c ≤ i → i < pg.size → k < (pg.records i).key)
    (hlo : Above lo k) (hhi : Below k hi) : LeafOK (leaf_insert pg c ⟨k, v⟩) lo hi :=
  h.insert c k v hsz hc hbelow habove hlo hhi

/-- The two leaves after a leaf split with the insertion of the record. -/
theorem leaf_split_pages {px pn px' pn' : Page} {lo hi : Option Str} (hl : LeafOK px lo hi)
    (hsz : px.size = LEAF_RECORD_SIZE) (hty : px.type = NODE_LEAF) (hpn : LeafRight px pn)
    (cell : Nat) (k v : Str) (hcell : cell ≤ px.size)
    (hbelow : ∀ i, i < cell → (px.records i).key < k)
    (habove : ∀ i, cell ≤ i → i < px.size → k < (px.records i).key)
    (hlo : Above lo k) (hhi : Below k hi)
    (hA : cell ≤ LEAF_LEFT_SPLIT_SIZE →
      px' = leaf_insert (leaf_left px) cell ⟨k, v⟩ ∧ pn' = pn)
    (hB : LEAF_LEFT_SPLIT_SIZE < cell →
      px' = leaf_left px ∧ pn' = leaf_insert pn (cell - LEAF_LEFT_SPLIT_SIZE) ⟨k, v⟩) :
    px'.type = NODE_LEAF ∧ px'.is_root = px.is_root ∧ px'.parent = px.parent ∧
    pn'.type = NODE_LEAF ∧ pn'.is_root = false ∧ pn'.parent = px.parent ∧
    LEAF_LEFT_SPLIT_SIZE ≤ px'.size ∧ LEAF_LEFT_SPLIT_SIZE ≤ pn'.size ∧
    px'.records (LEAF_RECORD_SIZE - 1) = px.records (LEAF_RECORD_SIZE - 1) ∧
    LeafOK px' lo (some (px'.records (px'.size - 1)).key) ∧
    LeafOK pn' (some (px'.records (px'.size - 1)).key) hi ∧
    ∀ e, ((∃ i, i < px'.size ∧ px'.records i = e) ∨ ∃ i, i < pn'.size ∧ pn'.records i = e) ↔
      (e = ⟨k, v⟩ ∨ ∃ i, i < px.size ∧ px.records i = e) := by
  have h4 : px.size = 4 := hsz
  have hleft := hl.left hsz
  obtain ⟨r1, r2, r3, r4, r5⟩ := hpn
  have r3' : pn.size = 2 := r3
  have hpn : LeafRight px pn := ⟨r1, r2, r3, r4, r5⟩
  have hr5 : ∀ i, i < 2 → pn.records i = px.records (2 + i) := r5
  have hs12 : (px.records 1).key < (px.records 2).key := hl.2.1 1 2 (by omega) (by omega)
  have hlsz : (leaf_left px).size = 2 := rfl
  have hlrec : (leaf_left px).records = px.records := rfl
  unfold LEAF_LEFT_SPLIT_SIZE at hA hB ⊢
  unfold LEAF_RECORD_SIZE
  by_cases hc : cell ≤ 2
  · obtain ⟨ex, en⟩ := hA hc
    rw [ex, en]
    have hins : LeafOK (leaf_insert (leaf_left px) cell ⟨k, v⟩) lo none :=
      hleft.insert_at cell k v (by rw [hlsz]; unfold LEAF_RECORD_SIZE; omega) (by omega)
        hbelow (fun i h1 h2 => habove i h1 (by rw [hlsz] at h2; omega)) hlo
        (fun _ hh => Option.noConfusion hh)
    have hsz' : (leaf_insert (leaf_left px) cell ⟨k, v⟩).size = 3 := rfl
    have hlast : ((leaf_insert (leaf_left px) cell ⟨k, v⟩).records 2).key
        < (px.records 2).key := by
      show (if 2 = cell then (⟨k, v⟩ : Record)
        else if cell < 2 ∧ 2 ≤ (leaf_left px).size then (leaf_left px).records (2 - 1)
        else (leaf_left px).records 2).key < _
      by_cases h2 : 2 = cell
      · rw [if_pos h2]
        exact habove 2 (by omega) (by omega)
      · rw [if_neg h2, if_pos ⟨by omega, by rw [hlsz]⟩]
        exact hs12
    refine ⟨hty, rfl, rfl, r1, r2, r4, by rw [hsz']; omega, by omega, ?_, ?_, ?_, ?_⟩
    · show (if 3 = cell then (⟨k, v⟩ : Record)
        else if cell < 3 ∧ 3 ≤ (leaf_left px).size then (leaf_left px).records (3 - 1)
        else (leaf_left px).records 3) = _
      rw [if_neg (by omega), if_neg (by rw [hlsz]; omega)]
      rfl
    · exact hins.seal (by rw [hsz']; omega)
    · rw [hsz']
      exact hl.right hsz hpn _ hlast
    · intro e
      rw [leaf_insert_mem _ _ _ (by rw [hlsz]; exact hc), or_assoc, leaf_halves_mem px pn hsz hpn]
  · obtain ⟨ex, en⟩ := hB (by omega)
    rw [ex, en]
    have hbase : LeafOK pn (some (px.records 1).key) hi := hl.right hsz hpn _ hs12
    have hins : LeafOK (leaf_insert pn (cell - 2) ⟨k, v⟩) (some (px.records 1).key) hi := by
      apply hbase.insert_at (cell - 2) k v (by rw [r3']; unfold LEAF_RECORD_SIZE; omega)
        (by omega)
      · intro i hi1
        rw [hr5 i (by omega)]
        exact hbelow _ (by omega)
      · intro i hi1 hi2
        rw [hr5 i (by omega)]
        exact habove _ (by omega) (by omega)
      · intro l hl'
        cases hl'
        exact hbelow 1 (by omega)
      · exact hhi
    refine ⟨hty, rfl, rfl, r1, r2, r4, by rw [hlsz], ?_, rfl, ?_, ?_, ?_⟩
    · show 2 ≤ pn.size + 1
      omega
    · exact hleft.seal (by rw [hlsz]; omega)
    · exact hins
    · intro e
      rw [leaf_insert_mem _ _ _ (by omega), ← or_assoc,
        or_comm (a := ∃ i, i < (leaf_left px).size ∧ (leaf_left px).records i = e), or_assoc,
        leaf_halves_mem px pn hsz hpn]

theorem Down.of_leaf {t : Table} {g : Ghost} {p : Nat} (ha : Apart (g.lo p) (g.hi p))
    (hty : (t.page p).type = NODE_LEAF) (hlev : g.level p = 0)
    (hok : LeafOK (t.page p) (g.lo p) (g.hi p))
    (hmin : p ≠ 0 → LEAF_LEFT_SPLIT_SIZE ≤ (t.page p).size) : Down t g p := by
  unfold Down
  rw [hty]
  exact ⟨ha, hlev, hok, hmin⟩

/-- The state after a leaf split with the insertion of the record `(k, v)`. -/
theorem leaf_split_done {t t6 : Table} {g : Ghost} (hinv : InvWith t g) (x : Nat)
    (hx : x < t.size) (hty : (t.page x).type = NODE_LEAF)
    (hcap : t.size < TABLE_MAX_PAGES) (hsize : t6.size = t.size + 1) (hfresh : PagerOK t6)
    (hother : ∀ p, p ≠ x → p ≠ t.size → t6.page p = t.page p) (k v : Str)
    (hpages : (t6.page x).type = NODE_LEAF ∧ (t6.page x).is_root = (t.page x).is_root ∧
      (t6.page x).parent = (t.page x).parent ∧
      (t6.page t.size).type = NODE_LEAF ∧ (t6.page t.size).is_root = false ∧
      (t6.page t.size).parent = (t.page x).parent ∧
      LEAF_LEFT_SPLIT_SIZE ≤ (t6.page x).size ∧ LEAF_LEFT_SPLIT_SIZE ≤ (t6.page t.size).size ∧
      (t6.page x).records (LEAF_RECORD_SIZE - 1) = (t.page x).records (LEAF_RECORD_SIZE - 1) ∧
      LeafOK (t6.page x) (g.lo x) (some ((t6.page x).records ((t6.page x).size - 1)).key) ∧
      LeafOK (t6.page t.size) (some ((t6.page x).records ((t6.page x).size - 1)).key) (g.hi x) ∧
      ∀ e, ((∃ i, i < (t6.page x).size ∧ (t6.page x).records i = e) ∨
          ∃ i, i < (t6.page t.size).size ∧ (t6.page t.size).records i = e) ↔
        (e = ⟨k, v⟩ ∨ ∃ i, i < (t.page x).size ∧ (t.page x).records i = e)) :
    SplitDone t6 (g.split x t.size ((t6.page x).records ((t6.page x).size - 1)).key) x t.size
      (g.hi x) ∧
    ∀ k' v', Stored t6 k' v' ↔ ((k' = k ∧ v' = v) ∨ Stored t k' v') := by
  obtain ⟨p1, p2, p3, p4, p5, p6, p7, p8, p9, p10, p11, p12⟩ := hpages
  obtain ⟨i1, i2, i3, i4, i5⟩ := hinv
  have hxN : x ≠ t.size := by omega
  have hxd := (i5 x hx).1
  have hlev := (hxd.leaf hty).1
  unfold LEAF_LEFT_SPLIT_SIZE at p7 p8
  constructor
  · have hgN := g.split_new x t.size ((t6.page x).records ((t6.page x).size - 1)).key
    have hgx := g.split_old x t.size ((t6.page x).records ((t6.page x).size - 1)).key hxN
    apply SplitDone.make _ (fun _ => False) t6 i1 hcap i4 hsize hfresh hx (i5 x hx).2 hxd.1
      (fun h => h)
    · intro h; rw [hty] at h; cases h
    · intro p hp; exact absurd hp (fun h => h)
    · intro p hp _ _; exact i5 p hp
    · intro p h1 h2 _; exact hother p h1 h2
    · exact p2
    · exact p3
    · apply Down.of_leaf _ p1 (by rw [hgx.1]; exact hlev) (by rw [hgx.2.1, hgx.2.2]; exact p10)
        (fun _ => p7)
      rw [hgx.2.1, hgx.2.2]
      intro l u hl hu
      cases hu
      exact p10.2.2.1 _ (by omega) l hl
    · apply Down.of_leaf _ p4 (by rw [hgN.1]; exact hlev)
        (by rw [hgN.2.1, hgN.2.2]; exact p11) (fun _ => p8)
      rw [hgN.2.1, hgN.2.2]
      intro l u hl hu
      cases hl
      obtain ⟨_, h2⟩ := p11.2.2.2 u hu
      rw [← h2]
      exact p11.2.2.1 _ (by omega) _ rfl
    · exact p5
    · exact p6
  · intro k' v'
    unfold Stored
    constructor
    · rintro ⟨p, hp, hpty, i, hi, hrec⟩
      by_cases hpx : p = x
      · subst hpx
        rcases (p12 ⟨k', v'⟩).1 (Or.inl ⟨i, hi, hrec⟩) with he | ⟨i', hi', he⟩
        · left
          cases he
          exact ⟨rfl, rfl⟩
        · exact Or.inr ⟨p, hx, hty, i', hi', he⟩
      · by_cases hpN : p = t.size
        · subst hpN
          rcases (p12 ⟨k', v'⟩).1 (Or.inr ⟨i, hi, hrec⟩) with he | ⟨i', hi', he⟩
          · left
            cases he
            exact ⟨rfl, rfl⟩
          · exact Or.inr ⟨x, hx, hty, i', hi', he⟩
        · rw [hother p hpx hpN] at hpty hi hrec
          exact Or.inr ⟨p, by omega, hpty, i, hi, hrec⟩
    · rintro (⟨h1, h2⟩ | ⟨p, hp, hpty, i, hi, hrec⟩)
      · subst h1; subst h2
        rcases (p12 ⟨k', v'⟩).2 (Or.inl rfl) with ⟨i, hi, he⟩ | ⟨i, hi, he⟩
        · exact ⟨x, by omega, p1, i, hi, he⟩
        · exact ⟨t.size, by omega, p4, i, hi, he⟩
      · by_cases hpx : p = x
        · subst hpx
          rcases (p12 ⟨k', v'⟩).2 (Or.inr ⟨i, hi, hrec⟩) with ⟨i', hi', he⟩ | ⟨i', hi', he⟩
          · exact ⟨p, by omega, p1, i', hi', he⟩
          · exact ⟨t.size, by omega, p4, i', hi', he⟩
        · have hpN : p ≠ t.size := by omega
          refine ⟨p, by omega, ?_, i, ?_, ?_⟩ <;> rw [hother p hpx hpN] <;> assumption

theorem stored_root_moved (t t' : Table) (hsize : t'.size = t.size + 1) (hpos : 1 ≤ t.size)
    (h0 : (t'.page 0).type = NODE_INTERNAL) (hL : SameBody (t.page 0) (t'.page t.size))
    (hbody : ∀ p, p ≠ 0 → p ≠ t.size → SameBody (t.page p) (t'.page p)) :
    ∀ k v, Stored t' k v ↔ Stored t k v := by
  intro k v
  unfold Stored
  constructor
  · rintro ⟨p, hp, hty, i, hi, hrec⟩
    have hp0 : p ≠ 0 := by intro heq; rw [heq, h0] at hty; cases hty
    by_cases hpL : p = t.size
    · subst hpL
      rw [hL.1] at hty
      rw [hL.2.1] at hi
      rw [hL.2.2.2.2] at hrec
      exact ⟨0, by omega, hty, i, hi, hrec⟩
    · have hb := hbody p hp0 hpL
      rw [hb.1] at hty
      rw [hb.2.1] at hi
      rw [hb.2.2.2.2] at hrec
      exact ⟨p, by omega, hty, i, hi, hrec⟩
  · rintro ⟨p, hp, hty, i, hi, hrec⟩
    by_cases hp0 : p = 0
    · subst hp0
      exact ⟨t.size, by omega, by rw [hL.1]; exact hty, i, by rw [hL.2.1]; exact hi,
        by rw [hL.2.2.2.2]; exact hrec⟩
    · have hb := hbody p hp0 (by omega)
      exact ⟨p, by omega, by rw [hb.1]; exact hty, i, by rw [hb.2.1]; exact hi,
        by rw [hb.2.2.2.2]; exact hrec⟩

/-- The split path of the insertion into a leaf restores the invariant and
adds the record. -/
theorem leaf_node_split_and_insert_spec (g : Ghost) (t : Table) (c : Cursor) (k v : Str)
    (hinv : InvWith t g) (hc : CursorAt t g k c) (hf : c.found = false)
    (hfull : (t.page c.page_index).size = LEAF_RECORD_SIZE) (d : Nat) (hdepth : g.level 0 < d) :
    Yields (leaf_node_split_and_insert d t c k v) (fun t' =>
      (∃ g', InvWith t' g') ∧ ∀ k' v', Stored t' k' v' ↔ ((k' = k ∧ v' = v) ∨ Stored t k' v')) := by
  obtain ⟨c1, c2, c3, c4, c5, c6, c7⟩ := hc
  obtain ⟨c8, c9, c10⟩ := c7 hf
  obtain ⟨i1, i2, i3, i4, i5⟩ := hinv
  have hinv : InvWith t g := ⟨i1, i2, i3, i4, i5⟩
  have hxN : c.page_index ≠ t.size := by omega
  have hxd := (i5 _ c1).1
  have hl := (hxd.leaf c2).2.1
  unfold leaf_node_split_and_insert
  rw [page_by_cursor_resident t c c3]
  simp only [ok_bind]
  have hnew := get_page_new t i3
  apply hnew.seq
  rintro t2 ⟨hlt, h2size, h2page, h2pages, h2res, _, _, h2fresh⟩
  simp only [write_page_same, write_write, write_page_ne _ _ _ _ hxN, h2page _ hxN]
  generalize hta : Table.write t2 t.size _ = ta
  have hasize : ta.size = t.size + 1 := by rw [← hta, write_size, h2size]
  have hafresh : PagerOK ta := by
    rw [← hta]; exact fresh_write _ _ _ (by omega) h2fresh
  have hap : ∀ p, p ≠ t.size → ta.page p = t.page p := by
    intro p hp; rw [← hta, write_page_ne _ _ _ _ hp, h2page p hp]
  have haN : (ta.page t.size).type = NODE_LEAF ∧ (ta.page t.size).is_root = false ∧
      (ta.page t.size).parent = (t.page c.page_index).parent := by
    rw [← hta, write_page_same]
    exact ⟨rfl, rfl, rfl⟩
  have hares : ta.pages c.page_index ≠ none := by
    rw [← hta, write_pages, if_neg hxN, h2pages _ hxN]; exact c3
  cases d with
  | zero => omega
  | succ d =>
  rw [recursive_max_key_of_leaf d ta c.page_index (by rw [hap _ hxN]; exact c2)
    (by rw [hap _ hxN, hfull]; unfold LEAF_RECORD_SIZE; omega)]
  simp only [ok_bind, write_page_same, write_write, write_page_ne _ _ _ _ hxN,
    write_page_ne _ _ _ _ hxN.symm, hap _ hxN]
  generalize htb : Table.write (Table.write (Table.write ta _ _) _ _) _ _ = tb
  have hbsize : tb.size = t.size + 1 := by rw [← htb]; simp only [write_size]; exact hasize
  have hbfresh : PagerOK tb := by
    rw [← htb]
    apply fresh_write _ _ _ (by simp only [write_size]; omega)
    apply fresh_write _ _ _ (by simp only [write_size]; omega)
    apply fresh_write _ _ _ (by omega)
    exact hafresh
  have hbx : tb.page c.page_index = leaf_left (t.page c.page_index) := by
    rw [← htb, write_page_ne _ _ _ _ hxN, write_page_same]
    rfl
  have hbN : LeafRight (t.page c.page_index) (tb.page t.size) := by
    rw [← htb, write_page_same]
    refine ⟨haN.1, haN.2.1, rfl, haN.2.2, ?_⟩
    intro i hi
    simp only [hi, if_true]
  have hbp : ∀ p, p ≠ c.page_index → p ≠ t.size → tb.page p = t.page p := by
    intro p h1 h2
    rw [← htb, write_page_ne _ _ _ _ h2, write_page_ne _ _ _ _ h1, write_page_ne _ _ _ _ h2,
      hap p h2]
  have hbres : tb.pages c.page_index ≠ none ∧ tb.pages t.size ≠ none := by
    rw [← htb]
    constructor
    · rw [write_pages, if_neg hxN, write_pages, if_pos rfl]; simp
    · rw [write_pages, if_pos rfl]; simp
  generalize hnc : Cursor.mk _ _ c.found = nc
  have hncA : c.cell_index ≤ LEAF_LEFT_SPLIT_SIZE →
      nc.page_index = c.page_index ∧ nc.cell_index = c.cell_index := by
    intro h
    rw [← hnc]
    have : ¬ c.cell_index > LEAF_LEFT_SPLIT_SIZE := by omega
    simp [this]
  have hncB : LEAF_LEFT_SPLIT_SIZE < c.cell_index →
      nc.page_index = t.size ∧ nc.cell_index = c.cell_index - LEAF_LEFT_SPLIT_SIZE := by
    intro h
    rw [← hnc]
    have : c.cell_index > LEAF_LEFT_SPLIT_SIZE := h
    simp [this]
  have hncres : tb.pages nc.page_index ≠ none := by
    by_cases h : c.cell_index ≤ LEAF_LEFT_SPLIT_SIZE
    · rw [(hncA h).1]; exact hbres.1
    · rw [(hncB (by omega)).1]; exact hbres.2
  have hnclt : nc.page_index < tb.size := by
    by_cases h : c.cell_index ≤ LEAF_LEFT_SPLIT_SIZE
    · rw [(hncA h).1]; omega
    · rw [(hncB (by omega)).1]; omega
  have hncroom : (tb.page nc.page_index).size < LEAF_RECORD_SIZE := by
    unfold LEAF_RECORD_SIZE
    by_cases h : c.cell_index ≤ LEAF_LEFT_SPLIT_SIZE
    · rw [(hncA h).1, hbx]
      show LEAF_LEFT_SPLIT_SIZE < 4
      unfold LEAF_LEFT_SPLIT_SIZE; omega
    · rw [(hncB (by omega)).1, hbN.2.2.1]
      unfold LEAF_RIGHT_SPLIT_SIZE; omega
  rw [leaf_node_insert_raw_eq tb nc k v hncres hncroom]
  simp only [ok_bind]
  generalize ht6 : Table.write tb nc.page_index _ = t6
  have h6size : t6.size = t.size + 1 := by rw [← ht6, write_size, hbsize]
  have h6fresh : PagerOK t6 := by rw [← ht6]; exact fresh_write _ _ _ hnclt hbfresh
  have h6A : c.cell_index ≤ LEAF_LEFT_SPLIT_SIZE →
      t6.page c.page_index = leaf_insert (leaf_left (t.page c.page_index)) c.cell_index ⟨k, v⟩ ∧
      t6.page t.size = tb.page t.size := by
    intro h
    obtain ⟨n1, n2⟩ := hncA h
    rw [← ht6, n1, n2, write_page_same, write_page_ne _ _ _ _ hxN.symm, hbx]
    exact ⟨rfl, rfl⟩
  have h6B : LEAF_LEFT_SPLIT_SIZE < c.cell_index →
      t6.page c.page_index = leaf_left (t.page c.page_index) ∧
      t6.page t.size = leaf_insert (tb.page t.size) (c.cell_index - LEAF_LEFT_SPLIT_SIZE)
        ⟨k, v⟩ := by
    intro h
    obtain ⟨n1, n2⟩ := hncB h
    rw [← ht6, n1, n2, write_page_same, write_page_ne _ _ _ _ hxN, hbx]
    exact ⟨rfl, rfl⟩
  have h6p : ∀ p, p ≠ c.page_index → p ≠ t.size → t6.page p = t.page p := by
    intro p h1 h2
    rw [← ht6, write_page_ne _ _ _ _ (by
      by_cases h : c.cell_index ≤ LEAF_LEFT_SPLIT_SIZE
      · rw [(hncA h).1]; exact h1
      · rw [(hncB (by omega)).1]; exact h2), hbp p h1 h2]
  have hpages := leaf_split_pages hl hfull c2 hbN c.cell_index k v c8 c9 c10 c4 c5 h6A h6B
  obtain ⟨hdone, hst6⟩ := leaf_split_done hinv c.page_index c1 c2 hlt h6size h6fresh h6p k v hpages
  obtain ⟨p1, p2, p3, p4, p5, p6, p7, p8, p9, p10, p11, p12⟩ := hpages
  have hgx := g.split_old c.page_index t.size
    ((t6.page c.page_index).records ((t6.page c.page_index).size - 1)).key hxN
  have hgo := g.split_other c.page_index t.size
    ((t6.page c.page_index).records ((t6.page c.page_index).size - 1)).key
  by_cases hx0 : c.page_index = 0
  · rw [if_pos (by rw [hx0]; exact (hdone.root hx0).1)]
    have hg0 := (hgo 0 (by omega)).1
    rw [hx0] at hdone p1 p7 hg0
    apply (hdone.root_leaf p1 p7 (d + 1) (by rw [hg0]; exact hdepth)).post
    rintro t' ⟨hinv', hsize', h0', hL', hbody'⟩
    refine ⟨⟨_, hinv'⟩, ?_⟩
    intro k' v'
    rw [← hst6]
    exact stored_root_moved t6 t' hsize' (by omega) h0' hL' hbody' k' v'
  · obtain ⟨hxup, _⟩ := hdone.inner hx0
    rw [if_neg (by rw [(hxup.of_ne_zero hx0).1]; simp)]
    have hlev := (hxd.leaf c2).1
    have hkey : t6.key_at ⟨c.page_index, (t.page c.page_index).size - 1⟩
        = ((t.page c.page_index).records (LEAF_RECORD_SIZE - 1)).key := by
      unfold Table.key_at
      simp only
      rw [hfull, p9]
    obtain ⟨t7, nmk, t8, t9, i, e7, e8, e9, hready, h9size, h9page⟩ := hdone.tail hx0 (d + 1)
      (by rw [hgx.1, hlev]; omega) ⟨c.page_index, (t.page c.page_index).size - 1⟩
      (by
        rw [hkey, hgx.2.1]
        exact hl.2.2.1 _ (by rw [hfull]; unfold LEAF_RECORD_SIZE; omega))
      (by
        rw [hkey]
        intro u hu
        have := (hl.2.2.2 u hu).2
        rw [hfull] at this
        rw [this])
    rw [p3] at e8 e9 hready h9page
    simp only [e7, ok_bind, e8, e9]
    have hGty : (t6.page (t.page c.page_index).parent).type = NODE_INTERNAL := by
      have := (hxup.of_ne_zero hx0).2.2.2.1
      rw [p3] at this
      exact this
    unfold internal_node_insert
    apply (internal_node_insert_spec (d + 1) (d + 1) _ t9 _ t.size (i + 1) hready
      (by rw [(hgo 0 (by omega)).1]; exact hdepth)
      (by rw [(hgo 0 (by omega)).1]; omega)).post
    rintro t' ⟨hinv', hst⟩
    refine ⟨hinv', ?_⟩
    intro k' v'
    rw [hst, ← hst6]
    apply stored_of_bodies t6 t9 (by omega)
    · intro p hp hty
      exact SameBody.of_eq (h9page p (by intro heq; rw [heq, hGty] at hty; cases hty))
    · intro p hp hty
      have hpG : p ≠ (t.page c.page_index).parent := by
        intro heq; rw [heq, hready.pending.type] at hty; cases hty
      rw [h9page p hpG] at hty
      exact ⟨by omega, hty⟩

/-- The body of `db_set` keeps the invariant, stores the record and leaves the
records of the other keys alone; it can fail only by the exit at the page cap. -/
theorem db_set_locked_spec (t : Table) (g : Ghost) (hinv : InvWith t g) (k v : Str) :
    Yields (db_set_locked t k v) (fun t' =>
      (∃ g', InvWith t' g') ∧ Stored t' k v ∧
      ∀ k' v', k' ≠ k → (Stored t' k' v' ↔ Stored t k' v')) := by
  unfold db_set_locked
  obtain ⟨⟨t1, c⟩, e1, hs1, hc⟩ := table_find_spec g t k hinv
  dsimp only at hs1 hc
  simp only [e1, ok_bind]
  have hinv1 := hinv.same_inv hs1 g
  have hst1 : ∀ k' v', Stored t1 k' v' ↔ Stored t k' v' := fun k' v' => Stored.same_stored hs1 k' v'
  rw [page_by_cursor_resident t1 c hc.2.2.1]
  simp only [ok_bind]
  cases hf : c.found with
  | true =>
    simp only [if_true]
    obtain ⟨h1, h2, h3⟩ := db_set_overwrite t1 g hinv1 k v c hc hf
    exact ⟨⟨g, h1⟩, h2, fun k' v' hk => by rw [h3 k' v' hk, hst1]⟩
  | false =>
    simp only [Bool.false_eq_true, if_false]
    unfold leaf_node_insert
    rw [page_by_cursor_resident t1 c hc.2.2.1]
    simp only [ok_bind]
    by_cases hfull : (t1.page c.page_index).size ≥ LEAF_RECORD_SIZE
    · rw [if_pos hfull]
      have hl := ((hinv1.2.2.2.2 _ hc.1).1.leaf hc.2.1).2.1
      apply (leaf_node_split_and_insert_spec g t1 c k v hinv1 hc hf
        (by have := hl.1; omega) t.size hinv.2.2.2.1).post
      rintro t' ⟨hi, hst⟩
      refine ⟨hi, (hst k v).2 (Or.inl ⟨rfl, rfl⟩), ?_⟩
      intro k' v' hk
      rw [hst, hst1]
      constructor
      · rintro (⟨h, _⟩ | h)
        · exact absurd h hk
        · exact h
      · exact Or.inr
    · rw [if_neg hfull]
      apply ((db_set_insert_raw t1 g hinv1 k v c hc hf (by omega)).mono ?_).yields
      rintro t' ⟨h1, h2, h3⟩
      exact ⟨⟨g, h1⟩, h2, fun k' v' hk => by rw [h3 k' v' hk, hst1]⟩

/-! ## Validation and the accessors -/

theorem validate_string_ok (s : Option Str) (n : Nat) :
    validate_string s n = .ok () ↔ ∃ k, s = some k ∧ strlen k ≤ n := by
  unfold validate_string
  cases s with
  | none => simp
  | some k =>
    by_cases h : strlen k > n
    · simp [h]
    · simp [h]
      omega

theorem validate_string_exit (s : Option Str) (n : Nat) :
    validate_string s n = .error .exit ↔ ¬ ∃ k, s = some k ∧ strlen k ≤ n := by
  unfold validate_string
  cases s with
  | none => simp
  | some k =>
    by_cases h : strlen k > n
    · simp [h]
    · simp [h]

theorem db_set_valid (t : Table) (k v : Str) (hk : strlen k ≤ KEY_LEN)
    (hv : strlen v ≤ VALUE_LEN) : db_set t (some k) (some v) = db_set_locked t k v := by
  unfold db_set validate_key validate_value
  rw [(validate_string_ok (some k) KEY_LEN).2 ⟨k, rfl, hk⟩,
    (validate_string_ok (some v) VALUE_LEN).2 ⟨v, rfl, hv⟩]
  rfl

theorem db_get_valid (t : Table) (k : Str) (hk : strlen k ≤ KEY_LEN) :
    db_get t (some k) = db_get_locked t k := by
  unfold db_get validate_key
  rw [(validate_string_ok (some k) KEY_LEN).2 ⟨k, rfl, hk⟩]
  rfl

theorem db_set_ok {t t' : Table} {key value : Option Str} (h : db_set t key value = .ok t') :
    ∃ k v, key = some k ∧ value = some v ∧ strlen k ≤ KEY_LEN ∧ strlen v ≤ VALUE_LEN ∧
      db_set_locked t k v = .ok t' := by
  unfold db_set validate_key validate_value at h
  cases hk : validate_string key KEY_LEN with
  | error e => rw [hk] at h; cases h
  | ok u =>
    obtain ⟨k, rfl, hk'⟩ := (validate_string_ok key KEY_LEN).1 hk
    rw [hk] at h
    cases hv : validate_string value VALUE_LEN with
    | error e => rw [hv] at h; cases h
    | ok u' =>
      obtain ⟨v, rfl, hv'⟩ := (validate_string_ok value VALUE_LEN).1 hv
      rw [hv] at h
      exact ⟨k, v, rfl, rfl, hk', hv', h⟩

theorem db_get_ok {t t' : Table} {key : Option Str} {r : Option Str}
    (h : db_get t key = .ok (t', r)) :
    ∃ k, key = some k ∧ strlen k ≤ KEY_LEN ∧ db_get_locked t k = .ok (t', r) := by
  unfold db_get validate_key at h
  cases hk : validate_string key KEY_LEN with
  | error e => rw [hk] at h; cases h
  | ok u =>
    obtain ⟨k, rfl, hk'⟩ := (validate_string_ok key KEY_LEN).1 hk
    rw [hk] at h
    exact ⟨k, rfl, hk', h⟩

/-- Opening an empty file gives a one-page table whose root is an empty leaf. -/
theorem db_open_empty (file : File) (garbage : Nat → Page) (h : file.length = 0) :
    Returns (db_open file garbage) (fun t =>
      InvWith t Ghost.flat ∧ t.size = 1 ∧ (t.page 0).type = NODE_LEAF ∧ (t.page 0).size = 0 ∧
      (t.page 0).is_root = true ∧ t.pages 0 ≠ none ∧ t.file = file) := by
  unfold db_open
  simp only [h, Nat.zero_mod, ne_eq, not_true_eq_false, if_false, Nat.zero_div, if_true]
  unfold get_page ROOT_PAGE_INDEX
  simp only [ge_iff_le, Nat.not_succ_le_zero, if_false, TABLE_MAX_PAGES, lt_self_iff_false,
    le_refl, if_true, ok_bind, write_page_same, write_write]
  refine ⟨_, rfl, ?_, rfl, ?_, ?_, ?_, ?_, rfl⟩
  · refine ⟨le_refl _, by show (0 + 1 : Nat) ≤ TABLE_MAX_PAGES; unfold TABLE_MAX_PAGES; omega,
      ⟨?_, ?_, ?_, ?_⟩, by show (0 : Nat) < 0 + 1; omega, ?_⟩
    · intro i hi
      have hi' : 0 + 1 ≤ i := hi
      rw [write_pages]
      rw [if_neg (by omega)]
      simp [Function.update]
      omega
    · show file.length % PAGE_SIZE = 0
      rw [h]; rfl
    · show file.length / PAGE_SIZE ≤ 0 + 1
      rw [h]; simp
    · intro i _ hi
      have hi' : i < 0 + 1 := hi
      have : i = 0 := by omega
      subst this
      rw [write_pages, if_pos rfl]
      simp
    · intro p hp
      have hp' : p < 0 + 1 := hp
      have : p = 0 := by omega
      subst this
      constructor
      · unfold Down
        rw [write_page_same]
        refine ⟨fun l u hl _ => Option.noConfusion hl, rfl, ?_, fun hne => absurd rfl hne⟩
        refine ⟨Nat.zero_le _, ?_, ?_, ?_⟩
        · intro i j _ hj
          exact absurd hj (Nat.not_lt_zero _)
        · intro i hi
          exact absurd hi (Nat.not_lt_zero _)
        · intro u hu
          exact Option.noConfusion hu
      · unfold Up
        rw [if_pos rfl, write_page_same]
        exact ⟨rfl, rfl, rfl⟩
  · rw [write_page_same]; rfl
  · rw [write_page_same]; rfl
  · rw [write_page_same]
  · rw [write_pages, if_pos rfl]; simp

theorem db_open_empty_stored (file : File) (garbage : Nat → Page) (t : Table)
    (h : file.length = 0) (ht : db_open file garbage = .ok t) : ∀ k v, ¬ Stored t k v := by
  obtain ⟨t', e, _, h1, h2, h3, _⟩ := db_open_empty file garbage h
  rw [ht] at e
  cases e
  rintro k v ⟨p, hp, _, i, hi, _⟩
  have : p = 0 := by omega
  subst this
  omega

/-- What a call of `db_set` that returns has done. -/
theorem db_set_spec {t t' : Table} {key value : Option Str} (hinv : Inv t)
    (h : db_set t key value = .ok t') :
    ∃ k v, key = some k ∧ value = some v ∧ strlen k ≤ KEY_LEN ∧ strlen v ≤ VALUE_LEN ∧
      Inv t' ∧ Stored t' k v ∧ ∀ k' v', k' ≠ k → (Stored t' k' v' ↔ Stored t k' v') := by
  obtain ⟨k, v, rfl, rfl, hk, hv, hl⟩ := db_set_ok h
  obtain ⟨g, hg⟩ := hinv
  obtain ⟨h1, h2, h3⟩ := (db_set_locked_spec t g hg k v).of_ok hl
  exact ⟨k, v, rfl, rfl, hk, hv, h1, h2, h3⟩

/-- What a call of `db_get` that returns has done. -/
theorem db_get_spec {t t' : Table} {key : Option Str} {r : Option Str} (hinv : Inv t)
    (h : db_get t key = .ok (t', r)) :
    ∃ k, key = some k ∧ strlen k ≤ KEY_LEN ∧ Same t t' ∧ ∀ v, r = some v ↔ Stored t k v := by
  obtain ⟨k, rfl, hk, hl⟩ := db_get_ok h
  obtain ⟨g, hg⟩ := hinv
  obtain ⟨res, e, h1, h2⟩ := db_get_locked_spec t g hg k
  rw [hl] at e
  cases e
  exact ⟨k, rfl, hk, h1, h2⟩

/-- Every reachable state satisfies the tree invariant, and the stored keys and
values have passed the validation. -/
theorem reachable_inv {t : Table} (h : Reachable t) :
    Inv t ∧ ∀ k v, Stored t k v → strlen k ≤ KEY_LEN ∧ strlen v ≤ VALUE_LEN := by
  induction h with
  | opened file garbage t hlen hopen =>
    obtain ⟨t', e, hinv, _⟩ := db_open_empty file garbage hlen
    rw [hopen] at e
    cases e
    exact ⟨⟨_, hinv⟩, fun k v hs => absurd hs (db_open_empty_stored file garbage t hlen hopen k v)⟩
  | set t key value t' _ hset ih =>
    obtain ⟨k, v, rfl, rfl, hk, hv, hinv', hs, hother⟩ := db_set_spec ih.1 hset
    refine ⟨hinv', ?_⟩
    intro k' v' hs'
    by_cases hkk : k' = k
    · subst hkk
      obtain ⟨g', hg'⟩ := hinv'
      have := stored_unique t' g' hg' k' v' v hs' hs
      subst this
      exact ⟨hk, hv⟩
    · exact ih.2 k' v' ((hother k' v' hkk).1 hs')
  | get t key t' r _ hget ih =>
    obtain ⟨k, rfl, hk, hsame, _⟩ := db_get_spec ih.1 hget
    obtain ⟨g, hg⟩ := ih.1
    refine ⟨⟨g, hg.same_inv hsame g⟩, ?_⟩
    intro k' v' hs'
    exact ih.2 k' v' ((Stored.same_stored hsame k' v').1 hs')

theorem record_keys_append (a b : List Line) :
    record_keys (a ++ b) = record_keys a ++ record_keys b := by
  induction a with
  | nil => rfl
  | cons x xs ih =>
    cases x <;> simp [record_keys, ih]

theorem record_keys_records (indent n : Nat) (f g : Nat → Str) :
    record_keys ((List.range n).map (fun i => Line.key_value indent (f i) (g i)))
      = (List.range n).map f := by
  induction n with
  | zero => rfl
  | succ n ih =>
    rw [List.range_succ, List.map_append, List.map_append, record_keys_append, ih]
    rfl

theorem Slice.empty (t : Table) (m : Str) : Slice t (some m) (some m) [] := by
  refine ⟨List.Pairwise.nil, ?_⟩
  intro k
  constructor
  · intro h; cases h
  · rintro ⟨h1, h2, _⟩
    exact absurd (lt_of_lt_of_le (h1 m rfl) (h2 m rfl)) (lt_irrefl _)

theorem Slice.append {t : Table} {lo hi : Option Str} {m : Str} {ks1 ks2 : List Str}
    (h1 : Slice t lo (some m) ks1) (h2 : Slice t (some m) hi ks2)
    (hlo : Above lo m) (hhi : Below m hi) : Slice t lo hi (ks1 ++ ks2) := by
  refine ⟨?_, ?_⟩
  · rw [List.pairwise_append]
    refine ⟨h1.1, h2.1, ?_⟩
    intro a ha b hb
    have ha' := ((h1.2 a).1 ha).2.1 m rfl
    have hb' := ((h2.2 b).1 hb).1 m rfl
    exact lt_of_le_of_lt ha' hb'
  · intro k
    rw [List.mem_append, h1.2, h2.2]
    constructor
    · rintro (⟨a, b, c⟩ | ⟨a, b, c⟩)
      · exact ⟨a, fun u hu => le_trans (b m rfl) (hhi u hu), c⟩
      · exact ⟨fun l hl => lt_trans (hlo l hl) (a m rfl), b, c⟩
    · rintro ⟨a, b, c⟩
      rcases le_or_lt k m with h | h
      · left
        exact ⟨a, fun u hu => by cases hu; exact h, c⟩
      · right
        exact ⟨fun l hl => by cases hl; exact h, b, c⟩

theorem print_page_leaf (fuel : Nat) (t t1 : Table) (p indent : Nat)
    (e1 : get_page t p = .ok t1) (hty : (t1.page p).type = NODE_LEAF) :
    print_page (fuel + 1) t p indent = .ok (t1, Line.leaf indent (t1.page p).size ::
      (List.range (t1.page p).size).map (fun i =>
        Line.key_value (indent + 1) ((t1.page p).records i).key ((t1.page p).records i).value)) := by
  unfold print_page
  simp only [e1, ok_bind, hty]

theorem print_page_internal (fuel : Nat) (t t1 : Table) (p indent : Nat)
    (e1 : get_page t p = .ok t1) (hty : (t1.page p).type = NODE_INTERNAL) :
    print_page (fuel + 1) t p indent =
      (print_branches (print_page fuel) p indent (t1.page p).size 0 t1 >>= fun r =>
        print_page fuel r.1 (internal_rightmost_child_of (r.1.page p)) (indent + 1) >>= fun r' =>
          .ok (r'.1, Line.internal indent (t1.page p).size :: (r.2 ++ r'.2))) := by
  conv => lhs; unfold print_page
  simp only [e1, ok_bind, hty]

/-- The printout of a leaf. -/
theorem leaf_page_keys (t : Table) (g : Ghost) (hinv : InvWith t g) (p : Nat) (hp : p < t.size)
    (hty : (t.page p).type = NODE_LEAF) :
    PageKeys t g p ((List.range (t.page p).size).map (fun i => ((t.page p).records i).key)) := by
  obtain ⟨_, hl, hmin⟩ := (hinv.2.2.2.2 p hp).1.leaf hty
  have hmem : ∀ k, k ∈ (List.range (t.page p).size).map (fun i => ((t.page p).records i).key) ↔
      ∃ i, i < (t.page p).size ∧ ((t.page p).records i).key = k := by
    intro k
    rw [List.mem_map]
    constructor
    · rintro ⟨i, hi, he⟩
      exact ⟨i, List.mem_range.1 hi, he⟩
    · rintro ⟨i, hi, he⟩
      exact ⟨i, List.mem_range.2 hi, he⟩
  refine ⟨⟨?_, ?_⟩, ?_, ?_⟩
  · rw [List.pairwise_map]
    apply (List.pairwise_lt_range _).imp_of_mem
    intro a b _ hb hab
    exact hl.2.1 a b hab (List.mem_range.1 hb)
  · intro k
    rw [hmem]
    constructor
    · rintro ⟨i, hi, he⟩
      have hr := hl.key_range i hi
      rw [he] at hr
      exact ⟨hr.1, hr.2, ((t.page p).records i).value, p, hp, hty, i, hi, by rw [← he]⟩
    · rintro ⟨h1, h2, v, p', hp', hty', i, hi, he⟩
      have hl' := ((hinv.2.2.2.2 p' hp').1.leaf hty').2.1
      have hk : ((t.page p').records i).key = k := by rw [he]
      have hr := hl'.key_range i hi
      rw [hk] at hr
      have := leaf_unique t g hinv p p' k hp hp' hty hty' h1 h2 hr.1 hr.2
      subst this
      exact ⟨i, hi, hk⟩
  · intro h hh
    obtain ⟨h1, h2⟩ := hl.2.2.2 h hh
    rw [hmem]
    exact ⟨_, by omega, h2⟩
  · intro hp0 hnil
    have := hmin hp0
    unfold LEAF_LEFT_SPLIT_SIZE at this
    have hlen := congrArg List.length hnil
    simp at hlen
    omega

theorem print_branches_zero (print : Table → Nat → Nat → Except Fault (Table × List Line))
    (p indent i : Nat) (t : Table) : print_branches print p indent 0 i t = .ok (t, []) := rfl

theorem print_branches_succ (print : Table → Nat → Nat → Except Fault (Table × List Line))
    (p indent n i : Nat) (t : Table) :
    print_branches print p indent (n + 1) i t =
      (print t (internal_child_of (t.page p) i) (indent + 1) >>= fun r =>
        print_branches print p indent n (i + 1) r.1 >>= fun r' =>
          .ok (r'.1, r.2 ++ Line.key (indent + 1) (internal_key_of (r.1.page p) i) :: r'.2)) := by
  conv => lhs; unfold print_branches

/-- The printout of the subtree of a page shows the stored keys of the
interval of the page in ascending order. -/
theorem print_page_spec (t : Table) (g : Ghost) (hinv : InvWith t g) :
    ∀ (fuel p indent : Nat) (t1 : Table), Same t t1 → p < t.size → g.level p < fuel →
      Returns (print_page fuel t1 p indent) (fun r =>
        Same t r.1 ∧ PageKeys t g p (record_keys r.2)) := by
  have hdown : ∀ p, p < t.size → Down t g p := fun p hp => (hinv.2.2.2.2 p hp).1
  intro fuel
  induction fuel with
  | zero => intro p indent t1 _ _ h; omega
  | succ fuel ih =>
    intro p indent t1 hs1 hp hlev
    obtain ⟨t2, e2, hs12, _⟩ := get_page_allocated t1 p (by rw [hs1.size]; exact hp)
      (by rw [hs1.size]; exact hinv.2.1)
    have hs2 := hs1.trans hs12
    cases hty : (t.page p).type with
    | NODE_LEAF =>
      rw [print_page_leaf fuel t1 t2 p indent e2 (by rw [hs2.page]; exact hty)]
      refine ⟨_, rfl, hs2, ?_⟩
      have hk : record_keys (Line.leaf indent (t2.page p).size ::
          (List.range (t2.page p).size).map (fun i =>
            Line.key_value (indent + 1) ((t2.page p).records i).key
              ((t2.page p).records i).value))
          = (List.range (t.page p).size).map (fun i => ((t.page p).records i).key) := by
        show record_keys ((List.range (t2.page p).size).map (fun i =>
            Line.key_value (indent + 1) ((t2.page p).records i).key
              ((t2.page p).records i).value)) = _
        rw [record_keys_records, hs2.page]
      show PageKeys t g p (record_keys _)
      rw [hk]
      exact leaf_page_keys t g hinv p hp hty
    | NODE_INTERNAL =>
      rw [print_page_internal fuel t1 t2 p indent e2 (by rw [hs2.page]; exact hty)]
      have hok := (hdown p hp).internal hty
      have hd : ∀ p', p' < t.size → g.level p' < g.level p → Down t g p' :=
        fun p' hp' _ => hdown p' hp'
      have hpos := hok.1
      have hloop : ∀ (n i : Nat) (ta : Table), Same t ta → i + n = (t.page p).size →
          Returns (print_branches (print_page fuel) p indent n i ta) (fun r =>
            Same t r.1 ∧ Slice t (lower_bound_of (t.page p) (g.lo p) i)
              (some (internal_key_of (t.page p) ((t.page p).size - 1))) (record_keys r.2)) := by
        intro n
        induction n with
        | zero =>
          intro i ta hsa hi
          rw [print_branches_zero]
          refine ⟨_, rfl, hsa, ?_⟩
          have : lower_bound_of (t.page p) (g.lo p) i
              = some (internal_key_of (t.page p) ((t.page p).size - 1)) := by
            unfold lower_bound_of
            rw [if_neg (by omega)]
            have : i = (t.page p).size := by omega
            rw [this]
          rw [this]
          exact Slice.empty t _
        | succ n ihn =>
          intro i ta hsa hi
          rw [print_branches_succ, hsa.page]
          obtain ⟨c1, c2, c3, c4, c5, c6⟩ := hok.2.2 i (by omega)
          obtain ⟨⟨tb, below⟩, eb, hsb, hkb⟩ := ih (internal_child_of (t.page p) i) (indent + 1) ta
            hsa c1 (by omega)
          dsimp only at hsb hkb
          simp only [eb, ok_bind]
          obtain ⟨⟨tc, rest⟩, ec, hsc, hkc⟩ := ihn (i + 1) tb hsb (by omega)
          dsimp only at hsc hkc
          simp only [ec, ok_bind]
          refine ⟨_, rfl, hsc, ?_⟩
          show Slice t _ _ (record_keys (below ++ Line.key (indent + 1) _ :: rest))
          rw [record_keys_append]
          show Slice t _ _ (record_keys below ++ record_keys rest)
          have h1 := hkb.1
          rw [c5, c6] at h1
          have hup : upper_bound_of (t.page p) (g.hi p) i
              = some (internal_key_of (t.page p) i) := by
            unfold upper_bound_of; rw [if_pos (by omega)]
          have hlow : lower_bound_of (t.page p) (g.lo p) (i + 1)
              = some (internal_key_of (t.page p) i) := by
            unfold lower_bound_of; rw [if_neg (by omega)]; rfl
          rw [hup] at h1
          rw [hlow] at hkc
          apply h1.append hkc
          · have ha := hok.apart hd i (by omega)
            rw [c5, c6, hup] at ha
            intro l hl
            exact ha l _ hl rfl
          · intro u hu
            cases hu
            exact hok.sorted_le hd i _ (by omega) (by omega)
      obtain ⟨⟨t3, branches⟩, e3, hs3, hk3⟩ := hloop (t.page p).size 0 t2 hs2 (by omega)
      dsimp only at hs3 hk3
      rw [hs2.page]
      simp only [e3, ok_bind]
      rw [hs3.page]
      obtain ⟨c1, c2, c3, c4, c5, c6⟩ := hok.2.2 (t.page p).size (le_refl _)
      have hcr : internal_child_of (t.page p) (t.page p).size
          = internal_rightmost_child_of (t.page p) := by
        simp [internal_child_of]
      rw [hcr] at c1 c2 c3 c4 c5 c6
      obtain ⟨⟨t4, last⟩, e4, hs4, hk4⟩ := ih (internal_rightmost_child_of (t.page p))
        (indent + 1) t3 hs3 c1 (by omega)
      dsimp only at hs4 hk4
      simp only [e4, ok_bind]
      refine ⟨_, rfl, hs4, ?_⟩
      show PageKeys t g p (record_keys (branches ++ last))
      rw [record_keys_append]
      obtain ⟨k1, k2, k3⟩ := hk4
      have hlow0 : lower_bound_of (t.page p) (g.lo p) 0 = g.lo p := by
        unfold lower_bound_of; rw [if_pos rfl]
      have hlowr : lower_bound_of (t.page p) (g.lo p) (t.page p).size
          = some (internal_key_of (t.page p) ((t.page p).size - 1)) := by
        unfold lower_bound_of; rw [if_neg (by omega)]
      have hupr : upper_bound_of (t.page p) (g.hi p) (t.page p).size = g.hi p := by
        unfold upper_bound_of; rw [if_neg (by omega)]
      rw [hlow0] at hk3
      rw [c5, c6, hlowr, hupr] at k1
      rw [c6, hupr] at k2
      refine ⟨hk3.append k1 ?_ ?_, ?_, ?_⟩
      · intro l hl
        exact lt_of_lt_of_le (hok.lo_first hd l hl)
          (hok.sorted_le hd 0 _ (Nat.zero_le _) (by omega))
      · intro u hu
        exact le_of_lt (hok.hi_last hd u hu)
      · intro h hh
        exact List.mem_append_right _ (k2 h hh)
      · intro _ hnil
        have := List.append_eq_nil.1 hnil
        exact k3 c2 this.2

theorem InTree.lt {t : Table} {g : Ghost} (hinv : InvWith t g) {p : Nat} (h : InTree t p) :
    p < t.size := by
  induction h with
  | root => exact hinv.1
  | child q i _ hty hi ih => exact (((hinv.2.2.2.2 q ih).1.internal hty).2.2 i hi).1

/-- The invariant reads only the pages below the page count. -/
theorem InvWith.congr {t t' : Table} {g : Ghost} (hinv : InvWith t g) (hsize : t'.size = t.size)
    (hpage : ∀ p, p < t.size → t'.page p = t.page p) (hpager : PagerOK t') : InvWith t' g := by
  obtain ⟨h1, h2, _, h4, h5⟩ := hinv
  refine ⟨by omega, by omega, hpager, by omega, ?_⟩
  intro p hp
  rw [hsize] at hp
  obtain ⟨hd, hu⟩ := h5 p hp
  constructor
  · apply hd.frame (hpage p hp) (by omega) rfl rfl rfl
    intro hty i hi
    have hc := ((hd.internal hty).2.2 i hi).1
    rw [hpage _ hc]
    exact ⟨rfl, rfl, rfl, rfl⟩
  · by_cases hp0 : p = 0
    · subst hp0
      have := hu.of_zero
      unfold Up
      rw [if_pos rfl, hpage 0 hp]
      exact this
    · obtain ⟨u1, u2, u3, u4, _⟩ := hu.of_ne_zero hp0
      apply hu.frame_up hp0 (by rw [hpage p hp]) (by rw [hpage p hp]) (by omega) u2
      · rw [hpage _ u3]; exact u4
      · intro i hi hc
        exact ⟨i, by rw [hpage _ u3]; exact hi, by rw [hpage _ u3]; exact hc⟩

theorem Stored.congr_stored {t t' : Table} (hsize : t'.size = t.size)
    (hpage : ∀ p, p < t.size → t'.page p = t.page p) (k v : Str) :
    Stored t' k v ↔ Stored t k v := by
  unfold Stored
  rw [hsize]
  constructor
  · rintro ⟨p, hp, hty, i, hi, he⟩
    rw [hpage p hp] at hty hi he
    exact ⟨p, hp, hty, i, hi, he⟩
  · rintro ⟨p, hp, hty, i, hi, he⟩
    exact ⟨p, hp, by rw [hpage p hp]; exact hty, i, by rw [hpage p hp]; exact hi,
      by rw [hpage p hp]; exact he⟩

/-! ## Closing -/

theorem db_close_loop_block (pages : Nat → Option Page) :
    ∀ (n i : Nat) (f : File) (j : Nat),
      (db_close_loop pages n i f).block j =
        if i ≤ j ∧ j < i + n then (match pages j with | some p => p | none => f.block j)
        else f.block j := by
  intro n
  induction n with
  | zero =>
    intro i f j
    rw [if_neg (by omega)]
    rfl
  | succ n ih =>
    intro i f j
    unfold db_close_loop
    cases hp : pages i with
    | none =>
      simp only
      rw [ih]
      by_cases hji : j = i
      · subst hji
        rw [if_neg (by omega), if_pos (by omega), hp]
      · by_cases h1 : i + 1 ≤ j ∧ j < i + 1 + n
        · rw [if_pos h1, if_pos (by omega)]
        · rw [if_neg h1, if_neg (by omega)]
    | some pg =>
      simp only
      rw [ih]
      by_cases hji : j = i
      · subst hji
        rw [if_neg (by omega), if_pos (by omega), hp]
        simp [flush_page]
      · have hb : (flush_page f i pg).block j = f.block j := by
          simp [flush_page, Function.update, hji]
        rw [hb]
        by_cases h1 : i + 1 ≤ j ∧ j < i + 1 + n
        · rw [if_pos h1, if_pos (by omega)]
        · rw [if_neg h1, if_neg (by omega)]

theorem db_close_loop_length (pages : Nat → Option Page) :
    ∀ (n i : Nat) (f : File),
      f.length ≤ (db_close_loop pages n i f).length ∧
      (db_close_loop pages n i f).length ≤ max f.length ((i + n) * PAGE_SIZE) ∧
      (f.length % PAGE_SIZE = 0 → (db_close_loop pages n i f).length % PAGE_SIZE = 0) ∧
      ∀ j, i ≤ j → j < i + n → pages j ≠ none →
        (j + 1) * PAGE_SIZE ≤ (db_close_loop pages n i f).length := by
  intro n
  induction n with
  | zero =>
    intro i f
    refine ⟨le_refl _, le_max_left _ _, fun h => h, ?_⟩
    intro j h1 h2
    omega
  | succ n ih =>
    intro i f
    unfold db_close_loop
    cases hp : pages i with
    | none =>
      simp only
      obtain ⟨a, b, c, d⟩ := ih (i + 1) f
      refine ⟨a, ?_, c, ?_⟩
      · have : i + 1 + n = i + (n + 1) := by omega
        rw [this] at b
        exact b
      · intro j h1 h2 h3
        have hji : j ≠ i := by intro heq; rw [heq] at h3; exact h3 hp
        exact d j (by omega) (by omega) h3
    | some pg =>
      simp only
      obtain ⟨a, b, c, d⟩ := ih (i + 1) (flush_page f i pg)
      have hfl : (flush_page f i pg).length = max f.length ((i + 1) * PAGE_SIZE) := rfl
      rw [hfl] at a b c
      have hmono : (i + 1) * PAGE_SIZE ≤ (i + (n + 1)) * PAGE_SIZE :=
        Nat.mul_le_mul_right _ (by omega)
      have hmono2 : (i + 1 + n) * PAGE_SIZE = (i + (n + 1)) * PAGE_SIZE := by
        congr 1; omega
      refine ⟨le_trans (le_max_left _ _) a, ?_, ?_, ?_⟩
      · rw [hmono2] at b
        refine le_trans b ?_
        apply max_le
        · apply max_le
          · exact le_max_left _ _
          · exact le_trans hmono (le_max_right _ _)
        · exact le_max_right _ _
      · intro h0
        apply c
        rcases le_total f.length ((i + 1) * PAGE_SIZE) with h | h
        · rw [max_eq_right h]
          exact Nat.mul_mod_left _ _
        · rw [max_eq_left h]
          exact h0
      · intro j h1 h2 h3
        by_cases hji : j = i
        · subst hji
          exact le_trans (le_max_right _ _) a
        · exact d j (by omega) (by omega) h3

/-- The file that `db_close` leaves behind holds the pages of the table. -/
theorem db_close_spec (t : Table) (hp : PagerOK t) :
    (db_close t).length = t.size * PAGE_SIZE ∧
    ∀ j, j < t.size → (db_close t).block j = t.page j := by
  obtain ⟨f1, f2, f3, f4⟩ := hp
  obtain ⟨a, b, c, d⟩ := db_close_loop_length t.pages t.size 0 t.file
  have hPS : 0 < PAGE_SIZE := by unfold PAGE_SIZE; omega
  obtain ⟨q, hq⟩ : ∃ q, q = t.file.length / PAGE_SIZE := ⟨_, rfl⟩
  rw [← hq] at f3 f4
  have hlen : t.file.length = q * PAGE_SIZE := by
    have := Nat.div_add_mod t.file.length PAGE_SIZE
    rw [f2, ← hq, Nat.mul_comm] at this
    omega
  have hle : t.file.length ≤ t.size * PAGE_SIZE := by
    rw [hlen]
    exact Nat.mul_le_mul_right _ f3
  constructor
  · unfold db_close
    rw [Nat.zero_add, max_eq_right hle] at b
    apply le_antisymm b
    rcases Nat.eq_or_lt_of_le f3 with h | h
    · have h3 : t.size * PAGE_SIZE = t.file.length := by rw [hlen, h]
      rw [h3]
      exact a
    · have h2 := d (t.size - 1) (Nat.zero_le _) (by omega) (f4 (t.size - 1) (by omega) (by omega))
      have h1 : t.size - 1 + 1 = t.size := by omega
      rw [h1] at h2
      exact h2
  · intro j hj
    unfold db_close
    rw [db_close_loop_block, if_pos ⟨Nat.zero_le _, by omega⟩]
    unfold Table.page
    cases t.pages j with
    | none => simp [hj]
    | some p => rfl

/-- Opening the file that `db_close` has written gives a table with the same
pages, none of them resident. -/
theorem db_reopen (t : Table) (g : Ghost) (hinv : InvWith t g) (garbage : Nat → Page) :
    Returns (db_open (db_close t) garbage) (fun t2 =>
      InvWith t2 g ∧ t2.size = t.size ∧ (∀ p, p < t.size → t2.page p = t.page p) ∧
      ∀ p, t2.pages p = none) := by
  obtain ⟨hlen, hblock⟩ := db_close_spec t hinv.2.2.1
  have hPS : 0 < PAGE_SIZE := by unfold PAGE_SIZE; omega
  have hpos := hinv.1
  have hfit : t.size % 2 ^ 32 = t.size :=
    Nat.mod_eq_of_lt (lt_of_le_of_lt hinv.2.1 (by unfold TABLE_MAX_PAGES; omega))
  unfold db_open
  simp only [hlen, Nat.mul_mod_left, ne_eq, not_true_eq_false, if_false,
    Nat.mul_div_cancel _ hPS, hfit]
  rw [if_neg (by omega)]
  have hpage : ∀ p, p < t.size →
      ({ file := db_close t, size := t.size, pages := fun _ => none,
         garbage := garbage } : Table).page p = t.page p := by
    intro p hp
    rw [← hblock p hp]
    simp [Table.page, hp]
  refine ⟨_, rfl, ?_, rfl, hpage, fun _ => rfl⟩
  refine InvWith.congr hinv ?_ hpage ?_
  · rfl
  refine ⟨fun _ _ => rfl, ?_, ?_, ?_⟩
  · show (db_close t).length % PAGE_SIZE = 0
    rw [hlen]; exact Nat.mul_mod_left _ _
  · show (db_close t).length / PAGE_SIZE ≤ t.size
    rw [hlen, Nat.mul_div_cancel _ hPS]
  · intro i h1 h2
    have h1' : (db_close t).length / PAGE_SIZE ≤ i := h1
    have h2' : i < t.size := h2
    rw [hlen, Nat.mul_div_cancel _ hPS] at h1'
    omega

theorem last_set_none (k : Str) : ∀ ops : List (Str × Str),
    (∀ kv, kv ∈ ops → kv.1 ≠ k) → last_set ops k = none := by
  intro ops
  induction ops with
  | nil => intro _; rfl
  | cons x rest ih =>
    intro h
    obtain ⟨k1, v1⟩ := x
    unfold last_set
    rw [ih (fun kv hkv => h kv (List.mem_cons_of_mem _ hkv))]
    have : k1 ≠ k := h (k1, v1) (List.mem_cons_self _ _)
    simp [this]

theorem last_set_mem (k v : Str) : ∀ ops : List (Str × Str),
    last_set ops k = some v → (k, v) ∈ ops := by
  intro ops
  induction ops with
  | nil => intro h; cases h
  | cons x rest ih =>
    intro h
    obtain ⟨k1, v1⟩ := x
    unfold last_set at h
    cases hl : last_set rest k with
    | some w =>
      rw [hl] at h
      simp only [Option.some.injEq] at h
      subst h
      exact List.mem_cons_of_mem _ (ih hl)
    | none =>
      rw [hl] at h
      simp only at h
      by_cases hk : k1 = k
      · rw [if_pos hk] at h
        simp only [Option.some.injEq] at h
        subst hk; subst h
        exact List.mem_cons_self _ _
      · rw [if_neg hk] at h
        cases h

theorem last_set_cons (k1 v1 : Str) (rest : List (Str × Str)) (k : Str) :
    last_set ((k1, v1) :: rest) k =
      match last_set rest k with
      | some w => some w
      | none => if k1 = k then some v1 else none := rfl

/-- After a sequence of calls of `db_set` the table stores, for every key of
the sequence, the value of the last call with that key, and otherwise what it
stored before. -/
theorem db_set_all_spec : ∀ (ops : List (Str × Str)) (t0 t : Table), Inv t0 →
    db_set_all t0 ops = .ok t →
    Inv t ∧ (∀ kv, kv ∈ ops → strlen kv.1 ≤ KEY_LEN ∧ strlen kv.2 ≤ VALUE_LEN) ∧
    ∀ k v, Stored t k v ↔ (last_set ops k = some v ∨ (last_set ops k = none ∧ Stored t0 k v)) := by
  intro ops
  induction ops with
  | nil =>
    intro t0 t hinv h
    cases h
    refine ⟨hinv, fun kv hkv => absurd hkv (List.not_mem_nil _), ?_⟩
    intro k v
    simp [last_set]
  | cons x rest ih =>
    intro t0 t hinv h
    obtain ⟨k1, v1⟩ := x
    unfold db_set_all at h
    cases h1 : db_set t0 (some k1) (some v1) with
    | error e => rw [h1] at h; cases h
    | ok t1 =>
      rw [h1] at h
      obtain ⟨k', v', hk', hv', hk1, hv1, hinv1, hs1, ho1⟩ := db_set_spec hinv h1
      cases hk'; cases hv'
      obtain ⟨hinvt, hval, hst⟩ := ih t1 t hinv1 h
      refine ⟨hinvt, ?_, ?_⟩
      · intro kv hkv
        rcases List.mem_cons.1 hkv with he | he
        · rw [he]; exact ⟨hk1, hv1⟩
        · exact hval kv he
      · intro k v
        rw [hst, last_set_cons]
        cases hl : last_set rest k with
        | some w => simp
        | none =>
          simp only [true_and, false_or, reduceCtorEq]
          by_cases hk : k1 = k
          · subst hk
            rw [if_pos rfl]
            obtain ⟨g1, hg1⟩ := hinv1
            constructor
            · intro hs
              left
              rw [stored_unique t1 g1 hg1 k1 v v1 hs hs1]
            · rintro (he | ⟨he, _⟩)
              · simp only [Option.some.injEq] at he
                rw [← he]; exact hs1
              · cases he
          · rw [if_neg hk, ho1 k v (fun h => hk h.symm)]
            simp

theorem Reachable.of_sets (file : File) (garbage : Nat → Page) (t0 : Table)
    (hfile : file.length = 0) (hopen : db_open file garbage = .ok t0) :
    ∀ (ops : List (Str × Str)) (t : Table), db_set_all t0 ops = .ok t → Reachable t := by
  have h0 : Reachable t0 := Reachable.opened file garbage t0 hfile hopen
  suffices hgen : ∀ (ops : List (Str × Str)) (ta t : Table), Reachable ta →
      db_set_all ta ops = .ok t → Reachable t from fun ops t h => hgen ops t0 t h0 h
  intro ops
  induction ops with
  | nil => intro ta t hr h; cases h; exact hr
  | cons x rest ih =>
    intro ta t hr h
    obtain ⟨k1, v1⟩ := x
    unfold db_set_all at h
    cases h1 : db_set ta (some k1) (some v1) with
    | error e => rw [h1] at h; cases h
    | ok t1 =>
      rw [h1] at h
      exact ih t1 t (Reachable.set ta _ _ t1 hr h1) h

/-- The overwrite path changes the value of one record and nothing else. -/
theorem db_set_locked_stored (t : Table) (g : Ghost) (hinv : InvWith t g) (k v v' : Str)
    (hs : Stored t k v) :
    ∃ t' p i, db_set_locked t k v' = .ok t' ∧ t'.size = t.size ∧ p < t.size ∧
      (t.page p).type = NODE_LEAF ∧ i < (t.page p).size ∧ (t.page p).records i = ⟨k, v⟩ ∧
      t'.page p = { t.page p with records := Function.update (t.page p).records i ⟨k, v'⟩ } ∧
      ∀ q, q ≠ p → t'.page q = t.page q := by
  unfold db_set_locked
  obtain ⟨⟨t1, c⟩, e1, hs1, hc⟩ := table_find_spec g t k hinv
  dsimp only at hs1 hc
  simp only [e1, ok_bind]
  have hinv1 := hinv.same_inv hs1 g
  obtain ⟨hf, hrec⟩ := stored_at_cursor t1 g hinv1 k v c hc ((Stored.same_stored hs1 k v).2 hs)
  rw [page_by_cursor_resident t1 c hc.2.2.1]
  simp only [ok_bind, hf, if_true]
  rw [hs1.page] at hrec ⊢
  refine ⟨_, c.page_index, c.cell_index, rfl, by rw [write_size, hs1.size],
    by rw [← hs1.size]; exact hc.1, by rw [← hs1.page]; exact hc.2.1,
    by have := (hc.2.2.2.2.2.1 hf).1; rw [hs1.page] at this; exact this, hrec, ?_, ?_⟩
  · rw [write_page_same, hrec]
  · intro q hq
    rw [write_page_ne _ _ _ _ hq, hs1.page]

/-! ## The pager -/

theorem get_page_exit_iff (t : Table) (idx : Nat) :
    get_page t idx = .error .exit ↔ idx ≥ TABLE_MAX_PAGES := by
  unfold get_page
  by_cases h : idx ≥ TABLE_MAX_PAGES
  · simp [h]
  · rw [if_neg h]
    cases hp : t.pages idx <;> simp [h]

/-- The effect of `get_page` on a page table whose populated slots lie below
the page count. -/
theorem get_page_effect (t : Table) (idx : Nat) (hidx : idx < TABLE_MAX_PAGES)
    (hwf : ∀ i, t.size ≤ i → t.pages i = none) :
    ∃ t', get_page t idx = .ok t' ∧ t'.pages idx = some (t.page idx) ∧
      t'.page idx = t.page idx ∧
      (∀ j, j ≠ idx → t'.pages j = t.pages j) ∧ t'.size = max t.size (idx + 1) ∧
      t'.file = t.file ∧ t'.garbage = t.garbage ∧
      (∀ i, t'.size ≤ i → t'.pages i = none) ∧ get_page t' idx = .ok t' := by
  unfold get_page
  have h1 : ¬ idx ≥ TABLE_MAX_PAGES := by omega
  rw [if_neg h1]
  cases hp : t.pages idx with
  | some p =>
    have hlt : idx < t.size := by
      by_contra hge
      have := hwf idx (by omega)
      rw [hp] at this
      cases this
    refine ⟨t, rfl, ?_, rfl, fun _ _ => rfl, ?_, rfl, rfl, hwf, ?_⟩
    · simp [Table.page, hp]
    · rw [max_eq_left]; omega
    · simp [h1, hp]
  | none =>
    refine ⟨_, rfl, ?_, ?_, ?_, ?_, rfl, rfl, ?_, ?_⟩
    · simp [Table.page, hp]
    · simp [Table.page, hp]
    · intro j hj
      simp [Function.update, hj]
    · show (if idx ≥ t.size then idx + 1 else t.size) = max t.size (idx + 1)
      by_cases h : idx ≥ t.size
      · rw [if_pos h, max_eq_right]; omega
      · rw [if_neg h, max_eq_left]; omega
    · intro i hi
      have hi' : (if idx ≥ t.size then idx + 1 else t.size) ≤ i := hi
      have hne : i ≠ idx := by
        by_cases h : idx ≥ t.size
        · rw [if_pos h] at hi'; omega
        · rw [if_neg h] at hi'; omega
      have hge : t.size ≤ i := by
        by_cases h : idx ≥ t.size
        · rw [if_pos h] at hi'; omega
        · rw [if_neg h] at hi'; omega
      simp [Function.update, hne, hwf i hge]
    · simp [h1]

/-- The page table of a database that was just opened has no populated slot at
or above the page count. -/
theorem db_open_slots (file : File) (garbage : Nat → Page) (t : Table)
    (h : db_open file garbage = .ok t) : ∀ i, t.size ≤ i → t.pages i = none := by
  unfold db_open at h
  by_cases hm : file.length % PAGE_SIZE ≠ 0
  · simp [hm] at h
  · simp only [hm, if_false] at h
    by_cases h0 : file.length / PAGE_SIZE % 2 ^ 32 = 0
    · simp only [h0, if_true] at h
      obtain ⟨t1, e1, _, _, _, hsz, _, _, hwf, _⟩ := get_page_effect
        { file := file, size := 0, pages := fun _ => none, garbage := garbage } ROOT_PAGE_INDEX
        (by unfold ROOT_PAGE_INDEX TABLE_MAX_PAGES; omega) (fun _ _ => rfl)
      rw [e1] at h
      simp only [ok_bind] at h
      cases h
      intro i hi
      simp only [write_size] at hi
      rw [write_pages, write_pages]
      have : i ≠ ROOT_PAGE_INDEX := by
        have : t1.size = max 0 (ROOT_PAGE_INDEX + 1) := hsz
        unfold ROOT_PAGE_INDEX at this ⊢
        simp at this
        omega
      simp only [this, if_false]
      exact hwf i hi
    · simp only [h0, if_false] at h
      cases h
      intro _ _
      rfl

/-! ## Runs of `db_set` -/

theorem db_set_yields (t : Table) (hinv : Inv t) (key value : Option Str) :
    Yields (db_set t key value) (fun t' => Inv t') := by
  by_cases hk : ∃ k, key = some k ∧ strlen k ≤ KEY_LEN
  · by_cases hv : ∃ v, value = some v ∧ strlen v ≤ VALUE_LEN
    · obtain ⟨k, rfl, hk⟩ := hk
      obtain ⟨v, rfl, hv⟩ := hv
      obtain ⟨g, hg⟩ := hinv
      rw [db_set_valid t k v hk hv]
      exact (db_set_locked_spec t g hg k v).post (fun t' h => h.1)
    · unfold db_set validate_key validate_value
      rw [(validate_string_ok key KEY_LEN).2 hk, (validate_string_exit value VALUE_LEN).2 hv]
      rfl
  · unfold db_set validate_key
    rw [(validate_string_exit key KEY_LEN).2 hk]
    rfl

theorem db_set_all_yields : ∀ (ops : List (Str × Str)) (t0 : Table), Inv t0 →
    Yields (db_set_all t0 ops) (fun _ => True) := by
  intro ops
  induction ops with
  | nil => intro t0 _; trivial
  | cons x rest ih =>
    intro t0 hinv
    obtain ⟨k1, v1⟩ := x
    unfold db_set_all
    exact (db_set_yields t0 hinv (some k1) (some v1)).seq (fun t1 h1 => ih t1 h1)

theorem yields_cases {α : Type} {x : Except Fault α} {P : α → Prop} (h : Yields x P) :
    x = .error .exit ∨ ∃ a, x = .ok a ∧ P a := by
  cases x with
  | ok a => exact Or.inr ⟨a, rfl, h⟩
  | error e =>
    have : e = .exit := h
    subst this
    exact Or.inl rfl

theorem db_get_invalid (t : Table) (key : Option Str)
    (h : ¬ ∃ k, key = some k ∧ strlen k ≤ KEY_LEN) : db_get t key = .error .exit := by
  unfold db_get validate_key
  rw [(validate_string_exit key KEY_LEN).2 h]
  rfl

theorem db_set_invalid (t : Table) (key value : Option Str)
    (h : ¬ ((∃ k, key = some k ∧ strlen k ≤ KEY_LEN) ∧
      ∃ v, value = some v ∧ strlen v ≤ VALUE_LEN)) : db_set t key value = .error .exit := by
  by_cases hk : ∃ k, key = some k ∧ strlen k ≤ KEY_LEN
  · have hv : ¬ ∃ v, value = some v ∧ strlen v ≤ VALUE_LEN := fun hv => h ⟨hk, hv⟩
    unfold db_set validate_key validate_value
    rw [(validate_string_ok key KEY_LEN).2 hk, (validate_string_exit value VALUE_LEN).2 hv]
    rfl
  · unfold db_set validate_key
    rw [(validate_string_exit key KEY_LEN).2 hk]
    rfl

/-- The value a lookup of a valid key returns is the stored one. -/
theorem db_get_stored (t : Table) (hinv : Inv t) (k : Str) (hk : strlen k ≤ KEY_LEN) :
    ∃ t' r, db_get t (some k) = .ok (t', r) ∧ Same t t' ∧ ∀ v, r = some v ↔ Stored t k v := by
  obtain ⟨g, hg⟩ := hinv
  obtain ⟨res, e, h1, h2⟩ := db_get_locked_spec t g hg k
  exact ⟨res.1, res.2, by rw [db_get_valid t k hk, e], h1, h2⟩

/-! ## The contract of the accessors -/

theorem last_set_of_mem (k : Str) : ∀ (ops : List (Str × Str)) (v0 : Str),
    (k, v0) ∈ ops → ∃ v, last_set ops k = some v := by
  intro ops
  induction ops with
  | nil => intro v0 h; exact absurd h (List.not_mem_nil _)
  | cons x rest ih =>
    intro v0 h
    obtain ⟨k1, v1⟩ := x
    rw [last_set_cons]
    cases hl : last_set rest k with
    | some w => exact ⟨w, rfl⟩
    | none =>
      rcases List.mem_cons.1 h with he | he
      · cases he
        exact ⟨v0, by simp⟩
      · obtain ⟨v, hv⟩ := ih v0 he
        rw [hl] at hv
        cases hv

/-- C1 (round trip).  Open a database on an empty file and run any finite
sequence of `db_set` calls, keys possibly repeating.  Opening returns.  The run
either ends the process with the fatal exit (as it does when a key has more
than `KEY_LEN` bytes, a value more than `VALUE_LEN` bytes, or the page cap is
hit), or it completes, and then for every key of the sequence `db_get` returns
the value of the last `db_set` to that key. -/
theorem db_round_trip (file : File) (garbage : Nat → Page) (ops : List (Str × Str))
    (hfile : file.length = 0) :
    ∃ t0, db_open file garbage = .ok t0 ∧
      (db_set_all t0 ops = .error .exit ∨
       ∃ t, db_set_all t0 ops = .ok t ∧
         ∀ kv, kv ∈ ops → ∃ v t', last_set ops kv.1 = some v ∧
           db_get t (some kv.1) = .ok (t', some v)) := by
  obtain ⟨t0, hopen, hinv0, _⟩ := db_open_empty file garbage hfile
  refine ⟨t0, hopen, ?_⟩
  rcases yields_cases (db_set_all_yields ops t0 ⟨_, hinv0⟩) with he | ⟨t, ht, _⟩
  · exact Or.inl he
  · refine Or.inr ⟨t, ht, ?_⟩
    obtain ⟨hinv, hvalid, hst⟩ := db_set_all_spec ops t0 t ⟨_, hinv0⟩ ht
    rintro ⟨k, v0⟩ hmem
    obtain ⟨v, hv⟩ := last_set_of_mem k ops v0 hmem
    obtain ⟨t', r, hget, _, hr⟩ := db_get_stored t hinv k (hvalid _ hmem).1
    have : r = some v := (hr v).2 ((hst k v).2 (Or.inl hv))
    subst this
    exact ⟨v, t', hv, hget⟩

/-- C2 (logical miss).  Open a database on an empty file and run any finite
sequence of `db_set` calls, the empty one included.  Opening returns.  The run
either ends the process with the fatal exit (an invalid argument or the page
cap), or it completes, and then `db_get` of a valid key that no call of the
sequence has set returns `NULL`: it returns, and what it returns is not a
value. -/
theorem db_get_miss (file : File) (garbage : Nat → Page) (ops : List (Str × Str)) (k : Str)
    (hfile : file.length = 0) (hk : strlen k ≤ KEY_LEN) (hnew : ∀ kv, kv ∈ ops → kv.1 ≠ k) :
    ∃ t0, db_open file garbage = .ok t0 ∧
      (db_set_all t0 ops = .error .exit ∨
       ∃ t t', db_set_all t0 ops = .ok t ∧ db_get t (some k) = .ok (t', none)) := by
  obtain ⟨t0, hopen, hinv0, _⟩ := db_open_empty file garbage hfile
  refine ⟨t0, hopen, ?_⟩
  rcases yields_cases (db_set_all_yields ops t0 ⟨_, hinv0⟩) with he | ⟨t, ht, _⟩
  · exact Or.inl he
  · obtain ⟨hinv, _, hst⟩ := db_set_all_spec ops t0 t ⟨_, hinv0⟩ ht
    obtain ⟨t', r, hget, _, hr⟩ := db_get_stored t hinv k hk
    refine Or.inr ⟨t, t', ht, ?_⟩
    have hnone : r = none := by
      cases r with
      | none => rfl
      | some v =>
        rcases (hst k v).1 ((hr v).1 rfl) with h1 | ⟨_, h2⟩
        · rw [last_set_none k ops hnew] at h1
          cases h1
        · exact absurd h2 (db_open_empty_stored file garbage t0 hfile hopen k v)
    rw [hget, hnone]

/-- C3 (persistence).  In every reachable state, `db_close` followed by
`db_open` of the file it leaves returns, whatever the fresh buffers hold, and
`db_get` answers every key in the reopened database as it answered before the
close: the fatal exit for an invalid key, and otherwise the same value or the
same `NULL`. -/
theorem db_persistence (t : Table) (h : Reachable t) (garbage : Nat → Page)
    (key : Option Str) :
    ∃ t2, db_open (db_close t) garbage = .ok t2 ∧
      ((db_get t key = .error .exit ∧ db_get t2 key = .error .exit) ∨
       ∃ ta tb r, db_get t key = .ok (ta, r) ∧ db_get t2 key = .ok (tb, r)) := by
  obtain ⟨g, hg⟩ := (reachable_inv h).1
  obtain ⟨t2, hopen, hg2, hsize, hpage, _⟩ := db_reopen t g hg garbage
  refine ⟨t2, hopen, ?_⟩
  by_cases hk : ∃ k, key = some k ∧ strlen k ≤ KEY_LEN
  · obtain ⟨k, rfl, hk⟩ := hk
    obtain ⟨ta, r, hget, _, hr⟩ := db_get_stored t ⟨g, hg⟩ k hk
    obtain ⟨tb, r2, hget2, _, hr2⟩ := db_get_stored t2 ⟨g, hg2⟩ k hk
    have : r2 = r := by
      apply Option.ext
      intro v
      rw [Option.mem_def, Option.mem_def, hr2, hr]
      exact Stored.congr_stored hsize hpage k v
    subst this
    exact Or.inr ⟨ta, tb, r2, hget, hget2⟩
  · exact Or.inl ⟨db_get_invalid t key hk, db_get_invalid t2 key hk⟩

/-- C4 (overwrite in place).  In a reachable state that stores the key `k`,
`db_set` of `k` with a valid value `v'` returns, and the table it returns
differs from the old one in the value of the record that holds `k`, which is
now `v'`, and in nothing else: the page count, and on every page the kind,
the root flag, the size, the parent, the branches (children and separators),
the rightmost pointer, every record key and every other record value are the
same. -/
theorem db_set_overwrite_in_place (t : Table) (h : Reachable t) (k v v' : Str)
    (hs : Stored t k v) (hv : strlen v' ≤ VALUE_LEN) :
    ∃ t' p i, db_set t (some k) (some v') = .ok t' ∧
      p < t.size ∧ (t.page p).type = NODE_LEAF ∧ i < (t.page p).size ∧
      (t.page p).records i = ⟨k, v⟩ ∧ (t'.page p).records i = ⟨k, v'⟩ ∧
      t'.size = t.size ∧
      ∀ q, (t'.page q).type = (t.page q).type ∧ (t'.page q).is_root = (t.page q).is_root ∧
        (t'.page q).size = (t.page q).size ∧ (t'.page q).parent = (t.page q).parent ∧
        (t'.page q).branches = (t.page q).branches ∧
        (t'.page q).rightmost = (t.page q).rightmost ∧
        ∀ j, ((t'.page q).records j).key = ((t.page q).records j).key ∧
          (¬ (q = p ∧ j = i) → ((t'.page q).records j).value = ((t.page q).records j).value) := by
  obtain ⟨⟨g, hg⟩, hlen⟩ := reachable_inv h
  obtain ⟨t', p, i, hset, hsize, hp, hty, hi, hrec, hpage, hother⟩ :=
    db_set_locked_stored t g hg k v v' hs
  refine ⟨t', p, i, by rw [db_set_valid t k v' (hlen k v hs).1 hv, hset], hp, hty, hi, hrec,
    by rw [hpage]; simp, hsize, ?_⟩
  intro q
  by_cases hq : q = p
  · subst hq
    rw [hpage]
    refine ⟨rfl, rfl, rfl, rfl, rfl, rfl, ?_⟩
    intro j
    by_cases hj : j = i
    · subst hj
      simp [hrec]
    · simp [Function.update, hj]
  · rw [hother q hq]
    exact ⟨rfl, rfl, rfl, rfl, rfl, rfl, fun j => ⟨rfl, fun _ => rfl⟩⟩

/-- C5 (argument validation).  `validate_key` accepts exactly the non-null keys
of at most `KEY_LEN` = 31 bytes and `validate_value` exactly the non-null
values of at most `VALUE_LEN` = 255 bytes.  When one of the two checks rejects,
`db_set` ends with the fatal exit, and when the key check rejects, `db_get`
ends with the fatal exit; in both cases whatever the table is: the table is
neither consulted nor changed. -/
theorem argument_validation :
    KEY_LEN = 31 ∧ VALUE_LEN = 255 ∧
    (∀ key, validate_key key = .ok () ↔ ∃ k, key = some k ∧ strlen k ≤ KEY_LEN) ∧
    (∀ value, validate_value value = .ok () ↔ ∃ v, value = some v ∧ strlen v ≤ VALUE_LEN) ∧
    (∀ key value, validate_key key ≠ .ok () ∨ validate_value value ≠ .ok () →
      ∀ t, db_set t key value = .error .exit) ∧
    (∀ key, validate_key key ≠ .ok () → ∀ t, db_get t key = .error .exit) := by
  refine ⟨rfl, rfl, fun key => validate_string_ok key KEY_LEN,
    fun value => validate_string_ok value VALUE_LEN, ?_, ?_⟩
  · intro key value h t
    apply db_set_invalid
    rintro ⟨hk, hv⟩
    rcases h with h | h
    · exact h ((validate_string_ok key KEY_LEN).2 hk)
    · exact h ((validate_string_ok value VALUE_LEN).2 hv)
  · intro key h t
    apply db_get_invalid
    intro hk
    exact h ((validate_string_ok key KEY_LEN).2 hk)

/-! ## The invariants of the reachable states -/

theorem list_has_max : ∀ (ks : List Str), ks ≠ [] → ∃ m, m ∈ ks ∧ ∀ k, k ∈ ks → k ≤ m := by
  intro ks
  induction ks with
  | nil => intro h; exact absurd rfl h
  | cons a rest ih =>
    intro _
    by_cases hr : rest = []
    · subst hr
      exact ⟨a, List.mem_cons_self _ _, fun k hk => by
        rcases List.mem_cons.1 hk with h | h
        · rw [h]
        · exact absurd h (List.not_mem_nil _)⟩
    · obtain ⟨m, hm, hmax⟩ := ih hr
      by_cases ham : a ≤ m
      · exact ⟨m, List.mem_cons_of_mem _ hm, fun k hk => by
          rcases List.mem_cons.1 hk with h | h
          · rw [h]; exact ham
          · exact hmax k h⟩
      · exact ⟨a, List.mem_cons_self _ _, fun k hk => by
          rcases List.mem_cons.1 hk with h | h
          · rw [h]
          · exact le_trans (hmax k h) (le_of_lt (not_le.1 ham))⟩

/-- The printout of the subtree of an allocated page, from the table itself. -/
theorem print_page_keys (t : Table) (g : Ghost) (hinv : InvWith t g) (p : Nat) (hp : p < t.size) :
    ∃ t' out, print_page t.size t p 0 = .ok (t', out) ∧ PageKeys t g p (record_keys out) := by
  have hlevel : g.level p < t.size := by
    by_cases hp0 : p = 0
    · subst hp0; exact hinv.2.2.2.1
    · have := ((hinv.2.2.2.2 p hp).2.of_ne_zero hp0).2.1
      have := hinv.2.2.2.1
      omega
  obtain ⟨r, e, _, hkeys⟩ := print_page_spec t g hinv t.size p 0 t (Same.refl t) hp hlevel
  exact ⟨r.1, r.2, e, hkeys⟩

/-- C6 (ordering).  In every reachable state the traversal `db_test_print`
of the tree from page 0, which visits the children of an internal page in
branch order and then the rightmost child, and the records of a leaf in slot
order, returns, and the keys of the records it shows are strictly ascending
in the byte-wise order of `strcmp`; they are the keys the table stores.  In
particular the keys of every leaf are strictly ascending in slot order. -/
theorem traversal_ascending (t : Table) (h : Reachable t) :
    ∃ t' out, db_test_print t = .ok (t', out) ∧
      (record_keys out).Pairwise (fun a b => strcmp a b < 0) ∧
      (∀ k, k ∈ record_keys out ↔ ∃ v, Stored t k v) ∧
      ∀ p, InTree t p → (t.page p).type = NODE_LEAF →
        ∀ i j, i < j → j < (t.page p).size →
          strcmp ((t.page p).records i).key ((t.page p).records j).key < 0 := by
  obtain ⟨g, hg⟩ := (reachable_inv h).1
  obtain ⟨t', out, e, ⟨hsorted, hmem⟩, _, _⟩ := print_page_keys t g hg 0 hg.1
  refine ⟨t', out, e, hsorted.imp (fun hab => (strcmp_lt_iff _ _).2 hab), ?_, ?_⟩
  · intro k
    rw [hmem]
    have hup := (hg.2.2.2.2 0 hg.1).2
    unfold Up at hup
    rw [if_pos rfl] at hup
    constructor
    · exact fun hk => hk.2.2
    · intro hk
      refine ⟨?_, ?_, hk⟩
      · intro l hl
        rw [hup.2.1] at hl
        cases hl
      · intro u hu
        rw [hup.2.2] at hu
        cases hu
  · intro p hp hty i j hij hj
    have hd := ((hg.2.2.2.2 p (hp.lt hg)).1.leaf hty).2.1
    exact (strcmp_lt_iff _ _).2 (hd.2.1 i j hij hj)

/-- C7 (separators).  In every reachable state, on every internal page that
the root reaches and for every branch index `i` below its size, the separator
`branches[i].key` is the maximum of the keys that the traversal of the subtree
of `branches[i].child` shows: it is one of them and none of them is greater.
The keys of the subtree of `rightmost` have a maximum, and it is strictly
greater than every separator of the page. -/
theorem separators_are_maxima (t : Table) (h : Reachable t) (p : Nat) (hp : InTree t p)
    (hty : (t.page p).type = NODE_INTERNAL) :
    (∀ i, i < (t.page p).size →
      ∃ t' out, print_page t.size t ((t.page p).branches i).child 0 = .ok (t', out) ∧
        ((t.page p).branches i).key ∈ record_keys out ∧
        ∀ k, k ∈ record_keys out → strcmp k ((t.page p).branches i).key ≤ 0) ∧
    ∃ t' out m, print_page t.size t (t.page p).rightmost 0 = .ok (t', out) ∧
      m ∈ record_keys out ∧ (∀ k, k ∈ record_keys out → strcmp k m ≤ 0) ∧
      ∀ i, i < (t.page p).size → strcmp ((t.page p).branches i).key m < 0 := by
  obtain ⟨g, hg⟩ := (reachable_inv h).1
  have hplt := hp.lt hg
  have hok : InternalOK t g p := (hg.2.2.2.2 p hplt).1.internal hty
  have hd : ∀ q, q < t.size → g.level q < g.level p → Down t g q :=
    fun q hq _ => (hg.2.2.2.2 q hq).1
  constructor
  · intro i hi
    have hc : internal_child_of (t.page p) i = ((t.page p).branches i).child := by
      unfold internal_child_of
      rw [if_neg (by omega)]
    have hch := hok.2.2 i (le_of_lt hi)
    rw [hc] at hch
    obtain ⟨t', out, e, ⟨_, hmem⟩, htop, _⟩ := print_page_keys t g hg _ hch.1
    have hhi : g.hi ((t.page p).branches i).child = some ((t.page p).branches i).key := by
      rw [hch.2.2.2.2.2]
      unfold upper_bound_of internal_key_of
      rw [if_pos hi]
    refine ⟨t', out, e, htop _ hhi, ?_⟩
    intro k hk
    exact (strcmp_le_iff _ _).2 (((hmem k).1 hk).2.1 _ hhi)
  · have hc : internal_child_of (t.page p) (t.page p).size = (t.page p).rightmost := by
      unfold internal_child_of internal_rightmost_child_of
      rw [if_pos (le_refl _)]
    have hch := hok.2.2 (t.page p).size (le_refl _)
    rw [hc] at hch
    obtain ⟨t', out, e, ⟨_, hmem⟩, _, hne⟩ := print_page_keys t g hg _ hch.1
    obtain ⟨m, hm, hmax⟩ := list_has_max (record_keys out) (hne hch.2.1)
    refine ⟨t', out, m, e, hm, fun k hk => (strcmp_le_iff _ _).2 (hmax k hk), ?_⟩
    intro i hi
    have hlo : g.lo (t.page p).rightmost =
        some (internal_key_of (t.page p) ((t.page p).size - 1)) := by
      rw [hch.2.2.2.2.1]
      unfold lower_bound_of
      rw [if_neg (by omega)]
    have h1 : internal_key_of (t.page p) ((t.page p).size - 1) < m :=
      ((hmem m).1 hm).1 _ hlo
    have h2 := hok.sorted_le hd i ((t.page p).size - 1) (by omega) (by omega)
    exact (strcmp_lt_iff _ _).2 (lt_of_le_of_lt h2 h1)

/-- C8 (parent pointers).  In every reachable state, for every page `p` that
the root reaches and that is not a root, the page that the parent field of
`p` names is allocated, is an internal page, and has `p` as one of its
children: as the child of a branch below its size or as its rightmost
child. -/
theorem parent_pointers (t : Table) (h : Reachable t) (p : Nat) (hp : InTree t p)
    (hroot : (t.page p).is_root = false) :
    (t.page p).parent < t.size ∧
    (t.page (t.page p).parent).type = NODE_INTERNAL ∧
    ((∃ i, i < (t.page (t.page p).parent).size ∧
        ((t.page (t.page p).parent).branches i).child = p) ∨
      (t.page (t.page p).parent).rightmost = p) := by
  obtain ⟨g, hg⟩ := (reachable_inv h).1
  have hup := (hg.2.2.2.2 p (hp.lt hg)).2
  have hp0 : p ≠ 0 := by
    intro h0
    subst h0
    unfold Up at hup
    rw [if_pos rfl] at hup
    rw [hup.1] at hroot
    cases hroot
  obtain ⟨_, _, hpar, hty, i, hi, hc⟩ := hup.of_ne_zero hp0
  refine ⟨hpar, hty, ?_⟩
  unfold internal_child_of internal_rightmost_child_of at hc
  by_cases hlt : i < (t.page (t.page p).parent).size
  · rw [if_neg (by omega)] at hc
    exact Or.inl ⟨i, hlt, hc⟩
  · rw [if_pos (by omega)] at hc
    exact Or.inr hc

theorem leaf_node_insert_raw_full (t : Table) (c : Cursor) (k v : Str) (pg : Page)
    (hpg : t.pages c.page_index = some pg) (hfull : LEAF_RECORD_SIZE ≤ pg.size) :
    leaf_node_insert_raw t c k v = .error .undefined := by
  unfold leaf_node_insert_raw page_by_cursor
  rw [hpg]
  simp only [ok_bind]
  rw [if_pos hfull]
  rfl

theorem internal_node_insert_raw_full (fuel : Nat) (t : Table) (q n : Nat)
    (hN : t.size ≤ TABLE_MAX_PAGES) (hq : q < t.size) (hn : n < t.size)
    (hfull : INTERNAL_BRANCH_SIZE ≤ (t.page q).size) :
    internal_node_insert_raw fuel t q n = .error .undefined := by
  obtain ⟨t1, e1, hs1, _⟩ := get_page_allocated t q hq hN
  obtain ⟨t2, e2, hs2, _⟩ := get_page_allocated t1 n (by rw [hs1.size]; exact hn)
    (by rw [hs1.size]; exact hN)
  unfold internal_node_insert_raw
  rw [e1]
  simp only [ok_bind]
  rw [e2]
  simp only [ok_bind]
  have : (t2.page q).size ≥ INTERNAL_BRANCH_SIZE := by
    rw [hs2.page, hs1.page]
    exact hfull
  rw [if_pos this]
  rfl

/-- C9 (capacity).  In every reachable state every allocated leaf holds at most
`LEAF_RECORD_SIZE` = 4 records and every allocated internal page at most
`INTERNAL_BRANCH_SIZE` = 4 branches, the rightmost child not counted.  The
two raw insertions fault when they are applied to a full node, and no call of
`db_set` from a reachable state faults: it returns, in a reachable state again,
or it ends with the fatal exit. -/
theorem capacity_bound (t : Table) (h : Reachable t) :
    LEAF_RECORD_SIZE = 4 ∧ INTERNAL_BRANCH_SIZE = 4 ∧
    (∀ p, p < t.size →
      ((t.page p).type = NODE_LEAF → (t.page p).size ≤ LEAF_RECORD_SIZE) ∧
      ((t.page p).type = NODE_INTERNAL → (t.page p).size ≤ INTERNAL_BRANCH_SIZE)) ∧
    (∀ (c : Cursor) (k v : Str) (pg : Page), t.pages c.page_index = some pg →
      LEAF_RECORD_SIZE ≤ pg.size → leaf_node_insert_raw t c k v = .error .undefined) ∧
    (∀ fuel q n, q < t.size → n < t.size → INTERNAL_BRANCH_SIZE ≤ (t.page q).size →
      internal_node_insert_raw fuel t q n = .error .undefined) ∧
    ∀ key value, db_set t key value = .error .exit ∨
      ∃ t', db_set t key value = .ok t' ∧ Reachable t' := by
  obtain ⟨g, hg⟩ := (reachable_inv h).1
  refine ⟨rfl, rfl, ?_, ?_, ?_, ?_⟩
  · intro p hp
    have hd := (hg.2.2.2.2 p hp).1
    exact ⟨fun hty => (hd.leaf hty).2.1.1, fun hty => (hd.internal hty).2.1⟩
  · intro c k v pg hpg hfull
    exact leaf_node_insert_raw_full t c k v pg hpg hfull
  · intro fuel q n hq hn hfull
    exact internal_node_insert_raw_full fuel t q n hg.2.1 hq hn hfull
  · intro key value
    rcases yields_cases (db_set_yields t ⟨g, hg⟩ key value) with he | ⟨t', ht', _⟩
    · exact Or.inl he
    · exact Or.inr ⟨t', ht', Reachable.set t key value t' h ht'⟩

/-- C10 (pager bound).  `get_page` ends with the fatal exit exactly when the
index is at least `TABLE_MAX_PAGES` = 100.  On a page table whose populated
slots all lie below the page count `N`, which is how `db_open` leaves the
table and how `get_page` keeps it, a call with a smaller index returns with
slot `idx` populated (by the buffer that was there, else by a fresh buffer,
read from the file when `idx < N`), with every other slot as it was and with
`N` set to the maximum of `N` and `idx + 1`, and a second call returns the
same table.  In every reachable state `N` is at most `TABLE_MAX_PAGES` and
every populated slot has an index below `N`. -/
theorem pager_bound :
    TABLE_MAX_PAGES = 100 ∧
    (∀ t idx, get_page t idx = .error .exit ↔ idx ≥ TABLE_MAX_PAGES) ∧
    (∀ t idx, idx < TABLE_MAX_PAGES → (∀ i, t.size ≤ i → t.pages i = none) →
      ∃ t', get_page t idx = .ok t' ∧ t'.pages idx = some (t.page idx) ∧
        (∀ j, j ≠ idx → t'.pages j = t.pages j) ∧ t'.size = max t.size (idx + 1) ∧
        t'.file = t.file ∧ get_page t' idx = .ok t' ∧
        ∀ i, t'.size ≤ i → t'.pages i = none) ∧
    (∀ file garbage t, db_open file garbage = .ok t → ∀ i, t.size ≤ i → t.pages i = none) ∧
    ∀ t, Reachable t → t.size ≤ TABLE_MAX_PAGES ∧ ∀ i, t.pages i ≠ none → i < t.size := by
  refine ⟨rfl, get_page_exit_iff, ?_, db_open_slots, ?_⟩
  · intro t idx hidx hwf
    obtain ⟨t', e, h1, _, h3, h4, h5, _, h7, h8⟩ := get_page_effect t idx hidx hwf
    exact ⟨t', e, h1, h3, h4, h5, h8, h7⟩
  · intro t h
    obtain ⟨g, hg⟩ := (reachable_inv h).1
    refine ⟨hg.2.1, ?_⟩
    intro i hi
    by_contra hge
    exact hi (hg.2.2.1.1 i (by omega))

theorem ok_of_succeeds {α : Type} (d : α) (x : Except Fault α) (h : succeeds x = true) :
    x = .ok (result_or d x) := by
  cases x with
  | ok a => rfl
  | error e => cases h

theorem sample_open_ok : db_open sample_file sample_garbage = .ok sample_open := by
  unfold sample_open
  exact ok_of_succeeds _ _ (by decide!)

theorem sample_table_ok : db_set_all sample_open sample_ops = .ok sample_table := by
  unfold sample_table
  exact ok_of_succeeds _ _ (by decide!)

theorem sample_reachable : Reachable sample_table :=
  Reachable.of_sets sample_file sample_garbage sample_open rfl sample_open_ok sample_ops
    sample_table sample_table_ok

theorem sample_stored : Stored sample_table ⟨[2]⟩ ⟨[21]⟩ :=
  ⟨2, by decide!, by decide!, 1, by decide!, by decide!⟩

/-- On the worked run, `db_get` of the key that was set twice returns the
second value. -/
theorem db_round_trip_witness :
    sample_file.length = 0 ∧
    ∃ t', db_get sample_table (some ⟨[2]⟩) = .ok (t', some ⟨[21]⟩) := by
  refine ⟨rfl, ?_⟩
  obtain ⟨t0, h0, hrun⟩ := db_round_trip sample_file sample_garbage sample_ops rfl
  rw [sample_open_ok] at h0
  cases h0
  rcases hrun with he | ⟨t, ht, hget⟩
  · rw [sample_table_ok] at he
    cases he
  · rw [sample_table_ok] at ht
    cases ht
    obtain ⟨v, t', hv, hg⟩ := hget (⟨[2]⟩, ⟨[20]⟩) (by decide!)
    have : v = ⟨[21]⟩ := by
      have h2 : last_set sample_ops ⟨[2]⟩ = some ⟨[21]⟩ := by decide!
      rw [h2] at hv
      cases hv
      rfl
    subst this
    exact ⟨t', hg⟩

/-- On the worked run, `db_get` of a key that was never set returns `NULL`. -/
theorem db_get_miss_witness :
    sample_file.length = 0 ∧ strlen ⟨[9]⟩ ≤ KEY_LEN ∧
    (∀ kv, kv ∈ sample_ops → kv.1 ≠ ⟨[9]⟩) ∧
    ∃ t', db_get sample_table (some ⟨[9]⟩) = .ok (t', none) := by
  refine ⟨rfl, by decide!, by decide!, ?_⟩
  obtain ⟨t0, h0, hrun⟩ := db_get_miss sample_file sample_garbage sample_ops ⟨[9]⟩ rfl
    (by decide!) (by decide!)
  rw [sample_open_ok] at h0
  cases h0
  rcases hrun with he | ⟨t, t', ht, hget⟩
  · rw [sample_table_ok] at he
    cases he
  · rw [sample_table_ok] at ht
    cases ht
    exact ⟨t', hget⟩

/-- The worked run survives `db_close` and `db_open`. -/
theorem db_persistence_witness :
    Reachable sample_table ∧
    ∃ t2, db_open (db_close sample_table) sample_garbage = .ok t2 ∧
      ∃ ta tb r, db_get sample_table (some ⟨[3]⟩) = .ok (ta, r) ∧
        db_get t2 (some ⟨[3]⟩) = .ok (tb, r) := by
  refine ⟨sample_reachable, ?_⟩
  obtain ⟨t2, hopen, hsame⟩ :=
    db_persistence sample_table sample_reachable sample_garbage (some ⟨[3]⟩)
  refine ⟨t2, hopen, ?_⟩
  rcases hsame with ⟨he, _⟩ | h
  · have hok : succeeds (db_get sample_table (some ⟨[3]⟩)) = true := by decide!
    rw [he] at hok
    cases hok
  · exact h

/-- Overwriting the key `[2]` of the worked run once more. -/
theorem db_set_overwrite_in_place_witness :
    Reachable sample_table ∧ Stored sample_table ⟨[2]⟩ ⟨[21]⟩ ∧
    strlen ⟨[22]⟩ ≤ VALUE_LEN ∧
    ∃ t' p i, db_set sample_table (some ⟨[2]⟩) (some ⟨[22]⟩) = .ok t' ∧
      p < sample_table.size ∧ (sample_table.page p).type = NODE_LEAF ∧
      i < (sample_table.page p).size ∧
      (sample_table.page p).records i = ⟨⟨[2]⟩, ⟨[21]⟩⟩ ∧
      (t'.page p).records i = ⟨⟨[2]⟩, ⟨[22]⟩⟩ ∧ t'.size = sample_table.size :=
  ⟨sample_reachable, sample_stored, by decide!,
    (db_set_overwrite_in_place sample_table sample_reachable ⟨[2]⟩ ⟨[21]⟩ ⟨[22]⟩ sample_stored
      (by decide!)).imp fun _ ht => ht.imp fun _ hp => hp.imp fun _ hi =>
        ⟨hi.1, hi.2.1, hi.2.2.1, hi.2.2.2.1, hi.2.2.2.2.1, hi.2.2.2.2.2.1, hi.2.2.2.2.2.2.1⟩⟩

/-- The checks on a short key, an overlong key and `NULL`. -/
theorem argument_validation_witness :
    validate_key (some ⟨[1, 2, 3]⟩) = .ok () ∧
    db_set sample_table (some ⟨List.replicate 32 7⟩) (some ⟨[1]⟩) = .error .exit ∧
    db_get sample_table none = .error .exit :=
  ⟨(argument_validation.2.2.1 _).2 ⟨_, rfl, by decide!⟩,
    argument_validation.2.2.2.2.1 _ _
      (Or.inl (by simp [validate_key, validate_string, strlen, KEY_LEN])) _,
    argument_validation.2.2.2.2.2 _ (by simp [validate_key, validate_string]) _⟩

/-- The traversal of the worked run. -/
theorem traversal_ascending_witness :
    Reachable sample_table ∧
    ∃ t' out, db_test_print sample_table = .ok (t', out) ∧
      (record_keys out).Pairwise (fun a b => strcmp a b < 0) ∧
      ∀ k, k ∈ record_keys out ↔ ∃ v, Stored sample_table k v :=
  ⟨sample_reachable,
    (traversal_ascending sample_table sample_reachable).imp fun _ ht => ht.imp fun _ h =>
      ⟨h.1, h.2.1, h.2.2.1⟩⟩

/-- The root of the worked run is an internal page with one separator. -/
theorem separators_are_maxima_witness :
    Reachable sample_table ∧ InTree sample_table 0 ∧
    (sample_table.page 0).type = NODE_INTERNAL ∧ (sample_table.page 0).size = 1 ∧
    ∃ t' out, print_page sample_table.size sample_table
        ((sample_table.page 0).branches 0).child 0 = .ok (t', out) ∧
      ((sample_table.page 0).branches 0).key ∈ record_keys out ∧
      ∀ k, k ∈ record_keys out → strcmp k ((sample_table.page 0).branches 0).key ≤ 0 :=
  ⟨sample_reachable, InTree.root, by decide!, by decide!,
    (separators_are_maxima sample_table sample_reachable 0 InTree.root (by decide!)).1 0
      (by decide!)⟩

/-- The left leaf of the worked run points back to the root. -/
theorem parent_pointers_witness :
    Reachable sample_table ∧ InTree sample_table 2 ∧
    (sample_table.page 2).is_root = false ∧
    (sample_table.page 2).parent < sample_table.size ∧
    (sample_table.page (sample_table.page 2).parent).type = NODE_INTERNAL ∧
    ((∃ i, i < (sample_table.page (sample_table.page 2).parent).size ∧
        ((sample_table.page (sample_table.page 2).parent).branches i).child = 2) ∨
      (sample_table.page (sample_table.page 2).parent).rightmost = 2) := by
  have htree : InTree sample_table 2 := by
    have h := InTree.child 0 0 (InTree.root : InTree sample_table ROOT_PAGE_INDEX)
      (by decide!) (by decide!)
    have e : internal_child_of (sample_table.page 0) 0 = 2 := by decide!
    rw [e] at h
    exact h
  exact ⟨sample_reachable, htree, by decide!,
    parent_pointers sample_table sample_reachable 2 htree (by decide!)⟩

/-- The pages of the worked run are within capacity. -/
theorem capacity_bound_witness :
    Reachable sample_table ∧ sample_table.size = 3 ∧
    ∀ p, p < sample_table.size →
      ((sample_table.page p).type = NODE_LEAF → (sample_table.page p).size ≤ LEAF_RECORD_SIZE) ∧
      ((sample_table.page p).type = NODE_INTERNAL →
        (sample_table.page p).size ≤ INTERNAL_BRANCH_SIZE) :=
  ⟨sample_reachable, by decide!, (capacity_bound sample_table sample_reachable).2.2.1⟩

/-- Loading a page of the worked run that is already resident, and asking for
a page beyond the cap. -/
theorem pager_bound_witness :
    get_page sample_table 100 = .error .exit ∧
    sample_table.size ≤ TABLE_MAX_PAGES ∧
    ∃ t', get_page sample_table 5 = .ok t' ∧
      t'.pages 5 = some (sample_table.page 5) ∧ t'.size = max sample_table.size (5 + 1) :=
  ⟨(pager_bound.2.1 sample_table 100).2 (by decide!),
    (pager_bound.2.2.2.2 sample_table sample_reachable).1,
    (pager_bound.2.2.1 sample_table 5 (by decide!)
      ((reachable_inv sample_reachable).1.elim fun _ hg => hg.2.2.1.1)).imp fun _ h =>
        ⟨h.1, h.2.1, h.2.2.2.1⟩⟩

/-! ## Opening and searching -/

theorem get_page_page (t : Table) (idx : Nat) (hidx : idx < TABLE_MAX_PAGES) :
    ∃ t', get_page t idx = .ok t' ∧ t'.page idx = t.page idx := by
  unfold get_page
  have h1 : ¬ idx ≥ TABLE_MAX_PAGES := by omega
  rw [if_neg h1]
  cases hp : t.pages idx with
  | some p => exact ⟨t, rfl, rfl⟩
  | none => exact ⟨_, rfl, by simp [Table.page, hp]⟩

theorem filter_range_length (p : Nat → Bool) : ∀ (n c : Nat), c ≤ n →
    (∀ i, i < c → p i = true) → (∀ i, c ≤ i → i < n → p i = false) →
    ((List.range n).filter p).length = c := by
  intro n
  induction n with
  | zero =>
    intro c hc _ _
    have : c = 0 := by omega
    subst this
    rfl
  | succ n ih =>
    intro c hc h1 h2
    rw [List.range_succ, List.filter_append, List.length_append]
    by_cases hcn : c ≤ n
    · rw [ih c hcn h1 (fun i hi hin => h2 i hi (by omega))]
      have : p n = false := h2 n hcn (by omega)
      simp [this]
    · have hc' : c = n + 1 := by omega
      rw [ih n (le_refl _) (fun i hi => h1 i (by omega)) (fun i hi hin => by omega)]
      have : p n = true := h1 n (by omega)
      simp [this, hc']

/-- What `db_open` does, for every file.  It ends with the fatal exit of a
corrupt file exactly when the length of the file is not a multiple of
`PAGE_SIZE`.  Otherwise the page count it keeps is `length / PAGE_SIZE` modulo
`2 ^ 32`: when that is not 0 it returns the table with that page count and no
resident page, and when it is 0 it returns a table with `N = 1` whose only
resident page is page 0, a leaf of size 0 with the root flag set. -/
theorem db_open_effect (file : File) (garbage : Nat → Page) :
    (db_open file garbage = .error .exit ↔ file.length % PAGE_SIZE ≠ 0) ∧
    (file.length % PAGE_SIZE = 0 → file.length / PAGE_SIZE % 2 ^ 32 ≠ 0 →
      db_open file garbage
        = .ok { file := file, size := file.length / PAGE_SIZE % 2 ^ 32,
                pages := fun _ => none, garbage := garbage }) ∧
    (file.length % PAGE_SIZE = 0 → file.length / PAGE_SIZE % 2 ^ 32 = 0 →
      ∃ t, db_open file garbage = .ok t ∧ t.size = 1 ∧ t.file = file ∧
        (∀ i, i ≠ 0 → t.pages i = none) ∧
        ∃ pg, t.pages 0 = some pg ∧ pg.type = NODE_LEAF ∧ pg.size = 0 ∧ pg.is_root = true) := by
  have hzero : file.length % PAGE_SIZE = 0 → file.length / PAGE_SIZE % 2 ^ 32 = 0 →
      ∃ t, db_open file garbage = .ok t ∧ t.size = 1 ∧ t.file = file ∧
        (∀ i, i ≠ 0 → t.pages i = none) ∧
        ∃ pg, t.pages 0 = some pg ∧ pg.type = NODE_LEAF ∧ pg.size = 0 ∧
          pg.is_root = true := by
    intro hm h0
    unfold db_open
    simp only [hm, ne_eq, not_true_eq_false, if_false, h0, if_true]
    unfold get_page ROOT_PAGE_INDEX
    simp only [ge_iff_le, Nat.not_succ_le_zero, if_false, TABLE_MAX_PAGES, lt_self_iff_false,
      le_refl, if_true, ok_bind, write_page_same, write_write]
    refine ⟨_, rfl, rfl, rfl, ?_, ?_⟩
    · intro i hi
      rw [write_pages, if_neg hi]
      simp [Function.update, hi]
    · rw [write_pages, if_pos rfl]
      exact ⟨_, rfl, rfl, rfl, rfl⟩
  have hsome : file.length % PAGE_SIZE = 0 → file.length / PAGE_SIZE % 2 ^ 32 ≠ 0 →
      db_open file garbage
        = .ok { file := file, size := file.length / PAGE_SIZE % 2 ^ 32,
                pages := fun _ => none, garbage := garbage } := by
    intro hm h0
    unfold db_open
    simp only [hm, ne_eq, not_true_eq_false, if_false, h0]
  refine ⟨?_, hsome, hzero⟩
  by_cases hm : file.length % PAGE_SIZE ≠ 0
  · unfold db_open
    simp [hm]
  · have hm0 : file.length % PAGE_SIZE = 0 := by omega
    constructor
    · intro h
      by_cases h0 : file.length / PAGE_SIZE % 2 ^ 32 = 0
      · obtain ⟨t, e, _⟩ := hzero hm0 h0
        rw [e] at h
        cases h
      · rw [hsome hm0 h0] at h
        cases h
    · intro h
      exact absurd h hm

/-- On a file whose page count is below `2 ^ 32`, `db_open` does what C11
says: on a positive multiple of `PAGE_SIZE` it returns the table with
`N = length / PAGE_SIZE` and no resident page, and on an empty file a table
with `N = 1` whose only resident page is page 0, a leaf of size 0 with the
root flag set. -/
theorem db_open_fits (file : File) (garbage : Nat → Page)
    (hfit : file.length / PAGE_SIZE < 2 ^ 32) :
    (file.length % PAGE_SIZE = 0 → file.length ≠ 0 →
      db_open file garbage = .ok { file := file, size := file.length / PAGE_SIZE,
                                   pages := fun _ => none, garbage := garbage }) ∧
    (file.length = 0 →
      ∃ t, db_open file garbage = .ok t ∧ t.size = 1 ∧ t.file = file ∧
        (∀ i, i ≠ 0 → t.pages i = none) ∧
        ∃ pg, t.pages 0 = some pg ∧ pg.type = NODE_LEAF ∧ pg.size = 0 ∧ pg.is_root = true) := by
  have hPS : PAGE_SIZE = 4096 := rfl
  have hmod : file.length / PAGE_SIZE % 2 ^ 32 = file.length / PAGE_SIZE :=
    Nat.mod_eq_of_lt hfit
  constructor
  · intro hm h0
    have hsz : file.length / PAGE_SIZE ≠ 0 := by
      rw [hPS] at hm ⊢
      omega
    have := (db_open_effect file garbage).2.1 hm (by rw [hmod]; exact hsz)
    rw [hmod] at this
    exact this
  · intro h0
    exact (db_open_effect file garbage).2.2 (by rw [h0]; rfl) (by rw [h0]; rfl)

theorem huge_open_ok : db_open huge_file sample_garbage = .ok huge_open := by
  unfold huge_open
  exact ok_of_succeeds _ _ (by decide!)

/-- C11 (open) fails on the code for a file of `2 ^ 44` bytes.  The length is
a multiple of `PAGE_SIZE` = 4096 and the file has `2 ^ 32` pages.  The page
count is stored in the 32-bit field `size`, which keeps 0: `db_open` takes the
branch of the empty file and returns a table with `N = 1` whose only resident
page is page 0, a leaf of size 0 with the root flag set, where C11 has
`N = length / PAGE_SIZE` and no resident page. -/
theorem db_open_wraps :
    PAGE_SIZE = 4096 ∧ huge_file.length = 2 ^ 44 ∧
    huge_file.length % PAGE_SIZE = 0 ∧ huge_file.length / PAGE_SIZE = 2 ^ 32 ∧
    db_open huge_file sample_garbage = .ok huge_open ∧
    huge_open.size = 1 ∧ huge_open.size ≠ huge_file.length / PAGE_SIZE ∧
    huge_open.file = huge_file ∧
    (∀ i, i ≠ 0 → huge_open.pages i = none) ∧
    ∃ pg, huge_open.pages 0 = some pg ∧ pg.type = NODE_LEAF ∧ pg.size = 0 ∧
      pg.is_root = true := by
  have hm : huge_file.length % PAGE_SIZE = 0 := by decide
  have hcount : huge_file.length / PAGE_SIZE = 2 ^ 32 := by decide
  have hwrap : huge_file.length / PAGE_SIZE % 2 ^ 32 = 0 := by
    rw [hcount]
    exact Nat.mod_self _
  obtain ⟨t, e, hsize, hfile, hnone, hpg⟩ :=
    (db_open_effect huge_file sample_garbage).2.2 hm hwrap
  rw [huge_open_ok] at e
  cases e
  refine ⟨rfl, rfl, hm, hcount, huge_open_ok, hsize, ?_, hfile, hnone, hpg⟩
  rw [hsize, hcount]
  decide

/-- C13 (leaf binary search).  On a page whose records below its size have
strictly ascending keys, `leaf_node_find` returns for every key, whatever the
size: the loop ends.  It reports `found = true` exactly when a record of the
leaf has the key, and then `cell_index` is the slot of that record; otherwise
`cell_index` is the number of records whose key is smaller than the key, which
is at most the size. -/
theorem leaf_node_find_result (t : Table) (page_index : Nat) (key : Str)
    (hidx : page_index < TABLE_MAX_PAGES)
    (hsorted : ∀ i j, i < j → j < (t.page page_index).size →
      strcmp ((t.page page_index).records i).key ((t.page page_index).records j).key < 0) :
    ∃ t' c, leaf_node_find t page_index key = .ok (t', c) ∧
      t'.page page_index = t.page page_index ∧ c.page_index = page_index ∧
      (c.found = true ↔
        ∃ i, i < (t.page page_index).size ∧ ((t.page page_index).records i).key = key) ∧
      (c.found = true → c.cell_index < (t.page page_index).size ∧
        ((t.page page_index).records c.cell_index).key = key) ∧
      (c.found = false → c.cell_index ≤ (t.page page_index).size ∧
        c.cell_index = ((List.range (t.page page_index).size).filter
          (fun i => decide (strcmp ((t.page page_index).records i).key key < 0))).length) := by
  obtain ⟨t', e, hpage⟩ := get_page_page t page_index hidx
  have hs : ∀ i j, i < j → j < (t.page page_index).size →
      ((t.page page_index).records i).key < ((t.page page_index).records j).key :=
    fun i j hij hj => (strcmp_lt_iff _ _).1 (hsorted i j hij hj)
  obtain ⟨⟨cell, found⟩, eloop, h1, h2⟩ := leaf_node_find_loop_spec (t.page page_index) key hs
    (t.page page_index).size 0 (t.page page_index).size (Nat.zero_le _) (by omega) (le_refl _)
    (fun i hi => by omega) (fun i hi hlt => by omega)
  dsimp only at h1 h2
  refine ⟨t', ⟨page_index, cell, found⟩, ?_, hpage, rfl, ?_, ?_, ?_⟩
  · unfold leaf_node_find
    rw [e]
    simp only [ok_bind]
    rw [hpage, eloop]
    rfl
  · dsimp only
    constructor
    · intro hf
      exact ⟨cell, h1 hf⟩
    · rintro ⟨i, hi, hk⟩
      cases found with
      | true => rfl
      | false =>
        obtain ⟨_, hlo, hhi⟩ := h2 rfl
        by_cases hic : i < cell
        · have := hlo i hic
          rw [hk] at this
          exact absurd this (lt_irrefl _)
        · have := hhi i (by omega) hi
          rw [hk] at this
          exact absurd this (lt_irrefl _)
  · exact h1
  · intro hf
    obtain ⟨hle, hlo, hhi⟩ := h2 hf
    refine ⟨hle, ?_⟩
    dsimp only
    symm
    apply filter_range_length _ _ _ hle
    · intro i hi
      simp only [decide_eq_true_eq]
      exact (strcmp_lt_iff _ _).2 (hlo i hi)
    · intro i hi hlt
      simp only [decide_eq_false_iff_not, not_lt]
      have := hhi i hi hlt
      have h3 : ¬ ((t.page page_index).records i).key < key := not_lt.2 (le_of_lt this)
      exact not_lt.1 (fun h4 => h3 ((strcmp_lt_iff _ _).1 h4))

/-- C14 (internal routing).  On a page whose separators below its size are
strictly ascending, `internal_node_find_child` returns for every key the
smallest index below the size whose separator is not smaller than the key,
and the size when there is none; a key equal to a separator is routed to the
child of that separator. -/
theorem internal_node_find_child_result (page : Page) (key : Str)
    (hsorted : ∀ i j, i < j → j < page.size →
      strcmp (internal_key_of page i) (internal_key_of page j) < 0) :
    ∃ r, internal_node_find_child page key = .ok r ∧ r ≤ page.size ∧
      (r < page.size → strcmp key (internal_key_of page r) ≤ 0) ∧
      (∀ i, i < r → strcmp key (internal_key_of page i) > 0) ∧
      ((∀ i, i < page.size → strcmp key (internal_key_of page i) > 0) → r = page.size) ∧
      (∀ i, i < page.size → key = internal_key_of page i → r = i) := by
  have hs : ∀ i j, i < j → j < page.size → internal_key_of page i < internal_key_of page j :=
    fun i j hij hj => (strcmp_lt_iff _ _).1 (hsorted i j hij hj)
  obtain ⟨r, e, hle, hlo, hhi⟩ := internal_node_find_child_spec page key hs
  refine ⟨r, e, hle, ?_, ?_, ?_, ?_⟩
  · intro hr
    exact (strcmp_le_iff _ _).2 (hhi r (le_refl _) hr)
  · intro i hi
    exact (strcmp_gt_iff _ _).2 (hlo i hi)
  · intro hall
    by_contra hne
    have hr : r < page.size := by omega
    have h1 := (strcmp_gt_iff _ _).1 (hall r hr)
    exact absurd (hhi r (le_refl _) hr) (not_le.2 h1)
  · intro i hi hk
    by_contra hne
    by_cases hir : i < r
    · have := hlo i hir
      rw [← hk] at this
      exact absurd this (lt_irrefl _)
    · have hri : r < i := by omega
      have h1 := hhi r (le_refl _) (by omega)
      have h2 := hs r i hri hi
      rw [← hk] at h2
      exact absurd h1 (not_le.2 h2)

/-! ## The shape of the tree -/

theorem Path.in_tree {t : Table} {l : List Nat} {p : Nat} (h : Path t l p) : InTree t p := by
  induction h with
  | root => exact InTree.root
  | child l q i _ hty hi ih => exact InTree.child q i ih hty hi

theorem InTree.path {t : Table} {p : Nat} (h : InTree t p) : ∃ l, Path t l p := by
  induction h with
  | root => exact ⟨[], Path.root⟩
  | child q i _ hty hi ih =>
    obtain ⟨l, hl⟩ := ih
    exact ⟨i :: l, Path.child l q i hl hty hi⟩

theorem Path.inv {t : Table} {l : List Nat} {p : Nat} (h : Path t l p) :
    (l = [] ∧ p = ROOT_PAGE_INDEX) ∨
    ∃ l0 q i, l = i :: l0 ∧ Path t l0 q ∧ (t.page q).type = NODE_INTERNAL ∧
      i ≤ (t.page q).size ∧ p = internal_child_of (t.page q) i := by
  cases h with
  | root => exact Or.inl ⟨rfl, rfl⟩
  | child l0 q i hq hty hi => exact Or.inr ⟨l0, q, i, rfl, hq, hty, hi, rfl⟩

/-- Every allocated page is reached from the root. -/
theorem all_in_tree {t : Table} {g : Ghost} (hinv : InvWith t g) :
    ∀ (n p : Nat), p < t.size → g.level 0 - g.level p ≤ n → InTree t p := by
  intro n
  induction n with
  | zero =>
    intro p hp hn
    by_cases hp0 : p = 0
    · subst hp0; exact InTree.root
    · have := ((hinv.2.2.2.2 p hp).2.of_ne_zero hp0).2.1
      omega
  | succ n ih =>
    intro p hp hn
    by_cases hp0 : p = 0
    · subst hp0; exact InTree.root
    · obtain ⟨_, hlev, hpar, hty, i, hi, hc⟩ := (hinv.2.2.2.2 p hp).2.of_ne_zero hp0
      have hok := (hinv.2.2.2.2 _ hpar).1.internal hty
      have hl := (hok.2.2 i hi).2.2.2.1
      rw [hc] at hl
      have hP := ih (t.page p).parent hpar (by omega)
      have := InTree.child (t.page p).parent i hP hty hi
      rw [hc] at this
      exact this

theorem Path.level {t : Table} {g : Ghost} (hinv : InvWith t g) {l : List Nat} {p : Nat}
    (h : Path t l p) : p < t.size ∧ g.level p + l.length = g.level 0 := by
  induction h with
  | root => exact ⟨hinv.1, by simp [ROOT_PAGE_INDEX]⟩
  | child l q i _ hty hi ih =>
    have hok := (hinv.2.2.2.2 q ih.1).1.internal hty
    have hc := hok.2.2 i hi
    refine ⟨hc.1, ?_⟩
    have := hc.2.2.2.1
    simp only [List.length_cons]
    omega

theorem child_slot_unique {t : Table} {g : Ghost} (hinv : InvWith t g) (q q' i i' : Nat)
    (hq : q < t.size) (hq' : q' < t.size)
    (hty : (t.page q).type = NODE_INTERNAL) (hty' : (t.page q').type = NODE_INTERNAL)
    (hi : i ≤ (t.page q).size) (hi' : i' ≤ (t.page q').size)
    (heq : internal_child_of (t.page q) i = internal_child_of (t.page q') i') :
    q = q' ∧ i = i' := by
  have hok := (hinv.2.2.2.2 q hq).1.internal hty
  have hok' := (hinv.2.2.2.2 q' hq').1.internal hty'
  have h1 := (hok.2.2 i hi).2.2.1
  have h2 := (hok'.2.2 i' hi').2.2.1
  rw [heq] at h1
  have hqq : q = q' := by rw [← h1, h2]
  subst hqq
  refine ⟨rfl, ?_⟩
  exact children_injective (t.page q) (g.lo q) (g.hi q) g.lo g.hi hok.tile
    (hok.apart (fun p hp _ => (hinv.2.2.2.2 p hp).1)) i i' hi hi' heq

theorem Path.unique {t : Table} {g : Ghost} (hinv : InvWith t g) :
    ∀ (l : List Nat) (p : Nat) (l' : List Nat), Path t l p → Path t l' p → l = l' := by
  intro l
  induction l with
  | nil =>
    intro p l' h1 h2
    rcases h1.inv with ⟨_, hp⟩ | ⟨l0, q, i, hl, _⟩
    · rcases h2.inv with ⟨hl', _⟩ | ⟨l0, q, i, _, hq, hty, hi, hc⟩
      · exact hl'.symm
      · have hok := (hinv.2.2.2.2 q (hq.level hinv).1).1.internal hty
        have := (hok.2.2 i hi).2.1
        rw [← hc, hp] at this
        exact absurd rfl this
    · cases hl
  | cons i l0 ih =>
    intro p l' h1 h2
    rcases h1.inv with ⟨hl, _⟩ | ⟨l1, q, i1, hl, hq, hty, hi, hc⟩
    · cases hl
    · cases hl
      have hok := (hinv.2.2.2.2 q (hq.level hinv).1).1.internal hty
      rcases h2.inv with ⟨_, hp⟩ | ⟨l2, q', i', hl', hq', hty', hi', hc'⟩
      · have := (hok.2.2 i hi).2.1
        rw [← hc, hp] at this
        exact absurd rfl this
      · obtain ⟨hqq, hii⟩ := child_slot_unique hinv q q' i i' (hq.level hinv).1
          (hq'.level hinv).1 hty hty' hi hi' (by rw [← hc, ← hc'])
        subst hqq; subst hii
        rw [hl', ih q l2 hq hq']

/-- C20 (balance).  In every reachable state the pages that the root reaches
form a tree: every child index lies below the page count and is not the root,
no page is a child in two slots, of one node or of two, every page is reached
by exactly one path, and all leaves are reached by paths of the same length.
`table_find` returns for every key (the recursion through
`internal_node_find` ends), without changing a page, and the cursor it
returns names a leaf of the tree and a cell index that is at most the size of
that leaf. -/
theorem balanced_tree (t : Table) (h : Reachable t) :
    (∀ p, InTree t p ↔ ∃ l, Path t l p) ∧
    (∀ q i, InTree t q → (t.page q).type = NODE_INTERNAL → i ≤ (t.page q).size →
      internal_child_of (t.page q) i < t.size ∧
      internal_child_of (t.page q) i ≠ ROOT_PAGE_INDEX) ∧
    (∀ q q' i i', InTree t q → InTree t q' → (t.page q).type = NODE_INTERNAL →
      (t.page q').type = NODE_INTERNAL → i ≤ (t.page q).size → i' ≤ (t.page q').size →
      internal_child_of (t.page q) i = internal_child_of (t.page q') i' → q = q' ∧ i = i') ∧
    (∀ l l' p, Path t l p → Path t l' p → l = l') ∧
    (∀ l l' p p', Path t l p → Path t l' p' → (t.page p).type = NODE_LEAF →
      (t.page p').type = NODE_LEAF → l.length = l'.length) ∧
    ∀ key, ∃ t' c, table_find t key = .ok (t', c) ∧ t'.size = t.size ∧ t'.page = t.page ∧
      InTree t c.page_index ∧ (t.page c.page_index).type = NODE_LEAF ∧
      c.cell_index ≤ (t.page c.page_index).size := by
  obtain ⟨g, hg⟩ := (reachable_inv h).1
  refine ⟨fun p => ⟨InTree.path, fun ⟨_, hl⟩ => hl.in_tree⟩, ?_, ?_, ?_, ?_, ?_⟩
  · intro q i hq hty hi
    have hok := (hg.2.2.2.2 q (hq.lt hg)).1.internal hty
    exact ⟨(hok.2.2 i hi).1, (hok.2.2 i hi).2.1⟩
  · intro q q' i i' hq hq' hty hty' hi hi' heq
    exact child_slot_unique hg q q' i i' (hq.lt hg) (hq'.lt hg) hty hty' hi hi' heq
  · intro l l' p h1 h2
    exact Path.unique hg l p l' h1 h2
  · intro l l' p p' h1 h2 hty hty'
    obtain ⟨hp, hl⟩ := h1.level hg
    obtain ⟨hp', hl'⟩ := h2.level hg
    have e1 := ((hg.2.2.2.2 p hp).1.leaf hty).1
    have e2 := ((hg.2.2.2.2 p' hp').1.leaf hty').1
    omega
  · intro key
    obtain ⟨⟨t', c⟩, e, hs, hc⟩ := table_find_spec g t key hg
    dsimp only at hs hc
    obtain ⟨c1, c2, _, _, _, c6, c7⟩ := hc
    rw [hs.size] at c1
    rw [hs.page] at c2 c6 c7
    refine ⟨t', c, e, hs.size, hs.page, all_in_tree hg _ _ c1 (le_refl _), c2, ?_⟩
    cases hf : c.found with
    | true => exact le_of_lt (c6 hf).1
    | false => exact (c7 hf).1

/-! ## Root creation -/

/-- The maximum key below a page is found alike in two tables that agree on
the bodies of the page and of the pages below it. -/
theorem recursive_max_key_of_agree (g : Ghost) :
    ∀ (d : Nat) (t t2 : Table) (p p2 : Nat),
      t.size ≤ TABLE_MAX_PAGES → t2.size ≤ TABLE_MAX_PAGES → t.size ≤ t2.size →
      p < t.size → g.level p < d → SameBody (t.page p) (t2.page p2) →
      (∀ q, q < t.size → g.level q ≤ g.level p → Down t g q) →
      (∀ q, q < t.size → g.level q < g.level p → SameBody (t.page q) (t2.page q)) →
      ((t.page p).type = NODE_LEAF → 0 < (t.page p).size) →
      ∃ r r2, recursive_max_key_of d t p = .ok r ∧ recursive_max_key_of d t2 p2 = .ok r2 ∧
        Same t r.1 ∧ Same t2 r2.1 ∧ t2.key_at r2.2 = t.key_at r.2 := by
  intro d
  induction d with
  | zero => intro t t2 p p2 _ _ _ _ hd; omega
  | succ d ih =>
    intro t t2 p p2 hN hN2 hsz hp hd hbody hdown hlow hne
    obtain ⟨b1, b2, b3, b4, b5⟩ := hbody
    cases hty : (t.page p).type with
    | NODE_LEAF =>
      have hpos := hne hty
      rw [recursive_max_key_of_leaf d t p hty hpos,
        recursive_max_key_of_leaf d t2 p2 (by rw [b1]; exact hty) (by rw [b2]; exact hpos)]
      refine ⟨_, _, rfl, rfl, Same.refl t, Same.refl t2, ?_⟩
      unfold Table.key_at
      simp only
      rw [b2, b5]
    | NODE_INTERNAL =>
      have hok := (hdown p hp (le_refl _)).internal hty
      obtain ⟨c1, c2, _, c4, _⟩ := hok.2.2 (t.page p).size (le_refl _)
      have hrm : internal_child_of (t.page p) (t.page p).size = (t.page p).rightmost := by
        unfold internal_child_of internal_rightmost_child_of
        rw [if_pos (le_refl _)]
      rw [hrm] at c1 c2 c4
      rw [recursive_max_key_of_internal d t p hty,
        recursive_max_key_of_internal d t2 p2 (by rw [b1]; exact hty), b4]
      obtain ⟨t1, e1, hs1, _⟩ := get_page_allocated t (t.page p).rightmost c1 hN
      obtain ⟨t21, e21, hs21, _⟩ := get_page_allocated t2 (t.page p).rightmost (by omega) hN2
      rw [e1, e21]
      simp only [ok_bind]
      obtain ⟨r, r2, f1, f2, g1, g2, g3⟩ := ih t1 t21 (t.page p).rightmost (t.page p).rightmost
        (by rw [hs1.size]; exact hN) (by rw [hs21.size]; exact hN2)
        (by rw [hs1.size, hs21.size]; exact hsz) (by rw [hs1.size]; exact c1) (by omega)
        (by rw [hs1.page, hs21.page]; exact hlow _ c1 (by omega))
        (fun q hq hl => Down.same_down hs1 g q
          (hdown q (by rw [← hs1.size]; exact hq) (by omega)))
        (fun q hq hl => by
          rw [hs1.page, hs21.page]
          exact hlow q (by rw [← hs1.size]; exact hq) (by omega))
        (by
          rw [hs1.page]
          exact (hdown _ c1 (by omega)).leaf_nonempty c2)
      refine ⟨r, r2, f1, f2, hs1.trans g1, hs21.trans g2, ?_⟩
      rw [← key_at_same hs21, g3, key_at_same hs1]

/-- Below the page cap `create_new_root` returns. -/
theorem create_new_root_returns (d : Nat) (t : Table) (N : Nat)
    (hN1 : t.size < TABLE_MAX_PAGES) (hfresh : PagerOK t) (hNlt : N < t.size)
    (hmax : ∀ t2 : Table, t2.size = t.size + 1 → t2.size ≤ TABLE_MAX_PAGES →
      SameBody (t.page 0) (t2.page t.size) →
      (∀ p, p < t.size → p ≠ 0 → t2.page p = t.page p) →
      ∃ res, recursive_max_key_of d t2 t.size = .ok res) :
    ∃ t', create_new_root d t N = .ok t' := by
  unfold create_new_root
  simp only [ROOT_PAGE_INDEX]
  obtain ⟨t1, e1, hs1, _⟩ := get_page_allocated t 0 (by omega) (by omega)
  simp only [e1, ok_bind]
  have hnew := get_page_new t1 (hs1.fresh hfresh)
  rw [hs1.size] at hnew
  rcases yields_cases hnew with hx | ⟨t2, e2, hlt, h2size, h2page, _, _, _, _, h2fresh⟩
  · have := (get_page_exit_iff t1 t.size).1 hx
    omega
  simp only [e2, ok_bind]
  rw [hs1.page] at h2page
  obtain ⟨t3, e3, hs3, _⟩ := get_page_allocated t2 N (by omega) (by omega)
  simp only [e3, ok_bind]
  have h3page : ∀ p, p ≠ t.size → t3.page p = t.page p := by
    intro p hp; rw [hs3.page, h2page p hp]
  have h3size : t3.size = t.size + 1 := by rw [hs3.size, h2size]
  have hL0 : t.size ≠ 0 := by omega
  have hNL : N ≠ t.size := by omega
  simp only [write_page_same, write_write, write_page_ne _ _ _ _ hL0,
    write_page_ne _ _ _ _ hL0.symm, h3page 0 hL0.symm]
  generalize htm : ((t3.write t.size
      { type := (t.page 0).type, is_root := false, size := (t.page 0).size,
        parent := (t.page 0).parent, branches := (t.page 0).branches,
        rightmost := (t.page 0).rightmost, records := (t.page 0).records }).write 0
      (set_internal_child
        { type := (initialize_internal_node (t.page 0)).type, is_root := true, size := 1,
          parent := (initialize_internal_node (t.page 0)).parent,
          branches := (initialize_internal_node (t.page 0)).branches,
          rightmost := (initialize_internal_node (t.page 0)).rightmost,
          records := (initialize_internal_node (t.page 0)).records } 0 t.size)) = tm
  have hmsize : tm.size = t.size + 1 := by rw [← htm]; simp [h3size]
  have hmL : tm.page t.size = { t.page 0 with is_root := false } := by
    rw [← htm, write_page_ne _ _ _ _ hL0, write_page_same]
  have hmp : ∀ p, p ≠ 0 → p ≠ t.size → tm.page p = t.page p := by
    intro p h0 hL
    rw [← htm, write_page_ne _ _ _ _ h0, write_page_ne _ _ _ _ hL, h3page p hL]
  obtain ⟨⟨t4, kp⟩, e4⟩ := hmax tm hmsize (by omega)
    (by rw [hmL]; exact ⟨rfl, rfl, rfl, rfl, rfl⟩)
    (fun p hp hp0 => hmp p hp0 (by omega))
  simp only [e4, ok_bind]
  exact ⟨_, rfl⟩

/-- C19 (root creation).  Take a table whose pages are well formed, whose page
0 is not empty and in which no other page has the root flag, and an allocated
page `N` other than page 0.  `create_new_root` ends with the fatal exit when
the table is at the page cap, and otherwise returns: the page count has grown
by one; the page at the old page count is the former page 0 with the root flag
cleared and parent 0; page 0 is an internal page with the root flag, size 1,
branch 0 leading to the old page count under the maximum key found below the
former page 0, and rightmost child `N`; the parent of `N` is 0; no other page
has changed; and page 0 is the one page with the root flag. -/
theorem create_new_root_result (d : Nat) (t : Table) (g : Ghost) (N : Nat)
    (hsize : t.size ≤ TABLE_MAX_PAGES) (hpager : PagerOK t) (hN : N < t.size)
    (hN0 : N ≠ ROOT_PAGE_INDEX)
    (hdown : ∀ p, p < t.size → Down t g p)
    (hothers : ∀ p, p < t.size → p ≠ ROOT_PAGE_INDEX → (t.page p).is_root = false)
    (hne : 0 < (t.page ROOT_PAGE_INDEX).size) (hd : g.level ROOT_PAGE_INDEX < d) :
    (t.size = TABLE_MAX_PAGES ∧ create_new_root d t N = .error .exit) ∨
    (t.size < TABLE_MAX_PAGES ∧
      ∃ t' t0 max_key, recursive_max_key_of d t ROOT_PAGE_INDEX = .ok (t0, max_key) ∧
        create_new_root d t N = .ok t' ∧ t'.size = t.size + 1 ∧
        t'.page t.size = { t.page ROOT_PAGE_INDEX with is_root := false,
                                                       parent := ROOT_PAGE_INDEX } ∧
        (t'.page ROOT_PAGE_INDEX).type = NODE_INTERNAL ∧
        (t'.page ROOT_PAGE_INDEX).is_root = true ∧
        (t'.page ROOT_PAGE_INDEX).size = 1 ∧
        (t'.page ROOT_PAGE_INDEX).branches 0 = ⟨t.size, t.key_at max_key⟩ ∧
        (t'.page ROOT_PAGE_INDEX).rightmost = N ∧
        t'.page N = { t.page N with parent := ROOT_PAGE_INDEX } ∧
        (∀ p, p ≠ ROOT_PAGE_INDEX → p ≠ t.size → p ≠ N → t'.page p = t.page p) ∧
        (∀ p, p < t'.size → ((t'.page p).is_root = true ↔ p = ROOT_PAGE_INDEX))) := by
  have hR : ROOT_PAGE_INDEX = 0 := rfl
  rw [hR] at hN0 hothers hne hd ⊢
  have h0 : 0 < t.size := by omega
  obtain ⟨r, _, f1, _, _, _, _⟩ := recursive_max_key_of_agree g d t t 0 0 hsize hsize (le_refl _)
    h0 hd (SameBody.self _) (fun q hq _ => hdown q hq) (fun q _ _ => SameBody.self _)
    (fun _ => hne)
  have heff := create_new_root_effect d t N (t.key_at r.2) hsize hpager hN hN0 (by
    intro t2 h2size h2cap h2body h2page
    obtain ⟨r1, r2, e1, e2, _, g2, g3⟩ := recursive_max_key_of_agree g d t t2 0 t.size hsize h2cap
      (by omega) h0 hd h2body (fun q hq _ => hdown q hq)
      (fun q hq hl => SameBody.of_eq (h2page q hq (by intro h; rw [h] at hl; omega)))
      (fun _ => hne)
    rw [f1] at e1
    cases e1
    exact ⟨r2, e2, g2, g3⟩)
  by_cases hcap : t.size < TABLE_MAX_PAGES
  swap
  · left
    refine ⟨by omega, ?_⟩
    unfold create_new_root
    obtain ⟨t1, e1, hs1, _⟩ := get_page_allocated t ROOT_PAGE_INDEX h0 hsize
    simp only [e1, ok_bind]
    have : get_page t1 t.size = .error .exit :=
      (get_page_exit_iff t1 t.size).2 (by omega)
    rw [this]
    rfl
  obtain ⟨t9, e9⟩ := create_new_root_returns d t N hcap hpager hN (by
    intro t2 h2size h2cap h2body h2page
    obtain ⟨r1, r2, e1, e2, _, g2, g3⟩ := recursive_max_key_of_agree g d t t2 0 t.size hsize h2cap
      (by omega) h0 hd h2body (fun q hq _ => hdown q hq)
      (fun q hq hl => SameBody.of_eq (h2page q hq (by intro h; rw [h] at hl; omega)))
      (fun _ => hne)
    exact ⟨r2, e2⟩)
  rcases yields_cases heff with he | ⟨t', e, _, hsz', _, hp0, hpL, hpN, hpo⟩
  · rw [e9] at he
    cases he
  · right
    refine ⟨hcap, t', r.1, r.2, f1, e, hsz', hpL, ?_, ?_, ?_, ?_, ?_, hpN, hpo, ?_⟩
    · rw [hp0]; rfl
    · rw [hp0]; rfl
    · rw [hp0]; rfl
    · rw [hp0]
      simp [new_root_page]
    · rw [hp0]; rfl
    · intro p hp
      by_cases hp0' : p = 0
      · subst hp0'
        rw [hp0]
        simp [new_root_page]
      · by_cases hpL' : p = t.size
        · subst hpL'
          rw [hpL]
          simp [hp0']
        · by_cases hpN' : p = N
          · subst hpN'
            rw [hpN]
            simp only [hp0', iff_false]
            rw [hothers p hN hp0']
            simp
          · rw [hpo p hp0' hpL' hpN']
            simp only [hp0', iff_false]
            rw [hothers p (by omega) hp0']
            simp

/-! ## What an insertion into a parent leaves alone -/

theorem SameBody.chain {a b c : Page} (h1 : SameBody a b) (h2 : SameBody b c) : SameBody a c :=
  ⟨h2.1.trans h1.1, h2.2.1.trans h1.2.1, h2.2.2.1.trans h1.2.2.1,
    h2.2.2.2.1.trans h1.2.2.2.1, h2.2.2.2.2.trans h1.2.2.2.2⟩

/-- Root creation after the split of an internal root moves the body of the
old root to the new page. -/
theorem SplitDone.root_internal_body {t : Table} {g : Ghost} {N : Nat} {hi_old : Option Str}
    (h : SplitDone t g 0 N hi_old) (hty : (t.page 0).type = NODE_INTERNAL)
    (d : Nat) (hdepth : g.level 0 < d) :
    Yields (create_new_root d t N >>= fun t7 =>
        get_page t7 (t7.size - 1) >>= fun t8 =>
          reparent_children (t7.size - 1) ((t8.page (t7.size - 1)).size + 1) 0 t8) (fun t' =>
      SameBody (t.page 0) (t'.page t.size)) := by
  obtain ⟨m, hm, _⟩ := h.mid
  apply (h.create_root d hdepth m hm).seq
  rintro t7 ⟨hcap, hsize, hfresh, h0, hL, hN, hp⟩
  have hsub : t7.size - 1 = t.size := by omega
  rw [hsub]
  obtain ⟨t8, e8, hs8, _⟩ := get_page_allocated t7 t.size (by omega) (by omega)
  simp only [e8, ok_bind]
  have hok := h.x_down.internal hty
  have hL8 : t8.page t.size = { t.page 0 with is_root := false, parent := 0 } := by
    rw [hs8.page, hL]
  have hch8 : ∀ k, internal_child_of (t8.page t.size) k = internal_child_of (t.page 0) k := by
    intro k; rw [hL8]; rfl
  have hsz8 : (t8.page t.size).size = (t.page 0).size := by rw [hL8]
  obtain ⟨t9, e9, h9size, h9fresh, h9in, h9out⟩ := reparent_children_spec t.size
    ((t8.page t.size).size + 1) 0 t8 (by rw [hs8.size]; omega)
    (by
      intro k _ hk
      rw [hch8, hs8.size, hsize]
      have := (hok.2.2 k (by omega)).1
      omega)
  apply Returns.yields
  refine ⟨t9, e9, ?_⟩
  have h9L : t9.page t.size = t7.page t.size := by
    rw [h9out t.size (by
      intro k _ hk
      rw [hch8]
      have := (hok.2.2 k (by omega)).1
      omega), hs8.page]
  show SameBody (t.page 0) (t9.page t.size)
  rw [h9L, hL]
  exact ⟨rfl, rfl, rfl, rfl, rfl⟩

/-- The second part of `internal_node_split_and_insert` leaves the bodies of
the pages below the split page alone, given that the insertion into the parent
leaves the bodies of the pages below the parent alone. -/
theorem internal_node_split_finish_frame (g : Ghost) (d : Nat) (t ts : Table) (q n j : Nat)
    (hr : InsertReady t g q n j) (hfull : (t.page q).size = INTERNAL_BRANCH_SIZE)
    (h : Halved t q ts) (hdepth : g.level 0 < d) (omk : KeyPtr)
    (hk1 : (t.page omk.page_index).type = NODE_LEAF) (hk2 : omk.page_index < t.size)
    (hk3 : Above (g.lo q) (t.key_at omk)) (hk4 : Below (t.key_at omk) (g.hi q))
    (rec_split : Table → Nat → Nat → Except Fault Table)
    (hrec : ∀ (g' : Ghost) (t' : Table) (n' j' : Nat),
      InsertReady t' g' (t.page q).parent n' j' → g'.level 0 = g.level 0 →
      g'.level (t.page q).parent = g.level q + 1 →
      Yields (internal_node_insert_with rec_split d t' (t.page q).parent n') (fun t'' =>
        t'.size ≤ t''.size ∧ ∀ p, p < t'.size → g'.level p < g'.level (t.page q).parent →
          SameBody (t'.page p) (t''.page p))) :
    Yields (internal_node_split_finish d rec_split ts q n omk (INTERNAL_LEFT_SPLIT_SIZE - 1)
        (t.page q).parent t.size) (fun t' =>
      t.size ≤ t'.size ∧ ∀ p, p < t.size → g.level p < g.level q →
        SameBody (t.page p) (t'.page p)) := by
  have hqN : q ≠ t.size := by have := hr.q_lt; omega
  have hqlev := hr.q_level
  have hnlev := hr.pending.n_level
  unfold internal_node_split_finish
  obtain ⟨t5, cmk, e5, t6, e6, hdone, h6size, h6body, h6q, h6N, h6par⟩ :=
    h.insert_child hr hfull d (by omega)
  simp only [e5, ok_bind, e6]
  have hgq := g.split_old q t.size (internal_key_of (t.page q) (INTERNAL_LEFT_SPLIT_SIZE - 1)) hqN
  have hgo := g.split_other q t.size (internal_key_of (t.page q) (INTERNAL_LEFT_SPLIT_SIZE - 1))
  by_cases hq0 : q = 0
  · subst hq0
    rw [if_pos (hdone.root rfl).1]
    apply (hdone.root_internal h6q d (by rw [hgq.1]; exact hdepth)).post
    rintro t' ⟨_, hsize, _, _, hbody⟩
    refine ⟨by omega, ?_⟩
    intro p hp hlev
    have hp0 : p ≠ 0 := by intro heq; rw [heq] at hlev; omega
    exact (h6body p hp0 (by omega)).chain (hbody p hp0 (by omega))
  · obtain ⟨hxup, _⟩ := hdone.inner hq0
    rw [if_neg (by rw [(hxup.of_ne_zero hq0).1]; simp)]
    have hkey : t6.key_at omk = t.key_at omk := by
      unfold Table.key_at
      rw [(h6body omk.page_index
        (by intro heq; rw [heq, hr.pending.type] at hk1; cases hk1) (by omega)).2.2.2.2]
    obtain ⟨t7, nmk, t8, t9, i, e7, e8, e9, hready, h9size, h9page⟩ := hdone.tail hq0 d
      (by rw [hgq.1]; omega) omk (by rw [hkey, hgq.2.1]; exact hk3) (by rw [hkey]; exact hk4)
    rw [h6par] at e8 e9 hready h9page
    simp only [e7, ok_bind, e8, e9]
    have hGlev : (g.split q t.size
        (internal_key_of (t.page q) (INTERNAL_LEFT_SPLIT_SIZE - 1))).level (t.page q).parent
        = g.level q + 1 := by
      have := hready.pending.n_level
      rw [(g.split_new q t.size _).1] at this
      exact this
    apply (hrec _ t9 t.size (i + 1) hready (hgo 0 (by have := hr.size_pos; omega)).1 hGlev).post
    rintro t' ⟨hsz, hfr⟩
    refine ⟨by omega, ?_⟩
    intro p hp hlev
    have hpq : p ≠ q := by intro heq; rw [heq] at hlev; omega
    have hpN : p ≠ t.size := by omega
    have hpG : p ≠ (t.page q).parent := by
      intro heq
      rw [← heq, (hgo p hpN).1] at hGlev
      omega
    have h1 := h6body p hpq hpN
    have h2 := hfr p (by omega) (by rw [hGlev, (hgo p hpN).1]; omega)
    rw [h9page p hpG] at h2
    exact h1.chain h2

/-- The insertion of a pending page into its parent leaves the bodies of the
pages below the parent alone, whether or not the parent has to be split. -/
theorem internal_node_insert_frame (d : Nat) :
    ∀ (fuel : Nat) (g : Ghost) (t : Table) (q n j : Nat),
      InsertReady t g q n j → g.level 0 < d → g.level 0 < g.level q + fuel →
      Yields (internal_node_insert_with (internal_node_split_and_insert d fuel) d t q n)
        (fun t' => t.size ≤ t'.size ∧ ∀ p, p < t.size → g.level p < g.level q →
          SameBody (t.page p) (t'.page p)) := by
  intro fuel
  induction fuel with
  | zero =>
    intro g t q n j hr hdepth hfuel
    have hqlev := hr.q_level
    omega
  | succ f ih =>
    intro g t q n j hr hdepth hfuel
    have hqlev := hr.q_level
    unfold internal_node_insert_with
    obtain ⟨t1, e1, hs1, _⟩ := get_page_allocated t q hr.q_lt hr.size_le
    simp only [e1, ok_bind]
    rw [hs1.page]
    have hr1 := hr.same_ready hs1
    by_cases hfull : (t.page q).size ≥ INTERNAL_BRANCH_SIZE
    · rw [if_pos hfull, internal_node_split_and_insert_eq]
      have hfull' : (t1.page q).size = INTERNAL_BRANCH_SIZE := by
        rw [hs1.page]
        have := hr.pending.size_le
        omega
      apply (internal_node_split_spec g d t1 q n j hr1 hfull' (by omega)).seq
      rintro ⟨ts, omk, mid, par, N⟩ ⟨r1, r2, r3, r4, r5, r6, r7, r8, r9, r10, r11, r12, r13, r14⟩
      dsimp only at r2 r3 r4 r5 r6 r7 r8 r9 r10 r11 r12 r13 r14 ⊢
      subst r4; subst r5; subst r6
      apply (internal_node_split_finish_frame g d t1 ts q n j hr1 hfull'
        ⟨r1, r2, r3, r7, r8, r9, r10⟩ hdepth omk r11 r12 r13 r14 _ ?_).post
      · rintro t' ⟨hsz, hfr⟩
        rw [hs1.size] at hsz hfr
        rw [hs1.page] at hfr
        exact ⟨hsz, hfr⟩
      · intro g' t' n' j' hr' hl0 hlG
        exact ih g' t' _ n' j' hr' (by omega) (by omega)
    · rw [if_neg hfull]
      have hnlev := hr.pending.n_level
      obtain ⟨t', e, hsize, _, hpage, hn, _⟩ :=
        internal_node_insert_raw_spec g d t1 q n j hr1.size_le hr1.q_lt hr1.n_lt hr1.n_ne_zero
          hr1.pending hr1.lower_pages (by omega) (by rw [hs1.page]; omega)
      apply Returns.yields
      refine ⟨t', e, by rw [hsize, hs1.size], ?_⟩
      intro p hp hlev
      have hpq : p ≠ q := by intro heq; rw [heq] at hlev; omega
      by_cases hpn : p = n
      · rw [hpn, hn, hs1.page]
        exact ⟨rfl, rfl, rfl, rfl, rfl⟩
      · rw [hpage p hpq hpn, hs1.page]
        exact SameBody.self _

/-! ## The two parts of a leaf split -/

theorem leaf_node_split_and_insert_eq (depth : Nat) (t : Table) (cursor : Cursor)
    (key value : Str) :
    leaf_node_split_and_insert depth t cursor key value =
      (leaf_node_split depth t cursor key value >>= fun r =>
        leaf_node_split_finish depth r.1 cursor.page_index r.2.1 r.2.2.1 r.2.2.2) := by
  conv => lhs; unfold leaf_node_split_and_insert
  unfold leaf_node_split leaf_node_split_finish
  simp only [bind_assoc, pure_bind]
  rfl

/-- The first part of a leaf split, for every full resident leaf and every
cursor into it: the two leaves with the record inserted into one of them. -/
theorem leaf_node_split_effect (t : Table) (c : Cursor) (k v : Str)
    (hpager : PagerOK t) (c1 : c.page_index < t.size)
    (c2 : (t.page c.page_index).type = NODE_LEAF) (c3 : t.pages c.page_index ≠ none)
    (hfull : (t.page c.page_index).size = LEAF_RECORD_SIZE) (d : Nat) (hdepth : 0 < d) :
    Yields (leaf_node_split d t c k v) (fun r =>
      t.size < TABLE_MAX_PAGES ∧
      r.2.1 = ⟨c.page_index, (t.page c.page_index).size - 1⟩ ∧
      r.2.2.1 = (t.page c.page_index).parent ∧ r.2.2.2 = t.size ∧
      r.1.size = t.size + 1 ∧ PagerOK r.1 ∧
      (∀ p, p ≠ c.page_index → p ≠ t.size → r.1.page p = t.page p) ∧
      ∃ pn, LeafRight (t.page c.page_index) pn ∧
        (c.cell_index ≤ LEAF_LEFT_SPLIT_SIZE →
          r.1.page c.page_index
            = leaf_insert (leaf_left (t.page c.page_index)) c.cell_index ⟨k, v⟩ ∧
          r.1.page t.size = pn) ∧
        (LEAF_LEFT_SPLIT_SIZE < c.cell_index →
          r.1.page c.page_index = leaf_left (t.page c.page_index) ∧
          r.1.page t.size = leaf_insert pn (c.cell_index - LEAF_LEFT_SPLIT_SIZE) ⟨k, v⟩)) := by
  have hxN : c.page_index ≠ t.size := by omega
  unfold leaf_node_split
  rw [page_by_cursor_resident t c c3]
  simp only [ok_bind]
  have hnew := get_page_new t hpager
  apply hnew.seq
  rintro t2 ⟨hlt, h2size, h2page, h2pages, h2res, _, _, h2fresh⟩
  simp only [write_page_same, write_write, write_page_ne _ _ _ _ hxN, h2page _ hxN]
  generalize hta : Table.write t2 t.size _ = ta
  have hasize : ta.size = t.size + 1 := by rw [← hta, write_size, h2size]
  have hafresh : PagerOK ta := by
    rw [← hta]; exact fresh_write _ _ _ (by omega) h2fresh
  have hap : ∀ p, p ≠ t.size → ta.page p = t.page p := by
    intro p hp; rw [← hta, write_page_ne _ _ _ _ hp, h2page p hp]
  have haN : (ta.page t.size).type = NODE_LEAF ∧ (ta.page t.size).is_root = false ∧
      (ta.page t.size).parent = (t.page c.page_index).parent := by
    rw [← hta, write_page_same]
    exact ⟨rfl, rfl, rfl⟩
  have hares : ta.pages c.page_index ≠ none := by
    rw [← hta, write_pages, if_neg hxN, h2pages _ hxN]; exact c3
  cases d with
  | zero => omega
  | succ d =>
  rw [recursive_max_key_of_leaf d ta c.page_index (by rw [hap _ hxN]; exact c2)
    (by rw [hap _ hxN, hfull]; unfold LEAF_RECORD_SIZE; omega)]
  simp only [ok_bind, write_page_same, write_write, write_page_ne _ _ _ _ hxN,
    write_page_ne _ _ _ _ hxN.symm, hap _ hxN]
  generalize htb : Table.write (Table.write (Table.write ta _ _) _ _) _ _ = tb
  have hbsize : tb.size = t.size + 1 := by rw [← htb]; simp only [write_size]; exact hasize
  have hbfresh : PagerOK tb := by
    rw [← htb]
    apply fresh_write _ _ _ (by simp only [write_size]; omega)
    apply fresh_write _ _ _ (by simp only [write_size]; omega)
    apply fresh_write _ _ _ (by omega)
    exact hafresh
  have hbx : tb.page c.page_index = leaf_left (t.page c.page_index) := by
    rw [← htb, write_page_ne _ _ _ _ hxN, write_page_same]
    rfl
  have hbN : LeafRight (t.page c.page_index) (tb.page t.size) := by
    rw [← htb, write_page_same]
    refine ⟨haN.1, haN.2.1, rfl, haN.2.2, ?_⟩
    intro i hi
    simp only [hi, if_true]
  have hbp : ∀ p, p ≠ c.page_index → p ≠ t.size → tb.page p = t.page p := by
    intro p h1 h2
    rw [← htb, write_page_ne _ _ _ _ h2, write_page_ne _ _ _ _ h1, write_page_ne _ _ _ _ h2,
      hap p h2]
  have hbres : tb.pages c.page_index ≠ none ∧ tb.pages t.size ≠ none := by
    rw [← htb]
    constructor
    · rw [write_pages, if_neg hxN, write_pages, if_pos rfl]; simp
    · rw [write_pages, if_pos rfl]; simp
  generalize hnc : Cursor.mk _ _ c.found = nc
  have hncA : c.cell_index ≤ LEAF_LEFT_SPLIT_SIZE →
      nc.page_index = c.page_index ∧ nc.cell_index = c.cell_index := by
    intro h
    rw [← hnc]
    have : ¬ c.cell_index > LEAF_LEFT_SPLIT_SIZE := by omega
    simp [this]
  have hncB : LEAF_LEFT_SPLIT_SIZE < c.cell_index →
      nc.page_index = t.size ∧ nc.cell_index = c.cell_index - LEAF_LEFT_SPLIT_SIZE := by
    intro h
    rw [← hnc]
    have : c.cell_index > LEAF_LEFT_SPLIT_SIZE := h
    simp [this]
  have hncres : tb.pages nc.page_index ≠ none := by
    by_cases h : c.cell_index ≤ LEAF_LEFT_SPLIT_SIZE
    · rw [(hncA h).1]; exact hbres.1
    · rw [(hncB (by omega)).1]; exact hbres.2
  have hnclt : nc.page_index < tb.size := by
    by_cases h : c.cell_index ≤ LEAF_LEFT_SPLIT_SIZE
    · rw [(hncA h).1]; omega
    · rw [(hncB (by omega)).1]; omega
  have hncroom : (tb.page nc.page_index).size < LEAF_RECORD_SIZE := by
    unfold LEAF_RECORD_SIZE
    by_cases h : c.cell_index ≤ LEAF_LEFT_SPLIT_SIZE
    · rw [(hncA h).1, hbx]
      show LEAF_LEFT_SPLIT_SIZE < 4
      unfold LEAF_LEFT_SPLIT_SIZE; omega
    · rw [(hncB (by omega)).1, hbN.2.2.1]
      unfold LEAF_RIGHT_SPLIT_SIZE; omega
  rw [leaf_node_insert_raw_eq tb nc k v hncres hncroom]
  simp only [ok_bind]
  generalize ht6 : Table.write tb nc.page_index _ = t6
  have h6size : t6.size = t.size + 1 := by rw [← ht6, write_size, hbsize]
  have h6fresh : PagerOK t6 := by rw [← ht6]; exact fresh_write _ _ _ hnclt hbfresh
  have h6A : c.cell_index ≤ LEAF_LEFT_SPLIT_SIZE →
      t6.page c.page_index = leaf_insert (leaf_left (t.page c.page_index)) c.cell_index ⟨k, v⟩ ∧
      t6.page t.size = tb.page t.size := by
    intro h
    obtain ⟨n1, n2⟩ := hncA h
    rw [← ht6, n1, n2, write_page_same, write_page_ne _ _ _ _ hxN.symm, hbx]
    exact ⟨rfl, rfl⟩
  have h6B : LEAF_LEFT_SPLIT_SIZE < c.cell_index →
      t6.page c.page_index = leaf_left (t.page c.page_index) ∧
      t6.page t.size = leaf_insert (tb.page t.size) (c.cell_index - LEAF_LEFT_SPLIT_SIZE)
        ⟨k, v⟩ := by
    intro h
    obtain ⟨n1, n2⟩ := hncB h
    rw [← ht6, n1, n2, write_page_same, write_page_ne _ _ _ _ hxN, hbx]
    exact ⟨rfl, rfl⟩
  have h6p : ∀ p, p ≠ c.page_index → p ≠ t.size → t6.page p = t.page p := by
    intro p h1 h2
    rw [← ht6, write_page_ne _ _ _ _ (by
      by_cases h : c.cell_index ≤ LEAF_LEFT_SPLIT_SIZE
      · rw [(hncA h).1]; exact h1
      · rw [(hncB (by omega)).1]; exact h2), hbp p h1 h2]
  show _ ∧ _
  refine ⟨hlt, ?_, ?_, rfl, h6size, h6fresh, h6p, tb.page t.size, hbN, h6A, h6B⟩
  · rw [hfull]
  · rfl

/-- The first part of a leaf split: the two leaves with the record inserted
into one of them. -/
theorem leaf_node_split_spec (g : Ghost) (t : Table) (c : Cursor) (k v : Str)
    (hinv : InvWith t g) (hc : CursorAt t g k c)
    (hfull : (t.page c.page_index).size = LEAF_RECORD_SIZE) (d : Nat) (hdepth : g.level 0 < d) :
    Yields (leaf_node_split d t c k v) (fun r =>
      t.size < TABLE_MAX_PAGES ∧
      r.2.1 = ⟨c.page_index, (t.page c.page_index).size - 1⟩ ∧
      r.2.2.1 = (t.page c.page_index).parent ∧ r.2.2.2 = t.size ∧
      r.1.size = t.size + 1 ∧ PagerOK r.1 ∧
      (∀ p, p ≠ c.page_index → p ≠ t.size → r.1.page p = t.page p) ∧
      ∃ pn, LeafRight (t.page c.page_index) pn ∧
        (c.cell_index ≤ LEAF_LEFT_SPLIT_SIZE →
          r.1.page c.page_index
            = leaf_insert (leaf_left (t.page c.page_index)) c.cell_index ⟨k, v⟩ ∧
          r.1.page t.size = pn) ∧
        (LEAF_LEFT_SPLIT_SIZE < c.cell_index →
          r.1.page c.page_index = leaf_left (t.page c.page_index) ∧
          r.1.page t.size = leaf_insert pn (c.cell_index - LEAF_LEFT_SPLIT_SIZE) ⟨k, v⟩)) := by
  exact leaf_node_split_effect t c k v hinv.2.2.1 hc.1 hc.2.1 hc.2.2.1 hfull d (by omega)

/-- The state after the first part of a leaf split. -/
theorem leaf_split_state {g : Ghost} {t : Table} {c : Cursor} {k v : Str}
    (hinv : InvWith t g) (hc : CursorAt t g k c) (hf : c.found = false)
    (hfull : (t.page c.page_index).size = LEAF_RECORD_SIZE) (t6 : Table)
    (hlt : t.size < TABLE_MAX_PAGES) (h6size : t6.size = t.size + 1) (h6fresh : PagerOK t6)
    (h6p : ∀ p, p ≠ c.page_index → p ≠ t.size → t6.page p = t.page p) (pn : Page)
    (hpn : LeafRight (t.page c.page_index) pn)
    (h6A : c.cell_index ≤ LEAF_LEFT_SPLIT_SIZE →
      t6.page c.page_index
        = leaf_insert (leaf_left (t.page c.page_index)) c.cell_index ⟨k, v⟩ ∧
      t6.page t.size = pn)
    (h6B : LEAF_LEFT_SPLIT_SIZE < c.cell_index →
      t6.page c.page_index = leaf_left (t.page c.page_index) ∧
      t6.page t.size = leaf_insert pn (c.cell_index - LEAF_LEFT_SPLIT_SIZE) ⟨k, v⟩) :
    SplitDone t6
      (g.split c.page_index t.size
        ((t6.page c.page_index).records ((t6.page c.page_index).size - 1)).key)
      c.page_index t.size (g.hi c.page_index) ∧
    (t6.page c.page_index).type = NODE_LEAF ∧
    (t6.page c.page_index).is_root = (t.page c.page_index).is_root ∧
    (t6.page c.page_index).parent = (t.page c.page_index).parent ∧
    (t6.page t.size).type = NODE_LEAF ∧
    LEAF_LEFT_SPLIT_SIZE ≤ (t6.page c.page_index).size ∧
    (t6.page c.page_index).records (LEAF_RECORD_SIZE - 1)
      = (t.page c.page_index).records (LEAF_RECORD_SIZE - 1) := by
  obtain ⟨c1, c2, c3, c4, c5, c6, c7⟩ := hc
  obtain ⟨c8, c9, c10⟩ := c7 hf
  have hl := ((hinv.2.2.2.2 _ c1).1.leaf c2).2.1
  have hpages := leaf_split_pages hl hfull c2 hpn c.cell_index k v c8 c9 c10 c4 c5 h6A h6B
  obtain ⟨hdone, _⟩ := leaf_split_done hinv c.page_index c1 c2 hlt h6size h6fresh h6p k v hpages
  obtain ⟨p1, p2, p3, p4, p5, p6, p7, p8, p9, p10, p11, p12⟩ := hpages
  exact ⟨hdone, p1, p2, p3, p4, p7, p9⟩

/-- The tail of a split of a page that is not the root, with the slot of the
page in its parent and the table after the update of the separator. -/
theorem SplitDone.update {t : Table} {g : Ghost} {x N : Nat} {hi_old : Option Str}
    (h : SplitDone t g x N hi_old) (hx0 : x ≠ 0) (d : Nat) (hdepth : g.level x < d)
    (omk : KeyPtr) (h1 : Above (g.lo x) (t.key_at omk)) (h2 : Below (t.key_at omk) hi_old) :
    ∃ t1 nmk t2 i m, recursive_max_key_of d t x = .ok (t1, nmk) ∧
      get_page t1 (t.page x).parent = .ok t2 ∧ Same t t2 ∧
      Hole t g (t.page x).parent x N i hi_old ∧ g.hi x = some m ∧ t.key_at nmk = m ∧
      internal_node_find_child (t.page (t.page x).parent) (t.key_at omk) = .ok i ∧
      update_internal_node_key t2 (t.page x).parent omk nmk =
        .ok (t2.write (t.page x).parent (set_internal_key (t.page (t.page x).parent) i m)) ∧
      InsertReady (t2.write (t.page x).parent (set_internal_key (t.page (t.page x).parent) i m))
        g (t.page x).parent N (i + 1) := by
  obtain ⟨hxup, hGup, hGapart, i, hole⟩ := h.inner hx0
  obtain ⟨m, hm, _⟩ := h.mid
  have hGlt : (t.page x).parent < t.size := (hxup.of_ne_zero hx0).2.2.1
  obtain ⟨⟨t1, nmk⟩, e1, hs1, _, _, _, _, _, hmax⟩ := recursive_max_key_of_spec g d t x h.size_le
    h.x_lt hdepth
    (fun p hp hlev => h.lower_done hx0 p hp (by
      intro heq
      have hGlev : g.level (t.page x).parent = g.level x + 1 := by
        have := (hole.child i hole.slot_le).2.2.2.2
        rw [hole.slot_child] at this
        exact this
      rw [heq] at hlev
      omega))
    (h.x_down.leaf_nonempty hx0)
  dsimp only at hs1 hmax
  obtain ⟨t2, e2, hs2, _⟩ := get_page_allocated t1 (t.page x).parent
    (by rw [hs1.size]; exact hGlt) (by rw [hs1.size]; exact h.size_le)
  have hs12 := hs1.trans hs2
  have hfind := hole.find_old h hx0 _ h1 h2
  refine ⟨t1, nmk, t2, i, m, e1, e2, hs12, hole, hm, hmax m hm, hfind, ?_, ?_⟩
  · unfold update_internal_node_key
    rw [key_at_same hs12, key_at_same hs12, hs12.page, hfind, hmax m hm]
    rfl
  · apply h.ready hx0 i hole m hm _ (by rw [write_size, hs12.size])
      (fresh_write _ _ _ (by rw [hs12.size]; exact hGlt) (hs12.fresh h.fresh))
    · intro p hp
      rw [write_page_ne _ _ _ _ hp, hs12.page]
    · rw [write_page_same]

/-! ## The result of a leaf split -/

theorem leaf_records_body {pg pg' : Page} (h : SameBody pg pg') :
    leaf_records pg' = leaf_records pg := by
  unfold leaf_records
  rw [h.2.1, h.2.2.2.2]

theorem leaf_records_full (px : Page) (hsz : px.size = LEAF_RECORD_SIZE) :
    leaf_records px = [px.records 0, px.records 1, px.records 2, px.records 3] := by
  unfold leaf_records
  rw [hsz]
  rfl

/-- The records of the two leaves of a split are the records of the full leaf
with the new record inserted at the cursor. -/
theorem leaf_split_records (px pn : Page) (hsz : px.size = LEAF_RECORD_SIZE)
    (hpn : LeafRight px pn) (cell : Nat) (hcell : cell ≤ LEAF_RECORD_SIZE) (r : Record) :
    (cell ≤ LEAF_LEFT_SPLIT_SIZE →
      leaf_records (leaf_insert (leaf_left px) cell r) ++ leaf_records pn
        = insert_at (leaf_records px) cell r) ∧
    (LEAF_LEFT_SPLIT_SIZE < cell →
      leaf_records (leaf_left px) ++ leaf_records (leaf_insert pn (cell - LEAF_LEFT_SPLIT_SIZE) r)
        = insert_at (leaf_records px) cell r) := by
  obtain ⟨_, _, hnsz, _, hrec⟩ := hpn
  have h0 : pn.records 0 = px.records 2 := hrec 0 (by unfold LEAF_RIGHT_SPLIT_SIZE; omega)
  have h1 : pn.records 1 = px.records 3 := hrec 1 (by unfold LEAF_RIGHT_SPLIT_SIZE; omega)
  have hn : leaf_records pn = [px.records 2, px.records 3] := by
    unfold leaf_records
    rw [hnsz, ← h0, ← h1]
    rfl
  rw [leaf_records_full px hsz]
  unfold LEAF_RECORD_SIZE at hcell
  unfold LEAF_LEFT_SPLIT_SIZE
  constructor
  · intro hc
    rw [hn]
    have hl : (leaf_insert (leaf_left px) cell r).size = 3 := rfl
    unfold leaf_records
    rw [hl]
    interval_cases cell <;>
      simp [leaf_insert, leaf_left, insert_at, List.range, List.range.loop,
        LEAF_LEFT_SPLIT_SIZE]
  · intro hc
    have hl : (leaf_insert pn (cell - 2) r).size = 3 := by
      show pn.size + 1 = 3
      rw [hnsz]
      rfl
    have hl2 : leaf_records (leaf_left px) = [px.records 0, px.records 1] := rfl
    rw [hl2]
    unfold leaf_records
    rw [hl]
    interval_cases cell <;>
      simp [leaf_insert, insert_at, List.range, List.range.loop, h0, h1, hnsz,
        LEAF_RIGHT_SPLIT_SIZE]

/-- The two leaves of a split with the record inserted into one of them. -/
theorem leaf_split_placement (px pn : Page) (hsz : px.size = LEAF_RECORD_SIZE)
    (hpn : LeafRight px pn) (cell : Nat) (hcell : cell ≤ LEAF_RECORD_SIZE) (r : Record)
    (qx qn : Page)
    (hA : cell ≤ LEAF_LEFT_SPLIT_SIZE → qx = leaf_insert (leaf_left px) cell r ∧ qn = pn)
    (hB : LEAF_LEFT_SPLIT_SIZE < cell →
      qx = leaf_left px ∧ qn = leaf_insert pn (cell - LEAF_LEFT_SPLIT_SIZE) r) :
    leaf_records qx ++ leaf_records qn = insert_at (leaf_records px) cell r ∧
    (LEAF_LEFT_SPLIT_SIZE < cell →
      qn.records (cell - LEAF_LEFT_SPLIT_SIZE) = r ∧ qx.size = LEAF_LEFT_SPLIT_SIZE ∧
      qn.size = LEAF_RIGHT_SPLIT_SIZE + 1) ∧
    (cell ≤ LEAF_LEFT_SPLIT_SIZE →
      qx.records cell = r ∧ qx.size = LEAF_LEFT_SPLIT_SIZE + 1 ∧
      qn.size = LEAF_RIGHT_SPLIT_SIZE) := by
  obtain ⟨hrecA, hrecB⟩ := leaf_split_records px pn hsz hpn cell hcell r
  refine ⟨?_, ?_, ?_⟩
  · by_cases h : cell ≤ LEAF_LEFT_SPLIT_SIZE
    · rw [(hA h).1, (hA h).2]
      exact hrecA h
    · rw [(hB (by omega)).1, (hB (by omega)).2]
      exact hrecB (by omega)
  · intro h
    rw [(hB h).1, (hB h).2]
    refine ⟨by simp [leaf_insert], rfl, ?_⟩
    show pn.size + 1 = _
    rw [hpn.2.2.1]
  · intro h
    rw [(hA h).1, (hA h).2]
    exact ⟨by simp [leaf_insert], rfl, hpn.2.2.1⟩

/-- The first part of `leaf_node_split_and_insert` on a full leaf, for every
cell index up to `LEAF_RECORD_SIZE`: the records of the two leaves. -/
theorem leaf_split_insert_halves (d : Nat) (t : Table) (c : Cursor) (k v : Str)
    (hpager : PagerOK t) (hx : c.page_index < t.size) (hres : t.pages c.page_index ≠ none)
    (hty : (t.page c.page_index).type = NODE_LEAF)
    (hfull : (t.page c.page_index).size = LEAF_RECORD_SIZE)
    (hcell : c.cell_index ≤ LEAF_RECORD_SIZE) (hd : 0 < d) :
    leaf_node_split d t c k v = .error .exit ∨
    ∃ t6 old_max,
      leaf_node_split d t c k v = .ok (t6, old_max, (t.page c.page_index).parent, t.size) ∧
      (t6.page c.page_index).type = NODE_LEAF ∧ (t6.page t.size).type = NODE_LEAF ∧
      leaf_records (t6.page c.page_index) ++ leaf_records (t6.page t.size)
        = insert_at (leaf_records (t.page c.page_index)) c.cell_index ⟨k, v⟩ ∧
      (LEAF_LEFT_SPLIT_SIZE < c.cell_index →
        (t6.page t.size).records (c.cell_index - LEAF_LEFT_SPLIT_SIZE) = ⟨k, v⟩ ∧
        (t6.page c.page_index).size = LEAF_LEFT_SPLIT_SIZE ∧
        (t6.page t.size).size = LEAF_RIGHT_SPLIT_SIZE + 1) ∧
      (c.cell_index ≤ LEAF_LEFT_SPLIT_SIZE →
        (t6.page c.page_index).records c.cell_index = ⟨k, v⟩ ∧
        (t6.page c.page_index).size = LEAF_LEFT_SPLIT_SIZE + 1 ∧
        (t6.page t.size).size = LEAF_RIGHT_SPLIT_SIZE) := by
  rcases yields_cases (leaf_node_split_effect t c k v hpager hx hty hres hfull d hd) with
    he | ⟨⟨t6, omk, P, N⟩, e6, _, _, r2, r3, _, _, _, pn, hpn, h6A, h6B⟩
  · exact Or.inl he
  dsimp only at r2 r3 h6A h6B
  subst r2; subst r3
  obtain ⟨h1, h2, h3⟩ := leaf_split_placement (t.page c.page_index) pn hfull hpn c.cell_index hcell
    ⟨k, v⟩ (t6.page c.page_index) (t6.page t.size) h6A h6B
  refine Or.inr ⟨t6, omk, e6, ?_, ?_, h1, h2, h3⟩
  · by_cases h : c.cell_index ≤ LEAF_LEFT_SPLIT_SIZE
    · rw [(h6A h).1]; exact hty
    · rw [(h6B (by omega)).1]; exact hty
  · by_cases h : c.cell_index ≤ LEAF_LEFT_SPLIT_SIZE
    · rw [(h6A h).2]; exact hpn.1
    · rw [(h6B (by omega)).2]; exact hpn.1

/-- C15 (leaf split-insert result).  First part: for every table with a full
resident leaf, every cell index from 0 to `LEAF_RECORD_SIZE` and every key and
value, the part of `leaf_node_split_and_insert` that splits the leaf and inserts
the record ends with the fatal exit (of the page cap) or returns, and then the
records of the old leaf followed by the records of the new leaf, the page at
the old page count, are the records of the full leaf with the new record
inserted at the cell index.  The new record lies in the new leaf at
`cell_index - LEAF_LEFT_SPLIT_SIZE` exactly when
`cell_index > LEAF_LEFT_SPLIT_SIZE`, and otherwise in the old leaf at
`cell_index`; the leaf that received it has one record more than its half, so
for `cell_index = LEAF_LEFT_SPLIT_SIZE` the record is the last one of the old
leaf.  Second part: in a reachable state, at the cursor `table_find` returns for
a key that is not stored, the whole of `leaf_node_split_and_insert` ends with
the fatal exit or returns, and the same holds of the two leaves in the state it
returns.  The old leaf is found at its index, unless it was the root: then root
creation has moved it to the page after the new leaf. -/
theorem leaf_split_insert_result :
    (∀ (d : Nat) (t : Table) (c : Cursor) (k v : Str),
      PagerOK t → c.page_index < t.size → t.pages c.page_index ≠ none →
      (t.page c.page_index).type = NODE_LEAF →
      (t.page c.page_index).size = LEAF_RECORD_SIZE →
      c.cell_index ≤ LEAF_RECORD_SIZE → 0 < d →
      leaf_node_split d t c k v = .error .exit ∨
      ∃ t6 old_max,
        leaf_node_split d t c k v = .ok (t6, old_max, (t.page c.page_index).parent, t.size) ∧
        (t6.page c.page_index).type = NODE_LEAF ∧ (t6.page t.size).type = NODE_LEAF ∧
        leaf_records (t6.page c.page_index) ++ leaf_records (t6.page t.size)
          = insert_at (leaf_records (t.page c.page_index)) c.cell_index ⟨k, v⟩ ∧
        (LEAF_LEFT_SPLIT_SIZE < c.cell_index →
          (t6.page t.size).records (c.cell_index - LEAF_LEFT_SPLIT_SIZE) = ⟨k, v⟩ ∧
          (t6.page c.page_index).size = LEAF_LEFT_SPLIT_SIZE ∧
          (t6.page t.size).size = LEAF_RIGHT_SPLIT_SIZE + 1) ∧
        (c.cell_index ≤ LEAF_LEFT_SPLIT_SIZE →
          (t6.page c.page_index).records c.cell_index = ⟨k, v⟩ ∧
          (t6.page c.page_index).size = LEAF_LEFT_SPLIT_SIZE + 1 ∧
          (t6.page t.size).size = LEAF_RIGHT_SPLIT_SIZE)) ∧
    (∀ (t : Table) (k v : Str) (t1 : Table) (c : Cursor),
      Reachable t → table_find t k = .ok (t1, c) → c.found = false →
      (t1.page c.page_index).size = LEAF_RECORD_SIZE →
      leaf_node_split_and_insert t.size t1 c k v = .error .exit ∨
      ∃ t' L, leaf_node_split_and_insert t.size t1 c k v = .ok t' ∧
        L = (if (t1.page c.page_index).is_root then t1.size + 1 else c.page_index) ∧
        c.cell_index ≤ LEAF_RECORD_SIZE ∧
        (t'.page L).type = NODE_LEAF ∧ (t'.page t1.size).type = NODE_LEAF ∧
        leaf_records (t'.page L) ++ leaf_records (t'.page t1.size)
          = insert_at (leaf_records (t1.page c.page_index)) c.cell_index ⟨k, v⟩ ∧
        (LEAF_LEFT_SPLIT_SIZE < c.cell_index →
          (t'.page t1.size).records (c.cell_index - LEAF_LEFT_SPLIT_SIZE) = ⟨k, v⟩ ∧
          (t'.page L).size = LEAF_LEFT_SPLIT_SIZE ∧
          (t'.page t1.size).size = LEAF_RIGHT_SPLIT_SIZE + 1) ∧
        (c.cell_index ≤ LEAF_LEFT_SPLIT_SIZE →
          (t'.page L).records c.cell_index = ⟨k, v⟩ ∧
          (t'.page L).size = LEAF_LEFT_SPLIT_SIZE + 1 ∧
          (t'.page t1.size).size = LEAF_RIGHT_SPLIT_SIZE)) := by
  refine ⟨leaf_split_insert_halves, ?_⟩
  intro t k v t1 c h hfind hnew hfull
  obtain ⟨g, hg⟩ := (reachable_inv h).1
  obtain ⟨⟨t1', c'⟩, e1, hs1, hc⟩ := table_find_spec g t k hg
  rw [hfind] at e1
  cases e1
  dsimp only at hs1 hc
  have hg1 := hg.same_inv hs1 g
  have hdepth : g.level 0 < t.size := hg.2.2.2.1
  have hcell : c.cell_index ≤ LEAF_RECORD_SIZE := by
    have := (hc.2.2.2.2.2.2 hnew).1
    omega
  have hx : c.page_index < t1.size := hc.1
  have hxN : c.page_index ≠ t1.size := by omega
  have hxty : (t1.page c.page_index).type = NODE_LEAF := hc.2.1
  have hxlev : g.level c.page_index = 0 := ((hg1.2.2.2.2 _ hx).1.leaf hxty).1
  rw [leaf_node_split_and_insert_eq]
  rcases yields_cases (leaf_node_split_spec g t1 c k v hg1 hc hfull t.size hdepth) with
    he | ⟨⟨t6, omk, P, N⟩, e6, hlt, r1, r2, r3, h6size, h6fresh, h6p, pn, hpn, h6A, h6B⟩
  · left
    rw [he]
    rfl
  dsimp only at r1 r2 r3 h6size h6fresh h6p h6A h6B
  subst r1; subst r2; subst r3
  rw [e6]
  simp only [ok_bind]
  obtain ⟨hdone, p1, p2, p3, p4, p7, p9⟩ :=
    leaf_split_state hg1 hc hnew hfull t6 hlt h6size h6fresh h6p pn hpn h6A h6B
  obtain ⟨h6rec, h6B', h6A'⟩ := leaf_split_placement (t1.page c.page_index) pn hfull hpn c.cell_index
    hcell ⟨k, v⟩ (t6.page c.page_index) (t6.page t1.size) h6A h6B
  -- the two leaves are not touched afterwards
  have hfinal : ∀ (t' : Table) (L : Nat), SameBody (t6.page c.page_index) (t'.page L) →
      SameBody (t6.page t1.size) (t'.page t1.size) →
      (t'.page L).type = NODE_LEAF ∧ (t'.page t1.size).type = NODE_LEAF ∧
      leaf_records (t'.page L) ++ leaf_records (t'.page t1.size)
        = insert_at (leaf_records (t1.page c.page_index)) c.cell_index ⟨k, v⟩ ∧
      (LEAF_LEFT_SPLIT_SIZE < c.cell_index →
        (t'.page t1.size).records (c.cell_index - LEAF_LEFT_SPLIT_SIZE) = ⟨k, v⟩ ∧
        (t'.page L).size = LEAF_LEFT_SPLIT_SIZE ∧
        (t'.page t1.size).size = LEAF_RIGHT_SPLIT_SIZE + 1) ∧
      (c.cell_index ≤ LEAF_LEFT_SPLIT_SIZE →
        (t'.page L).records c.cell_index = ⟨k, v⟩ ∧
        (t'.page L).size = LEAF_LEFT_SPLIT_SIZE + 1 ∧
        (t'.page t1.size).size = LEAF_RIGHT_SPLIT_SIZE) := by
    intro t' L bL bN
    refine ⟨by rw [bL.1]; exact p1, by rw [bN.1]; exact p4, ?_, ?_, ?_⟩
    · rw [leaf_records_body bL, leaf_records_body bN]
      exact h6rec
    · intro hB
      rw [bL.2.1, bN.2.1, bN.2.2.2.2]
      exact h6B' hB
    · intro hA
      rw [bL.2.1, bN.2.1, bL.2.2.2.2]
      exact h6A' hA
  have hgx := g.split_old c.page_index t1.size
    ((t6.page c.page_index).records ((t6.page c.page_index).size - 1)).key hxN
  have hgo := g.split_other c.page_index t1.size
    ((t6.page c.page_index).records ((t6.page c.page_index).size - 1)).key
  have hgN := g.split_new c.page_index t1.size
    ((t6.page c.page_index).records ((t6.page c.page_index).size - 1)).key
  unfold leaf_node_split_finish
  by_cases hx0 : c.page_index = 0
  · have hroot : (t6.page c.page_index).is_root = true := by
      rw [hx0]; exact (hdone.root hx0).1
    have hroot1 : (t1.page c.page_index).is_root = true := by rw [← p2]; exact hroot
    rw [if_pos hroot, hroot1]
    have hg0 := (hgo 0 (by omega)).1
    rw [hx0] at hdone p1 p7 hg0
    rcases yields_cases (hdone.root_leaf p1 p7 t.size (by rw [hg0]; exact hdepth)) with
      he | ⟨t', e, _, hsize', _, hL', hbody'⟩
    · exact Or.inl he
    · right
      refine ⟨t', t1.size + 1, e, by simp, hcell, ?_⟩
      rw [h6size] at hL'
      apply hfinal t' (t1.size + 1)
      · rw [hx0]; exact hL'
      · exact hbody' t1.size (by omega) (by omega)
  · obtain ⟨hxup, _⟩ := hdone.inner hx0
    have hnroot : (t6.page c.page_index).is_root = false := (hxup.of_ne_zero hx0).1
    have hnroot1 : (t1.page c.page_index).is_root = false := by rw [← p2]; exact hnroot
    rw [if_neg (by rw [hnroot]; simp), hnroot1]
    have hl := ((hg1.2.2.2.2 _ hx).1.leaf hxty).2.1
    have hkey : t6.key_at ⟨c.page_index, (t1.page c.page_index).size - 1⟩
        = ((t1.page c.page_index).records (LEAF_RECORD_SIZE - 1)).key := by
      unfold Table.key_at
      simp only
      rw [hfull, p9]
    obtain ⟨t7, nmk, t8, t9, i, e7, e8, e9, hready, h9size, h9page⟩ := hdone.tail hx0 t.size
      (by rw [hgx.1, hxlev]; omega) ⟨c.page_index, (t1.page c.page_index).size - 1⟩
      (by
        rw [hkey, hgx.2.1]
        exact hl.2.2.1 _ (by rw [hfull]; unfold LEAF_RECORD_SIZE; omega))
      (by
        rw [hkey]
        intro u hu
        have := (hl.2.2.2 u hu).2
        rw [hfull] at this
        rw [this])
    rw [p3] at e8 e9 hready h9page
    simp only [e7, ok_bind, e8, e9]
    unfold internal_node_insert
    have hGlev := hready.pending.n_level
    rw [hgN.1, hxlev] at hGlev
    rcases yields_cases (internal_node_insert_frame t.size t.size _ t9 _ t1.size (i + 1) hready
      (by rw [(hgo 0 (by omega)).1]; exact hdepth)
      (by rw [(hgo 0 (by omega)).1]; omega)) with he | ⟨t', e, _, hfr⟩
    · exact Or.inl he
    · right
      refine ⟨t', c.page_index, e, by simp, hcell, ?_⟩
      have hxP : c.page_index ≠ (t1.page c.page_index).parent := by
        intro heq
        rw [← heq, hgx.1, hxlev] at hGlev
        omega
      have hNP : t1.size ≠ (t1.page c.page_index).parent := by
        intro heq
        rw [← heq, hgN.1, hxlev] at hGlev
        omega
      apply hfinal t' c.page_index
      · have := hfr c.page_index (by omega) (by rw [hGlev, hgx.1, hxlev]; omega)
        rw [h9page _ hxP] at this
        exact this
      · have := hfr t1.size (by omega) (by rw [hGlev, hgN.1, hxlev]; omega)
        rw [h9page _ hNP] at this
        exact this

/-! ## The separator of a split leaf -/

/-- A split of a leaf that is not the root, up to the update of the separator
in the parent: the slot of the leaf in the parent, the keys behind the two
key pointers, the page that `update_internal_node_key` writes, and the state
in which the new page is then inserted into the parent. -/
theorem leaf_split_update (g : Ghost) (t : Table) (c : Cursor) (k v : Str)
    (hinv : InvWith t g) (hc : CursorAt t g k c) (hf : c.found = false)
    (hfull : (t.page c.page_index).size = LEAF_RECORD_SIZE) (hx0 : c.page_index ≠ 0)
    (d : Nat) (hdepth : g.level 0 < d) :
    leaf_node_split d t c k v = .error .exit ∨
    ∃ t6 t7 new_max t8 i g2,
      leaf_node_split d t c k v
        = .ok (t6, ⟨c.page_index, (t.page c.page_index).size - 1⟩,
            (t.page c.page_index).parent, t.size) ∧
      (t6.page c.page_index).is_root = false ∧
      recursive_max_key_of d t6 c.page_index = .ok (t7, new_max) ∧
      get_page t7 (t.page c.page_index).parent = .ok t8 ∧
      t8.page (t.page c.page_index).parent = t.page (t.page c.page_index).parent ∧
      t8.key_at ⟨c.page_index, (t.page c.page_index).size - 1⟩
        = ((t.page c.page_index).records (LEAF_RECORD_SIZE - 1)).key ∧
      t8.key_at new_max
        = ((t6.page c.page_index).records ((t6.page c.page_index).size - 1)).key ∧
      i ≤ (t.page (t.page c.page_index).parent).size ∧
      internal_child_of (t.page (t.page c.page_index).parent) i = c.page_index ∧
      (i < (t.page (t.page c.page_index).parent).size →
        internal_key_of (t.page (t.page c.page_index).parent) i
          = ((t.page c.page_index).records (LEAF_RECORD_SIZE - 1)).key) ∧
      (i = (t.page (t.page c.page_index).parent).size →
        ∀ j, j < (t.page (t.page c.page_index).parent).size →
          internal_key_of (t.page (t.page c.page_index).parent) j
            < ((t.page c.page_index).records (LEAF_RECORD_SIZE - 1)).key) ∧
      update_internal_node_key t8 (t.page c.page_index).parent
          ⟨c.page_index, (t.page c.page_index).size - 1⟩ new_max
        = .ok (t8.write (t.page c.page_index).parent
            (set_internal_key (t.page (t.page c.page_index).parent) i (t8.key_at new_max))) ∧
      InsertReady (t8.write (t.page c.page_index).parent
          (set_internal_key (t.page (t.page c.page_index).parent) i (t8.key_at new_max)))
        g2 (t.page c.page_index).parent t.size (i + 1) ∧
      g2.level 0 = g.level 0 ∧ t8.size = t.size + 1 := by
  have hx : c.page_index < t.size := hc.1
  have hxN : c.page_index ≠ t.size := by omega
  have hxty : (t.page c.page_index).type = NODE_LEAF := hc.2.1
  have hxlev : g.level c.page_index = 0 := ((hinv.2.2.2.2 _ hx).1.leaf hxty).1
  have hl := ((hinv.2.2.2.2 _ hx).1.leaf hxty).2.1
  rcases yields_cases (leaf_node_split_spec g t c k v hinv hc hfull d hdepth) with
    he | ⟨⟨t6, omk, P, N⟩, e6, hlt, r1, r2, r3, h6size, h6fresh, h6p, pn, hpn, h6A, h6B⟩
  · exact Or.inl he
  dsimp only at r1 r2 r3 h6size h6fresh h6p h6A h6B
  subst r1; subst r2; subst r3
  right
  obtain ⟨hdone, p1, p2, p3, p4, p7, p9⟩ :=
    leaf_split_state hinv hc hf hfull t6 hlt h6size h6fresh h6p pn hpn h6A h6B
  have hgx := g.split_old c.page_index t.size
    ((t6.page c.page_index).records ((t6.page c.page_index).size - 1)).key hxN
  have hgo := g.split_other c.page_index t.size
    ((t6.page c.page_index).records ((t6.page c.page_index).size - 1)).key
  obtain ⟨hxup, _⟩ := hdone.inner hx0
  have hkey : t6.key_at ⟨c.page_index, (t.page c.page_index).size - 1⟩
      = ((t.page c.page_index).records (LEAF_RECORD_SIZE - 1)).key := by
    unfold Table.key_at
    simp only
    rw [hfull, p9]
  have hlast : 0 < LEAF_RECORD_SIZE := by unfold LEAF_RECORD_SIZE; omega
  have hab : Above (g.lo c.page_index)
      ((t.page c.page_index).records (LEAF_RECORD_SIZE - 1)).key :=
    hl.2.2.1 _ (by rw [hfull]; unfold LEAF_RECORD_SIZE; omega)
  obtain ⟨t7, nmk, t8, i, m, e7, e8, hs8, hole, hm, hnm, hfind, eupd, hready⟩ :=
    hdone.update hx0 d (by rw [hgx.1, hxlev]; omega)
      ⟨c.page_index, (t.page c.page_index).size - 1⟩
      (by rw [hkey, hgx.2.1]; exact hab)
      (by
        rw [hkey]
        intro u hu
        have := (hl.2.2.2 u hu).2
        rw [hfull] at this
        rw [this])
  rw [p3] at e8 hole hfind eupd hready
  have hPlt : (t.page c.page_index).parent < t.size := by
    have := (hxup.of_ne_zero hx0).2.2.1
    rw [p3, h6size] at this
    have hPty := hole.type
    by_contra hge
    have hPN : (t.page c.page_index).parent = t.size := by omega
    rw [hPN, p4] at hPty
    cases hPty
  have hPx : (t.page c.page_index).parent ≠ c.page_index := by
    intro heq
    have hPty := hole.type
    rw [heq, p1] at hPty
    cases hPty
  have h6P : t6.page (t.page c.page_index).parent = t.page (t.page c.page_index).parent :=
    h6p _ hPx (by omega)
  rw [h6P] at hfind eupd hready
  have hmkey : m = ((t6.page c.page_index).records ((t6.page c.page_index).size - 1)).key := by
    have := hgx.2.2
    rw [hm] at this
    cases this
    rfl
  have hnm8 : t8.key_at nmk = m := by rw [key_at_same hs8, hnm]
  rw [← hnm8] at eupd hready
  refine ⟨t6, t7, nmk, t8, i, _, e6, (hxup.of_ne_zero hx0).1, e7, e8, by rw [hs8.page, h6P],
    by rw [key_at_same hs8, hkey], by rw [hnm8, hmkey], by rw [← h6P]; exact hole.slot_le,
    by rw [← h6P]; exact hole.slot_child, ?_, ?_,
    eupd, hready, (hgo 0 (by omega)).1, by rw [hs8.size, h6size]⟩
  · intro hi
    have h1 := hole.slot_hi
    rw [h6P] at h1
    unfold upper_bound_of at h1
    rw [if_pos hi] at h1
    have := (hl.2.2.2 _ h1.symm).2
    rw [hfull] at this
    exact this.symm
  · intro hi j hj
    have hpos := hole.size_pos
    have h1 := hole.lo i hole.slot_le
    rw [hole.slot_child, hgx.2.1, h6P] at h1
    rw [h6P] at hpos
    unfold lower_bound_of at h1
    rw [if_neg (by omega)] at h1
    have h2 := hab _ h1
    have h3 := Hole.sorted_le_hole hdone hx0 (by rw [p3]; exact hole) j (i - 1) (by omega)
      (by rw [p3, h6P]; omega)
    rw [p3, h6P] at h3
    exact lt_of_le_of_lt h3 h2

/-- C16 (separator update), as the code has it by design.  In a reachable
state let `table_find` of a key that is not stored return a cursor into a full
leaf that is not the root.  Unless the allocation of the new leaf ends with
the fatal exit, `leaf_node_split_and_insert` reaches the call of
`update_internal_node_key` with the parent page untouched, `old_max_key`
reading the maximum key the leaf had before the split and `new_max_key` the
maximum key of the left leaf, and the call returns; then the new page is
inserted into the parent.  The leaf is the child in one slot `i` of the
parent, a branch slot or the rightmost one.  In a branch slot the separator
of that branch equals the old maximum, and the call rewrites exactly that
separator to the new maximum and nothing else of the parent.  In the
rightmost slot the leaf has no separator: every separator of the parent is
smaller than the old maximum, and the call leaves the header, the size, the
rightmost child and every branch of the parent as they were.  The call
changes no other page and not the page count. -/
theorem separator_update (t : Table) (h : Reachable t) (k v : Str) (t1 : Table)
    (c : Cursor) (hfind : table_find t k = .ok (t1, c)) (hnew : c.found = false)
    (hfull : (t1.page c.page_index).size = LEAF_RECORD_SIZE)
    (hnonroot : (t1.page c.page_index).is_root = false) :
    leaf_node_split t.size t1 c k v = .error .exit ∨
    ∃ t6 old_max t7 new_max t8 i t9,
      leaf_node_split t.size t1 c k v
        = .ok (t6, old_max, (t1.page c.page_index).parent, t1.size) ∧
      recursive_max_key_of t.size t6 c.page_index = .ok (t7, new_max) ∧
      get_page t7 (t1.page c.page_index).parent = .ok t8 ∧
      update_internal_node_key t8 (t1.page c.page_index).parent old_max new_max = .ok t9 ∧
      leaf_node_split_and_insert t.size t1 c k v
        = internal_node_insert t.size t.size t9 (t1.page c.page_index).parent t1.size ∧
      t8.page (t1.page c.page_index).parent = t1.page (t1.page c.page_index).parent ∧
      t8.key_at old_max = ((t1.page c.page_index).records (LEAF_RECORD_SIZE - 1)).key ∧
      t8.key_at new_max
        = ((t6.page c.page_index).records ((t6.page c.page_index).size - 1)).key ∧
      i ≤ (t8.page (t1.page c.page_index).parent).size ∧
      internal_child_of (t8.page (t1.page c.page_index).parent) i = c.page_index ∧
      t9.size = t8.size ∧
      (∀ p, p ≠ (t1.page c.page_index).parent → t9.page p = t8.page p) ∧
      (i < (t8.page (t1.page c.page_index).parent).size →
        internal_key_of (t8.page (t1.page c.page_index).parent) i = t8.key_at old_max ∧
        internal_key_of (t9.page (t1.page c.page_index).parent) i = t8.key_at new_max ∧
        t9.page (t1.page c.page_index).parent
          = set_internal_key (t8.page (t1.page c.page_index).parent) i (t8.key_at new_max)) ∧
      (i = (t8.page (t1.page c.page_index).parent).size →
        (∀ j, j < (t8.page (t1.page c.page_index).parent).size →
          strcmp (internal_key_of (t8.page (t1.page c.page_index).parent) j)
            (t8.key_at old_max) < 0) ∧
        (t9.page (t1.page c.page_index).parent).type
          = (t8.page (t1.page c.page_index).parent).type ∧
        (t9.page (t1.page c.page_index).parent).is_root
          = (t8.page (t1.page c.page_index).parent).is_root ∧
        (t9.page (t1.page c.page_index).parent).size
          = (t8.page (t1.page c.page_index).parent).size ∧
        (t9.page (t1.page c.page_index).parent).parent
          = (t8.page (t1.page c.page_index).parent).parent ∧
        (t9.page (t1.page c.page_index).parent).rightmost
          = (t8.page (t1.page c.page_index).parent).rightmost ∧
        ∀ j, j < (t8.page (t1.page c.page_index).parent).size →
          (t9.page (t1.page c.page_index).parent).branches j
            = (t8.page (t1.page c.page_index).parent).branches j) := by
  obtain ⟨g, hg⟩ := (reachable_inv h).1
  obtain ⟨⟨t1', c'⟩, e1, hs1, hc⟩ := table_find_spec g t k hg
  rw [hfind] at e1
  cases e1
  dsimp only at hs1 hc
  have hg1 := hg.same_inv hs1 g
  have hx0 : c.page_index ≠ 0 := by
    intro heq
    have := ((hg1.2.2.2.2 0 hg1.1).2.of_zero).1
    rw [heq, this] at hnonroot
    cases hnonroot
  rcases leaf_split_update g t1 c k v hg1 hc hnew hfull hx0 t.size hg.2.2.2.1 with
    he | ⟨t6, t7, nmk, t8, i, g2, e6, hroot6, e7, e8, hP, hk1, hk2, hi, hci, hlt, heq, eupd, _⟩
  · exact Or.inl he
  right
  rw [← hP] at eupd
  refine ⟨t6, _, t7, nmk, t8, i, _, e6, e7, e8, eupd, ?_, hP, hk1, hk2, by rw [hP]; exact hi,
    by rw [hP]; exact hci, by rw [write_size], ?_, ?_, ?_⟩
  · rw [leaf_node_split_and_insert_eq, e6]
    simp only [ok_bind]
    unfold leaf_node_split_finish
    rw [if_neg (by rw [hroot6]; simp)]
    simp only [e7, ok_bind, e8, eupd]
  · intro p hp
    rw [write_page_ne _ _ _ _ hp]
  · intro hi'
    refine ⟨?_, ?_, by rw [write_page_same]⟩
    · rw [hP] at hi' ⊢
      rw [hk1]
      exact hlt hi'
    · rw [write_page_same]
      unfold set_internal_key internal_key_of
      simp
  · intro hi'
    refine ⟨?_, ?_⟩
    · intro j hj
      rw [hP] at hi' hj ⊢
      rw [hk1]
      exact (strcmp_lt_iff _ _).2 (heq hi' j hj)
    · rw [write_page_same]
      refine ⟨rfl, rfl, rfl, rfl, rfl, ?_⟩
      intro j hj
      unfold set_internal_key
      simp only
      rw [Function.update_noteq (by omega)]

/-! ## Child lists -/

theorem map_range_succ {α : Type} (g : Nat → α) (m : Nat) :
    (List.range (m + 1)).map g = g 0 :: (List.range m).map (fun i => g (i + 1)) := by
  rw [List.range_succ_eq_map]
  simp [List.map_map, Function.comp_def]

theorem map_range_insert {α : Type} (x : α) :
    ∀ (j m : Nat) (f : Nat → α), j ≤ m →
      (List.range (m + 1)).map (fun i => if i = j then x else if i < j then f i else f (i - 1))
        = insert_at ((List.range m).map f) j x := by
  intro j
  induction j with
  | zero =>
    intro m f _
    rw [map_range_succ]
    simp [insert_at]
  | succ j ih =>
    intro m f hj
    obtain ⟨m', rfl⟩ : ∃ m', m = m' + 1 := ⟨m - 1, by omega⟩
    rw [map_range_succ, map_range_succ f m']
    have := ih m' (fun i => f (i + 1)) (by omega)
    unfold insert_at at this ⊢
    rw [List.take_succ_cons, List.drop_succ_cons, List.cons_append, ← this]
    simp only [List.cons.injEq]
    refine ⟨by simp, ?_⟩
    apply List.map_congr_left
    intro i _
    by_cases h1 : i = j
    · simp [h1]
    · by_cases h2 : i < j
      · simp [h1, h2]
      · simp only [h1, h2, if_false, Nat.add_right_cancel_iff, Nat.add_lt_add_iff_right,
          Nat.add_sub_cancel]
        congr 1
        omega

theorem children_insert_branch (pg : Page) (j : Nat) (b : Branch) (hj : j ≤ pg.size) :
    children (insert_branch pg j b) = insert_at (children pg) j b.child := by
  unfold children
  rw [← map_range_insert b.child j (pg.size + 1) (internal_child_of pg) (by omega)]
  have hsz : (insert_branch pg j b).size = pg.size + 1 := rfl
  rw [hsz]
  apply List.map_congr_left
  intro i hi
  rw [List.mem_range] at hi
  exact insert_branch_child pg j b i hj (by omega)

theorem children_push_rightmost (pg : Page) (key : Str) (n : Nat) :
    children (push_rightmost pg key n) = children pg ++ [n] := by
  unfold children
  have hsz : (push_rightmost pg key n).size = pg.size + 1 := rfl
  rw [hsz, List.range_succ (n := pg.size + 1), List.map_append]
  congr 1
  · apply List.map_congr_left
    intro i hi
    rw [List.mem_range] at hi
    rw [push_rightmost_child, if_neg (by omega)]
  · simp [push_rightmost_child]

/-! ## Insertion of a child into a parent with room -/

/-- The maximum key of a page below `q` is the same in every table that has
the bodies of the pages other than `q`. -/
theorem recursive_max_key_of_below (g : Ghost) (d : Nat) (t t' : Table) (q c : Nat)
    (hsize : t.size ≤ TABLE_MAX_PAGES) (hsize' : t'.size = t.size)
    (hbody : ∀ p, p ≠ q → SameBody (t.page p) (t'.page p))
    (hdown : ∀ p, p < t.size → g.level p < g.level q → Down t g p)
    (hd : g.level q ≤ d) (hc : c < t.size) (hc0 : c ≠ 0) (hlev : g.level c < g.level q) :
    ∃ r r', recursive_max_key_of d t c = .ok r ∧ recursive_max_key_of d t' c = .ok r' ∧
      Same t r.1 ∧ Same t' r'.1 ∧ t'.key_at r'.2 = t.key_at r.2 := by
  apply recursive_max_key_of_agree g d t t' c c hsize (by rw [hsize']; exact hsize)
    (by rw [hsize']) hc (by omega)
    (hbody c (by intro h; rw [h] at hlev; omega))
    (fun p hp hl => hdown p hp (by omega))
    (fun p _ hl => hbody p (by intro h; rw [h] at hl; omega))
    ((hdown c hc hlev).leaf_nonempty hc0)

/-- C17 (internal raw insert).  Let `q` be a parent with fewer than
`INTERNAL_BRANCH_SIZE` branches and `n` a page to insert, not the root, the
pages below `q` forming well-formed subtrees, with the children of `q` and `n`
one level below `q`.  Write `child_max` for the key `recursive_max_key_of`
returns for `n` and `right_max` for the one it returns for the rightmost child.
Let every separator of `q` be the maximum key of its child, the separators be
strictly ascending and smaller than `right_max`, and `child_max` differ from
every separator and from `right_max`.  Then `internal_node_insert_raw` returns;
the page count is unchanged, the size of `q` grows by exactly one, the parent
field of `n` is `q`, and no other page changes.  If `child_max > right_max` the
old rightmost child is pushed into slot `size` under the separator `right_max`
and `n` becomes the rightmost child, so the child sequence is the old one with
`n` appended.  Otherwise `(n, child_max)` is inserted at the slot
`internal_node_find_child` returns for `child_max`, the branches from that slot
on shifted one slot right, so the child sequence is the old one with `n`
inserted at that position.  Afterwards every separator of `q` is again the
maximum key of its child, the separators are strictly ascending, and they are
smaller than the maximum key of the rightmost child. -/
theorem internal_node_insert_raw_result (g : Ghost) (d : Nat) (t : Table) (q n : Nat)
    (tn tr : Table) (kn kr : KeyPtr)
    (hsize : t.size ≤ TABLE_MAX_PAGES) (hq : q < t.size) (hn : n < t.size) (hn0 : n ≠ 0)
    (hty : (t.page q).type = NODE_INTERNAL)
    (hroom : (t.page q).size < INTERNAL_BRANCH_SIZE)
    (hchild : ∀ i, i ≤ (t.page q).size →
      internal_child_of (t.page q) i < t.size ∧ internal_child_of (t.page q) i ≠ 0 ∧
      g.level (internal_child_of (t.page q) i) + 1 = g.level q)
    (hnlev : g.level n + 1 = g.level q)
    (hdown : ∀ p, p < t.size → g.level p < g.level q → Down t g p)
    (hd : g.level q ≤ d)
    (hmaxn : recursive_max_key_of d t n = .ok (tn, kn))
    (hmaxr : recursive_max_key_of d t (t.page q).rightmost = .ok (tr, kr))
    (hsep : ∀ i, i < (t.page q).size →
      ∃ ti ki, recursive_max_key_of d t (internal_child_of (t.page q) i) = .ok (ti, ki) ∧
        t.key_at ki = internal_key_of (t.page q) i)
    (hasc : ∀ i j, i < j → j < (t.page q).size →
      strcmp (internal_key_of (t.page q) i) (internal_key_of (t.page q) j) < 0)
    (hlast : ∀ i, i < (t.page q).size →
      strcmp (internal_key_of (t.page q) i) (t.key_at kr) < 0)
    (hnew : ∀ i, i < (t.page q).size → t.key_at kn ≠ internal_key_of (t.page q) i)
    (hnewr : t.key_at kn ≠ t.key_at kr) :
    ∃ t', internal_node_insert_raw d t q n = .ok t' ∧
      t'.size = t.size ∧ (t'.page q).size = (t.page q).size + 1 ∧
      t'.page n = { t.page n with parent := q } ∧
      (∀ p, p ≠ q → p ≠ n → t'.page p = t.page p) ∧
      (strcmp (t.key_at kn) (t.key_at kr) > 0 →
        t'.page q = push_rightmost (t.page q) (t.key_at kr) n ∧
        children (t'.page q) = children (t.page q) ++ [n]) ∧
      (¬ strcmp (t.key_at kn) (t.key_at kr) > 0 →
        ∃ i, internal_node_find_child (t.page q) (t.key_at kn) = .ok i ∧
          i ≤ (t.page q).size ∧
          t'.page q = insert_branch (t.page q) i ⟨n, t.key_at kn⟩ ∧
          children (t'.page q) = insert_at (children (t.page q)) i n) ∧
      (∀ i, i < (t'.page q).size →
        ∃ ti ki, recursive_max_key_of d t' (internal_child_of (t'.page q) i) = .ok (ti, ki) ∧
          t'.key_at ki = internal_key_of (t'.page q) i) ∧
      (∀ i j, i < j → j < (t'.page q).size →
        strcmp (internal_key_of (t'.page q) i) (internal_key_of (t'.page q) j) < 0) ∧
      ∃ tr' kr', recursive_max_key_of d t' (t'.page q).rightmost = .ok (tr', kr') ∧
        ∀ i, i < (t'.page q).size →
          strcmp (internal_key_of (t'.page q) i) (t'.key_at kr') < 0 := by
  have hnq : n ≠ q := by intro h; rw [h] at hnlev; omega
  have hlevn : g.level n < g.level q := by omega
  have hr := hchild (t.page q).size (le_refl _)
  have hcr : internal_child_of (t.page q) (t.page q).size = (t.page q).rightmost := by
    simp [internal_child_of, internal_rightmost_child_of]
  rw [hcr] at hr
  -- the two maxima do not depend on the parent
  have hsame : ∀ (t' : Table), t'.size = t.size →
      (∀ p, p ≠ q → SameBody (t.page p) (t'.page p)) →
      ∀ c, c < t.size → c ≠ 0 → g.level c < g.level q →
      ∀ tc kc, recursive_max_key_of d t c = .ok (tc, kc) →
        ∃ tc' kc', recursive_max_key_of d t' c = .ok (tc', kc') ∧ Same t' tc' ∧
          t'.key_at kc' = t.key_at kc := by
    intro t' hs' hb' c hc hc0 hcl tc kc ec
    obtain ⟨r, ⟨tc', kc'⟩, ea, eb, _, hsb, hk⟩ :=
      recursive_max_key_of_below g d t t' q c hsize hs' hb' hdown hd hc hc0 hcl
    rw [ec] at ea
    cases ea
    exact ⟨tc', kc', eb, hsb, hk⟩
  -- the order facts
  have hasc' : ∀ i j, i < j → j < (t.page q).size →
      internal_key_of (t.page q) i < internal_key_of (t.page q) j :=
    fun i j h1 h2 => (strcmp_lt_iff _ _).1 (hasc i j h1 h2)
  have hlast' : ∀ i, i < (t.page q).size → internal_key_of (t.page q) i < t.key_at kr :=
    fun i h => (strcmp_lt_iff _ _).1 (hlast i h)
  -- what holds of every result
  have hpost : ∀ (t' : Table), t'.size = t.size →
      t'.page n = { t.page n with parent := q } →
      (∀ p, p ≠ q → p ≠ n → t'.page p = t.page p) →
      (∀ p, p ≠ q → SameBody (t.page p) (t'.page p)) := by
    intro t' _ hn' ho p hpq
    by_cases hpn : p = n
    · rw [hpn, hn']; exact ⟨rfl, rfl, rfl, rfl, rfl⟩
    · rw [ho p hpq hpn]; exact SameBody.self _
  unfold internal_node_insert_raw
  obtain ⟨t1, e1, hs1, _⟩ := get_page_allocated t q hq hsize
  simp only [e1, ok_bind]
  obtain ⟨t2, e2, hs2, _⟩ := get_page_allocated t1 n (by rw [hs1.size]; exact hn)
    (by rw [hs1.size]; exact hsize)
  simp only [e2, ok_bind]
  have hs12 := hs1.trans hs2
  rw [hs12.page, if_neg (show ¬ (t.page q).size ≥ INTERNAL_BRANCH_SIZE by omega)]
  simp only [pure_bind]
  generalize ht3 : t2.write n { t.page n with parent := q } = t3
  have h3size : t3.size = t.size := by rw [← ht3, write_size, hs12.size]
  have h3page : ∀ p, t3.page p = if p = n then { t.page n with parent := q } else t.page p := by
    intro p; rw [← ht3, write_page, hs12.page]
  have h3q : t3.page q = t.page q := by rw [h3page, if_neg hnq.symm]
  have h3body : ∀ p, SameBody (t.page p) (t3.page p) := by
    intro p
    rw [h3page]
    by_cases hp : p = n
    · rw [if_pos hp, hp]; exact ⟨rfl, rfl, rfl, rfl, rfl⟩
    · rw [if_neg hp]; exact SameBody.self _
  have h3key : ∀ ptr, t3.key_at ptr = t.key_at ptr := by
    intro ptr
    unfold Table.key_at
    rw [(h3body _).2.2.2.2]
  simp only [internal_rightmost_child_of]
  rw [h3q]
  obtain ⟨t4, e4, hs4, _⟩ := get_page_allocated t3 (t.page q).rightmost
    (by rw [h3size]; exact hr.1) (by rw [h3size]; exact hsize)
  simp only [e4, ok_bind]
  have h4body : ∀ p, SameBody (t.page p) (t4.page p) := by
    intro p; rw [hs4.page]; exact h3body p
  have h3down : ∀ p', p' < t3.size → g.level p' < g.level q → Down t3 g p' := by
    intro p' h1 h2
    rw [h3size] at h1
    have hdp := hdown p' h1 h2
    apply hdp.frame_body (h3body p') (le_of_eq h3size.symm) rfl rfl rfl
    intro hty' i hi
    have hlc := ((hdp.internal hty').2.2 i hi).2.2.2.1
    have hcn : internal_child_of (t.page p') i ≠ n := by
      intro heq; rw [heq] at hlc; omega
    rw [h3page, if_neg hcn]
    exact ⟨rfl, rfl, rfl, rfl⟩
  have hleaf : ∀ (t' : Table), Same t3 t' → ∀ c, c < t.size → c ≠ 0 → g.level c < g.level q →
      ∀ tc kc, recursive_max_key_of d t' c = .ok (tc, kc) → kc.page_index ≠ q := by
    intro t' hs' c hc hc0 hcl tc kc ec
    obtain ⟨r, er, _, _, k2, _⟩ := recursive_max_key_of_spec g d t' c
      (by rw [hs'.size, h3size]; exact hsize) (by rw [hs'.size, h3size]; exact hc) (by omega)
      (by
        intro p' h1 h2
        rw [hs'.size] at h1
        exact (h3down p' h1 (by omega)).same_down hs' g p')
      (by
        rw [hs'.page, (h3body c).1, (h3body c).2.1]
        exact (hdown c hc hcl).leaf_nonempty hc0)
    rw [ec] at er
    cases er
    intro h
    rw [h, hs'.page, h3q, hty] at k2
    cases k2
  obtain ⟨t5, kc, e5, hs5, hkc⟩ := hsame t4 (by rw [hs4.size, h3size])
    (fun p _ => h4body p) n hn hn0 hlevn tn kn hmaxn
  have hkcq := hleaf t4 hs4 n hn hn0 hlevn t5 kc e5
  simp only [e5, ok_bind]
  have hs45 := hs4.trans hs5
  have h5body : ∀ p, SameBody (t.page p) (t5.page p) := by
    intro p; rw [hs45.page]; exact h3body p
  obtain ⟨t6, kr6, e6, hs6, hkr⟩ := hsame t5 (by rw [hs45.size, h3size])
    (fun p _ => h5body p) (t.page q).rightmost hr.1 hr.2.1 (by omega) tr kr hmaxr
  have hkrq := hleaf t5 hs45 (t.page q).rightmost hr.1 hr.2.1 (by omega) t6 kr6 e6
  rw [hs4.page, h3q]
  simp only [e6, ok_bind]
  have hs46 := hs45.trans hs6
  rw [key_at_same hs4, h3key] at hkc
  rw [key_at_same hs45, h3key] at hkr
  rw [key_at_same hs46, key_at_same hs46, h3key, h3key, hs46.page, h3q, hkc, hkr]
  have h6size : t6.size = t.size := by rw [hs46.size, h3size]
  have h6key : ∀ ptr, t6.key_at ptr = t.key_at ptr := by
    intro ptr; rw [key_at_same hs46, h3key]
  by_cases hcond : strcmp (t.key_at kn) (t.key_at kr) > 0
  · rw [if_pos hcond]
    simp only [write_write, write_page_same]
    rw [key_at_write_ne _ _ _ _ hkrq, h6key, hkr, set_key_child_push]
    have hgt : t.key_at kr < t.key_at kn := (strcmp_gt_iff _ _).1 hcond
    generalize hT : t6.write q (push_rightmost (t.page q) (t.key_at kr) n) = T
    have hTsize : T.size = t.size := by rw [← hT, write_size, h6size]
    have hTq : T.page q = push_rightmost (t.page q) (t.key_at kr) n := by
      rw [← hT, write_page_same]
    have hTn : T.page n = { t.page n with parent := q } := by
      rw [← hT, write_page_ne _ _ _ _ hnq, hs46.page, h3page, if_pos rfl]
    have hTo : ∀ p, p ≠ q → p ≠ n → T.page p = t.page p := by
      intro p hp hpn
      rw [← hT, write_page_ne _ _ _ _ hp, hs46.page, h3page, if_neg hpn]
    have hTb := hpost T hTsize hTn hTo
    have hTsz : (T.page q).size = (t.page q).size + 1 := by rw [hTq]; rfl
    refine ⟨T, rfl, hTsize, hTsz, hTn, hTo,
      fun _ => ⟨hTq, by rw [hTq]; exact children_push_rightmost _ _ _⟩,
      fun h => absurd hcond h, ?_, ?_, ?_⟩
    · intro i hi
      rw [hTsz] at hi
      rw [hTq, push_rightmost_child, if_neg (by omega), push_rightmost_key]
      by_cases his : i = (t.page q).size
      · rw [if_pos his, his, hcr]
        obtain ⟨tc', kc', e, _, hk⟩ := hsame T hTsize hTb (t.page q).rightmost hr.1 hr.2.1
          (by omega) tr kr hmaxr
        exact ⟨tc', kc', e, hk⟩
      · rw [if_neg his]
        have hi' : i < (t.page q).size := by omega
        obtain ⟨ti, ki, ei, hki⟩ := hsep i hi'
        have hci := hchild i (by omega)
        obtain ⟨tc', kc', e, _, hk⟩ := hsame T hTsize hTb _ hci.1 hci.2.1 (by omega) ti ki ei
        exact ⟨tc', kc', e, by rw [hk, hki]⟩
    · intro i j hij hj
      rw [hTsz] at hj
      rw [hTq, push_rightmost_key, push_rightmost_key, if_neg (by omega), strcmp_lt_iff]
      by_cases hjs : j = (t.page q).size
      · rw [if_pos hjs]
        exact hlast' i (by omega)
      · rw [if_neg hjs]
        exact hasc' i j hij (by omega)
    · obtain ⟨tc', kc', e, _, hk⟩ := hsame T hTsize hTb n hn hn0 hlevn tn kn hmaxn
      have hrm : (T.page q).rightmost = n := by rw [hTq]; rfl
      refine ⟨tc', kc', by rw [hrm]; exact e, ?_⟩
      intro i hi
      rw [hTsz] at hi
      rw [hk, hTq, push_rightmost_key, strcmp_lt_iff]
      by_cases his : i = (t.page q).size
      · rw [if_pos his]; exact hgt
      · rw [if_neg his]
        exact lt_trans (hlast' i (by omega)) hgt
  · rw [if_neg hcond]
    have hle : t.key_at kn ≤ t.key_at kr := by
      rw [strcmp_gt_iff] at hcond
      exact not_lt.1 hcond
    have hltr : t.key_at kn < t.key_at kr := lt_of_le_of_ne hle hnewr
    obtain ⟨i0, e0, hi0, hlo, hhi⟩ := internal_node_find_child_spec (t.page q) (t.key_at kn) hasc'
    have hhi' : ∀ i, i0 ≤ i → i < (t.page q).size → t.key_at kn < internal_key_of (t.page q) i :=
      fun i h1 h2 => lt_of_le_of_ne (hhi i h1 h2) (hnew i h2)
    simp only [e0, ok_bind, write_write, write_page_same]
    rw [key_at_write_ne _ _ _ _ hkcq, h6key, hkc, set_key_child_insert _ _ _ _ hi0]
    generalize hT : t6.write q (insert_branch (t.page q) i0 ⟨n, t.key_at kn⟩) = T
    have hTsize : T.size = t.size := by rw [← hT, write_size, h6size]
    have hTq : T.page q = insert_branch (t.page q) i0 ⟨n, t.key_at kn⟩ := by
      rw [← hT, write_page_same]
    have hTn : T.page n = { t.page n with parent := q } := by
      rw [← hT, write_page_ne _ _ _ _ hnq, hs46.page, h3page, if_pos rfl]
    have hTo : ∀ p, p ≠ q → p ≠ n → T.page p = t.page p := by
      intro p hp hpn
      rw [← hT, write_page_ne _ _ _ _ hp, hs46.page, h3page, if_neg hpn]
    have hTb := hpost T hTsize hTn hTo
    have hTsz : (T.page q).size = (t.page q).size + 1 := by rw [hTq]; rfl
    refine ⟨T, rfl, hTsize, hTsz, hTn, hTo, fun h => absurd h hcond,
      fun _ => ⟨i0, rfl, hi0, hTq, by rw [hTq]; exact children_insert_branch _ _ _ hi0⟩,
      ?_, ?_, ?_⟩
    · intro i hi
      rw [hTsz] at hi
      rw [hTq, insert_branch_child _ _ _ _ hi0 (by omega), insert_branch_key _ _ _ _ (by omega)]
      by_cases h1 : i = i0
      · rw [if_pos h1, if_pos h1]
        obtain ⟨tc', kc', e, _, hk⟩ := hsame T hTsize hTb n hn hn0 hlevn tn kn hmaxn
        exact ⟨tc', kc', e, hk⟩
      · rw [if_neg h1, if_neg h1]
        by_cases h2 : i < i0
        · rw [if_pos h2, if_pos h2]
          obtain ⟨ti, ki, ei, hki⟩ := hsep i (by omega)
          have hci := hchild i (by omega)
          obtain ⟨tc', kc', e, _, hk⟩ := hsame T hTsize hTb _ hci.1 hci.2.1 (by omega) ti ki ei
          exact ⟨tc', kc', e, by rw [hk, hki]⟩
        · rw [if_neg h2, if_neg h2]
          obtain ⟨ti, ki, ei, hki⟩ := hsep (i - 1) (by omega)
          have hci := hchild (i - 1) (by omega)
          obtain ⟨tc', kc', e, _, hk⟩ := hsame T hTsize hTb _ hci.1 hci.2.1 (by omega) ti ki ei
          exact ⟨tc', kc', e, by rw [hk, hki]⟩
    · intro i j hij hj
      rw [hTsz] at hj
      rw [hTq, insert_branch_key _ _ _ _ (by omega), insert_branch_key _ _ _ _ (by omega),
        strcmp_lt_iff]
      by_cases hi1 : i = i0
      · rw [if_pos hi1, if_neg (by omega), if_neg (by omega)]
        exact hhi' (j - 1) (by omega) (by omega)
      · rw [if_neg hi1]
        by_cases hi2 : i < i0
        · rw [if_pos hi2]
          by_cases hj1 : j = i0
          · rw [if_pos hj1]; exact hlo i hi2
          · rw [if_neg hj1]
            by_cases hj2 : j < i0
            · rw [if_pos hj2]; exact hasc' i j hij (by omega)
            · rw [if_neg hj2]
              by_cases hij' : i = j - 1
              · exact absurd hij' (by omega)
              · exact hasc' i (j - 1) (by omega) (by omega)
        · rw [if_neg hi2, if_neg (by omega), if_neg (by omega)]
          exact hasc' (i - 1) (j - 1) (by omega) (by omega)
    · have hrm : (T.page q).rightmost = (t.page q).rightmost := by rw [hTq]; rfl
      obtain ⟨tc', kc', e, _, hk⟩ := hsame T hTsize hTb (t.page q).rightmost hr.1 hr.2.1
        (by omega) tr kr hmaxr
      refine ⟨tc', kc', by rw [hrm]; exact e, ?_⟩
      intro i hi
      rw [hTsz] at hi
      rw [hk, hTq, insert_branch_key _ _ _ _ (by omega), strcmp_lt_iff]
      by_cases h1 : i = i0
      · rw [if_pos h1]; exact hltr
      · rw [if_neg h1]
        by_cases h2 : i < i0
        · rw [if_pos h2]; exact hlast' i (by omega)
        · rw [if_neg h2]; exact hlast' (i - 1) (by omega)

/-! ## The two halves of an internal split after the insertion of the child -/

/-- The place of a pending page among the children of its parent, in terms of
the maximum keys: the separators before the gap are smaller than the maximum
key of the pending page, the separators from the gap on are larger, and the
maximum key of the rightmost child is larger unless the gap lies after it. -/
theorem Pending.position {t : Table} {g : Ghost} {q n j : Nat} (h : Pending t g q n j)
    (hd : ∀ p, p < t.size → g.level p < g.level q → Down t g p)
    (hsize : t.size ≤ TABLE_MAX_PAGES) (hn : n < t.size) (hn0 : n ≠ 0)
    (d : Nat) (hdepth : g.level n < d) :
    ∃ tc kc tr kr, recursive_max_key_of d t n = .ok (tc, kc) ∧
      recursive_max_key_of d t (t.page q).rightmost = .ok (tr, kr) ∧
      Above (g.lo n) (t.key_at kc) ∧ (∀ u, g.hi n = some u → t.key_at kc = u) ∧
      (∀ i, i < j → i < (t.page q).size → internal_key_of (t.page q) i < t.key_at kc) ∧
      (∀ i, j ≤ i → i < (t.page q).size → t.key_at kc < internal_key_of (t.page q) i) ∧
      (j ≤ (t.page q).size → t.key_at kc < t.key_at kr) ∧
      (j = (t.page q).size + 1 → t.key_at kr < t.key_at kc) := by
  have hnlev := h.n_level
  have hr := h.child (t.page q).size (le_refl _)
  have hcr : internal_child_of (t.page q) (t.page q).size = (t.page q).rightmost := by
    simp [internal_child_of, internal_rightmost_child_of]
  have hrlo := h.lo (t.page q).size (le_refl _)
  have hrhi := h.hi (t.page q).size (le_refl _)
  rw [hcr] at hr hrlo hrhi
  obtain ⟨⟨tc, kc⟩, ec, _, _, _, _, _, kc5, kc6⟩ :=
    recursive_max_key_of_spec g d t n hsize hn hdepth
      (fun p' h1 h2 => hd p' h1 (by omega)) ((hd n hn (by omega)).leaf_nonempty hn0)
  obtain ⟨⟨tr, kr⟩, er, _, _, _, _, _, kr5, kr6⟩ :=
    recursive_max_key_of_spec g d t (t.page q).rightmost hsize hr.1 (by omega)
      (fun p' h1 h2 => hd p' h1 (by omega)) ((hd _ hr.1 (by omega)).leaf_nonempty hr.2.1)
  dsimp only at kc5 kc6 kr5 kr6
  refine ⟨tc, kc, tr, kr, ec, er, kc5, kc6, ?_, ?_, ?_, ?_⟩
  · intro i hij hi
    exact h.gap_gt hd hn i hij hi _ kc5
  · intro i hji hi
    obtain ⟨u, hu⟩ := h.n_hi (by omega)
    rw [kc6 u hu]
    exact lt_of_lt_of_le (h.gap_lt hd (by omega) u hu) (h.sorted_le_pending hd hn j i hji hi)
  · intro hj
    obtain ⟨u, hu⟩ := h.n_hi hj
    rw [kc6 u hu]
    by_cases hjs : (t.page q).size = j
    · rw [if_pos hjs] at hrlo
      exact kr5 u (by rw [hrlo, hu])
    · rw [if_neg hjs] at hrlo
      have h1 := h.gap_lt hd (by omega) u hu
      have h2 := kr5 (internal_key_of (t.page q) ((t.page q).size - 1))
        (by
          rw [hrlo]; unfold lower_bound_of
          rw [if_neg (show ¬ (t.page q).size = 0 by have := h.size_pos; omega)])
      exact lt_trans (lt_of_lt_of_le h1
        (h.sorted_le_pending hd hn j _ (by omega) (by have := h.size_pos; omega))) h2
  · intro hjs
    obtain ⟨_, m, hm⟩ := h.n_last hjs
    rw [if_pos ⟨rfl, hjs⟩] at hrhi
    rw [kr6 m (by rw [hrhi, hm])]
    exact kc5 m hm

/-- The pages of the two halves after the child is inserted into one of them:
the child goes into the split page when its gap lies before the promoted
branch, and into the new page otherwise; the other half is not written. -/
theorem Halved.insert_child_pages {t ts : Table} {g : Ghost} {q n j : Nat} (h : Halved t q ts)
    (hr : InsertReady t g q n j) (hfull : (t.page q).size = INTERNAL_BRANCH_SIZE)
    (d : Nat) (hdepth : g.level n < d) :
    ∃ t5 cmk t6 key, recursive_max_key_of d ts n = .ok (t5, cmk) ∧
      internal_node_insert_raw d t5
          (if strcmp (t5.key_at cmk)
              (internal_key_of (t5.page q) (INTERNAL_LEFT_SPLIT_SIZE - 1)) ≤ 0
           then q else t.size) n = .ok t6 ∧
      (j ≤ 1 → Inserted (left_half (t.page q)) (t6.page q) j n key ∧
        t6.page t.size = ts.page t.size) ∧
      (2 ≤ j → t6.page q = left_half (t.page q) ∧
        Inserted (ts.page t.size) (t6.page t.size) (j - 2) n key) := by
  have hqN : q ≠ t.size := by have := hr.q_lt; omega
  have hnN : n ≠ t.size := by have := hr.n_lt; omega
  have hnq : n ≠ q := hr.pending.ne
  have hpend := hr.pending
  have h4 : (t.page q).size = 4 := hfull
  obtain ⟨⟨t5, cmk⟩, e5, hs5, _, _, hk1, hk2⟩ := recursive_max_key_of_low g d t ts n (g.level q)
    (by rw [h.size]; have := h.cap; omega) (by rw [h.size]; omega) hr.n_lt
    (by have := hpend.n_level; omega) hr.n_ne_zero hr.lower_pages
    (fun p hp hlev => (h.body p (by intro heq; rw [heq] at hlev; omega) (by omega)).1)
    (fun p hp hlev => by
      rw [(h.low hr hfull (internal_key_of (t.page q) 0) p hp (by omega)).2 hlev])
    hdepth
  dsimp only at hs5 hk1 hk2
  have hmid : internal_key_of (t5.page q) (INTERNAL_LEFT_SPLIT_SIZE - 1)
      = internal_key_of (t.page q) (INTERNAL_LEFT_SPLIT_SIZE - 1) := by
    rw [hs5.page, h.left, left_half_key]
  have hkey5 : t5.key_at cmk = ts.key_at cmk := key_at_same hs5 cmk
  have hpl := h.pending_left hr hfull
  have hpr := h.pending_right hr hfull
  have hlow0 := h.low hr hfull (internal_key_of (t.page q) (INTERNAL_LEFT_SPLIT_SIZE - 1))
  generalize hg2 : g.split q t.size (internal_key_of (t.page q) (INTERNAL_LEFT_SPLIT_SIZE - 1))
    = g2 at hpl hpr hlow0
  have hgo : ∀ p, p ≠ t.size → g2.level p = g.level p ∧ g2.lo p = g.lo p ∧
      (p ≠ q → g2.hi p = g.hi p) := by
    intro p hp; rw [← hg2]; exact g.split_other q t.size _ p hp
  have hgN : g2.level t.size = g.level q := by rw [← hg2]; exact (g.split_new q t.size _).1
  have hgq : g2.level q = g.level q := (hgo q hqN).1
  have hlow : ∀ X, g2.level X = g.level q →
      ∀ p, p < t5.size → g2.level p < g2.level X → Down t5 g2 p := by
    intro X hgX p hp hlev
    rw [hs5.size, h.size] at hp
    rw [hgX] at hlev
    have hpN : p ≠ t.size := by intro heq; rw [heq, hgN] at hlev; omega
    rw [(hgo p hpN).1] at hlev
    exact Down.same_down hs5 g2 p (hlow0 p (by omega) hlev).1
  have hsz5 : t5.size ≤ TABLE_MAX_PAGES := by rw [hs5.size, h.size]; have := h.cap; omega
  have hn5 : n < t5.size := by rw [hs5.size, h.size]; have := hr.n_lt; omega
  have hnl : g2.level n < d := by rw [(hgo n hnN).1]; exact hdepth
  by_cases hj : j ≤ 1
  · obtain ⟨u, hu⟩ := hpend.n_hi (by omega)
    have hlt := hpend.gap_lt hr.lower_pages (by omega) u hu
    have hle := hpend.sorted_le_pending hr.lower_pages hr.n_lt j (INTERNAL_LEFT_SPLIT_SIZE - 1)
      (by unfold INTERNAL_LEFT_SPLIT_SIZE; omega) (by unfold INTERNAL_LEFT_SPLIT_SIZE; omega)
    have hc : strcmp (t5.key_at cmk)
        (internal_key_of (t5.page q) (INTERNAL_LEFT_SPLIT_SIZE - 1)) ≤ 0 := by
      rw [hkey5, hmid, hk2 u hu]
      exact (strcmp_le_iff _ _).2 (le_of_lt (lt_of_lt_of_le hlt hle))
    obtain ⟨t6, e6, _, _, h6page, _, key, _, _, hins⟩ :=
      internal_node_insert_raw_spec g2 d t5 q n j hsz5
        (by rw [hs5.size, h.size]; have := hr.q_lt; omega) hn5 hr.n_ne_zero
        ((hpl hj).same_pending hs5) (hlow q hgq) hnl
        (by rw [hs5.page, h.sizes.1]; unfold INTERNAL_BRANCH_SIZE; omega)
    rw [hs5.page, h.left] at hins
    refine ⟨t5, cmk, t6, key, e5, by rw [if_pos hc]; exact e6, fun _ => ⟨hins, ?_⟩,
      fun h2 => absurd h2 (by omega)⟩
    rw [h6page _ hqN.symm hnN.symm, hs5.page]
  · have hgt := hpend.gap_gt hr.lower_pages hr.n_lt (INTERNAL_LEFT_SPLIT_SIZE - 1) (by
      unfold INTERNAL_LEFT_SPLIT_SIZE; omega) (by unfold INTERNAL_LEFT_SPLIT_SIZE; omega) _ hk1
    have hc : ¬ strcmp (t5.key_at cmk)
        (internal_key_of (t5.page q) (INTERNAL_LEFT_SPLIT_SIZE - 1)) ≤ 0 := by
      rw [hkey5, hmid]
      exact fun hle => not_le_of_lt hgt ((strcmp_le_iff _ _).1 hle)
    obtain ⟨t6, e6, _, _, h6page, _, key, _, _, hins⟩ :=
      internal_node_insert_raw_spec g2 d t5 t.size n (j - 2) hsz5
        (by rw [hs5.size, h.size]; omega) hn5 hr.n_ne_zero
        ((hpr (by omega)).same_pending hs5) (hlow t.size hgN) hnl
        (by rw [hs5.page, h.sizes.2.1]; unfold INTERNAL_BRANCH_SIZE; omega)
    rw [hs5.page] at hins
    refine ⟨t5, cmk, t6, key, e5, by rw [if_neg hc]; exact e6, fun h1 => absurd h1 hj,
      fun _ => ⟨?_, hins⟩⟩
    rw [h6page _ hqN hnq.symm, hs5.page, h.left]

/-! ## The child lists of the two halves -/

theorem Yields.both {α : Type} {x : Except Fault α} {P Q : α → Prop} (h1 : Yields x P)
    (h2 : Yields x Q) : Yields x (fun a => P a ∧ Q a) := by
  cases x with
  | ok a => exact ⟨h1, h2⟩
  | error e => exact h1

theorem children_body {pg pg' : Page} (h : SameBody pg pg') : children pg' = children pg := by
  unfold children
  rw [h.2.1]
  apply List.map_congr_left
  intro i _
  unfold internal_child_of internal_rightmost_child_of
  rw [h.2.1, h.2.2.1, h.2.2.2.1]

theorem children_full (pq : Page) (hsz : pq.size = INTERNAL_BRANCH_SIZE) :
    children pq = [(pq.branches 0).child, (pq.branches 1).child, (pq.branches 2).child,
      (pq.branches 3).child, pq.rightmost] := by
  unfold children
  rw [hsz]
  simp [INTERNAL_BRANCH_SIZE, List.range, List.range.loop, internal_child_of,
    internal_rightmost_child_of, hsz]

theorem children_left_half (pq : Page) :
    children (left_half pq) = [(pq.branches 0).child, (pq.branches 1).child] := by
  unfold children
  simp [left_half, INTERNAL_LEFT_SPLIT_SIZE, List.range, List.range.loop, internal_child_of,
    internal_rightmost_child_of]

theorem children_right_half (pq pn : Page) (h : RightHalf pq pn) :
    children pn = [(pq.branches 2).child, (pq.branches 3).child, pq.rightmost] := by
  obtain ⟨_, _, hsz, _, hrm, hbr⟩ := h
  have h0 := hbr 0 (by unfold INTERNAL_RIGHT_SPLIT_SIZE; omega)
  have h1 := hbr 1 (by unfold INTERNAL_RIGHT_SPLIT_SIZE; omega)
  unfold children
  rw [hsz]
  simp [INTERNAL_RIGHT_SPLIT_SIZE, INTERNAL_LEFT_SPLIT_SIZE, List.range, List.range.loop,
    internal_child_of, internal_rightmost_child_of, hsz, h0, h1, hrm] at *

theorem children_length (pg : Page) : (children pg).length = pg.size + 1 := by
  unfold children
  simp

theorem Inserted.children {pg pg' : Page} {j n : Nat} {key : Str} (h : Inserted pg pg' j n key)
    (hj : j ≤ pg.size + 1) : children pg' = insert_at (children pg) j n := by
  by_cases h1 : j ≤ pg.size
  · rw [h.1 h1]
    exact children_insert_branch pg j ⟨n, key⟩ h1
  · have h2 : j = pg.size + 1 := by omega
    rw [h.2 h2, children_push_rightmost]
    unfold insert_at
    rw [List.take_of_length_le (by rw [children_length]; omega),
      List.drop_of_length_le (by rw [children_length]; omega)]

/-! ## The result of an internal split -/

/-- The rest of `internal_node_split_and_insert` after the child is inserted
into one half leaves the bodies of the two halves alone; the split page ends
at index `t.size + 1` when it was the root, and stays where it is otherwise. -/
theorem internal_node_split_finish_halves (g : Ghost) (d : Nat) (t ts : Table) (q n j : Nat)
    (hr : InsertReady t g q n j) (hfull : (t.page q).size = INTERNAL_BRANCH_SIZE)
    (h : Halved t q ts) (hdepth : g.level 0 < d) (omk : KeyPtr)
    (hk1 : (t.page omk.page_index).type = NODE_LEAF) (hk2 : omk.page_index < t.size)
    (hk3 : Above (g.lo q) (t.key_at omk)) (hk4 : Below (t.key_at omk) (g.hi q))
    (rec_split : Table → Nat → Nat → Except Fault Table)
    (hrec : ∀ (g' : Ghost) (t' : Table) (n' j' : Nat),
      InsertReady t' g' (t.page q).parent n' j' → g'.level 0 = g.level 0 →
      g'.level (t.page q).parent = g.level q + 1 →
      Yields (internal_node_insert_with rec_split d t' (t.page q).parent n') (fun t'' =>
        t'.size ≤ t''.size ∧ ∀ p, p < t'.size → g'.level p < g'.level (t.page q).parent →
          SameBody (t'.page p) (t''.page p)))
    (t5 : Table) (cmk : KeyPtr) (t6 : Table)
    (e5 : recursive_max_key_of d ts n = .ok (t5, cmk))
    (e6 : internal_node_insert_raw d t5
          (if strcmp (t5.key_at cmk)
              (internal_key_of (t5.page q) (INTERNAL_LEFT_SPLIT_SIZE - 1)) ≤ 0
           then q else t.size) n = .ok t6) :
    Yields (internal_node_split_finish d rec_split ts q n omk (INTERNAL_LEFT_SPLIT_SIZE - 1)
        (t.page q).parent t.size) (fun t' =>
      SameBody (t6.page q) (t'.page (if q = 0 then t.size + 1 else q)) ∧
      SameBody (t6.page t.size) (t'.page t.size)) := by
  have hqN : q ≠ t.size := by have := hr.q_lt; omega
  have hqlev := hr.q_level
  have hnlev := hr.pending.n_level
  unfold internal_node_split_finish
  obtain ⟨t5', cmk', e5', t6', e6', hdone, h6size, h6body, h6q, h6N, h6par⟩ :=
    h.insert_child hr hfull d (by omega)
  rw [e5] at e5'
  cases e5'
  rw [e6] at e6'
  cases e6'
  simp only [e5, ok_bind, e6]
  have hgq := g.split_old q t.size (internal_key_of (t.page q) (INTERNAL_LEFT_SPLIT_SIZE - 1)) hqN
  have hgo := g.split_other q t.size (internal_key_of (t.page q) (INTERNAL_LEFT_SPLIT_SIZE - 1))
  have hgN := g.split_new q t.size (internal_key_of (t.page q) (INTERNAL_LEFT_SPLIT_SIZE - 1))
  by_cases hq0 : q = 0
  · subst hq0
    rw [if_pos (hdone.root rfl).1]
    apply ((hdone.root_internal h6q d (by rw [hgq.1]; exact hdepth)).both
      (hdone.root_internal_body h6q d (by rw [hgq.1]; exact hdepth))).post
    rintro t' ⟨⟨_, hsize, _, _, hbody⟩, hb0⟩
    rw [h6size] at hb0
    rw [if_pos rfl]
    exact ⟨hb0, hbody t.size (by omega) (by omega)⟩
  · obtain ⟨hxup, _⟩ := hdone.inner hq0
    rw [if_neg (by rw [(hxup.of_ne_zero hq0).1]; simp)]
    have hkey : t6.key_at omk = t.key_at omk := by
      unfold Table.key_at
      rw [(h6body omk.page_index
        (by intro heq; rw [heq, hr.pending.type] at hk1; cases hk1) (by omega)).2.2.2.2]
    obtain ⟨t7, nmk, t8, t9, i, e7, e8, e9, hready, h9size, h9page⟩ := hdone.tail hq0 d
      (by rw [hgq.1]; omega) omk (by rw [hkey, hgq.2.1]; exact hk3) (by rw [hkey]; exact hk4)
    rw [h6par] at e8 e9 hready h9page
    simp only [e7, ok_bind, e8, e9]
    have hGlev : (g.split q t.size
        (internal_key_of (t.page q) (INTERNAL_LEFT_SPLIT_SIZE - 1))).level (t.page q).parent
        = g.level q + 1 := by
      have := hready.pending.n_level
      rw [hgN.1] at this
      exact this
    apply (hrec _ t9 t.size (i + 1) hready (hgo 0 (by have := hr.size_pos; omega)).1 hGlev).post
    rintro t' ⟨hsz, hfr⟩
    rw [if_neg hq0]
    have hqG : q ≠ (t.page q).parent := by
      intro heq
      rw [← heq, hgq.1] at hGlev
      omega
    have hNG : t.size ≠ (t.page q).parent := by
      intro heq
      rw [← heq, hgN.1] at hGlev
      omega
    have h1 := hfr q (by rw [h9size, h6size]; have := hr.q_lt; omega) (by rw [hGlev, hgq.1]; omega)
    have h2 := hfr t.size (by rw [h9size, h6size]; omega) (by rw [hGlev, hgN.1]; omega)
    rw [h9page q hqG] at h1
    rw [h9page t.size hNG] at h2
    exact ⟨h1, h2⟩

/-- C18 (internal split-insert result), as the code has it.  Let the tree
invariant hold but for the full internal page `q`, under which the page `n` is
pending at the gap `j`: the separators of `q` before slot `j` are smaller than
the maximum key `child_max` of `n` and the separators from slot `j` on are
larger, and so is the maximum key `right_max` of the rightmost child unless
`j` is the position after it.  Unless the allocation of a page ends with the
fatal exit, `internal_node_split_and_insert` returns.  The old node ends at its
final index `L` (`q`, or the page count plus one when `q` was the root and has
been moved) and the new node at the old page count.  The children of the old
node followed by the children of the new node are the children of `q` with `n`
inserted at position `j`, the position that keeps the maxima ascending.  The
two sizes sum to `INTERNAL_BRANCH_SIZE`.  The rightmost child of the old node
is the child of the promoted branch `INTERNAL_LEFT_SPLIT_SIZE - 1`.  The
rightmost child of the new node is the former rightmost child of `q` when
`child_max < right_max`, and it is the page `n` when `child_max > right_max`.
The page `n` goes to the old node iff `child_max` is at most the key of the
promoted branch, and the other half keeps the children the split gave it. -/
theorem internal_split_insert_result (g : Ghost) (d fuel : Nat) (t : Table) (q n j : Nat)
    (hr : InsertReady t g q n j) (hfull : (t.page q).size = INTERNAL_BRANCH_SIZE)
    (hdepth : g.level 0 < d) (hfuel : g.level 0 < g.level q + fuel) :
    internal_node_split_and_insert d fuel t q n = .error .exit ∨
    ∃ t' tc kc tr kr,
      internal_node_split_and_insert d fuel t q n = .ok t' ∧
      recursive_max_key_of d t n = .ok (tc, kc) ∧
      recursive_max_key_of d t (t.page q).rightmost = .ok (tr, kr) ∧
      j ≤ INTERNAL_BRANCH_SIZE + 1 ∧
      (∀ i, i < j → i < INTERNAL_BRANCH_SIZE →
        strcmp (internal_key_of (t.page q) i) (t.key_at kc) < 0) ∧
      (∀ i, j ≤ i → i < INTERNAL_BRANCH_SIZE →
        strcmp (t.key_at kc) (internal_key_of (t.page q) i) < 0) ∧
      (j ≤ INTERNAL_BRANCH_SIZE ↔ strcmp (t.key_at kc) (t.key_at kr) < 0) ∧
      (j = INTERNAL_BRANCH_SIZE + 1 ↔ strcmp (t.key_at kc) (t.key_at kr) > 0) ∧
      children (t'.page (if q = ROOT_PAGE_INDEX then t.size + 1 else q))
          ++ children (t'.page t.size)
        = insert_at (children (t.page q)) j n ∧
      (t'.page (if q = ROOT_PAGE_INDEX then t.size + 1 else q)).size + (t'.page t.size).size
        = INTERNAL_BRANCH_SIZE ∧
      (t'.page (if q = ROOT_PAGE_INDEX then t.size + 1 else q)).rightmost
        = ((t.page q).branches (INTERNAL_LEFT_SPLIT_SIZE - 1)).child ∧
      (strcmp (t.key_at kc) (t.key_at kr) < 0 →
        (t'.page t.size).rightmost = (t.page q).rightmost) ∧
      (strcmp (t.key_at kc) (t.key_at kr) > 0 → (t'.page t.size).rightmost = n) ∧
      (strcmp (t.key_at kc) (internal_key_of (t.page q) (INTERNAL_LEFT_SPLIT_SIZE - 1)) ≤ 0 →
        children (t'.page (if q = ROOT_PAGE_INDEX then t.size + 1 else q))
          = insert_at ((children (t.page q)).take INTERNAL_LEFT_SPLIT_SIZE) j n ∧
        children (t'.page t.size) = (children (t.page q)).drop INTERNAL_LEFT_SPLIT_SIZE) ∧
      (¬ strcmp (t.key_at kc) (internal_key_of (t.page q) (INTERNAL_LEFT_SPLIT_SIZE - 1)) ≤ 0 →
        children (t'.page (if q = ROOT_PAGE_INDEX then t.size + 1 else q))
          = (children (t.page q)).take INTERNAL_LEFT_SPLIT_SIZE ∧
        children (t'.page t.size)
          = insert_at ((children (t.page q)).drop INTERNAL_LEFT_SPLIT_SIZE)
              (j - INTERNAL_LEFT_SPLIT_SIZE) n) := by
  have hqlev := hr.q_level
  have hnlev := hr.pending.n_level
  obtain ⟨f, rfl⟩ : ∃ f, fuel = f + 1 := ⟨fuel - 1, by omega⟩
  rw [internal_node_split_and_insert_eq]
  rcases yields_cases (internal_node_split_spec g d t q n j hr hfull (by omega)) with
    es | ⟨⟨ts, omk, mid, par, N⟩, es, r1, r2, r3, r4, r5, r6, r7, r8, r9, r10, r11, r12, r13, r14⟩
  · left
    rw [es]
    rfl
  dsimp only at r2 r3 r4 r5 r6 r7 r8 r9 r10 r11 r12 r13 r14
  subst r4; subst r5; subst r6
  simp only [es, ok_bind]
  have hH : Halved t q ts := ⟨r1, r2, r3, r7, r8, r9, r10⟩
  obtain ⟨t5, cmk, t6, key, e5, e6, hA, hB⟩ := hH.insert_child_pages hr hfull d (by omega)
  have hY := internal_node_split_finish_halves g d t ts q n j hr hfull hH hdepth omk r11 r12 r13
    r14 (internal_node_split_and_insert d f)
    (fun g' t' n' j' hr' hl0 hlG =>
      internal_node_insert_frame d f g' t' _ n' j' hr' (by omega) (by omega))
    t5 cmk t6 e5 e6
  rcases yields_cases hY with e | ⟨t', e', hbq, hbN⟩
  · exact Or.inl e
  right
  obtain ⟨tc, kc, tr, kr, ec, er, _, _, pA, pB, pC, pD⟩ :=
    hr.pending.position hr.lower_pages hr.size_le hr.n_lt hr.n_ne_zero d (by omega)
  have hjle := hr.pending.pos
  rw [hfull] at pA pB pC pD hjle
  have h4 : INTERNAL_BRANCH_SIZE = 4 := rfl
  have h2 : INTERNAL_LEFT_SPLIT_SIZE = 2 := rfl
  have hroot : (if q = ROOT_PAGE_INDEX then t.size + 1 else q) = (if q = 0 then t.size + 1 else q) :=
    rfl
  rw [hroot]
  generalize hL : (if q = 0 then t.size + 1 else q) = L at hbq ⊢
  have hcq := children_body hbq
  have hcN := children_body hbN
  have hfc := children_full (t.page q) hfull
  have hlc := children_left_half (t.page q)
  have hrc := children_right_half (t.page q) (ts.page t.size) r8
  have hcond : strcmp (t.key_at kc) (internal_key_of (t.page q) (INTERNAL_LEFT_SPLIT_SIZE - 1)) ≤ 0
      ↔ j ≤ 1 := by
    rw [strcmp_le_iff, h2]
    constructor
    · intro hle
      by_contra hj
      exact absurd hle (not_le.2 (pA 1 (by omega) (by omega)))
    · intro hj
      exact le_of_lt (pB 1 hj (by omega))
  have hCD1 : j ≤ INTERNAL_BRANCH_SIZE ↔ strcmp (t.key_at kc) (t.key_at kr) < 0 := by
    rw [strcmp_lt_iff]
    constructor
    · exact pC
    · intro hlt
      by_contra hj
      exact absurd hlt (not_lt.2 (le_of_lt (pD (by omega))))
  have hCD2 : j = INTERNAL_BRANCH_SIZE + 1 ↔ strcmp (t.key_at kc) (t.key_at kr) > 0 := by
    rw [strcmp_gt_iff]
    constructor
    · exact pD
    · intro hgt
      by_contra hj
      exact absurd hgt (not_lt.2 (le_of_lt (pC (by omega))))
  -- the two pages
  have hpages : (j ≤ 1 →
        children (t'.page L) = insert_at [((t.page q).branches 0).child,
          ((t.page q).branches 1).child] j n ∧
        children (t'.page t.size) = [((t.page q).branches 2).child,
          ((t.page q).branches 3).child, (t.page q).rightmost] ∧
        (t'.page L).size = 2 ∧ (t'.page t.size).size = 2 ∧
        (t'.page L).rightmost = ((t.page q).branches 1).child ∧
        (t'.page t.size).rightmost = (t.page q).rightmost) ∧
      (2 ≤ j →
        children (t'.page L) = [((t.page q).branches 0).child,
          ((t.page q).branches 1).child] ∧
        children (t'.page t.size) = insert_at [((t.page q).branches 2).child,
          ((t.page q).branches 3).child, (t.page q).rightmost] (j - 2) n ∧
        (t'.page L).size = 1 ∧ (t'.page t.size).size = 3 ∧
        (t'.page L).rightmost = ((t.page q).branches 1).child ∧
        (j ≤ 4 → (t'.page t.size).rightmost = (t.page q).rightmost) ∧
        (j = 5 → (t'.page t.size).rightmost = n)) := by
    constructor
    · intro hj
      obtain ⟨hins, hN6⟩ := hA hj
      have hsz : (left_half (t.page q)).size = 1 := rfl
      have hpg := hins.1 (by rw [hsz]; exact hj)
      rw [hcq, hcN, hN6, hrc, hins.children (by rw [hsz]; omega), hlc, hbq.2.1, hbq.2.2.2.1,
        hbN.2.1, hbN.2.2.2.1, hN6, r8.2.2.1, r8.2.2.2.2.1, hpg]
      exact ⟨rfl, rfl, rfl, rfl, rfl, rfl⟩
    · intro hj
      obtain ⟨hq6, hins⟩ := hB hj
      have hsz : (ts.page t.size).size = 2 := r8.2.2.1
      rw [hcq, hcN, hq6, hlc, hins.children (by rw [hsz]; omega), hrc, hbq.2.1, hbq.2.2.2.1,
        hbN.2.1, hbN.2.2.2.1, hq6, (hins.header (by rw [hsz]; omega)).2.2.2, hsz]
      refine ⟨rfl, rfl, rfl, rfl, rfl, ?_, ?_⟩
      · intro hj4
        rw [hins.1 (by rw [hsz]; omega)]
        exact r8.2.2.2.2.1
      · intro hj5
        rw [hins.2 (by rw [hsz]; omega)]
        rfl
  obtain ⟨hp1, hp2⟩ := hpages
  refine ⟨t', tc, kc, tr, kr, e', ec, er, hjle,
    fun i h1 h2 => (strcmp_lt_iff _ _).2 (pA i h1 h2),
    fun i h1 h2 => (strcmp_lt_iff _ _).2 (pB i h1 h2), hCD1, hCD2, ?_, ?_, ?_, ?_, ?_, ?_, ?_⟩
  · rw [hfc]
    by_cases hj : j ≤ 1
    · rw [(hp1 hj).1, (hp1 hj).2.1]
      interval_cases j <;> simp [insert_at]
    · rw [(hp2 (by omega)).1, (hp2 (by omega)).2.1]
      rw [h4] at hjle
      have hj2 : 2 ≤ j := by omega
      interval_cases j <;> simp [insert_at]
  · by_cases hj : j ≤ 1
    · rw [(hp1 hj).2.2.1, (hp1 hj).2.2.2.1]
      rfl
    · rw [(hp2 (by omega)).2.2.1, (hp2 (by omega)).2.2.2.1]
      rfl
  · rw [h2]
    by_cases hj : j ≤ 1
    · exact (hp1 hj).2.2.2.2.1
    · exact (hp2 (by omega)).2.2.2.2.1
  · intro hlt
    have hj4 := hCD1.2 hlt
    rw [h4] at hj4
    by_cases hj : j ≤ 1
    · exact (hp1 hj).2.2.2.2.2
    · exact (hp2 (by omega)).2.2.2.2.2.1 hj4
  · intro hgt
    have hj5 := hCD2.2 hgt
    rw [h4] at hj5
    exact (hp2 (by omega)).2.2.2.2.2.2 hj5
  · intro hc
    have hj := hcond.1 hc
    rw [(hp1 hj).1, (hp1 hj).2.1, hfc, h2]
    exact ⟨rfl, rfl⟩
  · intro hc
    have hj : 2 ≤ j := by
      by_contra hj
      exact hc (hcond.2 (by omega))
    rw [(hp2 hj).1, (hp2 hj).2.1, hfc, h2]
    exact ⟨rfl, rfl⟩

/-! ## The runs that split a leaf and the root -/

theorem split_table_ok : db_set_all sample_open split_ops = .ok split_table := by
  unfold split_table
  exact ok_of_succeeds _ _ (by decide!)

theorem split_reachable : Reachable split_table :=
  Reachable.of_sets sample_file sample_garbage sample_open rfl sample_open_ok split_ops
    split_table split_table_ok

theorem split_found_ok : table_find split_table ⟨[7]⟩ = .ok split_found := by
  unfold split_found
  exact ok_of_succeeds _ _ (by decide!)

theorem split_leaves_ok :
    leaf_node_split split_table.size split_found.1 split_found.2 ⟨[7]⟩ ⟨[70]⟩
      = .ok split_leaves := by
  unfold split_leaves
  exact ok_of_succeeds _ _ (by decide!)

theorem split_max_ok :
    recursive_max_key_of split_table.size split_leaves.1 split_found.2.page_index
      = .ok split_max := by
  unfold split_max
  exact ok_of_succeeds _ _ (by decide!)

theorem split_parent_ok : get_page split_max.1 split_leaves.2.2.1 = .ok split_parent := by
  unfold split_parent
  exact ok_of_succeeds _ _ (by decide!)

theorem split_updated_ok :
    update_internal_node_key split_parent split_leaves.2.2.1 split_leaves.2.1 split_max.2
      = .ok split_updated := by
  unfold split_updated
  exact ok_of_succeeds _ _ (by decide!)

theorem deep_table_ok : db_set_all sample_open deep_ops = .ok deep_table := by
  unfold deep_table
  exact ok_of_succeeds _ _ (by decide!)

theorem deep_reachable : Reachable deep_table :=
  Reachable.of_sets sample_file sample_garbage sample_open rfl sample_open_ok deep_ops
    deep_table deep_table_ok

theorem deep_found_ok : table_find deep_table ⟨[13]⟩ = .ok deep_found := by
  unfold deep_found
  exact ok_of_succeeds _ _ (by decide!)

theorem deep_leaves_ok :
    leaf_node_split deep_table.size deep_found.1 deep_found.2 ⟨[13]⟩ ⟨[130]⟩
      = .ok deep_leaves := by
  unfold deep_leaves
  exact ok_of_succeeds _ _ (by decide!)

theorem deep_max_ok :
    recursive_max_key_of deep_table.size deep_leaves.1 deep_found.2.page_index
      = .ok deep_max := by
  unfold deep_max
  exact ok_of_succeeds _ _ (by decide!)

theorem deep_parent_ok : get_page deep_max.1 deep_leaves.2.2.1 = .ok deep_parent := by
  unfold deep_parent
  exact ok_of_succeeds _ _ (by decide!)

theorem deep_updated_ok :
    update_internal_node_key deep_parent deep_leaves.2.2.1 deep_leaves.2.1 deep_max.2
      = .ok deep_updated := by
  unfold deep_updated
  exact ok_of_succeeds _ _ (by decide!)

theorem deep_split_ok :
    internal_node_split_and_insert deep_table.size deep_table.size deep_updated
      deep_leaves.2.2.1 deep_leaves.2.2.2 = .ok deep_split := by
  unfold deep_split
  exact ok_of_succeeds _ _ (by decide!)

/-! ## The path of `db_set` through a leaf split -/

theorem get_page_resident (t : Table) (idx : Nat) (hidx : idx < TABLE_MAX_PAGES)
    (hres : t.pages idx ≠ none) : get_page t idx = .ok t := by
  unfold get_page
  rw [if_neg (by omega)]
  cases h : t.pages idx with
  | none => exact absurd h hres
  | some p => rfl

/-- The call of `db_set` with a valid key that is not stored and belongs into a full
leaf is the call of `leaf_node_split_and_insert` at the cursor. -/
theorem db_set_split_leaf (t : Table) (k v : Str) (t1 : Table) (c : Cursor)
    (hk : strlen k ≤ KEY_LEN) (hv : strlen v ≤ VALUE_LEN)
    (hfind : table_find t k = .ok (t1, c)) (hres : t1.pages c.page_index ≠ none)
    (hnew : c.found = false) (hfull : (t1.page c.page_index).size = LEAF_RECORD_SIZE) :
    db_set t (some k) (some v) = leaf_node_split_and_insert t.size t1 c k v := by
  rw [db_set_valid t k v hk hv]
  unfold db_set_locked
  simp only [hfind, ok_bind]
  obtain ⟨pg, hpg⟩ : ∃ pg, t1.pages c.page_index = some pg := by
    cases h : t1.pages c.page_index with
    | none => exact absurd h hres
    | some p => exact ⟨p, rfl⟩
  have hpage : t1.page c.page_index = pg := by
    unfold Table.page
    rw [hpg]
  have hpc : page_by_cursor t1 c = .ok pg := by
    unfold page_by_cursor
    rw [hpg]
  simp only [hpc, ok_bind]
  rw [if_neg (by rw [hnew]; simp)]
  unfold leaf_node_insert
  simp only [hpc, ok_bind]
  rw [if_pos (by rw [← hpage, hfull])]

/-- The tail of `leaf_node_split_and_insert` on a leaf that is not the root,
written with the intermediate states. -/
theorem leaf_split_path (d : Nat) (t1 : Table) (c : Cursor) (k v : Str)
    (r : Table × KeyPtr × Nat × Nat) (e6 : leaf_node_split d t1 c k v = .ok r)
    (hnonroot : (r.1.page c.page_index).is_root = false)
    (m : Table × KeyPtr) (e7 : recursive_max_key_of d r.1 c.page_index = .ok m)
    (t8 : Table) (e8 : get_page m.1 r.2.2.1 = .ok t8)
    (t9 : Table) (e9 : update_internal_node_key t8 r.2.2.1 r.2.1 m.2 = .ok t9) :
    leaf_node_split_and_insert d t1 c k v = internal_node_insert d d t9 r.2.2.1 r.2.2.2 := by
  rw [leaf_node_split_and_insert_eq, e6]
  simp only [ok_bind]
  unfold leaf_node_split_finish
  rw [if_neg (by rw [hnonroot]; simp)]
  simp only [e7, ok_bind, e8, e9]

/-- The insertion into a resident full parent is the split of the parent. -/
theorem internal_node_insert_full (d f : Nat) (t : Table) (q n : Nat)
    (hq : q < TABLE_MAX_PAGES) (hres : t.pages q ≠ none)
    (hfull : (t.page q).size = INTERNAL_BRANCH_SIZE) :
    internal_node_insert d f t q n = internal_node_split_and_insert d f t q n := by
  unfold internal_node_insert internal_node_insert_with
  rw [get_page_resident t q hq hres]
  simp only [ok_bind]
  rw [if_pos (by rw [hfull])]

/-- The state in which a leaf split hands the new leaf to the parent: the new
leaf is pending under the parent. -/
theorem leaf_split_ready (t : Table) (h : Reachable t) (k v : Str) (t1 : Table) (c : Cursor)
    (hfind : table_find t k = .ok (t1, c)) (hnew : c.found = false)
    (hfull : (t1.page c.page_index).size = LEAF_RECORD_SIZE)
    (hnonroot : (t1.page c.page_index).is_root = false)
    (r : Table × KeyPtr × Nat × Nat) (e6 : leaf_node_split t.size t1 c k v = .ok r)
    (m : Table × KeyPtr) (e7 : recursive_max_key_of t.size r.1 c.page_index = .ok m)
    (t8 : Table) (e8 : get_page m.1 r.2.2.1 = .ok t8)
    (t9 : Table) (e9 : update_internal_node_key t8 r.2.2.1 r.2.1 m.2 = .ok t9) :
    ∃ g j, InsertReady t9 g r.2.2.1 r.2.2.2 j ∧ g.level 0 < t.size := by
  obtain ⟨g, hg⟩ := (reachable_inv h).1
  obtain ⟨⟨t1', c'⟩, e1, hs1, hc⟩ := table_find_spec g t k hg
  rw [hfind] at e1
  cases e1
  dsimp only at hs1 hc
  have hg1 := hg.same_inv hs1 g
  have hx0 : c.page_index ≠ 0 := by
    intro heq
    have := ((hg1.2.2.2.2 0 hg1.1).2.of_zero).1
    rw [heq, this] at hnonroot
    cases hnonroot
  rcases leaf_split_update g t1 c k v hg1 hc hnew hfull hx0 t.size hg.2.2.2.1 with
    he | ⟨t6, t7, nmk, t8', i, g2, e6', _, e7', e8', _, _, _, _, _, _, _, eupd, hready, hlev, _⟩
  · rw [e6] at he
    cases he
  rw [e6] at e6'
  cases e6'
  dsimp only at e7 e8 e9
  rw [e7'] at e7
  cases e7
  dsimp only at e8 e9
  rw [e8'] at e8
  cases e8
  rw [eupd] at e9
  cases e9
  exact ⟨g2, i + 1, hready, by rw [hlev]; exact hg.2.2.2.1⟩

theorem split_done_ok :
    leaf_node_split_and_insert split_table.size split_found.1 split_found.2 ⟨[7]⟩ ⟨[70]⟩
      = .ok split_done := by
  unfold split_done
  exact ok_of_succeeds _ _ (by decide!)

theorem split_child_max_ok :
    recursive_max_key_of split_table.size split_updated split_leaves.2.2.2
      = .ok split_child_max := by
  unfold split_child_max
  exact ok_of_succeeds _ _ (by decide!)

theorem split_right_max_ok :
    recursive_max_key_of split_table.size split_updated
      (split_updated.page split_leaves.2.2.1).rightmost = .ok split_right_max := by
  unfold split_right_max
  exact ok_of_succeeds _ _ (by decide!)

/-- In the run that splits the rightmost leaf, the new leaf is pending under
the root when it is handed to `internal_node_insert`. -/
theorem split_ready :
    ∃ g j, InsertReady split_updated g split_leaves.2.2.1 split_leaves.2.2.2 j ∧
      g.level 0 < split_table.size :=
  leaf_split_ready split_table split_reachable ⟨[7]⟩ ⟨[70]⟩ split_found.1 split_found.2
    split_found_ok (by decide!) (by decide!) (by decide!) split_leaves split_leaves_ok
    split_max split_max_ok split_parent split_parent_ok split_updated split_updated_ok

/-- In the run that splits the root, the new leaf is pending under the full
root when it is handed to `internal_node_insert`. -/
theorem deep_ready :
    ∃ g j, InsertReady deep_updated g deep_leaves.2.2.1 deep_leaves.2.2.2 j ∧
      g.level 0 < deep_table.size :=
  leaf_split_ready deep_table deep_reachable ⟨[13]⟩ ⟨[130]⟩ deep_found.1 deep_found.2
    deep_found_ok (by decide!) (by decide!) (by decide!) deep_leaves deep_leaves_ok
    deep_max deep_max_ok deep_parent deep_parent_ok deep_updated deep_updated_ok

theorem left_table_ok : db_set_all sample_open left_ops = .ok left_table := by
  unfold left_table
  exact ok_of_succeeds _ _ (by decide!)

theorem left_reachable : Reachable left_table :=
  Reachable.of_sets sample_file sample_garbage sample_open rfl sample_open_ok left_ops
    left_table left_table_ok

theorem left_found_ok : table_find left_table ⟨[13]⟩ = .ok left_found := by
  unfold left_found
  exact ok_of_succeeds _ _ (by decide!)

/-! ## The claims on the worked runs -/

/-- In the leaf `[3], [4], [5], [6]` of the second run `leaf_node_find` finds
the key `[5]`. -/
theorem leaf_node_find_result_witness :
    (split_table.page 1).size = 4 ∧
    ∃ t' c, leaf_node_find split_table 1 ⟨[5]⟩ = .ok (t', c) ∧ c.page_index = 1 ∧
      c.found = true ∧ ((split_table.page 1).records c.cell_index).key = ⟨[5]⟩ := by
  have hsz : (split_table.page 1).size = 4 := by decide!
  refine ⟨hsz, ?_⟩
  obtain ⟨t', c, e, _, hp, hiff, hfound, _⟩ := leaf_node_find_result split_table 1 ⟨[5]⟩
    (by decide) (by
      intro i j hij hj
      rw [hsz] at hj
      interval_cases j <;> interval_cases i <;> decide!)
  have hf := hiff.2 ⟨2, by decide!, by decide!⟩
  exact ⟨t', c, e, hp, hf, (hfound hf).2⟩

/-- In the full root of the third run, with the separators `[2], [4], [6], [8]`,
the key `[4]` is routed to child 1. -/
theorem internal_node_find_child_result_witness :
    (deep_table.page 0).size = 4 ∧
    internal_node_find_child (deep_table.page 0) ⟨[4]⟩ = .ok 1 := by
  have hsz : (deep_table.page 0).size = 4 := by decide!
  refine ⟨hsz, ?_⟩
  obtain ⟨r, e, _, _, _, _, heq⟩ := internal_node_find_child_result (deep_table.page 0) ⟨[4]⟩
    (by
      intro i j hij hj
      rw [hsz] at hj
      interval_cases j <;> interval_cases i <;> decide!)
  rw [heq 1 (by decide!) (by decide!)] at e
  exact e

/-- In the second run the insertion of the key `[7]` at cell 4 of the full
rightmost leaf `[3], [4], [5], [6]` puts the record into the new leaf, at cell
2; a record inserted at cell 2, the boundary, becomes the last record of the
old leaf. -/
theorem leaf_split_insert_result_witness :
    split_found.2.cell_index = 4 ∧
    (∃ t' L, leaf_node_split_and_insert split_table.size split_found.1 split_found.2
        ⟨[7]⟩ ⟨[70]⟩ = .ok t' ∧
      leaf_records (t'.page L) ++ leaf_records (t'.page split_found.1.size)
        = insert_at (leaf_records (split_found.1.page split_found.2.page_index))
            split_found.2.cell_index ⟨⟨[7]⟩, ⟨[70]⟩⟩ ∧
      (t'.page split_found.1.size).records (split_found.2.cell_index - LEAF_LEFT_SPLIT_SIZE)
        = ⟨⟨[7]⟩, ⟨[70]⟩⟩) ∧
    ∃ t6 old_max, leaf_node_split split_table.size split_found.1 ⟨1, 2, false⟩ ⟨[4, 5]⟩ ⟨[45]⟩
        = .ok (t6, old_max, (split_found.1.page 1).parent, split_found.1.size) ∧
      (t6.page 1).records 2 = ⟨⟨[4, 5]⟩, ⟨[45]⟩⟩ ∧
      (t6.page 1).size = LEAF_LEFT_SPLIT_SIZE + 1 ∧
      (t6.page split_found.1.size).size = LEAF_RIGHT_SPLIT_SIZE := by
  refine ⟨by decide!, ?_, ?_⟩
  · rcases leaf_split_insert_result.2 split_table ⟨[7]⟩ ⟨[70]⟩ split_found.1 split_found.2
      split_reachable split_found_ok (by decide!) (by decide!) with
      he | ⟨t', L, e, _, _, _, _, hrec, hnew, _⟩
    · rw [split_done_ok] at he
      cases he
    · exact ⟨t', L, e, hrec, (hnew (by decide!)).1⟩
  · obtain ⟨g, hg⟩ := (reachable_inv split_reachable).1
    obtain ⟨r, e, hs, _⟩ := table_find_spec g split_table ⟨[7]⟩ hg
    rw [split_found_ok] at e
    cases e
    rcases leaf_split_insert_result.1 split_table.size split_found.1 ⟨1, 2, false⟩ ⟨[4, 5]⟩
      ⟨[45]⟩ (hg.same_inv hs g).2.2.1 (by decide!) (Option.ne_none_iff_isSome.2 (by decide!))
      (by decide!) (by decide!) (by decide) (by decide!) with
      he | ⟨t6, omk, e6, _, _, _, _, hA⟩
    · have hsuc : succeeds (leaf_node_split split_table.size split_found.1 ⟨1, 2, false⟩
          ⟨[4, 5]⟩ ⟨[45]⟩) = true := by decide!
      rw [he] at hsuc
      cases hsuc
    · exact ⟨t6, omk, e6, hA (by decide)⟩

/-- Both cases occur.  In the second run the split leaf `[3], [4], [5], [6]` is
the rightmost child of the root: its slot is the size of the root, and the
call leaves the branches of the root as they were.  In the fourth run the
split leaf `[10], [11], [12], [20]` is the child of branch 0 of the root: the
separator of that branch is the old maximum `[20]`, and the call rewrites it
to the new maximum of the left leaf. -/
theorem separator_update_witness :
    (∃ t8 old_max new_max i t9,
      update_internal_node_key t8 (split_found.1.page split_found.2.page_index).parent
          old_max new_max = .ok t9 ∧
      i = (t8.page (split_found.1.page split_found.2.page_index).parent).size ∧
      internal_child_of (t8.page (split_found.1.page split_found.2.page_index).parent) i
        = split_found.2.page_index ∧
      ∀ j, j < (t8.page (split_found.1.page split_found.2.page_index).parent).size →
        (t9.page (split_found.1.page split_found.2.page_index).parent).branches j
          = (t8.page (split_found.1.page split_found.2.page_index).parent).branches j) ∧
    (∃ t8 old_max new_max i t9,
      update_internal_node_key t8 (left_found.1.page left_found.2.page_index).parent
          old_max new_max = .ok t9 ∧
      i < (t8.page (left_found.1.page left_found.2.page_index).parent).size ∧
      internal_child_of (t8.page (left_found.1.page left_found.2.page_index).parent) i
        = left_found.2.page_index ∧
      t8.key_at old_max = ⟨[20]⟩ ∧
      internal_key_of (t8.page (left_found.1.page left_found.2.page_index).parent) i
        = t8.key_at old_max ∧
      internal_key_of (t9.page (left_found.1.page left_found.2.page_index).parent) i
        = t8.key_at new_max ∧
      t9.page (left_found.1.page left_found.2.page_index).parent
        = set_internal_key (t8.page (left_found.1.page left_found.2.page_index).parent) i
            (t8.key_at new_max)) := by
  constructor
  · rcases separator_update split_table split_reachable ⟨[7]⟩ ⟨[70]⟩ split_found.1
      split_found.2 split_found_ok (by decide!) (by decide!) (by decide!) with
      he | ⟨t6, omk, t7, nmk, t8, i, t9, _, _, _, eupd, _, hP, _, _, hi, hci, _, _, _, hright⟩
    · rw [split_leaves_ok] at he
      cases he
    · have hsz : (split_found.1.page (split_found.1.page split_found.2.page_index).parent).size
          = 1 := by decide!
      have hi1 : i = (t8.page (split_found.1.page split_found.2.page_index).parent).size := by
        rw [hP] at hi hci ⊢
        rw [hsz] at hi ⊢
        rcases Nat.le_one_iff_eq_zero_or_eq_one.1 hi with h0 | h1
        · rw [h0] at hci
          exact absurd hci (by decide!)
        · exact h1
      exact ⟨t8, omk, nmk, i, t9, eupd, hi1, hci, (hright hi1).2.2.2.2.2.2⟩
  · rcases separator_update left_table left_reachable ⟨[13]⟩ ⟨[8]⟩ left_found.1
      left_found.2 left_found_ok (by decide!) (by decide!) (by decide!) with
      he | ⟨t6, omk, t7, nmk, t8, i, t9, _, _, _, eupd, _, hP, hold, _, hi, hci, _, _, hleft, _⟩
    · have hsuc : succeeds (leaf_node_split left_table.size left_found.1 left_found.2
          ⟨[13]⟩ ⟨[8]⟩) = true := by decide!
      rw [he] at hsuc
      cases hsuc
    · have hsz : (left_found.1.page (left_found.1.page left_found.2.page_index).parent).size
          = 1 := by decide!
      have hi0 : i < (t8.page (left_found.1.page left_found.2.page_index).parent).size := by
        rw [hP] at hi hci ⊢
        rw [hsz] at hi ⊢
        rcases Nat.le_one_iff_eq_zero_or_eq_one.1 hi with h0 | h1
        · omega
        · rw [h1] at hci
          exact absurd hci (by decide!)
      obtain ⟨a1, a2, a3⟩ := hleft hi0
      exact ⟨t8, omk, nmk, i, t9, eupd, hi0, hci, by rw [hold]; decide!, a1, a2, a3⟩

/-- In the second run the new leaf `[5], [6], [7]` is inserted into the root,
which has one branch: its maximum key exceeds the maximum key of the rightmost
child, so the rightmost child is pushed into slot 1 and the new leaf becomes
the rightmost child. -/
theorem internal_node_insert_raw_result_witness :
    ∃ t', internal_node_insert_raw split_table.size split_updated split_leaves.2.2.1
        split_leaves.2.2.2 = .ok t' ∧
      (t'.page split_leaves.2.2.1).size = (split_updated.page split_leaves.2.2.1).size + 1 ∧
      children (t'.page split_leaves.2.2.1)
        = children (split_updated.page split_leaves.2.2.1) ++ [split_leaves.2.2.2] := by
  obtain ⟨g, j, hr, hlev⟩ := split_ready
  have hP : split_leaves.2.2.1 = 0 := by decide!
  have hsz : (split_updated.page split_leaves.2.2.1).size = 1 := by decide!
  obtain ⟨t', e, _, hsize, _, _, hpush, _⟩ :=
    internal_node_insert_raw_result g split_table.size split_updated split_leaves.2.2.1
      split_leaves.2.2.2 split_child_max.1 split_right_max.1 split_child_max.2 split_right_max.2
      hr.size_le hr.q_lt hr.n_lt hr.n_ne_zero hr.pending.type (by decide!)
      (fun i hi => ⟨(hr.pending.child i hi).1, (hr.pending.child i hi).2.1,
        (hr.pending.child i hi).2.2.2.2.symm⟩)
      hr.pending.n_level.symm hr.lower_pages (by rw [hP]; omega)
      split_child_max_ok split_right_max_ok
      (by
        intro i hi
        rw [hsz] at hi
        obtain rfl : i = 0 := by omega
        exact ⟨_, _, ok_of_succeeds (sample_closed, ⟨0, 0⟩) _ (by decide!), by decide!⟩)
      (by
        intro i j hij hj
        rw [hsz] at hj
        omega)
      (by
        intro i hi
        rw [hsz] at hi
        obtain rfl : i = 0 := by omega
        decide!)
      (by
        intro i hi
        rw [hsz] at hi
        obtain rfl : i = 0 := by omega
        decide!)
      (by decide!)
  exact ⟨t', e, hsize, (hpush (by decide!)).2⟩

/-- In the third run the new leaf `[11], [12], [13]` is inserted into the full
root: the root is split, the old node ends at page 8 and the new node at page
7, and their children are the children of the root with the new leaf inserted. -/
theorem internal_split_insert_result_witness :
    (deep_updated.page deep_leaves.2.2.1).size = INTERNAL_BRANCH_SIZE ∧
    ∃ j, children (deep_split.page
          (if deep_leaves.2.2.1 = ROOT_PAGE_INDEX then deep_updated.size + 1
            else deep_leaves.2.2.1))
        ++ children (deep_split.page deep_updated.size)
      = insert_at (children (deep_updated.page deep_leaves.2.2.1)) j deep_leaves.2.2.2 := by
  have hfull : (deep_updated.page deep_leaves.2.2.1).size = INTERNAL_BRANCH_SIZE := by decide!
  refine ⟨hfull, ?_⟩
  obtain ⟨g, j, hr, hlev⟩ := deep_ready
  have hq := hr.q_level
  rcases internal_split_insert_result g deep_table.size deep_table.size deep_updated
    deep_leaves.2.2.1 deep_leaves.2.2.2 j hr hfull hlev (by omega) with
    he | ⟨t', _, _, _, _, e, _, _, _, _, _, _, _, hch, _⟩
  · rw [deep_split_ok] at he
    cases he
  · rw [deep_split_ok] at e
    cases e
    exact ⟨j, hch⟩

/-- In the first run `create_new_root` with the right page 1 allocates page 3 and
makes page 1 the rightmost child of the new root. -/
theorem create_new_root_result_witness :
    sample_table.size < TABLE_MAX_PAGES ∧
    ∃ t', create_new_root sample_table.size sample_table 1 = .ok t' ∧
      t'.size = sample_table.size + 1 ∧ (t'.page ROOT_PAGE_INDEX).size = 1 ∧
      (t'.page ROOT_PAGE_INDEX).rightmost = 1 := by
  obtain ⟨g, hg⟩ := (reachable_inv sample_reachable).1
  rcases create_new_root_result sample_table.size sample_table g 1 hg.2.1 hg.2.2.1
    (by decide!) (by decide) (fun p hp => (hg.2.2.2.2 p hp).1)
    (fun p hp hp0 => ((hg.2.2.2.2 p hp).2.of_ne_zero hp0).1) (by decide!) hg.2.2.2.1 with
    ⟨hcap, _⟩ | ⟨hcap, t', _, _, _, e, hs, _, _, _, hsz, _, hrm, _⟩
  · exact absurd hcap (by decide!)
  · exact ⟨hcap, t', e, hs, hsz, hrm⟩

/-- In the third run `table_find` returns for the key `[7]`, with a cursor into a
leaf. -/
theorem balanced_tree_witness :
    ∃ t' c, table_find deep_table ⟨[7]⟩ = .ok (t', c) ∧
      (deep_table.page c.page_index).type = NODE_LEAF ∧
      c.cell_index ≤ (deep_table.page c.page_index).size := by
  obtain ⟨t', c, e, _, _, _, hty, hcell⟩ :=
    (balanced_tree deep_table deep_reachable).2.2.2.2.2 ⟨[7]⟩
  exact ⟨t', c, e, hty, hcell⟩

/-- C16 fails as stated.  In the state after the insertion of the keys `[1]`
to `[6]`, `db_set` of the key `[7]` splits the rightmost leaf `[3], [4], [5],
[6]` of the root, and the leaf is not the root.  The root has the single
separator `[2]`: no branch below its size holds the old maximum `[6]` of the
leaf.  `update_internal_node_key` leaves the separator alone and writes the
key of slot 1, which is not a branch of the root. -/
theorem separator_update_counterexample :
    Reachable split_table ∧
    table_find split_table ⟨[7]⟩ = .ok split_found ∧
    split_found.2.found = false ∧
    (split_found.1.page split_found.2.page_index).size = LEAF_RECORD_SIZE ∧
    (split_found.1.page split_found.2.page_index).is_root = false ∧
    leaf_node_split split_table.size split_found.1 split_found.2 ⟨[7]⟩ ⟨[70]⟩
      = .ok split_leaves ∧
    recursive_max_key_of split_table.size split_leaves.1 split_found.2.page_index
      = .ok split_max ∧
    get_page split_max.1 split_leaves.2.2.1 = .ok split_parent ∧
    update_internal_node_key split_parent split_leaves.2.2.1 split_leaves.2.1 split_max.2
      = .ok split_updated ∧
    db_set split_table (some ⟨[7]⟩) (some ⟨[70]⟩)
      = internal_node_insert split_table.size split_table.size split_updated
          split_leaves.2.2.1 split_leaves.2.2.2 ∧
    split_leaves.2.2.1 = (split_found.1.page split_found.2.page_index).parent ∧
    split_parent.key_at split_leaves.2.1
      = ((split_found.1.page split_found.2.page_index).records (LEAF_RECORD_SIZE - 1)).key ∧
    (¬ ∃ i, i < (split_parent.page split_leaves.2.2.1).size ∧
      internal_key_of (split_parent.page split_leaves.2.2.1) i
        = split_parent.key_at split_leaves.2.1) ∧
    (∀ i, i < (split_parent.page split_leaves.2.2.1).size →
      internal_key_of (split_updated.page split_leaves.2.2.1) i
        = internal_key_of (split_parent.page split_leaves.2.2.1) i) ∧
    internal_key_of (split_updated.page split_leaves.2.2.1)
        (split_parent.page split_leaves.2.2.1).size
      ≠ internal_key_of (split_parent.page split_leaves.2.2.1)
        (split_parent.page split_leaves.2.2.1).size := by
  refine ⟨split_reachable, split_found_ok, by decide!, by decide!, by decide!, split_leaves_ok,
    split_max_ok, split_parent_ok, split_updated_ok, ?_, by decide!, by decide!, by decide!,
    by decide!, by decide!⟩
  rw [db_set_split_leaf split_table ⟨[7]⟩ ⟨[70]⟩ split_found.1 split_found.2 (by decide!)
    (by decide!) split_found_ok (Option.ne_none_iff_isSome.2 (by decide!)) (by decide!)
    (by decide!)]
  exact leaf_split_path split_table.size split_found.1 split_found.2 ⟨[7]⟩ ⟨[70]⟩ split_leaves
    split_leaves_ok (by decide!) split_max split_max_ok split_parent split_parent_ok
    split_updated split_updated_ok

/-- C18 fails as stated.  In the state after the insertion of the keys `[1]`
to `[12]`, `db_set` of the key `[13]` splits the rightmost leaf and hands the
new leaf, page 6, to the full root, whose rightmost child is page 5.  After
`internal_node_split_and_insert` the new node is page 7, and its rightmost
child is the inserted page 6, not the former rightmost child of the root. -/
theorem internal_split_insert_counterexample :
    Reachable deep_table ∧
    db_set deep_table (some ⟨[13]⟩) (some ⟨[130]⟩)
      = internal_node_split_and_insert deep_table.size deep_table.size deep_updated
          deep_leaves.2.2.1 deep_leaves.2.2.2 ∧
    (∃ g j, InsertReady deep_updated g deep_leaves.2.2.1 deep_leaves.2.2.2 j) ∧
    (deep_updated.page deep_leaves.2.2.1).type = NODE_INTERNAL ∧
    (deep_updated.page deep_leaves.2.2.1).size = INTERNAL_BRANCH_SIZE ∧
    internal_node_split_and_insert deep_table.size deep_table.size deep_updated
      deep_leaves.2.2.1 deep_leaves.2.2.2 = .ok deep_split ∧
    (deep_updated.page deep_leaves.2.2.1).rightmost = 5 ∧
    deep_leaves.2.2.2 = 6 ∧ deep_updated.size = 7 ∧
    (deep_split.page deep_updated.size).type = NODE_INTERNAL ∧
    (deep_split.page deep_updated.size).rightmost = 6 ∧
    (deep_split.page deep_updated.size).rightmost
      ≠ (deep_updated.page deep_leaves.2.2.1).rightmost := by
  refine ⟨deep_reachable, ?_, ?_, by decide!, by decide!, deep_split_ok, by decide!, by decide!,
    by decide!, by decide!, by decide!, by decide!⟩
  · rw [db_set_split_leaf deep_table ⟨[13]⟩ ⟨[130]⟩ deep_found.1 deep_found.2 (by decide!)
      (by decide!) deep_found_ok (Option.ne_none_iff_isSome.2 (by decide!)) (by decide!)
      (by decide!),
      leaf_split_path deep_table.size deep_found.1 deep_found.2 ⟨[13]⟩ ⟨[130]⟩ deep_leaves
        deep_leaves_ok (by decide!) deep_max deep_max_ok deep_parent deep_parent_ok
        deep_updated deep_updated_ok]
    exact internal_node_insert_full _ _ _ _ _ (by decide!)
      (Option.ne_none_iff_isSome.2 (by decide!)) (by decide!)
  · obtain ⟨g, j, hr, _⟩ := deep_ready
    exact ⟨g, j, hr⟩

/-! ## The recorded reading agrees with the plain one -/

theorem Logged.bind_eq {α β : Type} (x : Logged α) (f : α → Logged β) :
    x >>= f = Logged.bind x f := rfl

theorem Logged.pure_eq {α : Type} (a : α) : (pure a : Logged α) = Logged.lift (.ok a) := rfl

theorem Logged.bind_result {α β : Type} (x : Logged α) (f : α → Logged β) :
    (x >>= f).result = x.result >>= fun a => (f a).result := by
  rw [Logged.bind_eq]
  unfold Logged.bind
  cases x.result <;> rfl

theorem Logged.lift_result {α : Type} (x : Except Fault α) : (Logged.lift x).result = x := rfl

theorem Logged.lift_calls {α : Type} (x : Except Fault α) : (Logged.lift x).calls = [] := rfl

theorem Logged.mem_bind {α β : Type} (x : Logged α) (f : α → Logged β) (c : MaxCall)
    (h : c ∈ (x >>= f).calls) :
    c ∈ x.calls ∨ ∃ a, x.result = .ok a ∧ c ∈ (f a).calls := by
  rw [Logged.bind_eq] at h
  unfold Logged.bind at h
  cases hx : x.result with
  | ok a =>
    rw [hx] at h
    simp only [List.mem_append] at h
    rcases h with h | h
    · exact Or.inl h
    · exact Or.inr ⟨a, rfl, h⟩
  | error e =>
    rw [hx] at h
    exact Or.inl h

theorem log_call_result (c : MaxCall) : (log_call c).result = .ok () := rfl

theorem Logged.ite_result {α : Type} (c : Prop) [Decidable c] (x y : Logged α) :
    (if c then x else y).result = if c then x.result else y.result := by
  split <;> rfl

theorem recursive_max_key_of_logged_result :
    ∀ (fuel : Nat) (t : Table) (page_index : Nat),
      (recursive_max_key_of_logged fuel t page_index).result
        = recursive_max_key_of fuel t page_index := by
  intro fuel
  induction fuel with
  | zero =>
    intro t p
    unfold recursive_max_key_of_logged recursive_max_key_of
    simp only [Logged.bind_result, log_call_result, Logged.lift_result, ok_bind]
  | succ fuel ih =>
    intro t p
    unfold recursive_max_key_of_logged recursive_max_key_of
    simp only [Logged.bind_result, log_call_result, ok_bind]
    cases (t.page p).type with
    | NODE_LEAF =>
      simp only [Logged.ite_result, Logged.lift_result, Logged.pure_eq]
    | NODE_INTERNAL =>
      simp only [Logged.bind_result, Logged.lift_result, ih]

theorem create_new_root_logged_result (fuel : Nat) (t : Table) (right_page_index : Nat) :
    (create_new_root_logged fuel t right_page_index).result
      = create_new_root fuel t right_page_index := by
  unfold create_new_root_logged create_new_root
  simp only [Logged.bind_result, Logged.lift_result, Logged.pure_eq,
    recursive_max_key_of_logged_result]

theorem internal_node_insert_raw_logged_result (fuel : Nat) (t : Table) (q n : Nat) :
    (internal_node_insert_raw_logged fuel t q n).result = internal_node_insert_raw fuel t q n := by
  unfold internal_node_insert_raw_logged internal_node_insert_raw
  simp only [Logged.bind_result, Logged.lift_result, Logged.pure_eq, Logged.ite_result,
    recursive_max_key_of_logged_result]
  rfl

theorem internal_node_insert_with_logged_result
    (split_logged : Table → Nat → Nat → Logged Table)
    (split : Table → Nat → Nat → Except Fault Table)
    (h : ∀ t q n, (split_logged t q n).result = split t q n) (fuel : Nat) (t : Table) (q n : Nat) :
    (internal_node_insert_with_logged split_logged fuel t q n).result
      = internal_node_insert_with split fuel t q n := by
  unfold internal_node_insert_with_logged internal_node_insert_with
  simp only [Logged.bind_result, Logged.lift_result, Logged.ite_result, h,
    internal_node_insert_raw_logged_result]

theorem internal_node_split_and_insert_logged_result (depth : Nat) :
    ∀ (fuel : Nat) (t : Table) (q n : Nat),
      (internal_node_split_and_insert_logged depth fuel t q n).result
        = internal_node_split_and_insert depth fuel t q n := by
  intro fuel
  induction fuel with
  | zero =>
    intro t q n
    rfl
  | succ fuel ih =>
    intro t q n
    unfold internal_node_split_and_insert_logged internal_node_split_and_insert
    simp only [Logged.bind_result, Logged.lift_result, Logged.ite_result,
      recursive_max_key_of_logged_result, internal_node_insert_raw_logged_result,
      create_new_root_logged_result,
      internal_node_insert_with_logged_result _ _ ih]

theorem internal_node_insert_logged_result (depth fuel : Nat) (t : Table) (q n : Nat) :
    (internal_node_insert_logged depth fuel t q n).result
      = internal_node_insert depth fuel t q n := by
  unfold internal_node_insert_logged internal_node_insert
  exact internal_node_insert_with_logged_result _ _
    (internal_node_split_and_insert_logged_result depth fuel) depth t q n

theorem leaf_node_split_and_insert_logged_result (depth : Nat) (t : Table) (c : Cursor)
    (k v : Str) :
    (leaf_node_split_and_insert_logged depth t c k v).result
      = leaf_node_split_and_insert depth t c k v := by
  unfold leaf_node_split_and_insert_logged leaf_node_split_and_insert
  simp only [Logged.bind_result, Logged.lift_result, Logged.ite_result,
    recursive_max_key_of_logged_result, create_new_root_logged_result,
    internal_node_insert_logged_result]

theorem leaf_node_insert_logged_result (depth : Nat) (t : Table) (c : Cursor) (k v : Str) :
    (leaf_node_insert_logged depth t c k v).result = leaf_node_insert depth t c k v := by
  unfold leaf_node_insert_logged leaf_node_insert
  simp only [Logged.bind_result, Logged.lift_result, Logged.ite_result,
    leaf_node_split_and_insert_logged_result]

theorem db_set_locked_logged_result (t : Table) (k v : Str) :
    (db_set_locked_logged t k v).result = db_set_locked t k v := by
  unfold db_set_locked_logged db_set_locked
  simp only [Logged.bind_result, Logged.lift_result, Logged.ite_result, Logged.pure_eq,
    leaf_node_insert_logged_result]

theorem db_set_logged_result (t : Table) (key value : Option Str) :
    (db_set_logged t key value).result = db_set t key value := by
  unfold db_set_logged db_set
  simp only [Logged.bind_result, Logged.lift_result]
  cases key <;> cases value <;>
    simp only [Logged.lift_result, db_set_locked_logged_result]

/-! ## Calls that reach a leaf -/

/-- A call of `recursive_max_key_of` that returns has reached a leaf that is
not empty, and returns the location of its last record. -/
theorem recursive_max_key_of_ok_leaf :
    ∀ (fuel : Nat) (t : Table) (p : Nat) (t' : Table) (ptr : KeyPtr),
      recursive_max_key_of fuel t p = .ok (t', ptr) →
      (t'.page ptr.page_index).type = NODE_LEAF ∧ 0 < (t'.page ptr.page_index).size ∧
        ptr.slot = (t'.page ptr.page_index).size - 1 := by
  intro fuel
  induction fuel with
  | zero =>
    intro t p t' ptr h
    cases h
  | succ fuel ih =>
    intro t p t' ptr h
    unfold recursive_max_key_of at h
    simp only at h
    cases hty : (t.page p).type with
    | NODE_LEAF =>
      rw [hty] at h
      simp only at h
      by_cases hsz : (t.page p).size = 0
      · rw [if_pos hsz] at h
        cases h
      · rw [if_neg hsz] at h
        cases h
        exact ⟨hty, Nat.pos_of_ne_zero hsz, rfl⟩
    | NODE_INTERNAL =>
      rw [hty] at h
      simp only at h
      cases hg : get_page t (internal_rightmost_child_of (t.page p)) with
      | error e =>
        rw [hg] at h
        cases h
      | ok t1 =>
        rw [hg] at h
        exact ih t1 _ t' ptr h

theorem MaxCall.reaches_leaf_of_ok (c : MaxCall) (r : Table × KeyPtr)
    (h : recursive_max_key_of c.fuel c.table c.page_index = .ok r) : c.reaches_leaf :=
  ⟨r.1, r.2, h, recursive_max_key_of_ok_leaf _ _ _ r.1 r.2 h⟩

theorem Logged.AllGood.of_lift {α : Type} (x : Except Fault α) : (Logged.lift x).AllGood := by
  intro c hc
  cases hc

theorem Logged.AllGood.of_pure {α : Type} (a : α) : (Pure.pure a : Logged α).AllGood := by
  intro c hc
  cases hc

theorem Logged.AllGood.then_good {α β : Type} {x : Logged α} {f : α → Logged β} (hx : x.AllGood)
    (hf : ∀ a, x.result = .ok a → (f a).AllGood) : (x >>= f).AllGood := by
  intro c hc
  rcases Logged.mem_bind x f c hc with h | ⟨a, ha, h⟩
  · exact hx c h
  · exact hf a ha c h

/-- A call of `recursive_max_key_of` that returns: the call and the calls it
makes to itself all reach the leaf. -/
theorem recursive_max_key_of_logged_good :
    ∀ (fuel : Nat) (t : Table) (p : Nat) (r : Table × KeyPtr),
      recursive_max_key_of fuel t p = .ok r → (recursive_max_key_of_logged fuel t p).AllGood := by
  intro fuel
  induction fuel with
  | zero =>
    intro t p r h
    cases h
  | succ fuel ih =>
    intro t p r h
    have hhead : (⟨fuel + 1, t, p⟩ : MaxCall).reaches_leaf :=
      MaxCall.reaches_leaf_of_ok ⟨fuel + 1, t, p⟩ r h
    unfold recursive_max_key_of_logged
    apply Logged.AllGood.then_good
    · intro c hc
      have : c = ⟨fuel + 1, t, p⟩ := by
        simpa [log_call] using hc
      rw [this]
      exact hhead
    · intro _ _
      simp only
      unfold recursive_max_key_of at h
      simp only at h
      cases hty : (t.page p).type with
      | NODE_LEAF =>
        simp only
        split
        · exact Logged.AllGood.of_lift _
        · exact Logged.AllGood.of_pure _
      | NODE_INTERNAL =>
        rw [hty] at h
        simp only at h ⊢
        apply Logged.AllGood.then_good (Logged.AllGood.of_lift _)
        intro t1 h1
        rw [Logged.lift_result] at h1
        rw [h1] at h
        exact ih t1 _ r h

theorem Logged.Sound.lift_sound {α : Type} (x : Except Fault α) : (Logged.lift x).Sound :=
  fun _ => Logged.AllGood.of_lift x

theorem Logged.Sound.pure_sound {α : Type} (a : α) : (Pure.pure a : Logged α).Sound :=
  fun _ => Logged.AllGood.of_pure a

theorem Logged.Sound.bind_sound {α β : Type} {x : Logged α} {f : α → Logged β} (hx : x.Sound)
    (hf : ∀ a, (f a).Sound) : (x >>= f).Sound := by
  rintro ⟨b, hb⟩
  rw [Logged.bind_result] at hb
  cases hxr : x.result with
  | error e =>
    rw [hxr] at hb
    cases hb
  | ok a =>
    rw [hxr] at hb
    apply Logged.AllGood.then_good (hx ⟨a, hxr⟩)
    intro a' ha'
    rw [hxr] at ha'
    cases ha'
    exact hf a ⟨b, hb⟩

theorem recursive_max_key_of_logged_sound (fuel : Nat) (t : Table) (p : Nat) :
    (recursive_max_key_of_logged fuel t p).Sound := by
  rintro ⟨r, hr⟩
  rw [recursive_max_key_of_logged_result] at hr
  exact recursive_max_key_of_logged_good fuel t p r hr

theorem internal_node_insert_raw_logged_sound (fuel : Nat) (t : Table) (q n : Nat) :
    (internal_node_insert_raw_logged fuel t q n).Sound := by
  unfold internal_node_insert_raw_logged
  apply Logged.Sound.bind_sound (Logged.Sound.lift_sound _)
  intro t1
  apply Logged.Sound.bind_sound (Logged.Sound.lift_sound _)
  intro t2
  have hrest : ∀ (u : Table) (old_size : Nat), (do
      let t ← Logged.lift (get_page u (internal_rightmost_child_of (u.page q)))
      let right_child := internal_rightmost_child_of (t.page q)
      let (t, child_max_key) ← recursive_max_key_of_logged fuel t n
      let (t, right_max_key) ← recursive_max_key_of_logged fuel t right_child
      if strcmp (t.key_at child_max_key) (t.key_at right_max_key) > 0 then
        let t := t.write q { t.page q with size := (t.page q).size + 1 }
        let t := t.write q
          (set_internal_child (t.page q) old_size (internal_rightmost_child_of (t.page q)))
        let t := t.write q (set_internal_key (t.page q) old_size (t.key_at right_max_key))
        let t := t.write q { t.page q with rightmost := n }
        pure t
      else do
        let index ← Logged.lift (internal_node_find_child (t.page q) (t.key_at child_max_key))
        let t := t.write q { t.page q with size := (t.page q).size + 1 }
        let t := t.write q
          { t.page q with
            branches := memmove_branches (t.page q).branches index (old_size - index) }
        let t := t.write q (set_internal_child (t.page q) index n)
        let t := t.write q (set_internal_key (t.page q) index (t.key_at child_max_key))
        pure t : Logged Table).Sound := by
    intro u old_size
    apply Logged.Sound.bind_sound (Logged.Sound.lift_sound _)
    intro t3
    apply Logged.Sound.bind_sound (recursive_max_key_of_logged_sound _ _ _)
    rintro ⟨t4, kc⟩
    apply Logged.Sound.bind_sound (recursive_max_key_of_logged_sound _ _ _)
    rintro ⟨t5, kr⟩
    show Logged.Sound (if _ then _ else _)
    split
    · exact Logged.Sound.pure_sound _
    · apply Logged.Sound.bind_sound (Logged.Sound.lift_sound _)
      intro i
      exact Logged.Sound.pure_sound _
  show Logged.Sound (if _ then _ else _)
  split
  · apply Logged.Sound.bind_sound (Logged.Sound.lift_sound _)
    intro _
    exact hrest _ _
  · exact hrest _ _

/-- The calls of an insertion into a parent with room, in the state in which
the program makes it, reach a leaf. -/
theorem internal_node_insert_raw_logged_good (g : Ghost) (d : Nat) (t : Table) (q n j : Nat)
    (hN : t.size ≤ TABLE_MAX_PAGES) (hq : q < t.size) (hn : n < t.size) (hn0 : n ≠ 0)
    (hpend : Pending t g q n j)
    (hd : ∀ p, p < t.size → g.level p < g.level q → Down t g p)
    (hdepth : g.level n < d) (hroom : (t.page q).size < INTERNAL_BRANCH_SIZE) :
    (internal_node_insert_raw_logged d t q n).AllGood := by
  obtain ⟨t', e, _⟩ := internal_node_insert_raw_spec g d t q n j hN hq hn hn0 hpend hd hdepth hroom
  exact internal_node_insert_raw_logged_sound d t q n
    ⟨t', by rw [internal_node_insert_raw_logged_result]; exact e⟩

theorem Yields.at_ok {α : Type} {x : Except Fault α} {P : α → Prop} {a : α}
    (h : Yields x P) (hx : x = .ok a) : P a := by
  rw [hx] at h
  exact h

theorem Returns.at_result {α : Type} {x : Except Fault α} {P : α → Prop} {a : α}
    (h : Returns x P) (hx : x = .ok a) : P a := by
  obtain ⟨b, hb, hp⟩ := h
  rw [hx] at hb
  cases hb
  exact hp

/-- A step that makes no call, followed by steps whose calls reach a leaf. -/
theorem Logged.AllGood.bind_lift {α β : Type} {x : Except Fault α} {f : α → Logged β}
    (hf : ∀ a, x = .ok a → (f a).AllGood) : (Logged.lift x >>= f).AllGood :=
  Logged.AllGood.then_good (Logged.AllGood.of_lift x) hf

/-- A call that returns, followed by steps whose calls reach a leaf. -/
theorem Logged.AllGood.bind_max {β : Type} {fuel : Nat} {t : Table} {p : Nat}
    {f : Table × KeyPtr → Logged β} (r : Table × KeyPtr)
    (hr : recursive_max_key_of fuel t p = .ok r) (hf : (f r).AllGood) :
    (recursive_max_key_of_logged fuel t p >>= f).AllGood := by
  apply Logged.AllGood.then_good (recursive_max_key_of_logged_good fuel t p r hr)
  intro a ha
  rw [recursive_max_key_of_logged_result, hr] at ha
  cases ha
  exact hf

theorem create_new_root_logged_sound (fuel : Nat) (t : Table) (N : Nat) :
    (create_new_root_logged fuel t N).Sound := by
  unfold create_new_root_logged
  apply Logged.Sound.bind_sound (Logged.Sound.lift_sound _)
  intro t1
  apply Logged.Sound.bind_sound (Logged.Sound.lift_sound _)
  intro t2
  apply Logged.Sound.bind_sound (Logged.Sound.lift_sound _)
  intro t3
  apply Logged.Sound.bind_sound (recursive_max_key_of_logged_sound _ _ _)
  rintro ⟨t4, k⟩
  exact Logged.Sound.pure_sound _

/-- The call that `create_new_root` makes after the split of the root reaches
a leaf. -/
theorem SplitDone.create_root_good {t : Table} {g : Ghost} {N : Nat} {hi_old : Option Str}
    (h : SplitDone t g 0 N hi_old) (d : Nat) (hdepth : g.level 0 < d) :
    (create_new_root_logged d t N).AllGood := by
  obtain ⟨m, hm, _⟩ := h.mid
  by_cases hcap : t.size < TABLE_MAX_PAGES
  · have hlower : ∀ p, p < t.size → g.level p < g.level 0 → Down t g p := by
      intro p hp hlev
      have hp0 : p ≠ 0 := by intro heq; rw [heq] at hlev; omega
      by_cases hpN : p = N
      · rw [hpN]; exact h.N_down
      · exact (h.others p hp hp0 hpN (fun hx => absurd rfl hx)).1
    obtain ⟨t', e⟩ := create_new_root_returns d t N hcap h.fresh h.N_lt (by
      intro t2 h2size h2cap h2body h2page
      have hlo0 := (h.root rfl).2.1
      obtain ⟨res, e, _⟩ := recursive_max_key_of_top g d t t2 0 t.size (g.lo 0) (g.hi 0)
        h2cap (by omega) (by omega) h2body
        (fun hty => ⟨by
          have := (h.x_down.leaf hty).2.1.2.2.2 m hm
          exact this.1, (h.x_down.leaf hty).2.1⟩)
        (fun hty => by
          have hok := h.x_down.internal hty
          obtain ⟨c1, c2, c3, c4, c5, c6⟩ := hok.2.2 (t.page 0).size (le_refl _)
          have hcr : internal_child_of (t.page 0) (t.page 0).size = (t.page 0).rightmost := by
            simp [internal_child_of, internal_rightmost_child_of]
          rw [hcr] at c1 c2 c4 c6
          refine ⟨c1, c2, c4, ?_, ?_⟩
          · intro l hl
            rw [hlo0] at hl
            cases hl
          · rw [c6]
            unfold upper_bound_of
            rw [if_neg (by omega)])
        hlower
        (fun p hp hlev => SameBody.of_eq (h2page p hp (by intro heq; rw [heq] at hlev; omega)))
        (fun p hp hlev => by rw [h2page p hp (by intro heq; rw [heq] at hlev; omega)])
        hdepth
      exact ⟨res, e⟩)
    exact create_new_root_logged_sound d t N
      ⟨t', by rw [create_new_root_logged_result]; exact e⟩
  · unfold create_new_root_logged
    apply Logged.AllGood.bind_lift
    intro t1 h1
    apply Logged.AllGood.bind_lift
    intro t2 h2
    have := (get_page_exit_iff t1 t.size).2 (by omega)
    rw [this] at h2
    cases h2

/-! ## The two parts of the splits, calls recorded -/

theorem Logged.pure_bind {α β : Type} (a : α) (f : α → Logged β) :
    (Pure.pure a : Logged α) >>= f = f a := by
  rw [Logged.bind_eq, Logged.pure_eq]
  unfold Logged.bind Logged.lift
  simp

theorem Logged.bind_assoc {α β γ : Type} (x : Logged α) (f : α → Logged β)
    (h : β → Logged γ) : x >>= f >>= h = x >>= fun a => f a >>= h := by
  simp only [Logged.bind_eq]
  unfold Logged.bind
  cases hx : x.result with
  | error e => simp [hx]
  | ok a =>
    simp only [hx]
    cases hf : (f a).result with
    | error e => simp [hf]
    | ok b => simp [hf]

theorem internal_node_split_and_insert_logged_eq (depth fuel : Nat) (t : Table)
    (old_page_index child_page_index : Nat) :
    internal_node_split_and_insert_logged depth (fuel + 1) t old_page_index child_page_index =
      (internal_node_split_logged depth t old_page_index child_page_index >>= fun r =>
        internal_node_split_finish_logged depth (internal_node_split_and_insert_logged depth fuel)
          r.1 old_page_index child_page_index r.2.1 r.2.2.1 r.2.2.2.1 r.2.2.2.2) := by
  conv => lhs; unfold internal_node_split_and_insert_logged
  unfold internal_node_split_logged internal_node_split_finish_logged
  simp only [Logged.bind_assoc, Logged.pure_bind]

theorem leaf_node_split_and_insert_logged_eq (depth : Nat) (t : Table) (cursor : Cursor)
    (key value : Str) :
    leaf_node_split_and_insert_logged depth t cursor key value =
      (leaf_node_split_logged depth t cursor key value >>= fun r =>
        leaf_node_split_finish_logged depth r.1 cursor.page_index r.2.1 r.2.2.1 r.2.2.2) := by
  conv => lhs; unfold leaf_node_split_and_insert_logged
  unfold leaf_node_split_logged leaf_node_split_finish_logged
  simp only [Logged.bind_assoc, Logged.pure_bind]

theorem internal_node_split_logged_result (depth : Nat) (t : Table) (q n : Nat) :
    (internal_node_split_logged depth t q n).result = internal_node_split depth t q n := by
  unfold internal_node_split_logged internal_node_split
  simp only [Logged.bind_result, Logged.lift_result, Logged.pure_eq,
    recursive_max_key_of_logged_result]

theorem leaf_node_split_logged_result (depth : Nat) (t : Table) (c : Cursor) (k v : Str) :
    (leaf_node_split_logged depth t c k v).result = leaf_node_split depth t c k v := by
  unfold leaf_node_split_logged leaf_node_split
  simp only [Logged.bind_result, Logged.lift_result, Logged.pure_eq,
    recursive_max_key_of_logged_result]

/-- The call that the first part of `internal_node_split_and_insert` makes, on
the full page before it is halved, reaches a leaf. -/
theorem internal_node_split_logged_good (g : Ghost) (d : Nat) (t : Table) (q n j : Nat)
    (h : InsertReady t g q n j) (hdepth : g.level q < d) :
    (internal_node_split_logged d t q n).AllGood := by
  have hqN : q ≠ t.size := by have := h.q_lt; omega
  unfold internal_node_split_logged
  obtain ⟨t1, e1, hs1, _⟩ := get_page_allocated t q h.q_lt h.size_le
  apply Logged.AllGood.bind_lift
  intro t1' h1
  rw [e1] at h1
  cases h1
  apply Logged.AllGood.bind_lift
  intro t2 h2
  have hnew := (get_page_new t1 (hs1.fresh h.fresh))
  rw [hs1.size] at hnew
  obtain ⟨hlt, h2size, h2page, _, _, _, _, h2fresh⟩ := hnew.at_ok h2
  rw [hs1.page] at h2page
  simp only [write_page_same, write_write, write_page_ne _ _ _ _ hqN, h2page q hqN]
  generalize hta : Table.write t2 t.size _ = ta
  have hasize : ta.size = t.size + 1 := by rw [← hta, write_size, h2size]
  have hap : ∀ p, p ≠ t.size → ta.page p = t.page p := by
    intro p hp; rw [← hta, write_page_ne _ _ _ _ hp, h2page p hp]
  have haN : (ta.page t.size).type = NODE_INTERNAL := by
    rw [← hta, write_page_same]
    rfl
  obtain ⟨t3, e3, hs3, _⟩ := get_page_allocated ta n (by have := h.n_lt; omega) (by omega)
  apply Logged.AllGood.bind_lift
  intro t3' h3
  rw [e3] at h3
  cases h3
  obtain ⟨r, e4, _⟩ := InsertReady.old_max g d t t3 q n j h
    (by rw [hs3.size]; omega) (by rw [hs3.size]; omega)
    (by intro p hp; rw [hs3.page, hap p (by omega)])
    (by
      intro p h1 h2
      rw [hs3.size, hasize] at h2
      have : p = t.size := by omega
      rw [this, hs3.page]; exact haN)
    hdepth
  apply Logged.AllGood.bind_max r e4
  apply Logged.AllGood.bind_lift
  intro t5 _
  exact Logged.AllGood.of_pure _

/-- The calls that the second part of `internal_node_split_and_insert` makes
reach a leaf, given that the calls of the insertion into the parent do. -/
theorem internal_node_split_finish_logged_good (g : Ghost) (d : Nat) (t ts : Table)
    (q n j : Nat) (hr : InsertReady t g q n j)
    (hfull : (t.page q).size = INTERNAL_BRANCH_SIZE)
    (h : Halved t q ts) (hdepth : g.level 0 < d) (omk : KeyPtr)
    (hk1 : (t.page omk.page_index).type = NODE_LEAF) (hk2 : omk.page_index < t.size)
    (hk3 : Above (g.lo q) (t.key_at omk)) (hk4 : Below (t.key_at omk) (g.hi q))
    (rec_split : Table → Nat → Nat → Logged Table)
    (hrec : ∀ (g' : Ghost) (t' : Table) (n' j' : Nat),
      InsertReady t' g' (t.page q).parent n' j' → g'.level 0 = g.level 0 →
      g'.level (t.page q).parent = g.level q + 1 →
      (internal_node_insert_with_logged rec_split d t' (t.page q).parent n').AllGood) :
    (internal_node_split_finish_logged d rec_split ts q n omk (INTERNAL_LEFT_SPLIT_SIZE - 1)
        (t.page q).parent t.size).AllGood := by
  have hqN : q ≠ t.size := by have := hr.q_lt; omega
  have hqlev := hr.q_level
  have hnlev := hr.pending.n_level
  unfold internal_node_split_finish_logged
  obtain ⟨t5, cmk, e5, t6, e6, hdone, h6size, h6body, h6q, h6N, h6par⟩ :=
    h.insert_child hr hfull d (by omega)
  apply Logged.AllGood.bind_max (t5, cmk) e5
  dsimp only
  apply Logged.AllGood.then_good
    (internal_node_insert_raw_logged_sound d t5 _ n
      ⟨t6, by rw [internal_node_insert_raw_logged_result]; exact e6⟩)
  intro t6' h6'
  rw [internal_node_insert_raw_logged_result, e6] at h6'
  cases h6'
  have hgq := g.split_old q t.size (internal_key_of (t.page q) (INTERNAL_LEFT_SPLIT_SIZE - 1)) hqN
  have hgo := g.split_other q t.size (internal_key_of (t.page q) (INTERNAL_LEFT_SPLIT_SIZE - 1))
  by_cases hq0 : q = 0
  · subst hq0
    rw [if_pos (hdone.root rfl).1]
    apply Logged.AllGood.then_good (hdone.create_root_good d (by rw [hgq.1]; exact hdepth))
    intro t7 _
    apply Logged.AllGood.bind_lift
    intro t8 _
    exact Logged.AllGood.of_lift _
  · obtain ⟨hxup, _⟩ := hdone.inner hq0
    rw [if_neg (by rw [(hxup.of_ne_zero hq0).1]; simp)]
    have hkey : t6.key_at omk = t.key_at omk := by
      unfold Table.key_at
      rw [(h6body omk.page_index
        (by intro heq; rw [heq, hr.pending.type] at hk1; cases hk1) (by omega)).2.2.2.2]
    obtain ⟨t7, nmk, t8, t9, i, e7, e8, e9, hready, h9size, h9page⟩ := hdone.tail hq0 d
      (by rw [hgq.1]; omega) omk (by rw [hkey, hgq.2.1]; exact hk3) (by rw [hkey]; exact hk4)
    rw [h6par] at e8 e9 hready h9page
    apply Logged.AllGood.bind_max (t7, nmk) e7
    dsimp only
    apply Logged.AllGood.bind_lift
    intro t8' h8
    rw [e8] at h8
    cases h8
    apply Logged.AllGood.bind_lift
    intro t9' h9
    rw [e9] at h9
    cases h9
    have hGlev : (g.split q t.size
        (internal_key_of (t.page q) (INTERNAL_LEFT_SPLIT_SIZE - 1))).level (t.page q).parent
        = g.level q + 1 := by
      have := hready.pending.n_level
      rw [(g.split_new q t.size _).1] at this
      exact this
    exact hrec _ t9 t.size (i + 1) hready (hgo 0 (by have := hr.size_pos; omega)).1 hGlev

/-- Every call made while a pending page is inserted into its parent reaches a
leaf, whether or not the parent has to be split. -/
theorem internal_node_insert_with_logged_good (d : Nat) :
    ∀ (fuel : Nat) (g : Ghost) (t : Table) (q n j : Nat),
      InsertReady t g q n j → g.level 0 < d → g.level 0 < g.level q + fuel →
      (internal_node_insert_with_logged (internal_node_split_and_insert_logged d fuel) d t q
        n).AllGood := by
  intro fuel
  induction fuel with
  | zero =>
    intro g t q n j hr hdepth hfuel
    have hqlev := hr.q_level
    omega
  | succ f ih =>
    intro g t q n j hr hdepth hfuel
    have hqlev := hr.q_level
    unfold internal_node_insert_with_logged
    obtain ⟨t1, e1, hs1, _⟩ := get_page_allocated t q hr.q_lt hr.size_le
    apply Logged.AllGood.bind_lift
    intro t1' h1
    rw [e1] at h1
    cases h1
    rw [hs1.page]
    have hr1 := hr.same_ready hs1
    by_cases hfull : (t.page q).size ≥ INTERNAL_BRANCH_SIZE
    · rw [if_pos hfull, internal_node_split_and_insert_logged_eq]
      have hfull' : (t1.page q).size = INTERNAL_BRANCH_SIZE := by
        rw [hs1.page]
        have := hr.pending.size_le
        omega
      apply Logged.AllGood.then_good
        (internal_node_split_logged_good g d t1 q n j hr1 (by omega))
      rintro ⟨ts, omk, mid, par, N⟩ hres
      rw [internal_node_split_logged_result] at hres
      obtain ⟨r1, r2, r3, r4, r5, r6, r7, r8, r9, r10, r11, r12, r13, r14⟩ :=
        (internal_node_split_spec g d t1 q n j hr1 hfull' (by omega)).at_ok hres
      dsimp only at r2 r3 r4 r5 r6 r7 r8 r9 r10 r11 r12 r13 r14 ⊢
      subst r4; subst r5; subst r6
      apply internal_node_split_finish_logged_good g d t1 ts q n j hr1 hfull'
        ⟨r1, r2, r3, r7, r8, r9, r10⟩ hdepth omk r11 r12 r13 r14 _ ?_
      intro g' t' n' j' hr' hl0 hlG
      exact ih g' t' _ n' j' hr' (by omega) (by omega)
    · rw [if_neg hfull]
      have hnlev := hr.pending.n_level
      exact internal_node_insert_raw_logged_good g d t1 q n j hr1.size_le hr1.q_lt hr1.n_lt
        hr1.n_ne_zero hr1.pending hr1.lower_pages (by omega) (by rw [hs1.page]; omega)

/-- The call that the first part of `leaf_node_split_and_insert` makes, on the
full leaf before it is halved, reaches that leaf. -/
theorem leaf_node_split_logged_good (t : Table) (c : Cursor) (k v : Str)
    (hpager : PagerOK t) (c1 : c.page_index < t.size)
    (c2 : (t.page c.page_index).type = NODE_LEAF)
    (hfull : (t.page c.page_index).size = LEAF_RECORD_SIZE) (d : Nat) (hdepth : 0 < d) :
    (leaf_node_split_logged d t c k v).AllGood := by
  have hxN : c.page_index ≠ t.size := by omega
  obtain ⟨d', rfl⟩ : ∃ d', d = d' + 1 := ⟨d - 1, by omega⟩
  unfold leaf_node_split_logged
  apply Logged.AllGood.bind_lift
  intro pg _
  apply Logged.AllGood.bind_lift
  intro t2 h2
  obtain ⟨hlt, h2size, h2page, _⟩ := (get_page_new t hpager).at_ok h2
  simp only [write_page_same, write_write, write_page_ne _ _ _ _ hxN, h2page _ hxN]
  generalize hta : Table.write t2 t.size _ = ta
  have hap : ta.page c.page_index = t.page c.page_index := by
    rw [← hta, write_page_ne _ _ _ _ hxN, h2page _ hxN]
  apply Logged.AllGood.bind_max _ (recursive_max_key_of_leaf d' ta c.page_index
    (by rw [hap]; exact c2) (by rw [hap, hfull]; unfold LEAF_RECORD_SIZE; omega))
  apply Logged.AllGood.bind_lift
  intro t5 _
  exact Logged.AllGood.of_pure _

/-- Every call made by `leaf_node_split_and_insert` at the cursor that
`table_find` gave for a key that is not stored reaches a leaf. -/
theorem leaf_node_split_and_insert_logged_good (g : Ghost) (t : Table) (c : Cursor)
    (k v : Str) (hinv : InvWith t g) (hc : CursorAt t g k c) (hf : c.found = false)
    (hfull : (t.page c.page_index).size = LEAF_RECORD_SIZE) (d : Nat)
    (hdepth : g.level 0 < d) :
    (leaf_node_split_and_insert_logged d t c k v).AllGood := by
  have hx : c.page_index < t.size := hc.1
  have hxN : c.page_index ≠ t.size := by omega
  have hxty : (t.page c.page_index).type = NODE_LEAF := hc.2.1
  have hxlev : g.level c.page_index = 0 := ((hinv.2.2.2.2 _ hx).1.leaf hxty).1
  have hl := ((hinv.2.2.2.2 _ hx).1.leaf hxty).2.1
  have hpos := hinv.1
  rw [leaf_node_split_and_insert_logged_eq]
  apply Logged.AllGood.then_good
    (leaf_node_split_logged_good t c k v hinv.2.2.1 hx hxty hfull d (by omega))
  rintro ⟨t6, omk, P, N⟩ hres
  rw [leaf_node_split_logged_result] at hres
  obtain ⟨hlt, r1, r2, r3, h6size, h6fresh, h6p, pn, hpn, h6A, h6B⟩ :=
    (leaf_node_split_spec g t c k v hinv hc hfull d hdepth).at_ok hres
  dsimp only at r1 r2 r3 h6size h6fresh h6p h6A h6B ⊢
  subst r1; subst r2; subst r3
  obtain ⟨hdone, p1, p2, p3, p4, p7, p9⟩ :=
    leaf_split_state hinv hc hf hfull t6 hlt h6size h6fresh h6p pn hpn h6A h6B
  have hgx := g.split_old c.page_index t.size
    ((t6.page c.page_index).records ((t6.page c.page_index).size - 1)).key hxN
  have hgo := g.split_other c.page_index t.size
    ((t6.page c.page_index).records ((t6.page c.page_index).size - 1)).key
  unfold leaf_node_split_finish_logged
  by_cases hx0 : c.page_index = 0
  · have hroot := (hdone.root hx0).1
    rw [hx0] at hdone hgx ⊢
    rw [if_pos hroot]
    exact hdone.create_root_good d (by rw [hgx.1]; exact hdepth)
  · obtain ⟨hxup, _⟩ := hdone.inner hx0
    rw [if_neg (by rw [(hxup.of_ne_zero hx0).1]; simp)]
    have hkey : t6.key_at ⟨c.page_index, (t.page c.page_index).size - 1⟩
        = ((t.page c.page_index).records (LEAF_RECORD_SIZE - 1)).key := by
      unfold Table.key_at
      simp only
      rw [hfull, p9]
    have hab : Above (g.lo c.page_index)
        ((t.page c.page_index).records (LEAF_RECORD_SIZE - 1)).key :=
      hl.2.2.1 _ (by rw [hfull]; unfold LEAF_RECORD_SIZE; omega)
    obtain ⟨t7, nmk, t8, t9, i, e7, e8, e9, hready, h9size, h9page⟩ :=
      hdone.tail hx0 d (by rw [hgx.1, hxlev]; omega)
        ⟨c.page_index, (t.page c.page_index).size - 1⟩
        (by rw [hkey, hgx.2.1]; exact hab)
        (by
          rw [hkey]
          intro u hu
          have := (hl.2.2.2 u hu).2
          rw [hfull] at this
          rw [this])
    rw [p3] at e8 e9 hready
    apply Logged.AllGood.bind_max (t7, nmk) e7
    dsimp only
    apply Logged.AllGood.bind_lift
    intro t8' h8
    rw [e8] at h8
    cases h8
    apply Logged.AllGood.bind_lift
    intro t9' h9
    rw [e9] at h9
    cases h9
    unfold internal_node_insert_logged
    exact internal_node_insert_with_logged_good d d _ t9 _ t.size (i + 1) hready
      (by rw [(hgo 0 (by omega)).1]; exact hdepth) (by rw [(hgo 0 (by omega)).1]; omega)

/-- A recorded call on a leaf finds the leaf with a record. -/
theorem MaxCall.reaches_leaf.on_leaf {c : MaxCall} (h : c.reaches_leaf)
    (hty : (c.table.page c.page_index).type = NODE_LEAF) :
    0 < (c.table.page c.page_index).size := by
  obtain ⟨t', ptr, e, _⟩ := h
  cases hf : c.fuel with
  | zero =>
    rw [hf] at e
    unfold recursive_max_key_of at e
    cases e
  | succ f =>
    rw [hf] at e
    unfold recursive_max_key_of at e
    simp only [hty] at e
    by_cases hsz : (c.table.page c.page_index).size = 0
    · rw [if_pos hsz] at e
      cases e
    · omega

/-- C21 (minimum occupancy).  In every state reachable from an empty database
the nodes of the tree are the pages below the page count, every internal node
has at least one branch, so at least two children, and every leaf that is not
the root has at least `LEAF_LEFT_SPLIT_SIZE` records.  For every call of
`db_set` on such a state, with any key and any value, the reading of `db_set`
that records each activation of `recursive_max_key_of`, the recursive ones
included, has the result of `db_set`, and every recorded activation returns
the location of the last record of a leaf that has a record; an activation on
a leaf finds a record in that leaf, so `records[size - 1]` is never read with
`size = 0`. -/
theorem minimum_occupancy (t : Table) (h : Reachable t) :
    (∀ p, InTree t p ↔ p < t.size) ∧
    (∀ p, p < t.size → (t.page p).type = NODE_INTERNAL →
      1 ≤ (t.page p).size ∧ 2 ≤ (children (t.page p)).length) ∧
    (∀ p, p < t.size → (t.page p).type = NODE_LEAF → (t.page p).is_root = false →
      LEAF_LEFT_SPLIT_SIZE ≤ (t.page p).size) ∧
    ∀ key value : Option Str,
      (db_set_logged t key value).result = db_set t key value ∧
      ∀ c, c ∈ (db_set_logged t key value).calls →
        c.reaches_leaf ∧
        ((c.table.page c.page_index).type = NODE_LEAF →
          0 < (c.table.page c.page_index).size) := by
  obtain ⟨g, hg⟩ := (reachable_inv h).1
  refine ⟨?_, ?_, ?_, ?_⟩
  · intro p
    exact ⟨fun hp => InTree.lt hg hp, fun hp => all_in_tree hg _ p hp (le_refl _)⟩
  · intro p hp hty
    have hok := (hg.2.2.2.2 p hp).1.internal hty
    rw [children_length]
    have := hok.1
    omega
  · intro p hp hty hroot
    apply ((hg.2.2.2.2 p hp).1.leaf hty).2.2
    intro hp0
    have := ((hg.2.2.2.2 0 hg.1).2.of_zero).1
    rw [hp0, this] at hroot
    cases hroot
  · intro key value
    refine ⟨db_set_logged_result t key value, ?_⟩
    suffices hall : (db_set_logged t key value).AllGood from
      fun c hc => ⟨hall c hc, (hall c hc).on_leaf⟩
    unfold db_set_logged
    apply Logged.AllGood.bind_lift
    intro _ _
    apply Logged.AllGood.bind_lift
    intro _ _
    cases key with
    | none => exact Logged.AllGood.of_lift _
    | some k =>
      cases value with
      | none => exact Logged.AllGood.of_lift _
      | some v =>
        show (db_set_locked_logged t k v).AllGood
        unfold db_set_locked_logged
        apply Logged.AllGood.bind_lift
        rintro ⟨t1, c⟩ h1
        obtain ⟨hs1, hc⟩ := (table_find_spec g t k hg).at_result h1
        dsimp only at hs1 hc ⊢
        have hg1 := hg.same_inv hs1 g
        apply Logged.AllGood.bind_lift
        intro pg hpg
        rw [page_by_cursor_resident t1 c hc.2.2.1] at hpg
        cases hpg
        cases hfound : c.found with
        | true =>
          rw [if_pos rfl]
          exact Logged.AllGood.of_pure _
        | false =>
          rw [if_neg (by simp)]
          unfold leaf_node_insert_logged
          apply Logged.AllGood.bind_lift
          intro pg hpg
          rw [page_by_cursor_resident t1 c hc.2.2.1] at hpg
          cases hpg
          by_cases hfull : (t1.page c.page_index).size ≥ LEAF_RECORD_SIZE
          · rw [if_pos hfull]
            have hl := ((hg1.2.2.2.2 _ hc.1).1.leaf hc.2.1).2.1
            exact leaf_node_split_and_insert_logged_good g t1 c k v hg1 hc hfound
              (by have := hl.1; omega) t.size hg.2.2.2.1
          · rw [if_neg hfull]
            exact Logged.AllGood.of_lift _

/-- In the state after the third run the reading of `db_set` for the key `[13]`
records nine activations of `recursive_max_key_of`, on the pages 5, 5, 0, 5,
6, 6, 5, 8 and 1, whose sizes at the activation are 4, 2, 4, 2, 3, 3, 2, 1 and
2, and each activation reaches a leaf with a record. -/
theorem minimum_occupancy_witness :
    (db_set_logged deep_table (some ⟨[13]⟩) (some ⟨[130]⟩)).calls.map
        (fun c => (c.page_index, (c.table.page c.page_index).size))
      = [(5, 4), (5, 2), (0, 4), (5, 2), (6, 3), (6, 3), (5, 2), (8, 1), (1, 2)] ∧
    ∀ c, c ∈ (db_set_logged deep_table (some ⟨[13]⟩) (some ⟨[130]⟩)).calls →
      c.reaches_leaf :=
  ⟨by decide!, fun c hc =>
    (((minimum_occupancy deep_table deep_reachable).2.2.2 _ _).2 c hc).1⟩

end Database
